import Mathlib

/-!
# SPLASH-2 RADIX kernel (`src/kernels/radix/radix.c`): a shallow embedding

The embedding follows the C source function by function.

* Machine integers are `Nat`/`Int`.  Keys, counts and indices are non-negative
  `int32_t` values that never exceed `num_keys`, so they are modelled by `Nat`;
  the only places where 32-bit wrap-around is observable (`log_2`, the digit
  mask `bb`) carry an explicit reduction modulo `2^32`.
* Heap arrays are total functions `Nat → Nat`; the initial heap is a parameter
  (the arrays come from `malloc`, their contents are arbitrary until written).
  An access outside an array is a fault: a scatter index that is not below
  `num_keys` (`scatter`, `scatter_key`), a bucket index that is not below
  `MAX_RADIX` in the arrays of a tree node (`run_any`, `radix_sort`,
  `radix_sort_any`), an index that is not below `MAX_THREADS` in `PThreadTable`
  (`radix_sort`, `radix_sort_any`).  `exec`, `run_phase` and `sort_pass` do not
  test the bound of the node arrays: they describe the phases for a radix up to
  `MAX_RADIX`.
* The worker threads of `slave_sort` are separated by `barrier_rank` into
  phases.  Inside the two phases that use the per-node `done` flags every thread
  is a straight-line list of `Action`s (its control flow depends only on
  `MyNum` and `number_of_processors`).  The definitions whose names end in
  `any` run the threads under an arbitrary interleaving, one action at a time,
  chosen by a schedule; `run_phase`, `sort_pass` and `radix_sort` run them under
  one interleaving, in which every thread in turn runs until it blocks on a flag
  that is still clear.  An action is a whole bucket loop, or one key of the
  scatter loop; a wait on a flag together with the `CLEARPAUSE` that follows it
  is one action, as both are done under the lock of the flag.
* The last two sections embed `matchname` of `src/apps/barnes/getparam.c`
  (strings are lists of characters, a read beyond the terminator is a fault) and
  `ISort` of `src/kernels/cholesky/util.c` (arrays are functions of the `long`
  subscript, and the subscripts read are recorded).
-/

namespace Radix

/-! ## Constants -/

def MAX_PROCESSORS : Nat := 64

def MAX_RADIX : Nat := 4096

def MAX_THREADS : Nat := 32

/-! ## The bounds of `PThreadTable` and of the arrays of a tree node -/

/-- The values of `i` in the two loops `for (i = 0; i < (number_of_processors) - 1; i++)`
of `main`: `PThreadTable[i]` is written by `pthread_create` in the first loop and
read by `pthread_join` in the second.  `PThreadTable` has `MAX_THREADS` entries. -/
def thread_table_indices (number_of_processors : Nat) : List Nat :=
  List.range (number_of_processors - 1)

/-- Whether every index of `PThreadTable` used by `main` is inside the table. -/
def thread_table_ok (number_of_processors : Nat) : Bool :=
  (thread_table_indices number_of_processors).all (fun i => decide (i < MAX_THREADS))

/-- Whether the bucket loops `for (i = 0; i < radix; i++)` over `densities` and
`ranks` stay inside these arrays, which have `MAX_RADIX` entries. -/
def node_arrays_ok (radix : Nat) : Bool := decide (radix ≤ MAX_RADIX)

/-! ## `log_2` and `get_max_digits` -/

/-- Reduction of an integer to the `int32_t` range (two's complement wrap-around). -/
def wrap32 (x : Int) : Int := (x + 2147483648) % 4294967296 - 2147483648

/-- The `while` loop of `log_2`; the first argument is `50 - out`, the number of
iterations the guard `out < 50` still allows.  Returns `(cumulative, out)`. -/
def log_2_loop (number : Int) : Nat → Int → Int → Int × Int
  | 0, cumulative, out => (cumulative, out)
  | fuel + 1, cumulative, out =>
    if cumulative < number ∧ cumulative ≠ number then
      log_2_loop number fuel (wrap32 (cumulative * 2)) (out + 1)
    else (cumulative, out)

/-- The function `log_2(number)`: the exponent when `number` is a power of two,
`-1` otherwise. -/
def log_2 (number : Int) : Int :=
  let res := log_2_loop number 50 1 0
  if res.1 = number then res.2 else -1

/-- The `while (!done)` loop of `get_max_digits`, with a bound on the number of
iterations; `none` when the bound is exhausted before `done` is set. -/
def get_max_digits_loop (radix : Nat) : Nat → Nat → Nat → Option Nat
  | 0, _, _ => none
  | fuel + 1, key_val, temp =>
    let key_val := key_val / radix
    if key_val = 0 then some temp else get_max_digits_loop radix fuel key_val (temp + 1)

/-- The function `get_max_digits(max_key)` for the global `radix`.
`max_key + 1` iterations are allowed, which is more than the loop needs
whenever `radix ≥ 2`. -/
def get_max_digits (radix max_key : Nat) : Option Nat :=
  get_max_digits_loop radix (max_key + 1) max_key 1

/-! ## Partition planner (`main`, `key_partition` / `rank_partition`) -/

/-- The planner loop of `main`.  The first argument counts the entries of the
`number_of_processors + 1` element array that are still free: every iteration
writes `key_partition[p]` and increments `p`, the final statement writes
`key_partition[p] = num_keys`.  The result lists the written entries in index
order; `none` means a write past the end of the array. -/
def partition_loop (num_keys number_of_processors : Nat) : Nat → Nat → Nat → Option (List Nat)
  | 0, _, _ => none
  | slots + 1, sum_i, sum_f =>
    if sum_i < num_keys then
      let quotient := num_keys / number_of_processors
      let remainder := num_keys % number_of_processors
      let sum_i1 := sum_i + quotient
      let sum_f1 := sum_f + remainder
      let sum_i2 := sum_i1 + sum_f1 / number_of_processors
      let sum_f2 := sum_f1 % number_of_processors
      (partition_loop num_keys number_of_processors slots sum_i2 sum_f2).map (fun bs => sum_i :: bs)
    else some [num_keys]

/-- The boundaries written by the planner for `num_keys` items and
`number_of_processors` threads (used for the keys and, with `radix` in place of
`num_keys`, for the buckets). -/
def partition (num_keys number_of_processors : Nat) : Option (List Nat) :=
  partition_loop num_keys number_of_processors (number_of_processors + 1) 0 0

/-! ## Shared memory -/

/-- Outcomes other than normal completion. -/
inductive Fault where
  | usage
  | nontermination
  | deadlock
  | out_of_bounds
  deriving DecidableEq, Repr

/-- A node of `global->prefix_tree`: the two bucket-indexed arrays and the
`Flag` of the `done` pause variable.  The arrays have `MAX_RADIX` entries in
the source; the entries from `MAX_RADIX` on do not exist there, and a program
that indexes them (`radix > MAX_RADIX`) is faulty (`node_arrays_ok`). -/
structure prefix_node where
  densities : Nat → Nat
  ranks : Nat → Nat
  Flag : Nat

/-- The arrays shared by the worker threads: `key[0]`/`key[1]`, `rank_me[p]`,
the per-thread `key_density`, `gp[p].rank_ff`, `global->prefix_tree` and
`key_partition`. -/
structure Memory where
  key : Nat → Nat → Nat
  rank_me : Nat → Nat → Nat
  key_density : Nat → Nat → Nat
  rank_ff : Nat → Nat → Nat
  prefix_tree : Nat → prefix_node
  key_partition : Nat → Nat

/-- Array store `a[i] = v`. -/
def setAt {α : Type} (a : Nat → α) (i : Nat) (v : α) : Nat → α :=
  fun j => if j = i then v else a j

/-! ## Digit extraction and the histogram phase -/

/-- The digit of a key: `(key & bb) >> shiftnum` with `bb = (radix-1) << shiftnum`
held in a 32-bit word. -/
def digit (radix shiftnum key : Nat) : Nat :=
  let bb := ((radix - 1) <<< shiftnum) % 4294967296
  (key &&& bb) >>> shiftnum

/-- The counting loop `rank_me_mynum[my_key]++` over `key_start ≤ i < key_stop`. -/
def count_keys (radix shiftnum : Nat) (key_from : Nat → Nat) (key_start key_stop : Nat)
    (rank_me_mynum : Nat → Nat) : Nat → Nat :=
  (List.range' key_start (key_stop - key_start)).foldl
    (fun rk i =>
      let my_key := digit radix shiftnum (key_from i)
      setAt rk my_key (rk my_key + 1))
    rank_me_mynum

/-- The loop `key_density[i] = key_density[i-1] + rank_me_mynum[i]`, after
`key_density[0] = rank_me_mynum[0]`. -/
def density_loop (radix : Nat) (rank_me_mynum key_density : Nat → Nat) : Nat → Nat :=
  (List.range' 1 (radix - 1)).foldl
    (fun kd i => setAt kd i (kd (i - 1) + rank_me_mynum i))
    (setAt key_density 0 (rank_me_mynum 0))

/-- First phase of a pass for thread `MyNum`: clear `rank_me[MyNum]`, count the
digits of the thread's keys, build `key_density`. -/
def histogram (radix shiftnum from_ MyNum : Nat) (m : Memory) : Memory :=
  let key_start := m.key_partition MyNum
  let key_stop := m.key_partition (MyNum + 1)
  let cleared : Nat → Nat := fun i => if i < radix then 0 else m.rank_me MyNum i
  let rank_me_mynum := count_keys radix shiftnum (m.key from_) key_start key_stop cleared
  let key_density := density_loop radix rank_me_mynum (m.key_density MyNum)
  { m with
    rank_me := setAt m.rank_me MyNum rank_me_mynum
    key_density := setAt m.key_density MyNum key_density }

/-! ## The prefix tree: thread programs -/

/-- The shared-memory steps of a thread between two barriers. -/
inductive Action where
  | publish (MyNum : Nat)
  | SETPAUSE (index : Nat)
  | WAITPAUSE (index : Nat)
  | merge (n r l : Nat)
  | merge_densities (n r l : Nat)
  | copy_densities (my_node their_node : Nat)
  | clear_rank_ff (MyNum : Nat)
  | add_ranks (MyNum l : Nat)
  | add_densities (MyNum my_node : Nat)
  deriving DecidableEq, Repr

/-- The up-sweep loop `while ((offset & 0x1) != 0)`: wait for the parent's flag,
merge the two children into it, and signal the next level when the parent is a
left child.  The first argument bounds the number of iterations. -/
def upsweep_loop : Nat → Nat → Nat → Nat → Nat → List Action
  | 0, _, _, _, _ => []
  | fuel + 1, offset, level, base, n =>
    if offset % 2 ≠ 0 then
      let offset := offset / 2
      let r := n
      let l := n - 1
      let index := base + offset
      let n := index
      let base' := base + level
      let level' := level / 2
      [Action.WAITPAUSE n,
        if offset + 1 ≠ level then Action.merge n r l else Action.merge_densities n r l]
        ++ (if offset % 2 = 0 then [Action.SETPAUSE (base' + offset / 2)] else [])
        ++ upsweep_loop fuel offset level' base' n
    else []

/-- Up-sweep of thread `MyNum` (between the first and the second barrier of a pass). -/
def upsweep (number_of_processors MyNum : Nat) : List Action :=
  let offset := MyNum
  let level := number_of_processors / 2
  let base := number_of_processors
  [Action.publish MyNum]
    ++ (if MyNum % 2 = 0 then [Action.SETPAUSE (base + offset / 2)] else [])
    ++ upsweep_loop MyNum offset level base MyNum

/-- The loop `while ((offset & 0x1) != 0) { offset >>= 1; base += level; level >>= 1; }`;
returns `(offset, level, base)`. -/
def climb : Nat → Nat → Nat → Nat → Nat × Nat × Nat
  | 0, offset, level, base => (offset, level, base)
  | fuel + 1, offset, level, base =>
    if offset % 2 ≠ 0 then climb fuel (offset / 2) (level / 2) (base + level)
    else (offset, level, base)

/-- The loop that sets the flag of the left sibling at every level where the
thread is a right child. -/
def signal_loop : Nat → Nat → Nat → Nat → List Action
  | 0, _, _, _ => []
  | fuel + 1, offset, level, base =>
    if offset % 2 ≠ 0 then
      Action.SETPAUSE (base + offset - 1) :: signal_loop fuel (offset / 2) (level / 2) (base + level)
    else []

/-- The loop `while (offset != 0)` adding the ranks of the left siblings. -/
def rank_loop (MyNum : Nat) : Nat → Nat → Nat → Nat → List Action
  | 0, _, _, _ => []
  | fuel + 1, offset, level, base =>
    if offset ≠ 0 then
      (if offset % 2 ≠ 0 then [Action.add_ranks MyNum (base + offset - 1)] else [])
        ++ rank_loop MyNum fuel (offset / 2) (level / 2) (base + level)
    else []

/-- Index of `my_node` for a thread other than the last one. -/
def my_node_index (number_of_processors MyNum : Nat) : Nat :=
  let c := climb MyNum MyNum number_of_processors 0
  c.2.2 + c.1

/-- Index of `their_node` for a thread other than the last one. -/
def their_node_index (number_of_processors MyNum : Nat) : Nat :=
  let c := climb MyNum MyNum number_of_processors 0
  let d := climb MyNum (c.1 / 2) (c.2.1 / 2) (c.2.2 + c.2.1)
  d.2.2 + d.1

/-- Down-sweep and offset collection of thread `MyNum` (between the second and
the third barrier of a pass). -/
def downsweep (number_of_processors MyNum : Nat) : List Action :=
  let my_node :=
    if MyNum + 1 ≠ number_of_processors then my_node_index number_of_processors MyNum
    else 2 * number_of_processors - 2
  (if MyNum + 1 ≠ number_of_processors then
      [Action.WAITPAUSE my_node,
        Action.copy_densities my_node (their_node_index number_of_processors MyNum)]
    else [])
    ++ signal_loop MyNum MyNum number_of_processors 0
    ++ [Action.clear_rank_ff MyNum]
    ++ rank_loop MyNum MyNum MyNum number_of_processors 0
    ++ [Action.add_densities MyNum my_node]

/-! ## Executing actions; the scheduler -/

/-- Effect of one action on the shared memory.  For `WAITPAUSE` this is the
`CLEARPAUSE` that follows the wait. -/
def exec (radix : Nat) (m : Memory) : Action → Memory
  | Action.publish MyNum =>
    let n := m.prefix_tree MyNum
    let n' : prefix_node :=
      { densities := fun i => if i < radix then m.key_density MyNum i else n.densities i
        ranks := fun i => if i < radix then m.rank_me MyNum i else n.ranks i
        Flag := n.Flag }
    { m with prefix_tree := setAt m.prefix_tree MyNum n' }
  | Action.SETPAUSE index =>
    let n := m.prefix_tree index
    let n' : prefix_node := { n with Flag := 1 }
    { m with prefix_tree := setAt m.prefix_tree index n' }
  | Action.WAITPAUSE index =>
    let n := m.prefix_tree index
    let n' : prefix_node := { n with Flag := 0 }
    { m with prefix_tree := setAt m.prefix_tree index n' }
  | Action.merge n r l =>
    let nn := m.prefix_tree n
    let rr := m.prefix_tree r
    let ll := m.prefix_tree l
    let n' : prefix_node :=
      { densities := fun i => if i < radix then rr.densities i + ll.densities i else nn.densities i
        ranks := fun i => if i < radix then rr.ranks i + ll.ranks i else nn.ranks i
        Flag := nn.Flag }
    { m with prefix_tree := setAt m.prefix_tree n n' }
  | Action.merge_densities n r l =>
    let nn := m.prefix_tree n
    let rr := m.prefix_tree r
    let ll := m.prefix_tree l
    let n' : prefix_node :=
      { densities := fun i => if i < radix then rr.densities i + ll.densities i else nn.densities i
        ranks := nn.ranks
        Flag := nn.Flag }
    { m with prefix_tree := setAt m.prefix_tree n n' }
  | Action.copy_densities my_node their_node =>
    let mine := m.prefix_tree my_node
    let theirs := m.prefix_tree their_node
    let n' : prefix_node :=
      { densities := fun i => if i < radix then theirs.densities i else mine.densities i
        ranks := mine.ranks
        Flag := mine.Flag }
    { m with prefix_tree := setAt m.prefix_tree my_node n' }
  | Action.clear_rank_ff MyNum =>
    let rank_ff_mynum := m.rank_ff MyNum
    let cleared : Nat → Nat := fun i => if i < radix then 0 else rank_ff_mynum i
    { m with rank_ff := setAt m.rank_ff MyNum cleared }
  | Action.add_ranks MyNum l =>
    let rank_ff_mynum := m.rank_ff MyNum
    let ll := m.prefix_tree l
    let added : Nat → Nat :=
      fun i => if i < radix then rank_ff_mynum i + ll.ranks i else rank_ff_mynum i
    { m with rank_ff := setAt m.rank_ff MyNum added }
  | Action.add_densities MyNum my_node =>
    let rank_ff_mynum := m.rank_ff MyNum
    let mine := m.prefix_tree my_node
    let added : Nat → Nat :=
      fun i => if 1 ≤ i ∧ i < radix then rank_ff_mynum i + mine.densities (i - 1) else rank_ff_mynum i
    { m with rank_ff := setAt m.rank_ff MyNum added }

/-- A thread is blocked exactly when its next action waits on a flag that is clear. -/
def blocked (m : Memory) : Action → Bool
  | Action.WAITPAUSE index => decide ((m.prefix_tree index).Flag = 0)
  | _ => false

/-- Run one thread until it finishes or blocks; returns the memory and the rest
of the thread's program. -/
def run_thread (radix : Nat) : Memory → List Action → Memory × List Action
  | m, [] => (m, [])
  | m, a :: rest =>
    if blocked m a then (m, a :: rest) else run_thread radix (exec radix m a) rest

/-- Shared memory together with the remaining program of every thread. -/
structure Config where
  mem : Memory
  threads : List (List Action)

/-- One scheduling round: every thread of `order` in turn runs until it blocks. -/
def round (radix : Nat) (order : List Nat) (c : Config) : Config :=
  order.foldl
    (fun c MyNum =>
      let res := run_thread radix c.mem (c.threads.getD MyNum [])
      { mem := res.1, threads := c.threads.set MyNum res.2 })
    c

/-- Scheduling rounds are repeated until every thread has finished.  A round
that does not finish the phase either completes at least one action or changes
nothing, so when the rounds allowed (one per action of the phase) are used up
the remaining threads wait for flags that nobody sets. -/
def run_rounds (radix : Nat) (order : List Nat) : Nat → Config → Except Fault Memory
  | 0, c => if c.threads.all List.isEmpty then Except.ok c.mem else Except.error Fault.deadlock
  | fuel + 1, c =>
    if c.threads.all List.isEmpty then Except.ok c.mem
    else run_rounds radix order fuel (round radix order c)

/-- A phase between two barriers: all threads start together with the given
programs and the phase ends when all of them have reached the next barrier. -/
def run_phase (radix : Nat) (order : List Nat) (threads : List (List Action)) (m : Memory) :
    Except Fault Memory :=
  run_rounds radix order (threads.map List.length).sum { mem := m, threads := threads }

/-! ## A phase under an arbitrary interleaving -/

/-- Whether thread `MyNum` can take a step: it has not reached the barrier and
its next action does not wait on a flag that is clear. -/
def can_move (c : Config) (MyNum : Nat) : Bool :=
  match c.threads.getD MyNum [] with
  | [] => false
  | a :: _ => !blocked c.mem a

/-- One step of thread `MyNum`: its next action. -/
def step_thread (radix : Nat) (c : Config) (MyNum : Nat) : Config :=
  match c.threads.getD MyNum [] with
  | [] => c
  | a :: rest => { mem := exec radix c.mem a, threads := c.threads.set MyNum rest }

/-- The actions that run a bucket loop `for (i = 0; i < radix; i++)` over the
arrays of a tree node. -/
def indexes_node_arrays : Action → Bool
  | Action.SETPAUSE _ => false
  | Action.WAITPAUSE _ => false
  | Action.clear_rank_ff _ => false
  | _ => true

/-- Whether the next action of thread `MyNum` indexes the arrays of a tree node
beyond their end. -/
def next_overruns (radix : Nat) (c : Config) (MyNum : Nat) : Bool :=
  match c.threads.getD MyNum [] with
  | [] => false
  | a :: _ => indexes_node_arrays a && !node_arrays_ok radix

/-- A phase between two barriers under an arbitrary interleaving.  As long as
some thread has not reached the barrier, one thread that can move takes one
step: the thread `schedule n` if it can move (`n` counts the steps still
allowed), the first thread that can move otherwise, so that every sequence of
steps of threads that can move is the run of some schedule.  When no thread
can move the phase is deadlocked.  The number of steps allowed is the number of
actions of all threads. -/
def run_any (radix : Nat) (schedule : Nat → Nat) : Nat → Config → Except Fault Memory
  | 0, c =>
    if c.threads.all List.isEmpty then Except.ok c.mem
    else if (List.range c.threads.length).any (can_move c) then
      Except.error Fault.nontermination
    else Except.error Fault.deadlock
  | fuel + 1, c =>
    if c.threads.all List.isEmpty then Except.ok c.mem
    else
      match (List.range c.threads.length).find? (can_move c) with
      | none => Except.error Fault.deadlock
      | some first =>
        let MyNum := if can_move c (schedule fuel) then schedule fuel else first
        if next_overruns radix c MyNum then Except.error Fault.out_of_bounds
        else run_any radix schedule fuel (step_thread radix c MyNum)

/-- A phase between two barriers under the interleaving chosen by `schedule`. -/
def phase_any (radix : Nat) (schedule : Nat → Nat) (threads : List (List Action))
    (m : Memory) : Except Fault Memory :=
  run_any radix schedule (threads.map List.length).sum { mem := m, threads := threads }

/-! ## Scatter and the pass loop -/

/-- The scatter loop of thread `MyNum`: every key is written to
`key_to[rank_ff_mynum[this_key]]`, and that entry is incremented. -/
def scatter (radix shiftnum num_keys from_ to_ MyNum : Nat) (m : Memory) : Except Fault Memory :=
  let key_start := m.key_partition MyNum
  let key_stop := m.key_partition (MyNum + 1)
  (List.range' key_start (key_stop - key_start)).foldlM
    (fun (m : Memory) i =>
      let this_key := digit radix shiftnum (m.key from_ i)
      let tmp := m.rank_ff MyNum this_key
      if tmp < num_keys then
        Except.ok
          { m with
            key := setAt m.key to_ (setAt (m.key to_) tmp (m.key from_ i))
            rank_ff := setAt m.rank_ff MyNum (setAt (m.rank_ff MyNum) this_key (tmp + 1)) }
      else Except.error Fault.out_of_bounds)
    m

/-- One iteration of the `for (loopnum ...)` loop of `slave_sort`, for all
threads: histogram, barrier, up-sweep, barrier, down-sweep and offsets,
barrier, scatter, barrier.  The threads run under one interleaving: in every
phase each thread in turn runs until it blocks or reaches the barrier, in the
order of the thread ids (the reverse order in the down-sweep); `sort_pass_any`
is the pass under an arbitrary interleaving. -/
def sort_pass (number_of_processors radix num_keys shiftnum from_ to_ : Nat) (m : Memory) :
    Except Fault Memory := do
  let ids := List.range number_of_processors
  let m1 := ids.foldl (fun m MyNum => histogram radix shiftnum from_ MyNum m) m
  let m2 ← run_phase radix ids (ids.map (upsweep number_of_processors)) m1
  let m3 ← run_phase radix ids.reverse (ids.map (downsweep number_of_processors)) m2
  ids.foldlM (fun m MyNum => scatter radix shiftnum num_keys from_ to_ MyNum m) m3

/-- The pass loop of `slave_sort`; the first argument is the number of passes
still to run.  Returns the memory and the final value of `to`. -/
def slave_sort_loop (number_of_processors radix log2_radix num_keys max_num_digits : Nat) :
    Nat → Nat → Nat → Nat → Memory → Except Fault (Memory × Nat)
  | 0, _, _, to_, m => Except.ok (m, to_)
  | todo + 1, loopnum, from_, to_, m => do
    let m' ← sort_pass number_of_processors radix num_keys (loopnum * log2_radix) from_ to_ m
    if loopnum + 1 ≠ max_num_digits then
      slave_sort_loop number_of_processors radix log2_radix num_keys max_num_digits
        todo (loopnum + 1) (from_ ^^^ 1) (to_ ^^^ 1) m'
    else
      slave_sort_loop number_of_processors radix log2_radix num_keys max_num_digits
        todo (loopnum + 1) from_ to_ m'

/-- All threads of `slave_sort`: `from = 0`, `to = 1`, `max_num_digits` passes;
the second component of the result is `global->final`. -/
def slave_sort (number_of_processors radix log2_radix num_keys max_num_digits : Nat)
    (m : Memory) : Except Fault (Memory × Nat) :=
  slave_sort_loop number_of_processors radix log2_radix num_keys max_num_digits
    max_num_digits 0 0 1 m

/-! ## The pass under an arbitrary interleaving -/

/-- One iteration of the scatter loop of thread `MyNum`, for the key at source
position `i`. -/
def scatter_key (radix shiftnum num_keys from_ to_ MyNum : Nat) (m : Memory) (i : Nat) :
    Except Fault Memory :=
  let this_key := digit radix shiftnum (m.key from_ i)
  let tmp := m.rank_ff MyNum this_key
  if tmp < num_keys then
    Except.ok
      { m with
        key := setAt m.key to_ (setAt (m.key to_) tmp (m.key from_ i))
        rank_ff := setAt m.rank_ff MyNum (setAt (m.rank_ff MyNum) this_key (tmp + 1)) }
  else Except.error Fault.out_of_bounds

/-- The scatter phase under an arbitrary interleaving, one key at a time:
`next MyNum` is the loop variable `i` of thread `MyNum`.  As long as some thread
has `i < key_stop`, the thread `schedule n` scatters its next key if it has one
(`n` counts the steps still allowed), the first thread that has one otherwise.
The number of steps allowed is the number of keys of all threads. -/
def scatter_any (radix shiftnum num_keys from_ to_ number_of_processors : Nat)
    (schedule : Nat → Nat) : Nat → (Nat → Nat) → Memory → Except Fault Memory
  | 0, next, m =>
    if (List.range number_of_processors).any
        (fun MyNum => decide (next MyNum < m.key_partition (MyNum + 1))) then
      Except.error Fault.nontermination
    else Except.ok m
  | fuel + 1, next, m =>
    match (List.range number_of_processors).find?
        (fun MyNum => decide (next MyNum < m.key_partition (MyNum + 1))) with
    | none => Except.ok m
    | some first =>
      let MyNum :=
        if schedule fuel < number_of_processors ∧
            next (schedule fuel) < m.key_partition (schedule fuel + 1) then schedule fuel
        else first
      match scatter_key radix shiftnum num_keys from_ to_ MyNum m (next MyNum) with
      | Except.error e => Except.error e
      | Except.ok m' =>
        scatter_any radix shiftnum num_keys from_ to_ number_of_processors schedule fuel
          (setAt next MyNum (next MyNum + 1)) m'

/-- One iteration of the `for (loopnum ...)` loop of `slave_sort` under
arbitrary interleavings of the up-sweep, of the down-sweep and of the scatter,
chosen by the three schedules.  In the histogram phase a thread reads the
source buffer and writes only its own `rank_me` and `key_density`, so the
threads are taken one after the other there. -/
def sort_pass_any (number_of_processors radix num_keys shiftnum from_ to_ : Nat)
    (up down scat : Nat → Nat) (m : Memory) : Except Fault Memory := do
  let ids := List.range number_of_processors
  let m1 := ids.foldl (fun m MyNum => histogram radix shiftnum from_ MyNum m) m
  let m2 ← phase_any radix up (ids.map (upsweep number_of_processors)) m1
  let m3 ← phase_any radix down (ids.map (downsweep number_of_processors)) m2
  scatter_any radix shiftnum num_keys from_ to_ number_of_processors scat
    (ids.map (fun MyNum => m3.key_partition (MyNum + 1) - m3.key_partition MyNum)).sum
    m3.key_partition m3

/-- The interleavings of a run of the program: for every pass `loopnum`, the
schedules of its up-sweep, of its down-sweep and of its scatter. -/
structure Schedule where
  up : Nat → Nat → Nat
  down : Nat → Nat → Nat
  scat : Nat → Nat → Nat

/-- The pass loop of `slave_sort` under the interleavings of `sched`. -/
def slave_sort_any_loop (sched : Schedule)
    (number_of_processors radix log2_radix num_keys max_num_digits : Nat) :
    Nat → Nat → Nat → Nat → Memory → Except Fault (Memory × Nat)
  | 0, _, _, to_, m => Except.ok (m, to_)
  | todo + 1, loopnum, from_, to_, m => do
    let m' ← sort_pass_any number_of_processors radix num_keys (loopnum * log2_radix) from_ to_
      (sched.up loopnum) (sched.down loopnum) (sched.scat loopnum) m
    if loopnum + 1 ≠ max_num_digits then
      slave_sort_any_loop sched number_of_processors radix log2_radix num_keys max_num_digits
        todo (loopnum + 1) (from_ ^^^ 1) (to_ ^^^ 1) m'
    else
      slave_sort_any_loop sched number_of_processors radix log2_radix num_keys max_num_digits
        todo (loopnum + 1) from_ to_ m'

/-- All threads of `slave_sort` under the interleavings of `sched`. -/
def slave_sort_any (sched : Schedule)
    (number_of_processors radix log2_radix num_keys max_num_digits : Nat)
    (m : Memory) : Except Fault (Memory × Nat) :=
  slave_sort_any_loop sched number_of_processors radix log2_radix num_keys max_num_digits
    max_num_digits 0 0 1 m

/-! ## `main` -/

/-- Memory after the initialisation done by `main` and `init`: the partition is
stored in `key_partition`, the flags of the first `2 * number_of_processors`
tree nodes are cleared and `key[0]` holds the generated keys. -/
def init_memory (number_of_processors : Nat) (keys boundaries : List Nat) (heap : Memory) :
    Memory :=
  { heap with
    key := setAt heap.key 0 (fun i => keys.getD i (heap.key 0 i))
    key_partition := fun p => boundaries.getD p (heap.key_partition p)
    prefix_tree := fun i =>
      if i < 2 * number_of_processors then { heap.prefix_tree i with Flag := 0 }
      else heap.prefix_tree i }

/-- The program: option checks of `main`, `get_max_digits`, the planner, the
creation of the worker threads, the sort, and the contents of
`key[global->final]` as printed by `printout`.  `keys` is the content of
`key[0]` after `init`; `heap` is the content of the allocated arrays before
they are written.  `main` has no check of the thread count against
`MAX_THREADS` and none of the radix against `MAX_RADIX`: the write of
`PThreadTable[i]` with `i ≥ MAX_THREADS` by `pthread_create`, and the write of
`densities[i]` with `i ≥ MAX_RADIX` when the threads publish their leaves in the
first pass, are faults.  The threads run under the interleaving of `sort_pass`;
`radix_sort_any` is the program under arbitrary interleavings. -/
def radix_sort (number_of_processors radix max_key : Nat) (keys : List Nat) (heap : Memory) :
    Except Fault (List Nat) :=
  let num_keys := keys.length
  if number_of_processors < 1 ∨ MAX_PROCESSORS < number_of_processors then
    Except.error Fault.usage
  else if radix < 1 ∨ log_2 radix = -1 then Except.error Fault.usage
  else if num_keys < 1 then Except.error Fault.usage
  else if max_key < 1 then Except.error Fault.usage
  else
    match get_max_digits radix max_key with
    | none => Except.error Fault.nontermination
    | some max_num_digits =>
      match partition num_keys number_of_processors with
      | none => Except.error Fault.out_of_bounds
      | some boundaries =>
        if !thread_table_ok number_of_processors then Except.error Fault.out_of_bounds
        else if !node_arrays_ok radix then Except.error Fault.out_of_bounds
        else
          let m := init_memory number_of_processors keys boundaries heap
          match slave_sort number_of_processors radix (log_2 radix).toNat num_keys
              max_num_digits m with
          | Except.error e => Except.error e
          | Except.ok (m', final) => Except.ok ((List.range num_keys).map (m'.key final))

/-- The program under the interleavings of `sched`. -/
def radix_sort_any (sched : Schedule) (number_of_processors radix max_key : Nat)
    (keys : List Nat) (heap : Memory) : Except Fault (List Nat) :=
  let num_keys := keys.length
  if number_of_processors < 1 ∨ MAX_PROCESSORS < number_of_processors then
    Except.error Fault.usage
  else if radix < 1 ∨ log_2 radix = -1 then Except.error Fault.usage
  else if num_keys < 1 then Except.error Fault.usage
  else if max_key < 1 then Except.error Fault.usage
  else
    match get_max_digits radix max_key with
    | none => Except.error Fault.nontermination
    | some max_num_digits =>
      match partition num_keys number_of_processors with
      | none => Except.error Fault.out_of_bounds
      | some boundaries =>
        if !thread_table_ok number_of_processors then Except.error Fault.out_of_bounds
        else if !node_arrays_ok radix then Except.error Fault.out_of_bounds
        else
          let m := init_memory number_of_processors keys boundaries heap
          match slave_sort_any sched number_of_processors radix (log_2 radix).toNat num_keys
              max_num_digits m with
          | Except.error e => Except.error e
          | Except.ok (m', final) => Except.ok ((List.range num_keys).map (m'.key final))

/-! ## Concrete inputs and inspection of a blocked phase -/

/-- A heap whose arrays are all zero, used as a concrete initial heap. -/
def blank_heap : Memory :=
  { key := fun _ _ => 0
    rank_me := fun _ _ => 0
    key_density := fun _ _ => 0
    rank_ff := fun _ _ => 0
    prefix_tree := fun _ => { densities := fun _ => 0, ranks := fun _ => 0, Flag := 0 }
    key_partition := fun _ => 0 }

/-- Sizes of the ranges between consecutive boundaries. -/
def range_sizes (boundaries : List Nat) : List Nat :=
  List.zipWith (fun lo hi => hi - lo) boundaries boundaries.tail

/-- The first pass (`loopnum = 0`, `from = 0`) up to the down-sweep: the
configuration reached after the histogram phase, the up-sweep phase and the
given number of scheduling rounds of the down-sweep.  `none` when the planner or
the up-sweep fails. -/
def down_sweep_state (number_of_processors radix : Nat) (keys : List Nat) (heap : Memory)
    (rounds : Nat) : Option Config :=
  match partition keys.length number_of_processors with
  | none => none
  | some boundaries =>
    let ids := List.range number_of_processors
    let m := init_memory number_of_processors keys boundaries heap
    let m1 := ids.foldl (fun m MyNum => histogram radix 0 0 MyNum m) m
    match run_phase radix ids (ids.map (upsweep number_of_processors)) m1 with
    | Except.error _ => none
    | Except.ok m2 =>
      some ((round radix ids.reverse)^[rounds]
        { mem := m2, threads := ids.map (downsweep number_of_processors) })

/-- The offset tables `rank_ff[t][b]` of the first `number_of_processors`
threads, one row per thread. -/
def rank_ff_table (number_of_processors radix : Nat) (m : Memory) : List (List Nat) :=
  (List.range number_of_processors).map (fun t => (List.range radix).map (m.rank_ff t))

/-- The histograms `rank_me[t][b]` of the first `number_of_processors` threads,
one row per thread. -/
def rank_me_table (number_of_processors radix : Nat) (m : Memory) : List (List Nat) :=
  (List.range number_of_processors).map (fun t => (List.range radix).map (m.rank_me t))

/-! ## The ranking part of a pass and the buffers of the pass loop -/

/-- The part of a pass before its third barrier, for all threads: histogram,
up-sweep, down-sweep and offset collection.  The scatter follows it. -/
def rank_phase (number_of_processors radix shiftnum from_ : Nat) (m : Memory) :
    Except Fault Memory := do
  let ids := List.range number_of_processors
  let m1 := ids.foldl (fun m MyNum => histogram radix shiftnum from_ MyNum m) m
  let m2 ← run_phase radix ids (ids.map (upsweep number_of_processors)) m1
  run_phase radix ids.reverse (ids.map (downsweep number_of_processors)) m2

/-- The part of a pass before its second barrier, for all threads: histogram
and up-sweep. -/
def upsweep_phase (number_of_processors radix shiftnum from_ : Nat) (m : Memory) :
    Except Fault Memory :=
  let ids := List.range number_of_processors
  let m1 := ids.foldl (fun m MyNum => histogram radix shiftnum from_ MyNum m) m
  run_phase radix ids (ids.map (upsweep number_of_processors)) m1

/-- The first `n` entries of the `densities`, of the `ranks` and the `Flag` of
a tree node. -/
def node_contents (n : Nat) (node : prefix_node) : List Nat × List Nat × Nat :=
  ((List.range n).map node.densities, (List.range n).map node.ranks, node.Flag)

/-- The values of `(loopnum, from, to)` at the start of every pass still to run
of the `for (loopnum ...)` loop of `slave_sort`: `from` and `to` are exchanged
by `from = from ^ 0x1; to = to ^ 0x1` unless `loopnum == max_num_digits - 1`.
The first argument is the number of passes still to run. -/
def pass_buffers (max_num_digits : Nat) : Nat → Nat → Nat → Nat → List (Nat × Nat × Nat)
  | 0, _, _, _ => []
  | todo + 1, loopnum, from_, to_ =>
    (loopnum, from_, to_) ::
      (if loopnum + 1 ≠ max_num_digits then
        pass_buffers max_num_digits todo (loopnum + 1) (from_ ^^^ 1) (to_ ^^^ 1)
      else pass_buffers max_num_digits todo (loopnum + 1) from_ to_)

/-- The value of `to` after the last pass, which thread 0 stores in
`global->final`. -/
def final_buffer (max_num_digits : Nat) : Nat → Nat → Nat → Nat → Nat
  | 0, _, _, to_ => to_
  | todo + 1, loopnum, from_, to_ =>
    if loopnum + 1 ≠ max_num_digits then
      final_buffer max_num_digits todo (loopnum + 1) (from_ ^^^ 1) (to_ ^^^ 1)
    else final_buffer max_num_digits todo (loopnum + 1) from_ to_

/-! ## Prefix-tree indices -/

/-- The `prefix_tree` indices an action reads or writes. -/
def tree_indices : Action → List Nat
  | Action.publish MyNum => [MyNum]
  | Action.SETPAUSE index => [index]
  | Action.WAITPAUSE index => [index]
  | Action.merge n r l => [n, r, l]
  | Action.merge_densities n r l => [n, r, l]
  | Action.copy_densities my_node their_node => [my_node, their_node]
  | Action.clear_rank_ff _ => []
  | Action.add_ranks _ l => [l]
  | Action.add_densities _ my_node => [my_node]

/-- The `prefix_tree` nodes whose contents (`densities`, `ranks`) an action
writes. -/
def content_writes : Action → List Nat
  | Action.publish MyNum => [MyNum]
  | Action.merge n _ _ => [n]
  | Action.merge_densities n _ _ => [n]
  | Action.copy_densities my_node _ => [my_node]
  | _ => []

/-- The indices of the up-sweep loop computed in `Int`, so that `n - 1` is not
truncated: per iteration the node waited for, the three nodes of the merge and
the node signalled. -/
def upsweep_int_loop : Nat → Int → Int → Int → Int → List Int
  | 0, _, _, _, _ => []
  | fuel + 1, offset, level, base, n =>
    if offset % 2 ≠ 0 then
      let offset := offset / 2
      let r := n
      let l := n - 1
      let index := base + offset
      let base1 := base + level
      let level1 := level / 2
      [index, index, r, l]
        ++ (if offset % 2 = 0 then [base1 + offset / 2] else [])
        ++ upsweep_int_loop fuel offset level1 base1 index
    else []

/-- The loop `while ((offset & 0x1) != 0)` of the down-sweep in `Int`; returns
`(offset, level, base)`. -/
def climb_int : Nat → Int → Int → Int → Int × Int × Int
  | 0, offset, level, base => (offset, level, base)
  | fuel + 1, offset, level, base =>
    if offset % 2 ≠ 0 then climb_int fuel (offset / 2) (level / 2) (base + level)
    else (offset, level, base)

/-- The indices `base + offset - 1` signalled by the down-sweep, in `Int`. -/
def signal_int_loop : Nat → Int → Int → Int → List Int
  | 0, _, _, _ => []
  | fuel + 1, offset, level, base =>
    if offset % 2 ≠ 0 then
      (base + offset - 1) :: signal_int_loop fuel (offset / 2) (level / 2) (base + level)
    else []

/-- The indices `base + offset - 1` of the left siblings read by the loop
`while (offset != 0)`, in `Int`. -/
def rank_int_loop : Nat → Int → Int → Int → List Int
  | 0, _, _, _ => []
  | fuel + 1, offset, level, base =>
    if offset ≠ 0 then
      (if offset % 2 ≠ 0 then [base + offset - 1] else [])
        ++ rank_int_loop fuel (offset / 2) (level / 2) (base + level)
    else []

/-- Every `prefix_tree` index computed by thread `MyNum` in one pass, in program
order and with the integer arithmetic of the source: up-sweep, `my_node` and
`their_node`, signalled siblings, left-sibling walk, `my_node`. -/
def tree_trace (number_of_processors MyNum : Nat) : List Int :=
  let P : Int := number_of_processors
  let t : Int := MyNum
  let c := climb_int MyNum t P 0
  let d := climb_int MyNum (c.1 / 2) (c.2.1 / 2) (c.2.2 + c.2.1)
  let my_node := if t ≠ P - 1 then c.2.2 + c.1 else 2 * P - 2
  [t] ++ (if t % 2 = 0 then [P + t / 2] else [])
    ++ upsweep_int_loop MyNum t (P / 2) P t
    ++ (if t ≠ P - 1 then [my_node, my_node, d.2.2 + d.1] else [])
    ++ signal_int_loop MyNum t P 0
    ++ rank_int_loop MyNum t P 0
    ++ [my_node]

/-! ## The barrier and the flag wait as steps with error codes -/

/-- The `counter` and `cycle` fields of a barrier (`barrier_rank`, `barrier_key`). -/
structure barrier where
  counter : Nat
  cycle : Nat
  deriving DecidableEq, Repr

/-- What a thread does after a step of synchronisation code: `exit(-1)`, keep
waiting, or go on past the synchronisation point. -/
inductive sync_step where
  | exits
  | waits
  | passes
  deriving DecidableEq, Repr

/-- Arrival of a thread at a barrier, up to the `while` loop.  `Error` is the
value returned by `pthread_mutex_lock`; `counter` is a `uint32_t`.  A thread
that waits has saved `Cycle = b.cycle`. -/
def barrier_arrive (number_of_processors Error : Nat) (b : barrier) : barrier × sync_step :=
  if Error ≠ 0 then (b, sync_step.exits)
  else
    let counter := (b.counter + 1) % 4294967296
    if counter ≠ number_of_processors then
      ({ b with counter := counter }, sync_step.waits)
    else
      ({ counter := 0, cycle := if b.cycle = 0 then 1 else 0 }, sync_step.passes)

/-- One turn of the loop `while (Cycle == cycle)` of a waiting thread: `b` is
the barrier when the guard is evaluated and `Error` the value
`pthread_cond_wait` returns when the guard holds (`if (Error != 0) break;`). -/
def barrier_wait (Cycle : Nat) (b : barrier) (Error : Nat) : sync_step :=
  if Cycle = b.cycle then
    if Error ≠ 0 then sync_step.passes else sync_step.waits
  else sync_step.passes

/-- The wait on the `done` flag of a tree node: `pthread_cond_wait` is called
when the flag is clear, and its result is not looked at.  `returned` is `none`
while the call has not returned and the value it returns otherwise. -/
def pause_wait (Flag : Nat) (returned : Option Nat) : sync_step :=
  if Flag = 0 then
    match returned with
    | none => sync_step.waits
    | some _ => sync_step.passes
  else sync_step.passes


/-! ## `matchname` (`src/apps/barnes/getparam.c`) -/

/-- The character `s[i]` of a C string whose characters before the terminating
NUL are `s`: the terminator sits at index `s.length`, and an index beyond it is
outside the string. -/
def load_char (s : List Char) (i : Nat) : Except Fault Char :=
  if i < s.length then Except.ok (s.getD i (Char.ofNat 0))
  else if i = s.length then Except.ok (Char.ofNat 0)
  else Except.error Fault.out_of_bounds

/-- The loop `while (*bp == *np) { bp++; np++; }` of `matchname` followed by
`return (*bp == '=' && *np == '\0')`; `bp` and `np` are offsets into `bind` and
`name`.  The first argument bounds the number of iterations. -/
def matchname_loop (bind name : List Char) : Nat → Nat → Nat → Except Fault Bool
  | 0, _, _ => Except.error Fault.nontermination
  | fuel + 1, bp, np =>
    match load_char bind bp with
    | Except.error e => Except.error e
    | Except.ok b =>
      match load_char name np with
      | Except.error e => Except.error e
      | Except.ok n =>
        if b = n then matchname_loop bind name fuel (bp + 1) (np + 1)
        else Except.ok (decide (b = '=' ∧ n = Char.ofNat 0))

/-- The function `matchname(bind, name)`.  The loop reads one character of each
string per iteration, so `bind.length + 2` iterations reach the end of the
strings. -/
def matchname (bind name : List Char) : Except Fault Bool :=
  matchname_loop bind name (bind.length + 2) 0 0

/-! ## `ISort` (`src/kernels/cholesky/util.c`) -/

/-- The sparse matrix header `SMatrix` (without the numerical values `nz`).  The
arrays are the memory seen through the pointers `col`, `startrow` and `row`,
indexed by the C subscript, which may fall outside the allocated array. -/
structure SMatrix where
  n : Int
  m : Int
  col : Int → Int
  startrow : Int → Int
  row : Int → Int

/-- Array store `a[i] = v` for a `long` subscript. -/
def setI (a : Int → Int) (i : Int) (v : Int) : Int → Int :=
  fun j => if j = i then v else a j

/-- The loop `while (M.row[j-1] > tmp && j > lo) { M.row[j] = M.row[j-1]; j--; }`.
The left operand `M.row[j-1]` is read before `j > lo` is tested.  Returns the
array, the final `j` and the subscripts of `M.row` read so far; the first
argument bounds the number of evaluations of the guard. -/
def ISort_while (lo tmp : Int) :
    Nat → Int → (Int → Int) → List Int → Option ((Int → Int) × Int × List Int)
  | 0, _, _, _ => none
  | fuel + 1, j, row, reads =>
    if row (j - 1) > tmp ∧ j > lo then
      ISort_while lo tmp fuel (j - 1) (setI row j (row (j - 1))) (reads ++ [j - 1, j - 1])
    else some (row, j, reads ++ [j - 1])

/-- The loop `for (i=lo; i<hi; i++)` of `ISort`; the first argument is the
number `hi - i` of iterations still to run.  The inner loop moves `j` from `i`
down to `lo` at most, so `i - lo + 1` evaluations of its guard are allowed. -/
def ISort_for (lo : Int) : Nat → Int → (Int → Int) → List Int → Option ((Int → Int) × List Int)
  | 0, _, row, reads => some (row, reads)
  | todo + 1, i, row, reads =>
    let tmp := row i
    match ISort_while lo tmp ((i - lo).toNat + 1) i row (reads ++ [i]) with
    | none => none
    | some (row', j, reads') => ISort_for lo todo (i + 1) (setI row' j tmp) reads'

/-- The function `ISort(M, k)`: returns the array `M.row` after the call and the
subscripts of `M.row` that were read, in order; `none` if a loop bound of the
model is exhausted. -/
def ISort (M : SMatrix) (k : Int) : Option ((Int → Int) × List Int) :=
  let hi := M.col (k + 1)
  let lo := M.col k
  ISort_for lo (hi - lo).toNat lo M.row []

deriving instance DecidableEq for Except

/-! ## Specification vocabulary

The definitions below are used to state what the phases of a pass compute;
they are not part of the program. -/

/-- Number of nodes on level `j` of the prefix tree: the value of `level` after
`j` halvings starting from `number_of_processors`. -/
def lvl (P j : Nat) : Nat := P / 2 ^ j

/-- Index of the first node of level `j`: the value of `base` after `j` steps
`base += level` starting from `0`. -/
def node_base (P : Nat) : Nat → Nat
  | 0 => 0
  | j + 1 => node_base P j + lvl P j

/-- Index in `prefix_tree` of node `o` of level `j`. -/
def idx (P j o : Nat) : Nat := node_base P j + o

/-- Sum over the threads below node `o` of level `j` of a per-thread table. -/
def seg_sum (f : Nat → Nat → Nat) (j o b : Nat) : Nat :=
  ∑ u in Finset.Ico (o * 2 ^ j) ((o + 1) * 2 ^ j), f u b

/-- Node `(j, o)` holds the sums of the leaves below it: always for the
densities, and for the ranks unless it is the last node of an inner level. -/
def node_ok (P R : Nat) (H D : Nat → Nat → Nat) (m : Memory) (j o : Nat) : Prop :=
  (∀ b, b < R → (m.prefix_tree (idx P j o)).densities b = seg_sum D j o b) ∧
    ((j = 0 ∨ o + 1 ≠ lvl P j) →
      ∀ b, b < R → (m.prefix_tree (idx P j o)).ranks b = seg_sum H j o b)

/-- Nodes completed when threads `< t` have finished their up-sweep and thread
`t` has completed its path up to level `j`. -/
def up_done (t j : Nat) (j' o' : Nat) : Prop :=
  (o' + 1) * 2 ^ j' ≤ t ∨ ((o' + 1) * 2 ^ j' = t + 1 ∧ j' ≤ j)

/-- Nodes completed when threads `< t` have finished their up-sweep. -/
def up_full (t : Nat) (j' o' : Nat) : Prop := (o' + 1) * 2 ^ j' ≤ t

/-- The arrays other than the tree and `rank_ff` agree. -/
def same_data (m0 m : Memory) : Prop :=
  m.key = m0.key ∧ m.rank_me = m0.rank_me ∧ m.key_density = m0.key_density ∧
    m.key_partition = m0.key_partition

/-- State of the tree during the up-sweep, threads taken in increasing order:
`dn` tells which nodes are complete, `t` is the thread that runs. -/
structure UpInv (P k R : Nat) (m0 m : Memory) (dn : Nat → Nat → Prop) (t : Nat) : Prop where
  data : same_data m0 m
  rank_ff_eq : m.rank_ff = m0.rank_ff
  contents : ∀ j o, j ≤ k → o < lvl P j → dn j o →
    node_ok P R m0.rank_me m0.key_density m j o
  flag_set : ∀ j o, 1 ≤ j → j ≤ k → o < lvl P j →
    ((2 * o + 1) * 2 ^ (j - 1) ≤ t ∧ ¬ dn j o) → (m.prefix_tree (idx P j o)).Flag = 1
  flag_clear : ∀ j o, j ≤ k → o < lvl P j →
    ¬ (1 ≤ j ∧ (2 * o + 1) * 2 ^ (j - 1) ≤ t ∧ ¬ dn j o) → (m.prefix_tree (idx P j o)).Flag = 0

/-- Memory after the first `t` threads have run their up-sweep one after the other. -/
def up_seq (k R : Nat) (m : Memory) : Nat → Memory
  | 0 => m
  | t + 1 => (run_thread R (up_seq k R m t) (upsweep (2 ^ k) t)).1

/-- Flag of node `(j, o)` is set during the down-sweep when threads `≥ t` have
run: the node is a left child whose right neighbour has finished, and its own
thread has not consumed the flag yet. -/
def down_fl (P t j o : Nat) : Prop :=
  o % 2 = 0 ∧ (o + 1) * 2 ^ j ≤ t ∧ t < (o + 2) * 2 ^ j ∧ (o + 2) * 2 ^ j ≤ P

/-- Nodes that already hold the global densities when threads `≥ t` have run. -/
def down_dn (t j o : Nat) : Prop := o % 2 = 0 ∧ t < (o + 1) * 2 ^ j

/-- The value `rank_ff[u][b]` must have before the scatter, in terms of the
memory at the end of the up-sweep. -/
def rank_spec (P k : Nat) (m2 : Memory) (u b : Nat) : Nat :=
  (∑ v in Finset.range u, m2.rank_me v b) +
    (if 1 ≤ b then (m2.prefix_tree (idx P k 0)).densities (b - 1) else 0)

/-- State of the tree and of the offset tables during the down-sweep: `fl`
tells which flags are set, `dn` which nodes hold the global densities, `rf`
which threads have computed their offsets. -/
structure DownInv (P k R : Nat) (m2 m : Memory) (fl dn : Nat → Nat → Prop) (rf : Nat → Prop) :
    Prop where
  data : same_data m2 m
  ranks_same : ∀ i, (m.prefix_tree i).ranks = (m2.prefix_tree i).ranks
  top_dens : (m.prefix_tree (idx P k 0)).densities = (m2.prefix_tree (idx P k 0)).densities
  dens : ∀ j o, j ≤ k → o < lvl P j → dn j o → ∀ b, b < R →
    (m.prefix_tree (idx P j o)).densities b = (m2.prefix_tree (idx P k 0)).densities b
  flag_set : ∀ j o, j ≤ k → o < lvl P j → fl j o → (m.prefix_tree (idx P j o)).Flag = 1
  flag_clear : ∀ j o, j ≤ k → o < lvl P j → ¬ fl j o → (m.prefix_tree (idx P j o)).Flag = 0
  rank_ff : ∀ u, u < P → rf u → ∀ b, b < R → m.rank_ff u b = rank_spec P k m2 u b

/-- Flags during the signalling loop of thread `t`, when the levels below `i`
have been signalled. -/
def sig_fl (P t i j o : Nat) : Prop :=
  (j < i ∧ down_fl P t j o) ∨ (i ≤ j ∧ down_fl P (t + 1) j o ∧ (o + 1) * 2 ^ j ≠ t + 1)

/-- Memory after the last `i` threads have run their down-sweep one after the
other, the highest thread first. -/
def down_seq (k R : Nat) (m : Memory) : Nat → Memory
  | 0 => m
  | i + 1 => (run_thread R (down_seq k R m i) (downsweep (2 ^ k) (2 ^ k - 1 - i))).1

/-- The offset thread `t` must start with for bucket `b`: the number of keys
of the whole array with a smaller digit, plus the number of keys with digit `b`
held by the threads below `t`.  `dg i` is the digit of the key at source
position `i`, `kp` the key partition. -/
def offset_spec (dg : Nat → Nat) (N : Nat) (kp : Nat → Nat) (t b : Nat) : Nat :=
  (∑ i in Finset.range N, if dg i < b then 1 else 0) +
    (∑ i in Finset.range (kp t), if dg i = b then 1 else 0)

/-- Destination of the key at source position `i` in a stable partition by digit. -/
def dest (dg : Nat → Nat) (N i : Nat) : Nat :=
  (∑ j in Finset.range N, if dg j < dg i then 1 else 0) +
    (∑ j in Finset.range i, if dg j = dg i then 1 else 0)

/-- The key partition is a partition of `[0, N)` into `P` consecutive ranges. -/
def partition_ok (kp : Nat → Nat) (P N : Nat) : Prop :=
  kp 0 = 0 ∧ kp P = N ∧ ∀ u, u < P → kp u ≤ kp (u + 1)

/-- All flags of the tree nodes used by `2 ^ k` threads are clear. -/
def flags_clear (k : Nat) (m : Memory) : Prop :=
  ∀ j o, j ≤ k → o < lvl (2 ^ k) j → (m.prefix_tree (idx (2 ^ k) j o)).Flag = 0

/-- State of the scatter of thread `t` when the source positions below `i` have
been written: `src` is the source buffer, `dg` the digit of each source
position, `m0` the memory at the start of the thread's loop. -/
structure ScatInv (R N from_ to_ : Nat) (src dg : Nat → Nat) (m0 m : Memory) (t i : Nat) :
    Prop where
  key_from : m.key from_ = src
  kp : m.key_partition = m0.key_partition
  tree : m.prefix_tree = m0.prefix_tree
  others : ∀ u, u ≠ t → m.rank_ff u = m0.rank_ff u
  mine : ∀ b, b < R → m.rank_ff t b
    = (∑ j in Finset.range N, if dg j < b then 1 else 0)
      + (∑ j in Finset.range i, if dg j = b then 1 else 0)
  placed : ∀ j, j < i → m.key to_ (dest dg N j) = src j

/-- State of the scatter phase when the threads below `t` have scattered their
keys (threads taken in increasing order). -/
structure ScatAll (R N from_ to_ : Nat) (src dg : Nat → Nat) (m0 m : Memory) (P t : Nat) :
    Prop where
  key_from : m.key from_ = src
  kp : m.key_partition = m0.key_partition
  tree : m.prefix_tree = m0.prefix_tree
  offsets : ∀ u, t ≤ u → u < P → ∀ b, b < R →
    m.rank_ff u b = offset_spec dg N m0.key_partition u b
  placed : ∀ j, j < m0.key_partition t → m.key to_ (dest dg N j) = src j

/-- The first `N` entries of a key buffer, as a list. -/
def buffer (N : Nat) (f : Nat → Nat) : List Nat := (List.range N).map f

/-- State before pass `p` of the sort of `keys`: the source buffer is a
permutation of the input, ordered by the low `p` digits. -/
structure PassInv (k R N : Nat) (keys : List Nat) (m : Memory) (p from_ to_ : Nat) : Prop where
  bufs : (from_ = 0 ∧ to_ = 1) ∨ (from_ = 1 ∧ to_ = 0)
  flags : flags_clear k m
  kp : partition_ok m.key_partition (2 ^ k) N
  perm : (buffer N (m.key from_)).Perm keys
  ord : ∀ i j, i < j → j < N → m.key from_ i % R ^ p ≤ m.key from_ j % R ^ p

/-- The flags of the first `n` tree nodes agree in two memories. -/
def same_flags (n : Nat) (m m' : Memory) : Prop :=
  ∀ i, i < n → (m.prefix_tree i).Flag = (m'.prefix_tree i).Flag

/-- An action waits, if at all, on one of the first `n` tree nodes. -/
def waits_below (n : Nat) : Action → Bool
  | Action.WAITPAUSE index => decide (index < n)
  | _ => true

/-- Two outcomes of a phase agree as far as the flags are concerned: both
complete with the same flags, or both fail in the same way. -/
def same_outcome (n : Nat) : Except Fault Memory → Except Fault Memory → Prop
  | Except.ok m, Except.ok m' => same_flags n m m'
  | Except.error e, Except.error e' => e = e'
  | _, _ => False

/-- The offsets required by the specification for all threads and buckets, one
row per thread. -/
def offset_spec_table (dg : Nat → Nat) (N : Nat) (kp : Nat → Nat) (P R : Nat) :
    List (List Nat) :=
  (List.range P).map (fun t => (List.range R).map (offset_spec dg N kp t))

/-- The barrier after `n` arrivals whose `pthread_mutex_lock` succeeded. -/
def arrivals (P n : Nat) (b : barrier) : barrier :=
  (fun b => (barrier_arrive P 0 b).1)^[n] b

/-- A list of keys stably partitioned by digit: the keys with digit `0` in
their order, then the keys with digit `1` in their order, and so on. -/
def stable_partition (R : Nat) (dg : Nat → Nat) (keys : List Nat) : List Nat :=
  (List.range R).flatMap (fun b => keys.filter (fun x => dg x = b))

/-- Every `prefix_tree` index used by a program is below `n`. -/
def indices_below (n : Nat) (prog : List Action) : Prop :=
  ∀ a, a ∈ prog → ∀ i, i ∈ tree_indices a → i < n

/-- The list `out` is `keys` stably sorted by `f`: position `i` of `out` holds
the key of position `π i` of `keys` for a one-to-one `π`, and positions are
ordered by `f` of the key, keys with equal `f` by their position in `keys`. -/
def stably_sorted_by (f : Nat → Nat) (keys out : List Nat) : Prop :=
  out.length = keys.length ∧
    ∃ π : Nat → Nat,
      (∀ i, i < keys.length → π i < keys.length) ∧
      (∀ i j, i < keys.length → j < keys.length → π i = π j → i = j) ∧
      (∀ i, i < keys.length → out.getD i 0 = keys.getD (π i) 0) ∧
      ∀ i j, i < j → j < keys.length →
        f (keys.getD (π i) 0) < f (keys.getD (π j) 0) ∨
          (f (keys.getD (π i) 0) = f (keys.getD (π j) 0) ∧ π i < π j)

/-- State before pass `p` of the sort of `keys`, with the origin of every
buffer position: position `i` of the source buffer holds the key of position
`π i` of the input, and the buffer is ordered by the low `p` digits, keys with
equal low digits by their position in the input. -/
structure StableInv (k R N : Nat) (keys : List Nat) (m : Memory) (p from_ to_ : Nat)
    (π : Nat → Nat) : Prop where
  bufs : (from_ = 0 ∧ to_ = 1) ∨ (from_ = 1 ∧ to_ = 0)
  flags : flags_clear k m
  kp : partition_ok m.key_partition (2 ^ k) N
  src : ∀ i, i < N → π i < N
  inj : ∀ i j, i < N → j < N → π i = π j → i = j
  val : ∀ i, i < N → m.key from_ i = keys.getD (π i) 0
  ord : ∀ i j, i < j → j < N →
    m.key from_ i % R ^ p < m.key from_ j % R ^ p ∨
      (m.key from_ i % R ^ p = m.key from_ j % R ^ p ∧ π i < π j)

/-- The entries `row[lo], ..., row[lo + n - 1]` of an array, as a list. -/
def slice (row : Int → Int) (lo : Int) (n : Nat) : List Int :=
  (List.range n).map (fun (d : Nat) => row (lo + (d : Int)))

/-- The array of `long` whose first entries are `l`; the memory around it is
taken to hold zeros. -/
def array_of (l : List Int) : Int → Int :=
  fun i => if 0 ≤ i then l.getD i.toNat 0 else 0

/-- State of the outer loop of `ISort` before the iteration for `i`: the
entries from `lo` up to `i` are in order, the slice from `lo` to `hi` has the
same entries as the initial array `r0`, counted with multiplicity, and the
entries outside the slice are unchanged. -/
structure ISortInv (r0 : Int → Int) (lo hi : Int) (row : Int → Int) (i : Int) : Prop where
  sorted : ∀ a b, lo ≤ a → a ≤ b → b < i → row a ≤ row b
  count : ∀ v : Int,
    (∑ d in Finset.range (hi - lo).toNat, if row (lo + (d : Int)) = v then 1 else 0)
      = ∑ d in Finset.range (hi - lo).toNat, if r0 (lo + (d : Int)) = v then 1 else 0
  frame : ∀ x, x < lo ∨ hi ≤ x → row x = r0 x

/-! ## Interleavings

The vocabulary used to compare the runs of a phase under different
interleavings. -/

/-- The parts of the shared memory that the actions of the tree phases read and
write as a whole: the `densities` and the `ranks` of a node, and the offset
table of a thread. -/
inductive Loc where
  | dens (n : Nat)
  | ranks (n : Nat)
  | rff (t : Nat)
  deriving DecidableEq

/-- The locations an action writes. -/
def loc_writes : Action → List Loc
  | Action.publish t => [Loc.dens t, Loc.ranks t]
  | Action.merge n _ _ => [Loc.dens n, Loc.ranks n]
  | Action.merge_densities n _ _ => [Loc.dens n]
  | Action.copy_densities my _ => [Loc.dens my]
  | Action.clear_rank_ff t => [Loc.rff t]
  | Action.add_ranks t _ => [Loc.rff t]
  | Action.add_densities t _ => [Loc.rff t]
  | _ => []

/-- The locations an action reads. -/
def loc_reads : Action → List Loc
  | Action.merge _ r l => [Loc.dens r, Loc.ranks r, Loc.dens l, Loc.ranks l]
  | Action.merge_densities _ r l => [Loc.dens r, Loc.dens l]
  | Action.copy_densities _ their => [Loc.dens their]
  | Action.add_ranks _ l => [Loc.ranks l]
  | Action.add_densities _ my => [Loc.dens my]
  | _ => []

/-- The contents of a location. -/
def loc_val (m : Memory) : Loc → (Nat → Nat)
  | Loc.dens n => (m.prefix_tree n).densities
  | Loc.ranks n => (m.prefix_tree n).ranks
  | Loc.rff t => m.rank_ff t

/-- The tree node of a location of the tree. -/
def loc_node : Loc → Option Nat
  | Loc.dens n => some n
  | Loc.ranks n => some n
  | Loc.rff _ => none

/-- The configuration after the threads listed in `ts` have taken one step
each, in this order. -/
def run_steps (R : Nat) : Config → List Nat → Config
  | c, [] => c
  | c, t :: ts => run_steps R (step_thread R c t) ts

/-- Every thread of `ts` can move when its turn comes. -/
def steps_ok (R : Nat) : Config → List Nat → Prop
  | _, [] => True
  | c, t :: ts => can_move c t = true ∧ steps_ok R (step_thread R c t) ts

/-- The synchronisation discipline of the programs `full` of a phase: a flag
has one waiting thread; a flag that is waited for is set by one thread, once;
and when an action of one thread writes a location that an action of another
thread reads or writes, the writer sets a flag after the write that the other
thread has waited for before its access. -/
structure SyncProg (full : List (List Action)) : Prop where
  one_waiter : ∀ t u x, Action.WAITPAUSE x ∈ full.getD t [] →
    Action.WAITPAUSE x ∈ full.getD u [] → t = u
  one_setter : ∀ w t u x, Action.WAITPAUSE x ∈ full.getD w [] →
    Action.SETPAUSE x ∈ full.getD t [] → Action.SETPAUSE x ∈ full.getD u [] → t = u
  set_once : ∀ w t x q1 q2, Action.WAITPAUSE x ∈ full.getD w [] →
    full.getD t [] = q1 ++ Action.SETPAUSE x :: q2 → Action.SETPAUSE x ∉ q2
  guarded : ∀ t u q1 B q2 p1 A p2 l, t ≠ u → full.getD t [] = q1 ++ B :: q2 →
    full.getD u [] = p1 ++ A :: p2 → l ∈ loc_writes B → l ∈ loc_reads A ++ loc_writes A →
    ∃ x, Action.WAITPAUSE x ∈ p1 ∧ Action.SETPAUSE x ∈ q2

/-- State of a phase with the programs `full` under an arbitrary interleaving:
`done t` is the part of its program that thread `t` has completed.  A flag
that is waited for and is set has no `SETPAUSE` to come, and neither has a
flag that has been waited for. -/
structure SyncInv (full : List (List Action)) (c : Config) (done : Nat → List Action) :
    Prop where
  len : c.threads.length = full.length
  split : ∀ t, full.getD t [] = done t ++ c.threads.getD t []
  set_gone : ∀ x w, Action.WAITPAUSE x ∈ full.getD w [] → (c.mem.prefix_tree x).Flag ≠ 0 →
    ∀ t, Action.SETPAUSE x ∉ c.threads.getD t []
  waited : ∀ u x, Action.WAITPAUSE x ∈ done u → ∀ t, Action.SETPAUSE x ∉ c.threads.getD t []

/-- The flag an action waits for, if any. -/
def waits_of : Action → List Nat
  | Action.WAITPAUSE x => [x]
  | _ => []

/-- Every action `a` of a program satisfies `ok w a L`, where `w` lists the
flags waited for before `a` (those of the first argument included) and `L` is
the rest of the program after `a`. -/
def prog_ok (ok : List Nat → Action → List Action → Prop) : List Nat → List Action → Prop
  | _, [] => True
  | w, a :: L => ok w a L ∧ prog_ok ok (waits_of a ++ w) L

/-- The location belongs to a tree node below which the last leaf is thread `t`. -/
def owned (P t : Nat) (l : Loc) : Prop :=
  ∃ j o, loc_node l = some (idx P j o) ∧ (o + 1) * 2 ^ j = t + 1

/-- The discipline of the up-sweep of thread `t`, for an action `a` with the
flags `w` waited for before it and the rest `L` of the program after it: the
thread waits for the flags of its own nodes; a `SETPAUSE` is its last action and
sets the flag of the parent of a left child of its own; it reads its own nodes,
and the left sibling of a node of its own after it has waited for the flag of
the parent; it writes its own nodes, and after the write of a left child it
sets the flag of the parent. -/
def up_ok (P t : Nat) (w : List Nat) (a : Action) (L : List Action) : Prop :=
  (∀ x, a = Action.WAITPAUSE x → ∃ j o, x = idx P j o ∧ (o + 1) * 2 ^ j = t + 1) ∧
  (∀ x, a = Action.SETPAUSE x →
    L = [] ∧ ∃ j o, x = idx P (j + 1) (o / 2) ∧ (o + 1) * 2 ^ j = t + 1 ∧ o % 2 = 0) ∧
  (∀ l, l ∈ loc_reads a ++ loc_writes a →
    owned P t l ∨
      ∃ j o, loc_node l = some (idx P j o - 1) ∧ o % 2 = 1 ∧ (o + 1) * 2 ^ j = t + 1 ∧
        idx P (j + 1) (o / 2) ∈ w) ∧
  (∀ l, l ∈ loc_writes a →
    ∃ j o, loc_node l = some (idx P j o) ∧ (o + 1) * 2 ^ j = t + 1 ∧
      (o % 2 = 0 → Action.SETPAUSE (idx P (j + 1) (o / 2)) ∈ L))

/-- The discipline of the down-sweep of thread `t`: the thread waits for the
flag of `my_node` only; the flags it sets are those of the left siblings of its
own nodes, on increasing levels; it reads and writes its own offset table, the
`ranks` of the tree, which no thread writes in this phase, the `densities` of
its own node, and the `densities` of `their_node` after it has waited for the
flag of `my_node`; and after the write of the `densities` of `my_node` it sets
the flag of every thread that reads them as its `their_node`. -/
def down_ok (P t : Nat) (w : List Nat) (a : Action) (L : List Action) : Prop :=
  (∀ x, a = Action.WAITPAUSE x → x = my_node_index P t ∧ t + 1 ≠ P) ∧
  (∀ x, a = Action.SETPAUSE x →
    ∃ i o, x = idx P i (o - 1) ∧ o % 2 = 1 ∧ (o + 1) * 2 ^ i = t + 1 ∧
      ∀ y, Action.SETPAUSE y ∈ L →
        ∃ i' o', i < i' ∧ y = idx P i' (o' - 1) ∧ o' % 2 = 1 ∧ (o' + 1) * 2 ^ i' = t + 1) ∧
  (∀ l, l ∈ loc_reads a ++ loc_writes a →
    l = Loc.rff t ∨ (∃ n, l = Loc.ranks n) ∨ owned P t l ∨
      (l = Loc.dens (their_node_index P t) ∧ my_node_index P t ∈ w)) ∧
  (∀ l, l ∈ loc_writes a →
    l = Loc.rff t ∨
      (l = Loc.dens (my_node_index P t) ∧ t + 1 ≠ P ∧
        ∀ u, u + 1 < P → their_node_index P u = my_node_index P t →
          Action.SETPAUSE (my_node_index P u) ∈ L))

/-- Number of keys with digit `b` among the source positions `i ≤ j < i'`. -/
def count_in (dg : Nat → Nat) (b i i' : Nat) : Nat :=
  ∑ j in Finset.Ico i i', if dg j = b then 1 else 0

/-- State of the scatter phase under an arbitrary interleaving: thread `u` has
scattered the source positions from its `key_start` up to `next u`.  `m0` is
the memory at the start of the phase, `src` the source buffer and `dg` the
digit of each source position. -/
structure ScatFull (R N from_ to_ P : Nat) (src dg : Nat → Nat) (m0 m : Memory)
    (next : Nat → Nat) : Prop where
  key_other : ∀ b, b ≠ to_ → m.key b = m0.key b
  placed : ∀ u, u < P → ∀ j, m0.key_partition u ≤ j → j < next u →
    m.key to_ (dest dg N j) = src j
  key_rest : ∀ i, (∀ u, u < P → ∀ j, m0.key_partition u ≤ j → j < next u → dest dg N j ≠ i) →
    m.key to_ i = m0.key to_ i
  offsets : ∀ u, u < P → ∀ b, b < R →
    m.rank_ff u b
      = offset_spec dg N m0.key_partition u b + count_in dg b (m0.key_partition u) (next u)
  offsets_rest : ∀ u b, ¬ (u < P ∧ b < R) → m.rank_ff u b = m0.rank_ff u b
  rank_me : m.rank_me = m0.rank_me
  key_density : m.key_density = m0.key_density
  tree : m.prefix_tree = m0.prefix_tree
  kp : m.key_partition = m0.key_partition
  lo : ∀ u, u < P → m0.key_partition u ≤ next u
  hi : ∀ u, u < P → next u ≤ m0.key_partition (u + 1)

/-! ## Partition planner: closed form of the boundaries -/

theorem planner_step (N P k : Nat) (hP : 0 < P) :
    k * N / P + N / P + (k * N % P + N % P) / P = (k + 1) * N / P ∧
      (k * N % P + N % P) % P = (k + 1) * N % P := by
  have h1 : (k + 1) * N = (k * N % P + N % P) + P * (k * N / P + N / P) := by
    have a := Nat.div_add_mod (k * N) P
    have b := Nat.div_add_mod N P
    rw [Nat.mul_add, Nat.add_mul, Nat.one_mul]
    omega
  constructor
  · rw [h1, Nat.add_mul_div_left _ _ hP]; omega
  · rw [h1, Nat.add_mul_mod_self_left]

theorem planner_lt (N P k : Nat) (hP : 0 < P) (hk : k < P) (hN : 0 < N) : k * N / P < N := by
  rw [Nat.div_lt_iff_lt_mul hP]
  exact Nat.mul_lt_mul_of_pos_right hk hN |>.trans_eq (Nat.mul_comm P N)

theorem partition_loop_closed (N P : Nat) (hP : 0 < P) (hN : 0 < N) :
    ∀ slots k, k ≤ P → slots = P + 1 - k →
      partition_loop N P slots (k * N / P) (k * N % P)
        = some ((List.range' k (P + 1 - k)).map (fun i => i * N / P)) := by
  intro slots
  induction slots with
  | zero => intro k hk hs; omega
  | succ s ih =>
    intro k hk hs
    unfold partition_loop
    by_cases hlt : k * N / P < N
    · have hkP : k < P := by
        by_contra hge
        have : k = P := by omega
        subst this
        rw [Nat.mul_div_cancel_left _ hP] at hlt
        omega
      have hst := planner_step N P k hP
      simp only [hlt, if_true]
      rw [hst.1, hst.2, ih (k + 1) (by omega) (by omega)]
      have : P + 1 - k = (P + 1 - (k + 1)) + 1 := by omega
      rw [this, List.range'_succ]
      simp
    · have hkP : k = P := by
        by_contra hne
        exact hlt (planner_lt N P k hP (by omega) hN)
      simp only [hlt, if_false]
      have : P + 1 - k = 1 := by omega
      rw [this, hkP]
      simp [List.range', Nat.mul_div_cancel_left _ hP]

/-- Closed form of the planner: boundary `k` is `⌊k * N / P⌋`. -/
theorem partition_closed (N P : Nat) (hP : 0 < P) (hN : 0 < N) :
    partition N P = some ((List.range (P + 1)).map (fun k => k * N / P)) := by
  have h := partition_loop_closed N P hP hN (P + 1) 0 (Nat.zero_le _) rfl
  simp only [Nat.zero_mul, Nat.zero_div, Nat.zero_mod, Nat.sub_zero] at h
  rw [partition, h, List.range_eq_range']

theorem boundary_getD (N P k : Nat) (hk : k ≤ P) :
    ((List.range (P + 1)).map (fun k => k * N / P)).getD k 0 = k * N / P := by
  rw [List.getD_eq_getElem?_getD, List.getElem?_map, List.getElem?_range (by omega)]
  rfl

theorem boundary_step (N P k : Nat) (hP : 0 < P) :
    (k + 1) * N / P = k * N / P + N / P + (if P ≤ k * N % P + N % P then 1 else 0) := by
  have hst := (planner_step N P k hP).1
  have hf : k * N % P < P := Nat.mod_lt _ hP
  have hr : N % P < P := Nat.mod_lt _ hP
  rw [← hst]
  by_cases hc : P ≤ k * N % P + N % P
  · have : (k * N % P + N % P) / P = 1 := by
      apply Nat.div_eq_of_lt_le <;> omega
    simp [hc, this]
  · have : (k * N % P + N % P) / P = 0 := Nat.div_eq_of_lt (by omega)
    simp [hc, this]

theorem ceil_div_eq (N P : Nat) (hP : 0 < P) :
    (N + P - 1) / P = N / P + (if N % P = 0 then 0 else 1) := by
  have b := Nat.div_add_mod N P
  have hr : N % P < P := Nat.mod_lt _ hP
  by_cases h0 : N % P = 0
  · simp only [h0, if_true, Nat.add_zero]
    have : N + P - 1 = (P - 1) + P * (N / P) := by omega
    rw [this, Nat.add_mul_div_left _ _ hP, Nat.div_eq_of_lt (by omega)]
    omega
  · simp only [h0, if_false]
    have : N + P - 1 = (N % P - 1) + P * (N / P + 1) := by
      rw [Nat.mul_add]; omega
    rw [this, Nat.add_mul_div_left _ _ hP, Nat.div_eq_of_lt (by omega)]
    omega

theorem boundary_mono (N P k : Nat) : k * N / P ≤ (k + 1) * N / P :=
  Nat.div_le_div_right (Nat.mul_le_mul_right N (Nat.le_succ k))

/-! ## `get_max_digits` -/

theorem get_max_digits_loop_eq (radix : Nat) (hr : 2 ≤ radix) :
    ∀ fuel key_val temp, key_val < fuel →
      get_max_digits_loop radix fuel key_val temp = some (temp + Nat.log radix key_val) := by
  intro fuel
  induction fuel with
  | zero => intro key_val temp h; omega
  | succ f ih =>
    intro key_val temp h
    unfold get_max_digits_loop
    by_cases h0 : key_val / radix = 0
    · have hlt : key_val < radix := (Nat.div_eq_zero_iff (by omega)).mp h0
      simp [h0, Nat.log_of_lt hlt]
    · have hle : radix ≤ key_val := by
        by_contra hc
        exact h0 (Nat.div_eq_of_lt (by omega))
      have hdiv : key_val / radix < key_val := Nat.div_lt_self (by omega) (by omega)
      simp only [h0, if_false]
      rw [ih _ _ (by omega), Nat.log_of_one_lt_of_le (by omega) hle]
      congr 1
      omega

theorem get_max_digits_eq (radix max_key : Nat) (hr : 2 ≤ radix) :
    get_max_digits radix max_key = some (Nat.log radix max_key + 1) := by
  rw [get_max_digits, get_max_digits_loop_eq radix hr _ _ _ (Nat.lt_succ_self _), Nat.add_comm]

theorem clog_succ_eq (radix max_key : Nat) (hr : 2 ≤ radix) (hm : 1 ≤ max_key) :
    Nat.clog radix (max_key + 1) = Nat.log radix max_key + 1 := by
  apply le_antisymm
  · exact (Nat.le_pow_iff_clog_le (by omega)).mp (Nat.lt_pow_succ_log_self (by omega) max_key)
  · have h : radix ^ Nat.log radix max_key < max_key + 1 :=
      Nat.lt_succ_of_le (Nat.pow_log_le_self radix (by omega))
    exact (Nat.pow_lt_iff_lt_clog (by omega)).mp h

/-! ## Digit extraction -/

theorem digit_eq_div_mod (l s key : Nat) (hkey : key < 2 ^ 32) :
    digit (2 ^ l) s key = key / 2 ^ s % 2 ^ l := by
  unfold digit
  apply Nat.eq_of_testBit_eq
  intro i
  have h32 : (4294967296 : Nat) = 2 ^ 32 := by norm_num
  simp only [h32, Nat.testBit_shiftRight, Nat.testBit_and, Nat.testBit_mod_two_pow,
    Nat.testBit_shiftLeft, Nat.testBit_two_pow_sub_one, ← Nat.shiftRight_eq_div_pow]
  by_cases hb : key.testBit (s + i) = true
  · have hlt : s + i < 32 := by
      by_contra hge
      have : key < 2 ^ (s + i) :=
        lt_of_lt_of_le hkey (Nat.pow_le_pow_right (by norm_num) (by omega))
      rw [Nat.testBit_eq_false_of_lt this] at hb
      exact Bool.noConfusion hb
    simp [hb, hlt]
  · simp [hb]

theorem digit_lt (l s key : Nat) (hkey : key < 2 ^ 32) : digit (2 ^ l) s key < 2 ^ l := by
  rw [digit_eq_div_mod l s key hkey]
  exact Nat.mod_lt _ (by positivity)

/-! ## The scheduler: a round in which no thread blocks -/

theorem run_thread_append (radix : Nat) :
    ∀ (p q : List Action) (m m1 : Memory), run_thread radix m p = (m1, []) →
      run_thread radix m (p ++ q) = run_thread radix m1 q := by
  intro p
  induction p with
  | nil =>
    intro q m m1 h
    simp only [run_thread, Prod.mk.injEq, and_true] at h
    subst h
    rfl
  | cons a rest ih =>
    intro q m m1 h
    simp only [run_thread, List.cons_append] at h ⊢
    by_cases hb : blocked m a = true
    · simp [hb] at h
    · simp only [hb, Bool.false_eq_true, if_false] at h ⊢
      exact ih q _ _ h

theorem run_thread_cons (radix : Nat) (a : Action) (rest : List Action) (m : Memory)
    (hb : blocked m a = false) :
    run_thread radix m (a :: rest) = run_thread radix (exec radix m a) rest := by
  simp [run_thread, hb]

theorem set_fold_length (order : List Nat) :
    ∀ ths : List (List Action),
      (order.foldl (fun ths t => ths.set t []) ths).length = ths.length := by
  induction order with
  | nil => intro ths; rfl
  | cons t rest ih => intro ths; simp [List.foldl, ih]

theorem set_fold_mem (order : List Nat) :
    ∀ (ths : List (List Action)) (p : Nat), p ∈ order →
      (order.foldl (fun ths t => ths.set t []) ths).getD p [] = [] := by
  induction order with
  | nil => intro ths p hp; simp at hp
  | cons t rest ih =>
    intro ths p hp
    simp only [List.foldl]
    by_cases hin : p ∈ rest
    · exact ih _ p hin
    · have hpt : p = t := by
        rcases List.mem_cons.mp hp with h | h
        · exact h
        · exact absurd h hin
      subst hpt
      have hkeep : ∀ (l : List Nat) (ths : List (List Action)), p ∉ l →
          (l.foldl (fun ths t => ths.set t []) ths).getD p [] = ths.getD p [] := by
        intro l
        induction l with
        | nil => intro ths _; rfl
        | cons u l' ih' =>
          intro ths hnot
          simp only [List.foldl]
          rw [ih' _ (fun h => hnot (List.mem_cons_of_mem _ h))]
          have hne : u ≠ p := fun h => hnot (h ▸ List.mem_cons_self _ _)
          simp [List.getD_eq_getElem?_getD, List.getElem?_set_ne hne]
      rw [hkeep rest _ hin]
      simp only [List.getD_eq_getElem?_getD, List.getElem?_set]
      by_cases hlt : p < ths.length
      · simp [hlt]
      · simp [hlt]

theorem round_seq (radix : Nat) :
    ∀ (order : List Nat) (c : Config) (M : Nat → Memory), order.Nodup →
      (∀ i, i < order.length →
        run_thread radix (M i) (c.threads.getD (order.getD i 0) []) = (M (i + 1), [])) →
      c.mem = M 0 →
      (round radix order c).mem = M order.length ∧
        (round radix order c).threads = order.foldl (fun ths t => ths.set t []) c.threads := by
  intro order
  induction order with
  | nil => intro c M _ _ h0; exact ⟨h0, rfl⟩
  | cons t rest ih =>
    intro c M hnd hrun h0
    have hstep := hrun 0 (by simp)
    simp only [List.getD_cons_zero] at hstep
    have hnd' := (List.nodup_cons.mp hnd)
    let c1 : Config := { mem := M 1, threads := c.threads.set t [] }
    have hc1 : round radix (t :: rest) c = round radix rest c1 := by
      simp only [round, List.foldl, h0, hstep, c1]
    have := ih c1 (fun i => M (i + 1)) hnd'.2
      (by
        intro i hi
        have h := hrun (i + 1) (by simpa using hi)
        simp only [List.getD_cons_succ] at h
        have hne : t ≠ rest.getD i 0 := by
          intro heq
          apply hnd'.1
          rw [heq, List.getD_eq_getElem _ _ hi]
          exact List.getElem_mem _
        have hset : ∀ u, t ≠ u → (c.threads.set t []).getD u [] = c.threads.getD u [] := by
          intro u hu
          simp only [List.getD_eq_getElem?_getD, List.getElem?_set_ne hu]
        show run_thread radix (M (i + 1)) ((c.threads.set t []).getD (rest.getD i 0) []) = _
        rw [hset _ hne]
        exact h)
      rfl
    rw [hc1]
    exact ⟨by simpa using this.1, by simpa [List.foldl, c1] using this.2⟩

theorem all_empty_of_cover (order : List Nat) (ths : List (List Action))
    (hcov : ∀ p, p < ths.length → p ∈ order) :
    (order.foldl (fun ths t => ths.set t []) ths).all List.isEmpty = true := by
  rw [List.all_eq_true]
  intro x hx
  obtain ⟨p, hp, rfl⟩ := List.getElem_of_mem hx
  have hlen := set_fold_length order ths
  have := set_fold_mem order ths p (hcov p (by omega))
  rw [List.getD_eq_getElem _ _ hp] at this
  rw [this]
  rfl

theorem run_rounds_done (radix : Nat) (order : List Nat) (fuel : Nat) (c : Config)
    (h : c.threads.all List.isEmpty = true) : run_rounds radix order fuel c = Except.ok c.mem := by
  cases fuel <;> simp [run_rounds, h]

/-- If the threads, run one after the other in the order of the scheduler, all
run to completion, the phase completes with the memory they leave. -/
theorem run_phase_seq (radix : Nat) (order : List Nat) (threads : List (List Action))
    (M : Nat → Memory) (hnd : order.Nodup)
    (hcov : ∀ p, p < threads.length → p ∈ order)
    (hrun : ∀ i, i < order.length →
      run_thread radix (M i) (threads.getD (order.getD i 0) []) = (M (i + 1), []))
    (hpos : threads.all List.isEmpty = false) :
    run_phase radix order threads (M 0) = Except.ok (M order.length) := by
  have hr := round_seq radix order { mem := M 0, threads := threads } M hnd hrun rfl
  have hall := all_empty_of_cover order threads hcov
  rw [← hr.2] at hall
  have hfuel : 0 < (threads.map List.length).sum := by
    by_contra h0
    have hz : (threads.map List.length).sum = 0 := by omega
    have : threads.all List.isEmpty = true := by
      rw [List.all_eq_true]
      intro x hx
      have : x.length = 0 := by
        have hmem : x.length ∈ threads.map List.length := List.mem_map_of_mem _ hx
        have := List.single_le_sum (fun a _ => Nat.zero_le a) _ hmem
        omega
      simp [List.length_eq_zero.mp this]
    rw [this] at hpos
    exact Bool.noConfusion hpos
  unfold run_phase
  obtain ⟨f, hf⟩ : ∃ f, (threads.map List.length).sum = f + 1 := ⟨_, (Nat.succ_pred_eq_of_pos hfuel).symm⟩
  rw [hf]
  simp only [run_rounds, hpos, Bool.false_eq_true, if_false]
  rw [run_rounds_done radix order f _ hall, hr.1]

/-! ## Geometry of the prefix tree -/

theorem lvl_zero (P : Nat) : lvl P 0 = P := by simp [lvl]

theorem lvl_succ (P j : Nat) : lvl P (j + 1) = lvl P j / 2 := by
  simp [lvl, pow_succ, Nat.div_div_eq_div_mul]

theorem lvl_pow (k j : Nat) (hj : j ≤ k) : lvl (2 ^ k) j = 2 ^ (k - j) := by
  unfold lvl
  exact Nat.pow_div hj (by norm_num)

theorem lvl_mul_pow (k j : Nat) (hj : j ≤ k) : lvl (2 ^ k) j * 2 ^ j = 2 ^ k := by
  rw [lvl_pow k j hj, ← pow_add]
  congr 1
  omega

theorem lvl_pos (k j : Nat) (hj : j ≤ k) : 0 < lvl (2 ^ k) j := by
  rw [lvl_pow k j hj]; positivity

theorem lvl_double (k j : Nat) (hj : j < k) : lvl (2 ^ k) j = 2 * lvl (2 ^ k) (j + 1) := by
  rw [lvl_pow k j (by omega), lvl_pow k (j + 1) (by omega)]
  have : k - j = (k - (j + 1)) + 1 := by omega
  rw [this, pow_succ]; ring

theorem lvl_top (k : Nat) : lvl (2 ^ k) k = 1 := by
  rw [lvl_pow k k (le_refl _)]; simp

theorem node_base_succ (P j : Nat) : node_base P (j + 1) = node_base P j + lvl P j := rfl

theorem node_base_mono (P : Nat) : ∀ j j', j ≤ j' → node_base P j ≤ node_base P j' := by
  intro j j' h
  induction j' with
  | zero => have : j = 0 := by omega
            subst this; exact le_refl _
  | succ n ih =>
    by_cases hjn : j ≤ n
    · exact (ih hjn).trans (by rw [node_base_succ]; omega)
    · have : j = n + 1 := by omega
      subst this; exact le_refl _

theorem idx_lt_next (P j o : Nat) (ho : o < lvl P j) : idx P j o < node_base P (j + 1) := by
  unfold idx; rw [node_base_succ]; omega

/-- Distinct nodes have distinct indices. -/
theorem idx_inj (P j o j' o' : Nat) (ho : o < lvl P j) (ho' : o' < lvl P j')
    (h : idx P j o = idx P j' o') : j = j' ∧ o = o' := by
  have key : ∀ a b x y, x < lvl P a → a < b → idx P a x < idx P b y := by
    intro a b x y hx hab
    have h1 := idx_lt_next P a x hx
    have h2 := node_base_mono P (a + 1) b hab
    unfold idx at *
    omega
  rcases Nat.lt_trichotomy j j' with hlt | heq | hgt
  · have := key j j' o o' ho hlt; omega
  · subst heq
    unfold idx at h
    exact ⟨rfl, by omega⟩
  · have := key j' j o' o ho' hgt; omega

theorem node_base_pow (k : Nat) : ∀ j, j ≤ k + 1 → node_base (2 ^ k) j + 2 ^ (k + 1 - j) = 2 ^ (k + 1) := by
  intro j
  induction j with
  | zero => intro _; simp [node_base]
  | succ n ih =>
    intro h
    have ih' := ih (by omega)
    rw [node_base_succ, lvl_pow k n (by omega)]
    have e1 : k + 1 - n = (k - n) + 1 := by omega
    have e2 : k + 1 - (n + 1) = k - n := by omega
    rw [e1, pow_succ] at ih'
    rw [e2]
    omega

theorem node_base_top (k : Nat) : node_base (2 ^ k) k = 2 * 2 ^ k - 2 := by
  have := node_base_pow k k (by omega)
  have e : k + 1 - k = 1 := by omega
  rw [e, pow_succ] at this
  omega

/-! ### Odd multiples of powers of two -/

theorem odd_mul_pow_le (a b i j : Nat) (hb : b % 2 = 1) (h : a * 2 ^ i = b * 2 ^ j) : i ≤ j := by
  by_contra hlt
  obtain ⟨d, hd⟩ : ∃ d, i = j + d + 1 := ⟨i - j - 1, by omega⟩
  rw [hd, pow_succ, pow_add] at h
  have h2 : 0 < 2 ^ j := by positivity
  have h3 : a * (2 ^ d * 2) = b := by
    apply Nat.eq_of_mul_eq_mul_right h2
    rw [← h]; ring
  have h4 : b = 2 * (a * 2 ^ d) := by rw [← h3]; ring
  omega

theorem odd_mul_pow_inj (a b i j : Nat) (ha : a % 2 = 1) (hb : b % 2 = 1)
    (h : a * 2 ^ i = b * 2 ^ j) : i = j ∧ a = b := by
  have h1 := odd_mul_pow_le a b i j hb h
  have h2 := odd_mul_pow_le b a j i ha h.symm
  have hij : i = j := by omega
  subst hij
  exact ⟨rfl, Nat.eq_of_mul_eq_mul_right (by positivity) h⟩

theorem seg_sum_split (f : Nat → Nat → Nat) (j o b : Nat) :
    seg_sum f (j + 1) o b = seg_sum f j (2 * o + 1) b + seg_sum f j (2 * o) b := by
  unfold seg_sum
  have e1 : o * 2 ^ (j + 1) = 2 * o * 2 ^ j := by rw [pow_succ]; ring
  have e2 : (o + 1) * 2 ^ (j + 1) = (2 * o + 1 + 1) * 2 ^ j := by rw [pow_succ]; ring
  rw [e1, e2]
  have h1 : 2 * o * 2 ^ j ≤ (2 * o + 1) * 2 ^ j := Nat.mul_le_mul_right _ (by omega)
  have h2 : (2 * o + 1) * 2 ^ j ≤ (2 * o + 1 + 1) * 2 ^ j := Nat.mul_le_mul_right _ (by omega)
  have h3 := Finset.sum_Ico_consecutive (fun u => f u b) h1 h2
  rw [← h3]
  exact Nat.add_comm _ _

theorem seg_sum_leaf (f : Nat → Nat → Nat) (t b : Nat) : seg_sum f 0 t b = f t b := by
  simp [seg_sum]

/-! ## Up-sweep -/

theorem node_ok_congr (P R : Nat) (H D : Nat → Nat → Nat) (m m' : Memory) (j o : Nat)
    (hd : (m'.prefix_tree (idx P j o)).densities = (m.prefix_tree (idx P j o)).densities)
    (hr : (m'.prefix_tree (idx P j o)).ranks = (m.prefix_tree (idx P j o)).ranks)
    (h : node_ok P R H D m j o) : node_ok P R H D m' j o := by
  unfold node_ok at *
  rw [hd, hr]
  exact h

theorem same_data_refl (m : Memory) : same_data m m := ⟨rfl, rfl, rfl, rfl⟩

theorem same_data_trans {a b c : Memory} (h1 : same_data a b) (h2 : same_data b c) :
    same_data a c :=
  ⟨h2.1.trans h1.1, h2.2.1.trans h1.2.1, h2.2.2.1.trans h1.2.2.1, h2.2.2.2.trans h1.2.2.2⟩

theorem exec_same_data (R : Nat) (m : Memory) (a : Action) : same_data m (exec R m a) := by
  cases a <;> exact ⟨rfl, rfl, rfl, rfl⟩

theorem exec_tree_other (R : Nat) (m : Memory) (a : Action) (i : Nat)
    (h : match a with
      | Action.publish t => i ≠ t
      | Action.SETPAUSE x => i ≠ x
      | Action.WAITPAUSE x => i ≠ x
      | Action.merge n _ _ => i ≠ n
      | Action.merge_densities n _ _ => i ≠ n
      | Action.copy_densities n _ => i ≠ n
      | _ => True) :
    (exec R m a).prefix_tree i = m.prefix_tree i := by
  cases a <;> simp only [exec, setAt] <;> first | rfl | (simp only at h; simp [h])

/-- Publishing the leaf of thread `t`. -/
theorem up_publish (P k R : Nat) (m0 m : Memory) (t : Nat) (_hP : P = 2 ^ k) (ht : t < P)
    (inv : UpInv P k R m0 m (up_full t) t) :
    UpInv P k R m0 (exec R m (Action.publish t)) (up_done t 0) t := by
  have hleaf : idx P 0 t = t := by simp [idx, node_base]
  have hother : ∀ j o, j ≤ k → o < lvl P j → (j, o) ≠ (0, t) →
      (exec R m (Action.publish t)).prefix_tree (idx P j o) = m.prefix_tree (idx P j o) := by
    intro j o _ ho hne
    apply exec_tree_other
    show idx P j o ≠ t
    intro heq
    rw [← hleaf] at heq
    have := idx_inj P j o 0 t ho (by rw [lvl_zero]; exact ht) heq
    exact hne (by rw [this.1, this.2])
  refine ⟨same_data_trans inv.data (exec_same_data R m _), inv.rank_ff_eq, ?_, ?_, ?_⟩
  · intro j o hj ho hdn
    by_cases hjo : (j, o) = (0, t)
    · simp only [Prod.mk.injEq] at hjo
      obtain ⟨rfl, rfl⟩ := hjo
      unfold node_ok
      rw [hleaf]
      simp only [exec, setAt, if_true]
      obtain ⟨_, hrm, hkd, _⟩ := inv.data
      constructor
      · intro b hb; simp [hb, seg_sum_leaf, hkd]
      · intro _ b hb; simp [hb, seg_sum_leaf, hrm]
    · have hfull : up_full t j o := by
        rcases hdn with h | ⟨h1, h2⟩
        · exact h
        · exfalso
          apply hjo
          have : j = 0 := by omega
          subst this
          simp only [pow_zero, Nat.mul_one] at h1
          have : o = t := by omega
          rw [this]
      have hsame := hother j o hj ho hjo
      exact node_ok_congr P R _ _ m _ j o (by rw [hsame]) (by rw [hsame])
        (inv.contents j o hj ho hfull)
  · intro j o hj1 hj ho hc
    have hne : (j, o) ≠ (0, t) := by
      intro h; simp only [Prod.mk.injEq] at h; omega
    rw [hother j o hj ho hne]
    apply inv.flag_set j o hj1 hj ho
    refine ⟨hc.1, fun hf => hc.2 (Or.inl hf)⟩
  · intro j o hj ho hc
    have hflag : ((exec R m (Action.publish t)).prefix_tree (idx P j o)).Flag
        = (m.prefix_tree (idx P j o)).Flag := by
      by_cases hjo : (j, o) = (0, t)
      · simp only [Prod.mk.injEq] at hjo
        obtain ⟨rfl, rfl⟩ := hjo
        rw [hleaf]
        simp [exec, setAt]
      · rw [hother j o hj ho hjo]
    rw [hflag]
    apply inv.flag_clear j o hj ho
    intro ⟨h1, h2, h3⟩
    apply hc
    refine ⟨h1, h2, ?_⟩
    intro hd
    rcases hd with h | ⟨_, h⟩
    · exact h3 h
    · omega

theorem valid_of_le (k j o : Nat) (h : (o + 1) * 2 ^ j ≤ 2 ^ k) : j ≤ k ∧ o < lvl (2 ^ k) j := by
  have hj : j ≤ k := by
    have h1 : 2 ^ j ≤ 2 ^ k := le_trans (Nat.le_mul_of_pos_left _ (by omega)) h
    exact (Nat.pow_le_pow_iff_right (by norm_num)).mp h1
  refine ⟨hj, ?_⟩
  have h2 := lvl_mul_pow k j hj
  rw [← h2] at h
  have := Nat.le_of_mul_le_mul_right h (by positivity)
  omega

theorem half_node (o j t : Nat) (hodd : o % 2 = 1) (ho : (o + 1) * 2 ^ j = t + 1) :
    (o / 2 + 1) * 2 ^ (j + 1) = t + 1 ∧ (2 * (o / 2) + 1) * 2 ^ j ≤ t ∧ o * 2 ^ j ≤ t ∧
      2 * (o / 2) + 1 = o := by
  have h1 : 2 * (o / 2) + 1 = o := by omega
  have hx : 0 < 2 ^ j := by positivity
  have h2 : (o + 1) * 2 ^ j = o * 2 ^ j + 2 ^ j := by ring
  have h3 : (o / 2 + 1) * 2 ^ (j + 1) = (2 * (o / 2) + 1 + 1) * 2 ^ j := by rw [pow_succ]; ring
  refine ⟨by rw [h3, h1, ho], by rw [h1]; omega, by omega, h1⟩

/-- Waiting for the parent's flag and merging the two children into the parent. -/
theorem up_merge_step (k R : Nat) (m0 m : Memory) (t j o : Nat) (ht : t < 2 ^ k)
    (ho : (o + 1) * 2 ^ j = t + 1) (hodd : o % 2 = 1)
    (inv : UpInv (2 ^ k) k R m0 m (up_done t j) t) :
    blocked m (Action.WAITPAUSE (idx (2 ^ k) (j + 1) (o / 2))) = false ∧
      UpInv (2 ^ k) k R m0
        (exec R (exec R m (Action.WAITPAUSE (idx (2 ^ k) (j + 1) (o / 2))))
          (if o / 2 + 1 ≠ lvl (2 ^ k) (j + 1) then
            Action.merge (idx (2 ^ k) (j + 1) (o / 2)) (idx (2 ^ k) j o) (idx (2 ^ k) j o - 1)
          else
            Action.merge_densities (idx (2 ^ k) (j + 1) (o / 2)) (idx (2 ^ k) j o)
              (idx (2 ^ k) j o - 1)))
        (up_done t (j + 1)) t := by
  obtain ⟨hh1, hh2, hh3, hh4⟩ := half_node o j t hodd ho
  have hv1 := valid_of_le k (j + 1) (o / 2) (by rw [hh1]; omega)
  have hvo := valid_of_le k j o (by rw [ho]; omega)
  have hvl := valid_of_le k j (o - 1) (by
    have : o - 1 + 1 = o := by omega
    rw [this]; omega)
  have hjk : j < k := by omega
  have hnotdone : ¬ up_done t j (j + 1) (o / 2) := by
    intro h
    rcases h with h | ⟨_, h⟩
    · omega
    · omega
  have hflag1 : ((m.prefix_tree (idx (2 ^ k) (j + 1) (o / 2))).Flag) = 1 :=
    inv.flag_set (j + 1) (o / 2) (by omega) hv1.1 hv1.2 ⟨by simpa using hh2, hnotdone⟩
  have hblocked : blocked m (Action.WAITPAUSE (idx (2 ^ k) (j + 1) (o / 2))) = false := by
    simp [blocked, hflag1]
  refine ⟨hblocked, ?_⟩
  -- abbreviations
  set n := idx (2 ^ k) (j + 1) (o / 2) with hn
  set mw := exec R m (Action.WAITPAUSE n) with hmw
  have hl : idx (2 ^ k) j o - 1 = idx (2 ^ k) j (o - 1) := by unfold idx; omega
  have hrn : idx (2 ^ k) j o ≠ n := by
    intro h; have := idx_inj _ _ _ _ _ hvo.2 hv1.2 h; omega
  have hln : idx (2 ^ k) j (o - 1) ≠ n := by
    intro h; have := idx_inj _ _ _ _ _ hvl.2 hv1.2 h; omega
  have hmw_other : ∀ i, i ≠ n → mw.prefix_tree i = m.prefix_tree i := by
    intro i hi
    exact exec_tree_other R m (Action.WAITPAUSE n) i hi
  have hmw_n : mw.prefix_tree n = { m.prefix_tree n with Flag := 0 } := by
    simp [hmw, exec, setAt]
  set act := (if o / 2 + 1 ≠ lvl (2 ^ k) (j + 1) then
      Action.merge n (idx (2 ^ k) j o) (idx (2 ^ k) j o - 1)
    else Action.merge_densities n (idx (2 ^ k) j o) (idx (2 ^ k) j o - 1)) with hact
  have hfin_other : ∀ i, i ≠ n → (exec R mw act).prefix_tree i = m.prefix_tree i := by
    intro i hi
    rw [← hmw_other i hi]
    apply exec_tree_other
    by_cases hcnd : o / 2 + 1 = lvl (2 ^ k) (j + 1)
    · simp only [hact, hcnd, ne_eq, not_true_eq_false, if_false]; exact hi
    · simp only [hact, hcnd, ne_eq, not_false_eq_true, if_true]; exact hi
  have hok_r := inv.contents j o hvo.1 hvo.2 (Or.inr ⟨ho, le_refl _⟩)
  have hok_l := inv.contents j (o - 1) hvl.1 hvl.2 (Or.inl (by
    have : o - 1 + 1 = o := by omega
    rw [this]; exact hh3))
  have hdouble := lvl_double k j hjk
  have hdens : ∀ b, b < R → ((exec R mw act).prefix_tree n).densities b
      = seg_sum m0.key_density (j + 1) (o / 2) b := by
    intro b hb
    have e : ((exec R mw act).prefix_tree n).densities b
        = (m.prefix_tree (idx (2 ^ k) j o)).densities b
          + (m.prefix_tree (idx (2 ^ k) j (o - 1))).densities b := by
      by_cases hcnd : o / 2 + 1 = lvl (2 ^ k) (j + 1)
      · simp [hact, hcnd, exec, setAt, hb, hl, hmw_other _ hrn, hmw_other _ hln]
      · simp [hact, hcnd, exec, setAt, hb, hl, hmw_other _ hrn, hmw_other _ hln]
    rw [e, hok_r.1 b hb, hok_l.1 b hb, seg_sum_split, hh4]
    have : 2 * (o / 2) = o - 1 := by omega
    rw [this]
  have hflagn : ((exec R mw act).prefix_tree n).Flag = 0 := by
    by_cases hcnd : o / 2 + 1 = lvl (2 ^ k) (j + 1)
    · simp [hact, hcnd, exec, setAt, hmw_n]
    · simp [hact, hcnd, exec, setAt, hmw_n]
  have hranks : o / 2 + 1 ≠ lvl (2 ^ k) (j + 1) → ∀ b, b < R →
      ((exec R mw act).prefix_tree n).ranks b = seg_sum m0.rank_me (j + 1) (o / 2) b := by
    intro hne b hb
    have e : ((exec R mw act).prefix_tree n).ranks b
        = (m.prefix_tree (idx (2 ^ k) j o)).ranks b
          + (m.prefix_tree (idx (2 ^ k) j (o - 1))).ranks b := by
      rw [hact]
      simp [hne, exec, setAt, hb, hl, hmw_other _ hrn, hmw_other _ hln]
    rw [e, hok_r.2 (Or.inr (by omega)) b hb, hok_l.2 (Or.inr (by omega)) b hb, seg_sum_split, hh4]
    have : 2 * (o / 2) = o - 1 := by omega
    rw [this]
  have hdone_iff : ∀ j' o', j' ≤ k → o' < lvl (2 ^ k) j' → idx (2 ^ k) j' o' ≠ n →
      (up_done t (j + 1) j' o' ↔ up_done t j j' o') := by
    intro j' o' _ ho' hne
    constructor
    · intro h
      rcases h with h | ⟨h1, h2⟩
      · exact Or.inl h
      · by_cases hj' : j' ≤ j
        · exact Or.inr ⟨h1, hj'⟩
        · exfalso
          have hj'' : j' = j + 1 := by omega
          subst hj''
          rw [← hh1] at h1
          have := Nat.eq_of_mul_eq_mul_right (by positivity) h1
          apply hne
          have : o' = o / 2 := by omega
          rw [this]
    · intro h
      rcases h with h | ⟨h1, h2⟩
      · exact Or.inl h
      · exact Or.inr ⟨h1, by omega⟩
  have hdata : same_data m0 (exec R mw act) :=
    same_data_trans (same_data_trans inv.data (exec_same_data R m _)) (exec_same_data R mw _)
  have hrff : (exec R mw act).rank_ff = m0.rank_ff := by
    rw [← inv.rank_ff_eq]
    by_cases hcnd : o / 2 + 1 = lvl (2 ^ k) (j + 1)
    · simp [hact, hcnd, exec, hmw]
    · simp [hact, hcnd, exec, hmw]
  refine ⟨hdata, hrff, ?_, ?_, ?_⟩
  · intro j' o' hj' ho' hdn
    by_cases hne : idx (2 ^ k) j' o' = n
    · have := idx_inj _ _ _ _ _ ho' hv1.2 hne
      obtain ⟨rfl, rfl⟩ := this
      exact ⟨hdens, fun hcond => hranks (by
        rcases hcond with h | h
        · omega
        · exact h)⟩
    · have hsame := hfin_other _ hne
      exact node_ok_congr _ R _ _ m _ j' o' (by rw [hsame]) (by rw [hsame])
        (inv.contents j' o' hj' ho' ((hdone_iff j' o' hj' ho' hne).mp hdn))
  · intro j' o' hj1 hj' ho' hc
    by_cases hne : idx (2 ^ k) j' o' = n
    · exfalso
      have := idx_inj _ _ _ _ _ ho' hv1.2 hne
      obtain ⟨rfl, rfl⟩ := this
      exact hc.2 (Or.inr ⟨hh1, le_refl _⟩)
    · rw [hfin_other _ hne]
      exact inv.flag_set j' o' hj1 hj' ho' ⟨hc.1, fun h => hc.2 ((hdone_iff j' o' hj' ho' hne).mpr h)⟩
  · intro j' o' hj' ho' hc
    by_cases hne : idx (2 ^ k) j' o' = n
    · rw [hne]; exact hflagn
    · rw [hfin_other _ hne]
      apply inv.flag_clear j' o' hj' ho'
      intro ⟨h1, h2, h3⟩
      exact hc ⟨h1, h2, fun h => h3 ((hdone_iff j' o' hj' ho' hne).mp h)⟩

theorem full_succ_iff_done (t j o : Nat) (ho : (o + 1) * 2 ^ j = t + 1) (heven : o % 2 = 0)
    (j' o' : Nat) : up_full (t + 1) j' o' ↔ up_done t j j' o' := by
  unfold up_full up_done
  constructor
  · intro h
    by_cases hle : (o' + 1) * 2 ^ j' ≤ t
    · exact Or.inl hle
    · have heq : (o' + 1) * 2 ^ j' = t + 1 := by omega
      refine Or.inr ⟨heq, ?_⟩
      exact odd_mul_pow_le (o' + 1) (o + 1) j' j (by omega) (by rw [heq, ho])
  · intro h
    rcases h with h | ⟨h, _⟩ <;> omega

/-- Setting the flag of the parent after a left child has been completed: the
thread has finished its up-sweep. -/
theorem up_signal (k R : Nat) (m0 m : Memory) (t j o : Nat) (ht : t < 2 ^ k)
    (ho : (o + 1) * 2 ^ j = t + 1) (heven : o % 2 = 0)
    (inv : UpInv (2 ^ k) k R m0 m (up_done t j) t) :
    UpInv (2 ^ k) k R m0 (exec R m (Action.SETPAUSE (idx (2 ^ k) (j + 1) (o / 2))))
      (up_full (t + 1)) (t + 1) := by
  have hvo := valid_of_le k j o (by rw [ho]; omega)
  set n := idx (2 ^ k) (j + 1) (o / 2) with hn
  have htarget : ∀ j' o', j' ≤ k → o' < lvl (2 ^ k) j' → idx (2 ^ k) j' o' = n →
      j' = j + 1 ∧ o' = o / 2 := by
    intro j' o' hj' ho' heq
    by_cases hjk : j < k
    · have hd := lvl_double k j hjk
      exact idx_inj _ _ _ _ _ ho' (by omega) heq
    · exfalso
      have h1 := idx_lt_next _ j' o' ho'
      have h2 := node_base_mono (2 ^ k) (j' + 1) (j + 1) (by omega)
      simp only [hn, idx] at heq h1
      omega
  have hother : ∀ i, i ≠ n → (exec R m (Action.SETPAUSE n)).prefix_tree i = m.prefix_tree i :=
    fun i hi => exec_tree_other R m (Action.SETPAUSE n) i hi
  have hcont : ∀ i, ((exec R m (Action.SETPAUSE n)).prefix_tree i).densities
        = (m.prefix_tree i).densities ∧
      ((exec R m (Action.SETPAUSE n)).prefix_tree i).ranks = (m.prefix_tree i).ranks := by
    intro i
    by_cases hi : i = n
    · subst hi; simp [exec, setAt]
    · rw [hother i hi]; exact ⟨rfl, rfl⟩
  have hflagn : ((exec R m (Action.SETPAUSE n)).prefix_tree n).Flag = 1 := by
    simp [exec, setAt]
  have hx : 0 < 2 ^ j := by positivity
  have hexp : (o + 1) * 2 ^ j = o * 2 ^ j + 2 ^ j := by ring
  refine ⟨same_data_trans inv.data (exec_same_data R m _), inv.rank_ff_eq, ?_, ?_, ?_⟩
  · intro j' o' hj' ho' hdn
    exact node_ok_congr _ R _ _ m _ j' o' (hcont _).1 (hcont _).2
      (inv.contents j' o' hj' ho' ((full_succ_iff_done t j o ho heven j' o').mp hdn))
  · intro j' o' hj1 hj' ho' hc
    by_cases hne : idx (2 ^ k) j' o' = n
    · rw [hne]; exact hflagn
    · rw [hother _ hne]
      apply inv.flag_set j' o' hj1 hj' ho'
      refine ⟨?_, fun h => hc.2 ((full_succ_iff_done t j o ho heven j' o').mpr h)⟩
      by_contra hgt
      have heq : (2 * o' + 1) * 2 ^ (j' - 1) = (o + 1) * 2 ^ j := by omega
      have := odd_mul_pow_inj (2 * o' + 1) (o + 1) (j' - 1) j (by omega) (by omega) heq
      apply hne
      have e1 : j' = j + 1 := by omega
      have e2 : o' = o / 2 := by omega
      rw [e1, e2]
  · intro j' o' hj' ho' hc
    by_cases hne : idx (2 ^ k) j' o' = n
    · exfalso
      obtain ⟨rfl, rfl⟩ := htarget j' o' hj' ho' hne
      apply hc
      refine ⟨by omega, ?_, ?_⟩
      · have : 2 * (o / 2) + 1 = o + 1 := by omega
        simp only [Nat.add_sub_cancel, this, ho, le_refl]
      · unfold up_full
        have e : (o / 2 + 1) * 2 ^ (j + 1) = (o + 1) * 2 ^ j + 2 ^ j := by
          have : o / 2 + 1 = (o + 2) / 2 := by omega
          have h2 : 2 * (o / 2) = o := by omega
          rw [pow_succ]
          calc (o / 2 + 1) * (2 ^ j * 2) = (2 * (o / 2) + 2) * 2 ^ j := by ring
            _ = (o + 2) * 2 ^ j := by rw [h2]
            _ = (o + 1) * 2 ^ j + 2 ^ j := by ring
        omega
    · rw [hother _ hne]
      apply inv.flag_clear j' o' hj' ho'
      intro ⟨h1, h2, h3⟩
      apply hc
      refine ⟨h1, by omega, fun h => h3 ((full_succ_iff_done t j o ho heven j' o').mp h)⟩

theorem up_loop (k R : Nat) (m0 : Memory) (t : Nat) (ht : t < 2 ^ k) :
    ∀ fuel j o m, (o + 1) * 2 ^ j = t + 1 → o % 2 = 1 → o ≤ fuel →
      UpInv (2 ^ k) k R m0 m (up_done t j) t →
      ∃ m', run_thread R m
          (upsweep_loop fuel o (lvl (2 ^ k) (j + 1)) (node_base (2 ^ k) (j + 1)) (idx (2 ^ k) j o))
          = (m', []) ∧
        UpInv (2 ^ k) k R m0 m' (up_full (t + 1)) (t + 1) := by
  intro fuel
  induction fuel with
  | zero => intro j o m _ hodd hle _; omega
  | succ f ih =>
    intro j o m ho hodd hle inv
    obtain ⟨hblk, inv1⟩ := up_merge_step k R m0 m t j o ht ho hodd inv
    obtain ⟨hh1, _, _, _⟩ := half_node o j t hodd ho
    have hne : o % 2 ≠ 0 := by omega
    have hn : node_base (2 ^ k) (j + 1) + o / 2 = idx (2 ^ k) (j + 1) (o / 2) := rfl
    have hb' : node_base (2 ^ k) (j + 1) + lvl (2 ^ k) (j + 1) = node_base (2 ^ k) (j + 1 + 1) := rfl
    have hl' : lvl (2 ^ k) (j + 1) / 2 = lvl (2 ^ k) (j + 1 + 1) := (lvl_succ _ _).symm
    simp only [upsweep_loop, hne, ne_eq, not_false_eq_true, if_true, hn, hb', hl',
      List.cons_append, List.nil_append]
    rw [run_thread_cons _ _ _ _ hblk]
    set mw := exec R m (Action.WAITPAUSE (idx (2 ^ k) (j + 1) (o / 2)))
    set act := (if ¬ o / 2 + 1 = lvl (2 ^ k) (j + 1) then
        Action.merge (idx (2 ^ k) (j + 1) (o / 2)) (idx (2 ^ k) j o) (idx (2 ^ k) j o - 1)
      else Action.merge_densities (idx (2 ^ k) (j + 1) (o / 2)) (idx (2 ^ k) j o)
        (idx (2 ^ k) j o - 1)) with hact
    have hblk2 : blocked mw act = false := by
      rw [hact]; split <;> rfl
    rw [run_thread_cons _ _ _ _ hblk2]
    by_cases hev : o / 2 % 2 = 0
    · have inv2 := up_signal k R m0 _ t (j + 1) (o / 2) ht hh1 hev inv1
      simp only [hev, if_true, List.cons_append, List.nil_append]
      rw [run_thread_cons R (Action.SETPAUSE _) _ _ rfl]
      refine ⟨_, ?_, inv2⟩
      have hnil : upsweep_loop f (o / 2) (lvl (2 ^ k) (j + 1 + 1)) (node_base (2 ^ k) (j + 1 + 1))
          (idx (2 ^ k) (j + 1) (o / 2)) = [] := by
        cases f <;> simp [upsweep_loop, hev]
      rw [hnil]
      rfl
    · simp only [hev, if_false, List.nil_append]
      exact ih (j + 1) (o / 2) _ hh1 (by omega) (by omega) inv1

/-- The whole up-sweep of thread `t`, started when the threads below `t` have
finished theirs, runs without blocking. -/
theorem up_thread (k R : Nat) (m0 m : Memory) (t : Nat) (ht : t < 2 ^ k)
    (inv : UpInv (2 ^ k) k R m0 m (up_full t) t) :
    ∃ m', run_thread R m (upsweep (2 ^ k) t) = (m', []) ∧
      UpInv (2 ^ k) k R m0 m' (up_full (t + 1)) (t + 1) := by
  have inv0 := up_publish (2 ^ k) k R m0 m t rfl ht inv
  have hl1 : 2 ^ k / 2 = lvl (2 ^ k) (0 + 1) := by simp [lvl]
  have hb1 : 2 ^ k = node_base (2 ^ k) (0 + 1) := by simp [node_base, lvl]
  have hleaf : t = idx (2 ^ k) 0 t := by simp [idx, node_base]
  have ho : (t + 1) * 2 ^ 0 = t + 1 := by simp
  unfold upsweep
  simp only [List.cons_append, List.nil_append]
  rw [run_thread_cons R (Action.publish t) _ _ rfl]
  by_cases hev : t % 2 = 0
  · have inv1 := up_signal k R m0 _ t 0 t ht ho hev inv0
    simp only [hev, if_true, List.cons_append, List.nil_append]
    rw [run_thread_cons R (Action.SETPAUSE _) _ _ rfl]
    have hnil : upsweep_loop t t (2 ^ k / 2) (2 ^ k) t = [] := by
      cases t <;> simp [upsweep_loop, hev]
    rw [hnil]
    refine ⟨_, rfl, ?_⟩
    have e : 2 ^ k + t / 2 = idx (2 ^ k) (0 + 1) (t / 2) := by
      unfold idx; rw [← hb1]
    rw [e]
    exact inv1
  · simp only [hev, if_false, List.nil_append]
    have := up_loop k R m0 t ht t 0 t _ ho (by omega) (le_refl _) inv0
    rw [← hl1, ← hb1, ← hleaf] at this
    exact this

theorem up_seq_inv (k R : Nat) (m : Memory)
    (hflags : ∀ j o, j ≤ k → o < lvl (2 ^ k) j → (m.prefix_tree (idx (2 ^ k) j o)).Flag = 0) :
    ∀ t, t ≤ 2 ^ k → UpInv (2 ^ k) k R m (up_seq k R m t) (up_full t) t := by
  intro t
  induction t with
  | zero =>
    intro _
    refine ⟨same_data_refl m, rfl, ?_, ?_, ?_⟩
    · intro j o _ _ h
      unfold up_full at h
      have : 0 < (o + 1) * 2 ^ j := by positivity
      omega
    · intro j o _ _ _ h
      have : 0 < (2 * o + 1) * 2 ^ (j - 1) := by positivity
      omega
    · intro j o hj ho _
      exact hflags j o hj ho
  | succ n ih =>
    intro hle
    obtain ⟨m', hrun, inv'⟩ := up_thread k R m _ n (by omega) (ih (by omega))
    simp only [up_seq, hrun]
    exact inv'

theorem up_seq_run (k R : Nat) (m : Memory)
    (hflags : ∀ j o, j ≤ k → o < lvl (2 ^ k) j → (m.prefix_tree (idx (2 ^ k) j o)).Flag = 0)
    (t : Nat) (ht : t < 2 ^ k) :
    run_thread R (up_seq k R m t) (upsweep (2 ^ k) t) = (up_seq k R m (t + 1), []) := by
  obtain ⟨m', hrun, _⟩ := up_thread k R m _ t ht (up_seq_inv k R m hflags t (by omega))
  simp only [up_seq, hrun]

/-- The up-sweep phase completes; afterwards every node holds the sums of the
leaves below it and all flags of the tree are clear again. -/
theorem up_phase (k R : Nat) (m : Memory)
    (hflags : ∀ j o, j ≤ k → o < lvl (2 ^ k) j → (m.prefix_tree (idx (2 ^ k) j o)).Flag = 0) :
    ∃ m', run_phase R (List.range (2 ^ k)) ((List.range (2 ^ k)).map (upsweep (2 ^ k))) m
        = Except.ok m' ∧
      UpInv (2 ^ k) k R m m' (up_full (2 ^ k)) (2 ^ k) := by
  refine ⟨up_seq k R m (2 ^ k), ?_, up_seq_inv k R m hflags _ (le_refl _)⟩
  have hpos : 0 < 2 ^ k := by positivity
  have h := run_phase_seq R (List.range (2 ^ k)) ((List.range (2 ^ k)).map (upsweep (2 ^ k)))
    (up_seq k R m) (List.nodup_range _)
    (by intro p hp; simpa using hp)
    (by
      intro i hi
      simp only [List.length_range] at hi
      have e1 : (List.range (2 ^ k)).getD i 0 = i := by
        rw [List.getD_eq_getElem _ _ (by simpa using hi)]; simp
      have e2 : ((List.range (2 ^ k)).map (upsweep (2 ^ k))).getD i [] = upsweep (2 ^ k) i := by
        rw [List.getD_eq_getElem _ _ (by simpa using hi)]; simp
      rw [e1, e2]
      exact up_seq_run k R m hflags i hi)
    (by
      rw [Bool.eq_false_iff]
      intro hall
      rw [List.all_eq_true] at hall
      have := hall (upsweep (2 ^ k) 0) (List.mem_map_of_mem _ (List.mem_range.mpr hpos))
      simp [upsweep] at this)
  simpa using h

/-! ## Down-sweep and offset collection -/

theorem climb_spec (P t : Nat) :
    ∀ fuel i o, (o + 1) * 2 ^ i = t + 1 → o ≤ fuel →
      ∃ z o', climb fuel o (lvl P i) (node_base P i) = (o', lvl P z, node_base P z) ∧
        (o' + 1) * 2 ^ z = t + 1 ∧ o' % 2 = 0 ∧ i ≤ z := by
  intro fuel
  induction fuel with
  | zero =>
    intro i o ho hle
    have : o = 0 := by omega
    subst this
    exact ⟨i, 0, rfl, ho, rfl, le_refl _⟩
  | succ f ih =>
    intro i o ho hle
    by_cases hodd : o % 2 = 1
    · obtain ⟨hh1, _, _, _⟩ := half_node o i t hodd ho
      obtain ⟨z, o', h1, h2, h3, h4⟩ := ih (i + 1) (o / 2) hh1 (by omega)
      refine ⟨z, o', ?_, h2, h3, by omega⟩
      have hne : o % 2 ≠ 0 := by omega
      simp only [climb, hne, ne_eq, not_false_eq_true, if_true]
      rw [← lvl_succ, ← node_base_succ]
      exact h1
    · have hev : o % 2 = 0 := by omega
      exact ⟨i, o, by simp [climb, hev], ho, hev, le_refl _⟩

/-- The nodes `my_node` and `their_node` of a thread that is not the last one. -/
theorem my_their_spec (P t : Nat) :
    ∃ z o z' o', my_node_index P t = idx P z o ∧ their_node_index P t = idx P z' o' ∧
      (o + 1) * 2 ^ z = t + 1 ∧ o % 2 = 0 ∧
      (o' + 1) * 2 ^ z' = t + 1 + 2 ^ z ∧ o' % 2 = 0 := by
  obtain ⟨z, o, h1, h2, h3, _⟩ := climb_spec P t t 0 t (by simp) (le_refl _)
  simp only [lvl_zero, node_base] at h1
  have hx : 0 < 2 ^ z := by positivity
  have ho_le : o ≤ t := by
    have : (o + 1) * 2 ^ z = o * 2 ^ z + 2 ^ z := by ring
    have : o ≤ o * 2 ^ z := Nat.le_mul_of_pos_right _ hx
    omega
  have hpar : (o / 2 + 1) * 2 ^ (z + 1) = (t + 2 ^ z) + 1 := by
    have e : 2 * (o / 2) = o := by omega
    rw [pow_succ]
    calc (o / 2 + 1) * (2 ^ z * 2) = (2 * (o / 2) + 2) * 2 ^ z := by ring
      _ = (o + 2) * 2 ^ z := by rw [e]
      _ = (o + 1) * 2 ^ z + 2 ^ z := by ring
      _ = t + 2 ^ z + 1 := by omega
  obtain ⟨z', o', g1, g2, g3, _⟩ := climb_spec P (t + 2 ^ z) t (z + 1) (o / 2) hpar (by omega)
  refine ⟨z, o, z', o', ?_, ?_, h2, h3, by omega, g3⟩
  · simp only [my_node_index, h1]
    unfold idx; rfl
  · simp only [their_node_index, h1]
    rw [← lvl_succ, ← node_base_succ, g1]
    unfold idx; rfl

theorem DownInv.congr {P k R : Nat} {m2 m : Memory} {fl fl' dn dn' : Nat → Nat → Prop}
    {rf rf' : Nat → Prop} (inv : DownInv P k R m2 m fl dn rf)
    (hfl : ∀ j o, j ≤ k → o < lvl P j → (fl' j o ↔ fl j o))
    (hdn : ∀ j o, j ≤ k → o < lvl P j → dn' j o → dn j o)
    (hrf : ∀ u, rf' u → rf u) : DownInv P k R m2 m fl' dn' rf' :=
  ⟨inv.data, inv.ranks_same, inv.top_dens,
    fun j o hj ho h => inv.dens j o hj ho (hdn j o hj ho h),
    fun j o hj ho h => inv.flag_set j o hj ho ((hfl j o hj ho).mp h),
    fun j o hj ho h => inv.flag_clear j o hj ho (fun h' => h ((hfl j o hj ho).mpr h')),
    fun u hu h => inv.rank_ff u hu (hrf u h)⟩

/-- The last thread takes the top node as `my_node`; nothing has to be done
before its signalling loop. -/
theorem down_start_last (k R : Nat) (m2 m : Memory)
    (inv : DownInv (2 ^ k) k R m2 m (down_fl (2 ^ k) (2 ^ k)) (down_dn (2 ^ k))
      (fun u => 2 ^ k ≤ u)) :
    DownInv (2 ^ k) k R m2 m (sig_fl (2 ^ k) (2 ^ k - 1) 0) (down_dn (2 ^ k - 1))
      (fun u => 2 ^ k - 1 + 1 ≤ u) := by
  have hpos : 0 < 2 ^ k := by positivity
  have e : 2 ^ k - 1 + 1 = 2 ^ k := by omega
  refine ⟨inv.data, inv.ranks_same, inv.top_dens, ?_, ?_, ?_, ?_⟩
  · intro j o hj ho hdn b hb
    obtain ⟨hev, hlt⟩ := hdn
    have hle : (o + 1) * 2 ^ j ≤ 2 ^ k := by
      have := lvl_mul_pow k j hj
      calc (o + 1) * 2 ^ j ≤ lvl (2 ^ k) j * 2 ^ j := Nat.mul_le_mul_right _ (by omega)
        _ = 2 ^ k := this
    have heq : (o + 1) * 2 ^ j = 1 * 2 ^ k := by omega
    obtain ⟨rfl, ho1⟩ := odd_mul_pow_inj (o + 1) 1 j k (by omega) (by norm_num) heq
    have : o = 0 := by omega
    subst this
    rw [inv.top_dens]
  · intro j o hj ho hfl
    exfalso
    rcases hfl with ⟨h, _⟩ | ⟨_, h, _⟩
    · omega
    · rw [e] at h
      obtain ⟨_, _, h3, h4⟩ := h
      omega
  · intro j o hj ho _
    apply inv.flag_clear j o hj ho
    intro ⟨_, _, h3, h4⟩
    omega
  · intro u hu h b hb
    exact inv.rank_ff u hu (by omega) b hb

theorem tracked_of_le (k j o : Nat) (h : (o + 1) * 2 ^ j ≤ 2 ^ k) :
    j ≤ k ∧ o < lvl (2 ^ k) j := valid_of_le k j o h

theorem node_le_of_tracked (k j o : Nat) (hj : j ≤ k) (ho : o < lvl (2 ^ k) j) :
    (o + 1) * 2 ^ j ≤ 2 ^ k := by
  have := lvl_mul_pow k j hj
  calc (o + 1) * 2 ^ j ≤ lvl (2 ^ k) j * 2 ^ j := Nat.mul_le_mul_right _ (by omega)
    _ = 2 ^ k := this

/-- A thread other than the last one waits for the flag of `my_node` and copies
the densities of `their_node` into it. -/
theorem down_copy (k R : Nat) (m2 m : Memory) (t z o z' o' : Nat) (ht : t + 1 < 2 ^ k)
    (ho : (o + 1) * 2 ^ z = t + 1) (hev : o % 2 = 0)
    (ho' : (o' + 1) * 2 ^ z' = t + 1 + 2 ^ z) (hev' : o' % 2 = 0)
    (inv : DownInv (2 ^ k) k R m2 m (down_fl (2 ^ k) (t + 1)) (down_dn (t + 1))
      (fun u => t + 1 ≤ u)) :
    blocked m (Action.WAITPAUSE (idx (2 ^ k) z o)) = false ∧
      DownInv (2 ^ k) k R m2
        (exec R (exec R m (Action.WAITPAUSE (idx (2 ^ k) z o)))
          (Action.copy_densities (idx (2 ^ k) z o) (idx (2 ^ k) z' o')))
        (sig_fl (2 ^ k) t 0) (down_dn t) (fun u => t + 1 ≤ u) := by
  have hx : 0 < 2 ^ z := by positivity
  have hexp : (o + 2) * 2 ^ z = (o + 1) * 2 ^ z + 2 ^ z := by ring
  have hmy := tracked_of_le k z o (by omega)
  -- the right neighbour of `my_node` exists
  have hnb : (o + 2) * 2 ^ z ≤ 2 ^ k := by
    have h1 := lvl_mul_pow k z hmy.1
    have h2 : o + 1 < lvl (2 ^ k) z := by
      by_contra hge
      have : lvl (2 ^ k) z = o + 1 := by omega
      rw [this, ho] at h1
      omega
    calc (o + 2) * 2 ^ z ≤ lvl (2 ^ k) z * 2 ^ z := Nat.mul_le_mul_right _ (by omega)
      _ = 2 ^ k := h1
  have htheir := tracked_of_le k z' o' (by omega)
  have hflag : (m.prefix_tree (idx (2 ^ k) z o)).Flag = 1 :=
    inv.flag_set z o hmy.1 hmy.2 ⟨hev, by omega, by omega, hnb⟩
  have hblk : blocked m (Action.WAITPAUSE (idx (2 ^ k) z o)) = false := by
    simp [blocked, hflag]
  refine ⟨hblk, ?_⟩
  set n := idx (2 ^ k) z o with hn
  set mw := exec R m (Action.WAITPAUSE n) with hmw
  set mc := exec R mw (Action.copy_densities n (idx (2 ^ k) z' o')) with hmc
  have hother : ∀ i, i ≠ n → mc.prefix_tree i = m.prefix_tree i := by
    intro i hi
    rw [hmc, exec_tree_other R mw _ i hi, hmw, exec_tree_other R m _ i hi]
  have hn_flag : (mc.prefix_tree n).Flag = 0 := by
    simp [hmc, hmw, exec, setAt]
  have hn_ranks : (mc.prefix_tree n).ranks = (m.prefix_tree n).ranks := by
    simp [hmc, hmw, exec, setAt]
  have hn_dens : ∀ b, b < R → (mc.prefix_tree n).densities b
      = (m.prefix_tree (idx (2 ^ k) z' o')).densities b := by
    intro b hb
    by_cases hnn : idx (2 ^ k) z' o' = n
    · simp [hmc, hmw, exec, setAt, hb, hnn]
    · simp [hmc, hmw, exec, setAt, hb, hnn]
  have hmy_of : ∀ j' o'', o'' % 2 = 0 → (o'' + 1) * 2 ^ j' = t + 1 → j' = z ∧ o'' = o := by
    intro j' o'' he h
    have := odd_mul_pow_inj (o'' + 1) (o + 1) j' z (by omega) (by omega) (by rw [h, ho])
    omega
  have htop_ne : idx (2 ^ k) k 0 ≠ n := by
    intro h
    have := idx_inj _ _ _ _ _ (by rw [lvl_top]; omega) hmy.2 h
    obtain ⟨rfl, rfl⟩ := this
    simp at ho
    omega
  refine ⟨same_data_trans inv.data
      (same_data_trans (exec_same_data R m _) (exec_same_data R mw _)), ?_, ?_, ?_, ?_, ?_, ?_⟩
  · intro i
    by_cases hi : i = n
    · rw [hi, hn_ranks]; exact inv.ranks_same n
    · rw [hother i hi]; exact inv.ranks_same i
  · rw [hother _ htop_ne]; exact inv.top_dens
  · intro j' o'' hj' ho'' hdn b hb
    by_cases hi : idx (2 ^ k) j' o'' = n
    · rw [hi, hn_dens b hb]
      exact inv.dens z' o' htheir.1 htheir.2 ⟨hev', by omega⟩ b hb
    · rw [hother _ hi]
      apply inv.dens j' o'' hj' ho'' ⟨hdn.1, ?_⟩ b hb
      by_contra hle
      have heq : (o'' + 1) * 2 ^ j' = t + 1 := by have := hdn.2; omega
      obtain ⟨rfl, rfl⟩ := hmy_of j' o'' hdn.1 heq
      exact hi rfl
  · intro j' o'' hj' ho'' hfl
    rcases hfl with ⟨h, _⟩ | ⟨_, h, hne⟩
    · omega
    · have hi : idx (2 ^ k) j' o'' ≠ n := by
        intro h'
        obtain ⟨rfl, rfl⟩ := idx_inj _ _ _ _ _ ho'' hmy.2 h'
        exact hne ho
      rw [hother _ hi]
      exact inv.flag_set j' o'' hj' ho'' h
  · intro j' o'' hj' ho'' hfl
    by_cases hi : idx (2 ^ k) j' o'' = n
    · rw [hi]; exact hn_flag
    · rw [hother _ hi]
      apply inv.flag_clear j' o'' hj' ho''
      intro h
      apply hfl
      refine Or.inr ⟨Nat.zero_le _, h, ?_⟩
      intro heq
      obtain ⟨rfl, rfl⟩ := hmy_of j' o'' h.1 heq
      exact hi rfl
  · intro u hu h b hb
    have : mc.rank_ff = m.rank_ff := by simp [hmc, hmw, exec]
    rw [this]
    exact inv.rank_ff u hu h b hb

/-- One step of the signalling loop: the flag of the left sibling at level `i` is set. -/
theorem down_signal_step (k R : Nat) (m2 m : Memory) (t i o : Nat) (ht : t < 2 ^ k)
    (ho : (o + 1) * 2 ^ i = t + 1) (hodd : o % 2 = 1)
    (dn : Nat → Nat → Prop) (rf : Nat → Prop)
    (inv : DownInv (2 ^ k) k R m2 m (sig_fl (2 ^ k) t i) dn rf) :
    DownInv (2 ^ k) k R m2 (exec R m (Action.SETPAUSE (idx (2 ^ k) i (o - 1))))
      (sig_fl (2 ^ k) t (i + 1)) dn rf := by
  obtain ⟨_, _, hh3, _⟩ := half_node o i t hodd ho
  have hx : 0 < 2 ^ i := by positivity
  have e1 : o - 1 + 1 = o := by omega
  have htar := tracked_of_le k i (o - 1) (by rw [e1]; omega)
  set n := idx (2 ^ k) i (o - 1) with hn
  have hother : ∀ x, x ≠ n → (exec R m (Action.SETPAUSE n)).prefix_tree x = m.prefix_tree x :=
    fun x hx' => exec_tree_other R m (Action.SETPAUSE n) x hx'
  have hcont : ∀ x, ((exec R m (Action.SETPAUSE n)).prefix_tree x).densities
        = (m.prefix_tree x).densities ∧
      ((exec R m (Action.SETPAUSE n)).prefix_tree x).ranks = (m.prefix_tree x).ranks := by
    intro x
    by_cases hxn : x = n
    · subst hxn; simp [exec, setAt]
    · rw [hother x hxn]; exact ⟨rfl, rfl⟩
  have hflagn : ((exec R m (Action.SETPAUSE n)).prefix_tree n).Flag = 1 := by
    simp [exec, setAt]
  have hiff : ∀ j' o'', j' ≤ k → o'' < lvl (2 ^ k) j' → idx (2 ^ k) j' o'' ≠ n →
      (sig_fl (2 ^ k) t (i + 1) j' o'' ↔ sig_fl (2 ^ k) t i j' o'') := by
    intro j' o'' _ ho'' hne
    have hnot : ¬ (j' = i ∧ o'' = o - 1) := by
      intro ⟨h1, h2⟩; apply hne; rw [h1, h2]
    unfold sig_fl down_fl
    constructor
    · intro h
      rcases h with ⟨h1, h2⟩ | ⟨h1, h2⟩
      · by_cases hji : j' < i
        · exact Or.inl ⟨hji, h2⟩
        · have hji' : j' = i := by omega
          subst hji'
          obtain ⟨a, b, c, d⟩ := h2
          have e2 : (o'' + 2) * 2 ^ j' = (o'' + 1) * 2 ^ j' + 2 ^ j' := by ring
          refine Or.inr ⟨le_refl _, ⟨a, by omega, ?_, d⟩, by omega⟩
          by_contra hge
          have heq : (o'' + 2) * 2 ^ j' = (o + 1) * 2 ^ j' := by omega
          have := Nat.eq_of_mul_eq_mul_right hx heq
          exact hnot ⟨rfl, by omega⟩
      · exact Or.inr ⟨by omega, h2⟩
    · intro h
      rcases h with ⟨h1, h2⟩ | ⟨h1, h2, h3⟩
      · exact Or.inl ⟨by omega, h2⟩
      · by_cases hji : j' = i
        · subst hji
          obtain ⟨a, b, c, d⟩ := h2
          exact Or.inl ⟨by omega, a, by omega, by omega, d⟩
        · exact Or.inr ⟨by omega, h2, h3⟩
  refine ⟨same_data_trans inv.data (exec_same_data R m _), ?_, ?_, ?_, ?_, ?_, ?_⟩
  · intro x; rw [(hcont x).2]; exact inv.ranks_same x
  · rw [(hcont _).1]; exact inv.top_dens
  · intro j' o'' hj' ho'' hdn b hb
    rw [(hcont _).1]; exact inv.dens j' o'' hj' ho'' hdn b hb
  · intro j' o'' hj' ho'' hfl
    by_cases hne : idx (2 ^ k) j' o'' = n
    · rw [hne]; exact hflagn
    · rw [hother _ hne]
      exact inv.flag_set j' o'' hj' ho'' ((hiff j' o'' hj' ho'' hne).mp hfl)
  · intro j' o'' hj' ho'' hfl
    by_cases hne : idx (2 ^ k) j' o'' = n
    · exfalso
      obtain ⟨rfl, rfl⟩ := idx_inj _ _ _ _ _ ho'' htar.2 hne
      apply hfl
      refine Or.inl ⟨by omega, by omega, by rw [e1]; exact hh3, ?_, ?_⟩
      · have : o - 1 + 2 = o + 1 := by omega
        rw [this, ho]; omega
      · have : o - 1 + 2 = o + 1 := by omega
        rw [this, ho]; omega
    · rw [hother _ hne]
      exact inv.flag_clear j' o'' hj' ho'' (fun h => hfl ((hiff j' o'' hj' ho'' hne).mpr h))
  · intro u hu h b hb
    exact inv.rank_ff u hu h b hb

theorem sig_fl_done (k t i o : Nat) (ho : (o + 1) * 2 ^ i = t + 1) (hev : o % 2 = 0)
    (j' o'' : Nat) : down_fl (2 ^ k) t j' o'' ↔ sig_fl (2 ^ k) t i j' o'' := by
  unfold sig_fl down_fl
  constructor
  · intro ⟨a, b, c, d⟩
    by_cases hji : j' < i
    · exact Or.inl ⟨hji, a, b, c, d⟩
    · refine Or.inr ⟨by omega, ⟨a, by omega, ?_, d⟩, by omega⟩
      by_contra hge
      have heq : (o'' + 2) * 2 ^ j' = t + 1 := by omega
      have e : (o'' / 2 + 1) * 2 ^ (j' + 1) = (o + 1) * 2 ^ i := by
        have e2 : 2 * (o'' / 2) = o'' := by omega
        rw [ho, ← heq, pow_succ]
        calc (o'' / 2 + 1) * (2 ^ j' * 2) = (2 * (o'' / 2) + 2) * 2 ^ j' := by ring
          _ = (o'' + 2) * 2 ^ j' := by rw [e2]
      have := odd_mul_pow_le (o'' / 2 + 1) (o + 1) (j' + 1) i (by omega) e
      omega
  · intro h
    rcases h with ⟨_, h⟩ | ⟨_, ⟨a, b, c, d⟩, e⟩
    · exact h
    · exact ⟨a, by omega, by omega, d⟩

/-- The signalling loop of thread `t` runs without blocking. -/
theorem down_signals (k R : Nat) (m2 : Memory) (t : Nat) (ht : t < 2 ^ k)
    (dn : Nat → Nat → Prop) (rf : Nat → Prop) :
    ∀ fuel i o m, (o + 1) * 2 ^ i = t + 1 → o ≤ fuel →
      DownInv (2 ^ k) k R m2 m (sig_fl (2 ^ k) t i) dn rf →
      ∃ m', run_thread R m (signal_loop fuel o (lvl (2 ^ k) i) (node_base (2 ^ k) i)) = (m', []) ∧
        DownInv (2 ^ k) k R m2 m' (down_fl (2 ^ k) t) dn rf := by
  intro fuel
  induction fuel with
  | zero =>
    intro i o m ho hle inv
    have : o = 0 := by omega
    subst this
    exact ⟨m, rfl, inv.congr (fun j' o'' _ _ => sig_fl_done k t i 0 ho rfl j' o'')
      (fun _ _ _ _ h => h) (fun _ h => h)⟩
  | succ f ih =>
    intro i o m ho hle inv
    by_cases hodd : o % 2 = 1
    · obtain ⟨hh1, _, _, _⟩ := half_node o i t hodd ho
      have hne : o % 2 ≠ 0 := by omega
      have inv1 := down_signal_step k R m2 m t i o ht ho hodd dn rf inv
      obtain ⟨m', hrun, inv'⟩ := ih (i + 1) (o / 2) _ hh1 (by omega) inv1
      refine ⟨m', ?_, inv'⟩
      simp only [signal_loop, hne, ne_eq, not_false_eq_true, if_true]
      rw [run_thread_cons R (Action.SETPAUSE _) _ _ rfl]
      have e : node_base (2 ^ k) i + o - 1 = idx (2 ^ k) i (o - 1) := by unfold idx; omega
      rw [e, ← lvl_succ, ← node_base_succ]
      exact hrun
    · have hev : o % 2 = 0 := by omega
      refine ⟨m, by simp [signal_loop, hev, run_thread], ?_⟩
      exact inv.congr (fun j' o'' _ _ => sig_fl_done k t i o ho hev j' o'')
        (fun _ _ _ _ h => h) (fun _ h => h)

theorem exec_add_ranks (R : Nat) (m : Memory) (t l : Nat) :
    (exec R m (Action.add_ranks t l)).prefix_tree = m.prefix_tree ∧
      same_data m (exec R m (Action.add_ranks t l)) ∧
      (∀ u, u ≠ t → (exec R m (Action.add_ranks t l)).rank_ff u = m.rank_ff u) ∧
      ∀ b, b < R → (exec R m (Action.add_ranks t l)).rank_ff t b
        = m.rank_ff t b + (m.prefix_tree l).ranks b := by
  refine ⟨rfl, ⟨rfl, rfl, rfl, rfl⟩, ?_, ?_⟩
  · intro u hu; simp [exec, setAt, hu]
  · intro b hb; simp [exec, setAt, hb]

/-- The loop that adds the ranks of the left siblings adds, in total, the ranks
of all threads below `t`. -/
theorem rank_loop_spec (k R : Nat) (H : Nat → Nat → Nat) (t : Nat) (ht : t < 2 ^ k) :
    ∀ fuel i o (m : Memory), o * 2 ^ i ≤ t → t < (o + 1) * 2 ^ i → o ≤ fuel →
      (∀ j o', j ≤ k → o' < lvl (2 ^ k) j → o' + 1 ≠ lvl (2 ^ k) j → ∀ b, b < R →
        (m.prefix_tree (idx (2 ^ k) j o')).ranks b = seg_sum H j o' b) →
      ∃ m', run_thread R m (rank_loop t fuel o (lvl (2 ^ k) i) (node_base (2 ^ k) i)) = (m', []) ∧
        m'.prefix_tree = m.prefix_tree ∧ same_data m m' ∧
        (∀ u, u ≠ t → m'.rank_ff u = m.rank_ff u) ∧
        ∀ b, b < R → m'.rank_ff t b = m.rank_ff t b + ∑ v in Finset.Ico 0 (o * 2 ^ i), H v b := by
  intro fuel
  induction fuel with
  | zero =>
    intro i o m _ _ hle _
    have : o = 0 := by omega
    subst this
    exact ⟨m, rfl, rfl, same_data_refl m, fun _ _ => rfl, fun b _ => by simp⟩
  | succ f ih =>
    intro i o m hlo hhi hle hranks
    by_cases h0 : o = 0
    · subst h0
      exact ⟨m, by simp [rank_loop, run_thread], rfl, same_data_refl m, fun _ _ => rfl,
        fun b _ => by simp⟩
    · have hx : 0 < 2 ^ i := by positivity
      have hpow : 2 ^ (i + 1) = 2 * 2 ^ i := by rw [pow_succ]; ring
      by_cases hodd : o % 2 = 1
      · -- the thread is a right child at this level
        have e1 : o - 1 + 1 = o := by omega
        have htar := tracked_of_le k i (o - 1) (by rw [e1]; omega)
        have hnr : o - 1 + 1 ≠ lvl (2 ^ k) i := by
          rw [e1]
          intro heq
          have := lvl_mul_pow k i htar.1
          rw [← heq] at this
          omega
        have hlo' : o / 2 * 2 ^ (i + 1) ≤ t := by
          have : o / 2 * 2 ^ (i + 1) = (o - 1) * 2 ^ i := by
            rw [hpow]
            have : 2 * (o / 2) = o - 1 := by omega
            calc o / 2 * (2 * 2 ^ i) = (2 * (o / 2)) * 2 ^ i := by ring
              _ = (o - 1) * 2 ^ i := by rw [this]
          rw [this]
          have : (o - 1) * 2 ^ i ≤ o * 2 ^ i := Nat.mul_le_mul_right _ (by omega)
          omega
        have hhi' : t < (o / 2 + 1) * 2 ^ (i + 1) := by
          have : (o / 2 + 1) * 2 ^ (i + 1) = (o + 1) * 2 ^ i := by
            rw [hpow]
            have : 2 * (o / 2) + 2 = o + 1 := by omega
            calc (o / 2 + 1) * (2 * 2 ^ i) = (2 * (o / 2) + 2) * 2 ^ i := by ring
              _ = (o + 1) * 2 ^ i := by rw [this]
          rw [this]; exact hhi
        obtain ⟨g1, g2, g3, g4⟩ := exec_add_ranks R m t (idx (2 ^ k) i (o - 1))
        obtain ⟨m', hrun, p1, p2, p3, p4⟩ := ih (i + 1) (o / 2)
          (exec R m (Action.add_ranks t (idx (2 ^ k) i (o - 1)))) hlo' hhi' (by omega)
          (by intro j o' hj ho' hne b hb; rw [g1]; exact hranks j o' hj ho' hne b hb)
        refine ⟨m', ?_, p1.trans g1, same_data_trans g2 p2,
          fun u hu => (p3 u hu).trans (g3 u hu), ?_⟩
        · have hne : o % 2 ≠ 0 := by omega
          simp only [rank_loop, h0, hne, ne_eq, not_false_eq_true, if_true, List.cons_append,
            List.nil_append]
          rw [run_thread_cons R (Action.add_ranks _ _) _ _ rfl]
          have e : node_base (2 ^ k) i + o - 1 = idx (2 ^ k) i (o - 1) := by unfold idx; omega
          rw [e, ← lvl_succ, ← node_base_succ]
          exact hrun
        · intro b hb
          rw [p4 b hb, g4 b hb, hranks i (o - 1) htar.1 htar.2 hnr b hb, Nat.add_assoc]
          congr 1
          unfold seg_sum
          rw [e1]
          have hsplit : o / 2 * 2 ^ (i + 1) = (o - 1) * 2 ^ i := by
            rw [hpow]
            have : 2 * (o / 2) = o - 1 := by omega
            calc o / 2 * (2 * 2 ^ i) = (2 * (o / 2)) * 2 ^ i := by ring
              _ = (o - 1) * 2 ^ i := by rw [this]
          rw [hsplit, Nat.add_comm]
          exact Finset.sum_Ico_consecutive (fun v => H v b) (Nat.zero_le _)
            (Nat.mul_le_mul_right _ (by omega))
      · have hev : o % 2 = 0 := by omega
        have heq : o / 2 * 2 ^ (i + 1) = o * 2 ^ i := by
          rw [hpow]
          have : 2 * (o / 2) = o := by omega
          calc o / 2 * (2 * 2 ^ i) = (2 * (o / 2)) * 2 ^ i := by ring
            _ = o * 2 ^ i := by rw [this]
        have hhi' : t < (o / 2 + 1) * 2 ^ (i + 1) := by
          have : (o / 2 + 1) * 2 ^ (i + 1) = o / 2 * 2 ^ (i + 1) + 2 ^ (i + 1) := by ring
          have h2 : (o + 1) * 2 ^ i = o * 2 ^ i + 2 ^ i := by ring
          omega
        obtain ⟨m', hrun, p1, p2, p3, p4⟩ := ih (i + 1) (o / 2) m (by rw [heq]; exact hlo) hhi'
          (by omega) hranks
        refine ⟨m', ?_, p1, p2, p3, ?_⟩
        · simp only [rank_loop, h0, hev, ne_eq, not_false_eq_true, not_true_eq_false, if_true,
            if_false, List.nil_append]
          rw [← lvl_succ, ← node_base_succ]
          exact hrun
        · intro b hb
          rw [p4 b hb, heq]

/-- The tail of the down-sweep of thread `t`: clearing `rank_ff`, adding the
ranks of the left siblings and the global densities. -/
theorem down_offsets (k R : Nat) (m2 m : Memory) (t z o : Nat) (ht : t < 2 ^ k)
    (ho : (o + 1) * 2 ^ z = t + 1) (hev : o % 2 = 0)
    (hup : ∀ j o', j ≤ k → o' < lvl (2 ^ k) j → o' + 1 ≠ lvl (2 ^ k) j → ∀ b, b < R →
      (m2.prefix_tree (idx (2 ^ k) j o')).ranks b = seg_sum m2.rank_me j o' b)
    (inv : DownInv (2 ^ k) k R m2 m (down_fl (2 ^ k) t) (down_dn t) (fun u => t + 1 ≤ u)) :
    ∃ m', run_thread R m
        ([Action.clear_rank_ff t] ++ (rank_loop t t t (2 ^ k) 0
          ++ [Action.add_densities t (idx (2 ^ k) z o)])) = (m', []) ∧
      DownInv (2 ^ k) k R m2 m' (down_fl (2 ^ k) t) (down_dn t) (fun u => t ≤ u) := by
  set mc := exec R m (Action.clear_rank_ff t) with hmc
  have hc_tree : mc.prefix_tree = m.prefix_tree := rfl
  have hc_t : ∀ b, b < R → mc.rank_ff t b = 0 := by
    intro b hb; simp [hmc, exec, setAt, hb]
  have hc_o : ∀ u, u ≠ t → mc.rank_ff u = m.rank_ff u := by
    intro u hu; simp [hmc, exec, setAt, hu]
  obtain ⟨mr, hrun, r1, r2, r3, r4⟩ := rank_loop_spec k R m2.rank_me t ht t 0 t mc
    (by simp) (by simp) (le_refl _)
    (by
      intro j o' hj ho' hne b hb
      rw [hc_tree, inv.ranks_same]
      exact hup j o' hj ho' hne b hb)
  simp only [lvl_zero, node_base] at hrun
  set ma := exec R mr (Action.add_densities t (idx (2 ^ k) z o)) with hma
  have hmy := tracked_of_le k z o (by omega)
  have ha_tree : ma.prefix_tree = m.prefix_tree := by
    rw [← hc_tree, ← r1]; rfl
  refine ⟨ma, ?_, ?_⟩
  · simp only [List.cons_append, List.nil_append]
    rw [run_thread_cons R (Action.clear_rank_ff t) _ _ rfl, run_thread_append R _ _ _ _ hrun,
      run_thread_cons R (Action.add_densities _ _) _ _ rfl]
    rfl
  · refine ⟨same_data_trans inv.data (same_data_trans (exec_same_data R m _)
        (same_data_trans r2 (exec_same_data R mr _))), ?_, ?_, ?_, ?_, ?_, ?_⟩
    · intro i; rw [ha_tree]; exact inv.ranks_same i
    · rw [ha_tree]; exact inv.top_dens
    · intro j' o'' hj' ho'' hdn b hb
      rw [ha_tree]; exact inv.dens j' o'' hj' ho'' hdn b hb
    · intro j' o'' hj' ho'' hfl
      rw [ha_tree]; exact inv.flag_set j' o'' hj' ho'' hfl
    · intro j' o'' hj' ho'' hfl
      rw [ha_tree]; exact inv.flag_clear j' o'' hj' ho'' hfl
    · intro u hu hle b hb
      by_cases hut : u = t
      · subst hut
        have hdens : ∀ c, c < R → (mr.prefix_tree (idx (2 ^ k) z o)).densities c
            = (m2.prefix_tree (idx (2 ^ k) k 0)).densities c := by
          intro c hc
          rw [r1, hc_tree]
          exact inv.dens z o hmy.1 hmy.2 ⟨hev, by omega⟩ c hc
        have hsum : ∑ v in Finset.Ico 0 (u * 2 ^ 0), m2.rank_me v b
            = ∑ v in Finset.range u, m2.rank_me v b := by
          rw [pow_zero, Nat.mul_one, Finset.range_eq_Ico]
        unfold rank_spec
        by_cases hb1 : 1 ≤ b
        · have : ma.rank_ff u b = mr.rank_ff u b
              + (mr.prefix_tree (idx (2 ^ k) z o)).densities (b - 1) := by
            show (exec R mr (Action.add_densities u (idx (2 ^ k) z o))).rank_ff u b = _
            simp [exec, setAt, hb, hb1]
          rw [this, r4 b hb, hc_t b hb, hdens (b - 1) (by omega), hsum]
          simp [hb1]
        · have : ma.rank_ff u b = mr.rank_ff u b := by
            show (exec R mr (Action.add_densities u (idx (2 ^ k) z o))).rank_ff u b = _
            simp [exec, setAt, hb1]
          rw [this, r4 b hb, hc_t b hb, hsum]
          simp [hb1]
      · have : ma.rank_ff u = m.rank_ff u := by
          have e1 : ma.rank_ff u = mr.rank_ff u := by
            show (exec R mr (Action.add_densities t (idx (2 ^ k) z o))).rank_ff u = _
            simp [exec, setAt, hut]
          rw [e1, r3 u hut, hc_o u hut]
        rw [this]
        exact inv.rank_ff u hu (by omega) b hb

/-- The whole down-sweep of thread `t`, started when the threads above `t`
have finished theirs, runs without blocking. -/
theorem down_thread (k R : Nat) (m2 m : Memory) (t : Nat) (ht : t < 2 ^ k)
    (hup : ∀ j o', j ≤ k → o' < lvl (2 ^ k) j → o' + 1 ≠ lvl (2 ^ k) j → ∀ b, b < R →
      (m2.prefix_tree (idx (2 ^ k) j o')).ranks b = seg_sum m2.rank_me j o' b)
    (inv : DownInv (2 ^ k) k R m2 m (down_fl (2 ^ k) (t + 1)) (down_dn (t + 1))
      (fun u => t + 1 ≤ u)) :
    ∃ m', run_thread R m (downsweep (2 ^ k) t) = (m', []) ∧
      DownInv (2 ^ k) k R m2 m' (down_fl (2 ^ k) t) (down_dn t) (fun u => t ≤ u) := by
  have h0 : (t + 1) * 2 ^ 0 = t + 1 := by simp
  by_cases hlast : t + 1 = 2 ^ k
  · -- the last thread
    have et : t = 2 ^ k - 1 := by omega
    have inv0 : DownInv (2 ^ k) k R m2 m (sig_fl (2 ^ k) t 0) (down_dn t)
        (fun u => t + 1 ≤ u) := by
      have inv' := inv
      rw [hlast] at inv'
      have := down_start_last k R m2 m inv'
      rw [← et] at this
      exact this
    obtain ⟨ms, hs, invs⟩ := down_signals k R m2 t ht _ _ t 0 t m h0 (le_refl _) inv0
    simp only [lvl_zero, node_base] at hs
    obtain ⟨m', hr, inv'⟩ := down_offsets k R m2 ms t k 0 ht (by simp [hlast]) rfl hup invs
    refine ⟨m', ?_, inv'⟩
    have emy : 2 * 2 ^ k - 2 = idx (2 ^ k) k 0 := by
      unfold idx; rw [node_base_top]; rfl
    simp only [downsweep, hlast, ne_eq, not_true_eq_false, if_false, List.nil_append,
      List.append_assoc, emy]
    rw [run_thread_append R _ _ _ _ hs]
    exact hr
  · obtain ⟨z, o, z', o', e1, e2, g1, g2, g3, g4⟩ := my_their_spec (2 ^ k) t
    obtain ⟨hblk, inva⟩ := down_copy k R m2 m t z o z' o' (by omega) g1 g2 g3 g4 inv
    obtain ⟨ms, hs, invs⟩ := down_signals k R m2 t ht _ _ t 0 t _ h0 (le_refl _) inva
    simp only [lvl_zero, node_base] at hs
    obtain ⟨m', hr, inv'⟩ := down_offsets k R m2 ms t z o ht g1 g2 hup invs
    refine ⟨m', ?_, inv'⟩
    simp only [downsweep, hlast, ne_eq, not_false_eq_true, if_true, List.append_assoc, e1, e2,
      List.cons_append, List.nil_append]
    rw [run_thread_cons R (Action.WAITPAUSE _) _ _ hblk,
      run_thread_cons R (Action.copy_densities _ _) _ _ rfl, run_thread_append R _ _ _ _ hs]
    exact hr

theorem down_seq_inv (k R : Nat) (m2 : Memory)
    (hflags : ∀ j o, j ≤ k → o < lvl (2 ^ k) j → (m2.prefix_tree (idx (2 ^ k) j o)).Flag = 0)
    (hup : ∀ j o', j ≤ k → o' < lvl (2 ^ k) j → o' + 1 ≠ lvl (2 ^ k) j → ∀ b, b < R →
      (m2.prefix_tree (idx (2 ^ k) j o')).ranks b = seg_sum m2.rank_me j o' b) :
    ∀ i, i ≤ 2 ^ k →
      DownInv (2 ^ k) k R m2 (down_seq k R m2 i) (down_fl (2 ^ k) (2 ^ k - i))
        (down_dn (2 ^ k - i)) (fun u => 2 ^ k - i ≤ u) := by
  intro i
  induction i with
  | zero =>
    intro _
    refine ⟨same_data_refl m2, fun _ => rfl, rfl, ?_, ?_, ?_, ?_⟩
    · intro j o hj ho hdn
      have := node_le_of_tracked k j o hj ho
      have := hdn.2
      omega
    · intro j o _ _ hfl
      obtain ⟨_, _, h3, h4⟩ := hfl
      omega
    · intro j o hj ho _
      exact hflags j o hj ho
    · intro u hu h
      simp only [Nat.sub_zero] at h
      omega
  | succ n ih =>
    intro hle
    have e : 2 ^ k - n = (2 ^ k - 1 - n) + 1 := by omega
    have inv := ih (by omega)
    rw [e] at inv
    obtain ⟨m', hrun, inv'⟩ := down_thread k R m2 _ (2 ^ k - 1 - n) (by omega) hup inv
    have e' : 2 ^ k - (n + 1) = 2 ^ k - 1 - n := by omega
    simp only [down_seq, hrun, e']
    exact inv'

theorem down_seq_run (k R : Nat) (m2 : Memory)
    (hflags : ∀ j o, j ≤ k → o < lvl (2 ^ k) j → (m2.prefix_tree (idx (2 ^ k) j o)).Flag = 0)
    (hup : ∀ j o', j ≤ k → o' < lvl (2 ^ k) j → o' + 1 ≠ lvl (2 ^ k) j → ∀ b, b < R →
      (m2.prefix_tree (idx (2 ^ k) j o')).ranks b = seg_sum m2.rank_me j o' b)
    (i : Nat) (hi : i < 2 ^ k) :
    run_thread R (down_seq k R m2 i) (downsweep (2 ^ k) (2 ^ k - 1 - i))
      = (down_seq k R m2 (i + 1), []) := by
  have e : 2 ^ k - i = (2 ^ k - 1 - i) + 1 := by omega
  have inv := down_seq_inv k R m2 hflags hup i (by omega)
  rw [e] at inv
  obtain ⟨m', hrun, _⟩ := down_thread k R m2 _ (2 ^ k - 1 - i) (by omega) hup inv
  simp only [down_seq, hrun]

/-- The down-sweep phase completes; afterwards every thread holds its offsets
and all flags of the tree are clear again. -/
theorem down_phase (k R : Nat) (m2 : Memory)
    (hflags : ∀ j o, j ≤ k → o < lvl (2 ^ k) j → (m2.prefix_tree (idx (2 ^ k) j o)).Flag = 0)
    (hup : ∀ j o', j ≤ k → o' < lvl (2 ^ k) j → o' + 1 ≠ lvl (2 ^ k) j → ∀ b, b < R →
      (m2.prefix_tree (idx (2 ^ k) j o')).ranks b = seg_sum m2.rank_me j o' b) :
    ∃ m3, run_phase R (List.range (2 ^ k)).reverse ((List.range (2 ^ k)).map (downsweep (2 ^ k))) m2
        = Except.ok m3 ∧
      DownInv (2 ^ k) k R m2 m3 (down_fl (2 ^ k) 0) (down_dn 0) (fun u => 0 ≤ u) := by
  have hpos : 0 < 2 ^ k := by positivity
  refine ⟨down_seq k R m2 (2 ^ k), ?_, ?_⟩
  · have h := run_phase_seq R (List.range (2 ^ k)).reverse
      ((List.range (2 ^ k)).map (downsweep (2 ^ k))) (down_seq k R m2)
      (List.nodup_reverse.mpr (List.nodup_range _))
      (by intro p hp; simpa using hp)
      (by
        intro i hi
        simp only [List.length_reverse, List.length_range] at hi
        have e1 : (List.range (2 ^ k)).reverse.getD i 0 = 2 ^ k - 1 - i := by
          rw [List.getD_eq_getElem _ _ (by simpa using hi)]
          simp [List.getElem_reverse]
        have e2 : ((List.range (2 ^ k)).map (downsweep (2 ^ k))).getD (2 ^ k - 1 - i) []
            = downsweep (2 ^ k) (2 ^ k - 1 - i) := by
          rw [List.getD_eq_getElem _ _ (by simp; omega)]; simp
        rw [e1, e2]
        exact down_seq_run k R m2 hflags hup i hi)
      (by
        rw [Bool.eq_false_iff]
        intro hall
        rw [List.all_eq_true] at hall
        have := hall (downsweep (2 ^ k) 0) (List.mem_map_of_mem _ (List.mem_range.mpr hpos))
        simp [downsweep] at this)
    simpa using h
  · have := down_seq_inv k R m2 hflags hup (2 ^ k) (le_refl _)
    simpa using this

/-! ## Histogram phase -/

theorem setAt_same {α : Type} (a : Nat → α) (i : Nat) (v : α) : setAt a i v i = v := by
  simp [setAt]

theorem setAt_other {α : Type} (a : Nat → α) (i j : Nat) (v : α) (h : j ≠ i) :
    setAt a i v j = a j := by
  simp [setAt, h]

theorem count_keys_spec (R s : Nat) (kf : Nat → Nat) (ks : Nat) :
    ∀ (n : Nat) (rm : Nat → Nat) (b : Nat),
      (List.range' ks n).foldl
          (fun rk i => setAt rk (digit R s (kf i)) (rk (digit R s (kf i)) + 1)) rm b
        = rm b + ∑ i in Finset.Ico ks (ks + n), if digit R s (kf i) = b then 1 else 0 := by
  intro n
  induction n with
  | zero => intro rm b; simp
  | succ n ih =>
    intro rm b
    rw [List.range'_concat, List.foldl_append]
    simp only [List.foldl_cons, List.foldl_nil, Nat.one_mul]
    have hsum : ∑ i in Finset.Ico ks (ks + (n + 1)), (if digit R s (kf i) = b then 1 else 0)
        = (∑ i in Finset.Ico ks (ks + n), if digit R s (kf i) = b then 1 else 0)
          + (if digit R s (kf (ks + n)) = b then 1 else 0) := by
      rw [← Nat.add_assoc, Finset.sum_Ico_succ_top (by omega)]
    rw [hsum]
    by_cases hb : b = digit R s (kf (ks + n))
    · subst hb
      rw [setAt_same, ih]
      simp only [if_true]
      omega
    · have hb' : ¬ digit R s (kf (ks + n)) = b := fun h => hb h.symm
      rw [setAt_other _ _ _ _ hb, ih]
      simp only [hb', if_false]
      omega

theorem density_loop_spec (rm kd0 : Nat → Nat) :
    ∀ (n : Nat) (b : Nat), b ≤ n →
      (List.range' 1 n).foldl (fun kd i => setAt kd i (kd (i - 1) + rm i)) (setAt kd0 0 (rm 0)) b
        = ∑ c in Finset.range (b + 1), rm c := by
  intro n
  induction n with
  | zero =>
    intro b hb
    have : b = 0 := by omega
    subst this
    simp [setAt]
  | succ n ih =>
    intro b hb
    rw [List.range'_concat, List.foldl_append]
    simp only [List.foldl_cons, List.foldl_nil, Nat.one_mul]
    by_cases hbn : b = 1 + n
    · subst hbn
      have e : 1 + n = n + 1 := by omega
      rw [setAt_same, Nat.add_sub_cancel_left, ih n (le_refl _), e,
        Finset.sum_range_succ _ (n + 1)]
    · rw [setAt_other _ _ _ _ hbn]
      exact ih b (by omega)

/-- Number of keys with digit `b` among the source positions `lo ≤ i < hi`. -/
theorem histogram_spec (R s from_ t : Nat) (m : Memory) :
    let m' := histogram R s from_ t m
    m'.key = m.key ∧ m'.key_partition = m.key_partition ∧ m'.prefix_tree = m.prefix_tree ∧
      m'.rank_ff = m.rank_ff ∧
      (∀ u, u ≠ t → m'.rank_me u = m.rank_me u ∧ m'.key_density u = m.key_density u) ∧
      (∀ b, b < R → m'.rank_me t b
        = ∑ i in Finset.Ico (m.key_partition t)
            (m.key_partition t + (m.key_partition (t + 1) - m.key_partition t)),
            if digit R s (m.key from_ i) = b then 1 else 0) ∧
      (∀ b, b < R → m'.key_density t b = ∑ c in Finset.range (b + 1), m'.rank_me t c) := by
  refine ⟨rfl, rfl, rfl, rfl, ?_, ?_, ?_⟩
  · intro u hu
    simp [histogram, setAt, hu]
  · intro b hb
    simp only [histogram, setAt, if_true, count_keys]
    rw [count_keys_spec]
    simp [hb]
  · intro b hb
    simp only [histogram, setAt, if_true, density_loop]
    exact density_loop_spec _ _ (R - 1) b (by omega)

theorem histogram_all_spec (R s from_ : Nat) (m : Memory) :
    ∀ P, let m1 := (List.range P).foldl (fun m t => histogram R s from_ t m) m
      m1.key = m.key ∧ m1.key_partition = m.key_partition ∧ m1.prefix_tree = m.prefix_tree ∧
        m1.rank_ff = m.rank_ff ∧
        (∀ u, P ≤ u → m1.rank_me u = m.rank_me u ∧ m1.key_density u = m.key_density u) ∧
        (∀ t, t < P → ∀ b, b < R → m1.rank_me t b
          = ∑ i in Finset.Ico (m.key_partition t)
              (m.key_partition t + (m.key_partition (t + 1) - m.key_partition t)),
              if digit R s (m.key from_ i) = b then 1 else 0) ∧
        (∀ t, t < P → ∀ b, b < R →
          m1.key_density t b = ∑ c in Finset.range (b + 1), m1.rank_me t c) := by
  intro P
  induction P with
  | zero =>
    refine ⟨rfl, rfl, rfl, rfl, fun _ _ => ⟨rfl, rfl⟩, ?_, ?_⟩ <;> intro t ht <;> omega
  | succ n ih =>
    simp only [List.range_succ, List.foldl_append, List.foldl_cons, List.foldl_nil]
    obtain ⟨a1, a2, a3, a4, a5, a6, a7⟩ := ih
    set mn := (List.range n).foldl (fun m t => histogram R s from_ t m) m with hmn
    obtain ⟨b1, b2, b3, b4, b5, b6, b7⟩ := histogram_spec R s from_ n mn
    refine ⟨b1.trans a1, b2.trans a2, b3.trans a3, b4.trans a4, ?_, ?_, ?_⟩
    · intro u hu
      have h1 := b5 u (by omega)
      have h2 := a5 u (by omega)
      exact ⟨h1.1.trans h2.1, h1.2.trans h2.2⟩
    · intro t ht b hb
      by_cases htn : t = n
      · subst htn
        rw [b6 b hb, a1, a2]
      · rw [(b5 t htn).1]
        exact a6 t (by omega) b hb
    · intro t ht b hb
      by_cases htn : t = n
      · subst htn
        exact b7 b hb
      · rw [(b5 t htn).1, (b5 t htn).2]
        exact a7 t (by omega) b hb

/-- Sums over the key ranges of the threads below `t` add up to a sum over the
keys below the boundary of `t`. -/
theorem sum_partition (kp : Nat → Nat) (f : Nat → Nat) (h0 : kp 0 = 0) :
    ∀ t, (∀ u, u < t → kp u ≤ kp (u + 1)) →
      ∑ v in Finset.range t, ∑ i in Finset.Ico (kp v) (kp v + (kp (v + 1) - kp v)), f i
        = ∑ i in Finset.range (kp t), f i := by
  intro t
  induction t with
  | zero => intro _; simp [h0]
  | succ n ih =>
    intro hmono
    rw [Finset.sum_range_succ, ih (fun u hu => hmono u (by omega))]
    have hle := hmono n (by omega)
    have e : kp n + (kp (n + 1) - kp n) = kp (n + 1) := by omega
    rw [e, Finset.range_eq_Ico]
    exact Finset.sum_Ico_consecutive f (Nat.zero_le _) hle

theorem sum_indicator_le (d : Nat → Nat) (S : Finset Nat) (b : Nat) :
    ∑ c in Finset.range (b + 1), ∑ i in S, (if d i = c then 1 else 0)
      = ∑ i in S, if d i ≤ b then 1 else 0 := by
  rw [Finset.sum_comm]
  apply Finset.sum_congr rfl
  intro i _
  by_cases h : d i ≤ b
  · simp only [h, if_true]
    rw [Finset.sum_ite_eq]
    simp [Finset.mem_range]
    omega
  · simp only [h, if_false]
    apply Finset.sum_eq_zero
    intro c hc
    have := Finset.mem_range.mp hc
    have : d i ≠ c := by omega
    simp [this]

/-! ## The offsets computed by the tree -/

/-- Histogram, up-sweep and down-sweep of a pass with `2 ^ k` threads: both
tree phases complete, and every thread ends with the offsets of a stable
partition by digit. -/
theorem scan_offsets (k R s N from_ : Nat) (m : Memory) (hfl : flags_clear k m)
    (hkp : partition_ok m.key_partition (2 ^ k) N) :
    ∃ m2 m3,
      run_phase R (List.range (2 ^ k)) ((List.range (2 ^ k)).map (upsweep (2 ^ k)))
          ((List.range (2 ^ k)).foldl (fun m t => histogram R s from_ t m) m) = Except.ok m2 ∧
      run_phase R (List.range (2 ^ k)).reverse ((List.range (2 ^ k)).map (downsweep (2 ^ k))) m2
          = Except.ok m3 ∧
      m3.key = m.key ∧ m3.key_partition = m.key_partition ∧ flags_clear k m3 ∧
      ∀ t, t < 2 ^ k → ∀ b, b < R → m3.rank_ff t b
        = offset_spec (fun i => digit R s (m.key from_ i)) N m.key_partition t b := by
  obtain ⟨h0, hN, hmono⟩ := hkp
  obtain ⟨a1, a2, a3, a4, _, a6, a7⟩ := histogram_all_spec R s from_ m (2 ^ k)
  set m1 := (List.range (2 ^ k)).foldl (fun m t => histogram R s from_ t m) m with hm1
  have hfl1 : flags_clear k m1 := by
    intro j o hj ho; rw [a3]; exact hfl j o hj ho
  obtain ⟨m2, hup, uinv⟩ := up_phase k R m1 hfl1
  have hfl2 : flags_clear k m2 := by
    intro j o hj ho
    apply uinv.flag_clear j o hj ho
    intro ⟨_, _, h⟩
    exact h (node_le_of_tracked k j o hj ho)
  have hrm2 : m2.rank_me = m1.rank_me := uinv.data.2.1
  have hranks : ∀ j o', j ≤ k → o' < lvl (2 ^ k) j → o' + 1 ≠ lvl (2 ^ k) j → ∀ b, b < R →
      (m2.prefix_tree (idx (2 ^ k) j o')).ranks b = seg_sum m2.rank_me j o' b := by
    intro j o' hj ho' hne b hb
    rw [hrm2]
    exact (uinv.contents j o' hj ho' (node_le_of_tracked k j o' hj ho')).2 (Or.inr hne) b hb
  obtain ⟨m3, hdown, dinv⟩ := down_phase k R m2 hfl2 hranks
  refine ⟨m2, m3, hup, hdown, ?_, ?_, ?_, ?_⟩
  · rw [dinv.data.1, uinv.data.1, a1]
  · rw [dinv.data.2.2.2, uinv.data.2.2.2, a2]
  · intro j o hj ho
    apply dinv.flag_clear j o hj ho
    intro ⟨_, h, _⟩
    have : 0 < (o + 1) * 2 ^ j := by positivity
    omega
  · intro t ht b hb
    rw [dinv.rank_ff t ht (Nat.zero_le _) b hb]
    unfold rank_spec offset_spec
    rw [Nat.add_comm]
    congr 1
    · -- the global part: keys with a smaller digit
      by_cases hb1 : 1 ≤ b
      · simp only [hb1, if_true]
        have htop := (uinv.contents k 0 (le_refl _) (by rw [lvl_top]; omega)
          (node_le_of_tracked k k 0 (le_refl _) (by rw [lvl_top]; omega))).1 (b - 1) (by omega)
        rw [htop]
        unfold seg_sum
        simp only [Nat.zero_mul, Nat.zero_add, Nat.one_mul]
        rw [← Finset.range_eq_Ico]
        have hkd : ∀ v ∈ Finset.range (2 ^ k), m1.key_density v (b - 1)
            = ∑ i in Finset.Ico (m.key_partition v)
                (m.key_partition v + (m.key_partition (v + 1) - m.key_partition v)),
                if digit R s (m.key from_ i) ≤ b - 1 then 1 else 0 := by
          intro v hv
          have hv' := Finset.mem_range.mp hv
          rw [a7 v hv' (b - 1) (by omega)]
          rw [← sum_indicator_le]
          apply Finset.sum_congr rfl
          intro c hc
          have := Finset.mem_range.mp hc
          exact a6 v hv' c (by omega)
        rw [Finset.sum_congr rfl hkd,
          sum_partition m.key_partition _ h0 (2 ^ k) hmono, hN]
        apply Finset.sum_congr rfl
        intro i _
        by_cases h : digit R s (m.key from_ i) < b
        · have h' : digit R s (m.key from_ i) ≤ b - 1 := by omega
          simp [h, h']
        · have h' : ¬ digit R s (m.key from_ i) ≤ b - 1 := by omega
          simp [h, h']
      · have hb0 : b = 0 := by omega
        subst hb0
        simp
    · -- the part of the threads below `t`
      rw [hrm2]
      have hrk : ∀ v ∈ Finset.range t, m1.rank_me v b
          = ∑ i in Finset.Ico (m.key_partition v)
              (m.key_partition v + (m.key_partition (v + 1) - m.key_partition v)),
              if digit R s (m.key from_ i) = b then 1 else 0 := by
        intro v hv
        have hv' := Finset.mem_range.mp hv
        exact a6 v (by omega) b hb
      rw [Finset.sum_congr rfl hrk,
        sum_partition m.key_partition _ h0 t (fun u hu => hmono u (by omega))]

/-! ## Destinations of a stable partition -/

theorem count_prefix_le (p : Nat → Prop) [DecidablePred p] (i N : Nat) (h : i ≤ N) :
    ∑ j in Finset.range i, (if p j then 1 else 0)
      ≤ ∑ j in Finset.range N, (if p j then 1 else 0) :=
  Finset.sum_le_sum_of_subset (Finset.range_subset.mpr h)

theorem count_prefix_lt (p : Nat → Prop) [DecidablePred p] (i N : Nat) (h : i < N) (hp : p i) :
    ∑ j in Finset.range i, (if p j then 1 else 0)
      < ∑ j in Finset.range N, (if p j then 1 else 0) := by
  have h1 := count_prefix_le p (i + 1) N h
  rw [Finset.sum_range_succ] at h1
  simp only [hp, if_true] at h1
  omega

theorem count_lt_add_eq (dg : Nat → Nat) (N a : Nat) :
    (∑ j in Finset.range N, if dg j < a then 1 else 0)
        + (∑ j in Finset.range N, if dg j = a then 1 else 0)
      = ∑ j in Finset.range N, if dg j ≤ a then 1 else 0 := by
  rw [← Finset.sum_add_distrib]
  apply Finset.sum_congr rfl
  intro j _
  by_cases h1 : dg j < a
  · have h2 : ¬ dg j = a := by omega
    have h3 : dg j ≤ a := by omega
    simp [h1, h2, h3]
  · by_cases h2 : dg j = a
    · have h3 : dg j ≤ a := by omega
      simp [h1, h2, h3]
    · have h3 : ¬ dg j ≤ a := by omega
      simp [h1, h2, h3]

theorem count_le_mono (dg : Nat → Nat) (N a b : Nat) (h : a < b) :
    (∑ j in Finset.range N, if dg j ≤ a then 1 else 0)
      ≤ ∑ j in Finset.range N, if dg j < b then 1 else 0 := by
  apply Finset.sum_le_sum
  intro j _
  by_cases h1 : dg j ≤ a
  · have h2 : dg j < b := by omega
    simp [h1, h2]
  · simp [h1]

/-- The destination `dest` is strictly increasing in the order "smaller digit
first, then smaller source position". -/
theorem dest_strict (dg : Nat → Nat) (N i j : Nat) (_hi : i < N) (hj : j < N)
    (h : dg j < dg i ∨ (dg j = dg i ∧ j < i)) : dest dg N j < dest dg N i := by
  unfold dest
  rcases h with h | ⟨h1, h2⟩
  · have a := count_prefix_lt (fun x => dg x = dg j) j N hj rfl
    beta_reduce at a
    have b := count_lt_add_eq dg N (dg j)
    have c := count_le_mono dg N (dg j) (dg i) h
    omega
  · rw [h1]
    have a := count_prefix_lt (fun x => dg x = dg i) j i h2 h1
    beta_reduce at a
    omega

theorem dest_inj (dg : Nat → Nat) (N i j : Nat) (hi : i < N) (hj : j < N)
    (h : dest dg N i = dest dg N j) : i = j := by
  by_contra hne
  rcases Nat.lt_trichotomy (dg i) (dg j) with h1 | h1 | h1
  · have := dest_strict dg N j i hj hi (Or.inl h1); omega
  · rcases Nat.lt_or_gt_of_ne hne with h2 | h2
    · have := dest_strict dg N j i hj hi (Or.inr ⟨h1, h2⟩); omega
    · have := dest_strict dg N i j hi hj (Or.inr ⟨h1.symm, h2⟩); omega
  · have := dest_strict dg N i j hi hj (Or.inl h1); omega

theorem dest_lt (dg : Nat → Nat) (N i : Nat) (hi : i < N) : dest dg N i < N := by
  unfold dest
  have a := count_prefix_lt (fun x => dg x = dg i) i N hi rfl
  beta_reduce at a
  have b := count_lt_add_eq dg N (dg i)
  have c : (∑ j in Finset.range N, if dg j ≤ dg i then 1 else 0) ≤ N := by
    calc (∑ j in Finset.range N, if dg j ≤ dg i then 1 else 0)
        ≤ ∑ _j in Finset.range N, 1 := by
          apply Finset.sum_le_sum
          intro j _
          split <;> omega
      _ = N := by simp
  omega

/-! ## Scatter -/

theorem scatter_loop_spec (R s N from_ to_ t : Nat) (src : Nat → Nat) (m0 : Memory)
    (hft : from_ ≠ to_) (hdg : ∀ i, i < N → digit R s (src i) < R) :
    ∀ n i (m : Memory), i + n ≤ N →
      ScatInv R N from_ to_ src (fun i => digit R s (src i)) m0 m t i →
      ∃ m', (List.range' i n).foldlM
          (fun (m : Memory) i =>
            let this_key := digit R s (m.key from_ i)
            let tmp := m.rank_ff t this_key
            if tmp < N then
              Except.ok
                { m with
                  key := setAt m.key to_ (setAt (m.key to_) tmp (m.key from_ i))
                  rank_ff := setAt m.rank_ff t (setAt (m.rank_ff t) this_key (tmp + 1)) }
            else (Except.error Fault.out_of_bounds : Except Fault Memory)) m = Except.ok m' ∧
        ScatInv R N from_ to_ src (fun i => digit R s (src i)) m0 m' t (i + n) := by
  intro n
  induction n with
  | zero => intro i m _ inv; exact ⟨m, rfl, inv⟩
  | succ n ih =>
    intro i m hle inv
    have hi : i < N := by omega
    have htmp : m.rank_ff t (digit R s (m.key from_ i))
        = dest (fun i => digit R s (src i)) N i := by
      rw [inv.key_from, inv.mine _ (hdg i hi)]
      rfl
    have hlt := dest_lt (fun i => digit R s (src i)) N i hi
    set m1 : Memory :=
      { m with
        key := setAt m.key to_ (setAt (m.key to_) (m.rank_ff t (digit R s (m.key from_ i)))
          (m.key from_ i))
        rank_ff := setAt m.rank_ff t (setAt (m.rank_ff t) (digit R s (m.key from_ i))
          (m.rank_ff t (digit R s (m.key from_ i)) + 1)) } with hm1
    have inv1 : ScatInv R N from_ to_ src (fun i => digit R s (src i)) m0 m1 t (i + 1) := by
      refine ⟨?_, inv.kp, inv.tree, ?_, ?_, ?_⟩
      · show setAt m.key to_ _ from_ = src
        rw [setAt_other _ _ _ _ hft]
        exact inv.key_from
      · intro u hu
        show setAt m.rank_ff t _ u = m0.rank_ff u
        rw [setAt_other _ _ _ _ hu]
        exact inv.others u hu
      · intro b hb
        show setAt m.rank_ff t _ t b = _
        rw [setAt_same, Finset.sum_range_succ, inv.key_from]
        by_cases hbd : b = digit R s (src i)
        · subst hbd
          rw [setAt_same, inv.mine _ hb]
          simp only [if_true]
          omega
        · have hbd' : ¬ digit R s (src i) = b := fun h => hbd h.symm
          rw [setAt_other _ _ _ _ hbd, inv.mine _ hb]
          simp only [hbd', if_false]
          omega
      · intro j hj
        show setAt m.key to_ _ to_ (dest _ N j) = src j
        rw [setAt_same, htmp]
        by_cases hji : j = i
        · subst hji
          rw [setAt_same, inv.key_from]
        · have hne : dest (fun i => digit R s (src i)) N j
              ≠ dest (fun i => digit R s (src i)) N i := by
            intro h
            exact hji (dest_inj _ N j i (by omega) hi h)
          rw [setAt_other _ _ _ _ hne]
          exact inv.placed j (by omega)
    obtain ⟨m', hrun, inv'⟩ := ih (i + 1) m1 (by omega) inv1
    refine ⟨m', ?_, by rw [← Nat.add_assoc, Nat.add_right_comm] at *; simpa [Nat.add_assoc, Nat.add_comm 1 n] using inv'⟩
    rw [List.range'_succ, List.foldlM_cons]
    have hcond : m.rank_ff t (digit R s (m.key from_ i)) < N := by rw [htmp]; exact hlt
    simp only [hcond, if_true]
    exact hrun

theorem partition_le (kp : Nat → Nat) (P N : Nat) (h : partition_ok kp P N) :
    ∀ u, u ≤ P → kp u ≤ N := by
  obtain ⟨_, hN, hmono⟩ := h
  have key : ∀ d u, u + d = P → kp u ≤ kp P := by
    intro d
    induction d with
    | zero => intro u hu; simp only [Nat.add_zero] at hu; rw [hu]
    | succ n ih =>
      intro u hu
      exact (hmono u (by omega)).trans (ih (u + 1) (by omega))
  intro u hu
  rw [← hN]
  exact key (P - u) u (by omega)

/-- The scatter loop of thread `t` completes without writing out of bounds and
places the keys of the thread at their destinations. -/
theorem scatter_thread_spec (R s N from_ to_ P t : Nat) (src : Nat → Nat) (m0 m : Memory)
    (hft : from_ ≠ to_) (hdg : ∀ i, i < N → digit R s (src i) < R)
    (hkp : partition_ok m0.key_partition P N) (ht : t < P)
    (inv : ScatAll R N from_ to_ src (fun i => digit R s (src i)) m0 m P t) :
    ∃ m', scatter R s N from_ to_ t m = Except.ok m' ∧
      ScatAll R N from_ to_ src (fun i => digit R s (src i)) m0 m' P (t + 1) := by
  have hle := hkp.2.2 t ht
  have hN := partition_le _ P N hkp (t + 1) (by omega)
  have inv0 : ScatInv R N from_ to_ src (fun i => digit R s (src i)) m m t
      (m0.key_partition t) :=
    ⟨inv.key_from, rfl, rfl, fun _ _ => rfl, fun b hb => inv.offsets t (le_refl _) ht b hb,
      inv.placed⟩
  obtain ⟨m', hrun, inv'⟩ := scatter_loop_spec R s N from_ to_ t src m hft hdg
    (m0.key_partition (t + 1) - m0.key_partition t) (m0.key_partition t) m (by omega) inv0
  have e : m0.key_partition t + (m0.key_partition (t + 1) - m0.key_partition t)
      = m0.key_partition (t + 1) := by omega
  rw [e] at inv'
  refine ⟨m', ?_, ⟨inv'.key_from, inv'.kp.trans inv.kp, inv'.tree.trans inv.tree, ?_,
    inv'.placed⟩⟩
  · unfold scatter
    rw [inv.kp]
    exact hrun
  · intro u hu huP b hb
    rw [inv'.others u (by omega)]
    exact inv.offsets u (by omega) huP b hb

theorem scatter_all_spec (R s N from_ to_ P : Nat) (src : Nat → Nat) (m0 : Memory)
    (hft : from_ ≠ to_) (hdg : ∀ i, i < N → digit R s (src i) < R)
    (hkp : partition_ok m0.key_partition P N) :
    ∀ n t (m : Memory), t + n = P →
      ScatAll R N from_ to_ src (fun i => digit R s (src i)) m0 m P t →
      ∃ m', (List.range' t n).foldlM (fun m MyNum => scatter R s N from_ to_ MyNum m) m
          = Except.ok m' ∧
        ScatAll R N from_ to_ src (fun i => digit R s (src i)) m0 m' P P := by
  intro n
  induction n with
  | zero =>
    intro t m ht inv
    simp only [Nat.add_zero] at ht
    subst ht
    exact ⟨m, rfl, inv⟩
  | succ n ih =>
    intro t m ht inv
    obtain ⟨m1, h1, inv1⟩ := scatter_thread_spec R s N from_ to_ P t src m0 m hft hdg hkp
      (by omega) inv
    obtain ⟨m', h', inv'⟩ := ih (t + 1) m1 (by omega) inv1
    refine ⟨m', ?_, inv'⟩
    rw [List.range'_succ, List.foldlM_cons, h1]
    exact h'

/-! ## One pass -/

/-- A pass with `2 ^ k` threads completes, and moves the key at source position
`j` to position `dest j` of the destination buffer: a stable partition by the
current digit. -/
theorem sort_pass_spec (k R s N from_ to_ : Nat) (m : Memory) (hft : from_ ≠ to_)
    (hfl : flags_clear k m) (hkp : partition_ok m.key_partition (2 ^ k) N)
    (hdg : ∀ i, i < N → digit R s (m.key from_ i) < R) :
    ∃ m', sort_pass (2 ^ k) R N s from_ to_ m = Except.ok m' ∧
      m'.key from_ = m.key from_ ∧ m'.key_partition = m.key_partition ∧ flags_clear k m' ∧
      ∀ j, j < N →
        m'.key to_ (dest (fun i => digit R s (m.key from_ i)) N j) = m.key from_ j := by
  obtain ⟨m2, m3, hup, hdown, hkey, hkp3, hfl3, hoff⟩ := scan_offsets k R s N from_ m hfl hkp
  have hkp' : partition_ok m3.key_partition (2 ^ k) N := by rw [hkp3]; exact hkp
  have inv0 : ScatAll R N from_ to_ (m.key from_) (fun i => digit R s (m.key from_ i)) m3 m3
      (2 ^ k) 0 :=
    ⟨by rw [hkey], rfl, rfl,
      fun u _ hu b hb => by rw [hoff u hu b hb, hkp3],
      fun j hj => by rw [hkp3, hkp.1] at hj; omega⟩
  obtain ⟨m', hrun, inv'⟩ := scatter_all_spec R s N from_ to_ (2 ^ k) (m.key from_) m3 hft hdg
    hkp' (2 ^ k) 0 m3 (by simp) inv0
  refine ⟨m', ?_, inv'.key_from, inv'.kp.trans hkp3, ?_, ?_⟩
  · simp only [sort_pass, hup, hdown, bind, Except.bind]
    rw [List.range_eq_range']
    exact hrun
  · intro j o hj ho
    rw [inv'.tree]
    exact hfl3 j o hj ho
  · intro j hj
    apply inv'.placed j
    rw [hkp3, hkp.2.1]
    exact hj

/-! ## `log_2` on the radices accepted by `main` -/

theorem log_2_pow (l : Nat) (hl : l ≤ 30) : log_2 ((2 ^ l : Nat) : Int) = (l : Int) := by
  interval_cases l <;> rfl

/-! ## Permutation and order across a pass -/

theorem dest_surj (dg : Nat → Nat) (N : Nat) : ∀ y, y < N → ∃ x, x < N ∧ dest dg N x = y := by
  intro y hy
  have h := Finset.surj_on_of_inj_on_of_card_le (s := Finset.range N) (t := Finset.range N)
    (fun a _ => dest dg N a)
    (fun a ha => Finset.mem_range.mpr (dest_lt dg N a (Finset.mem_range.mp ha)))
    (fun a b ha hb h => dest_inj dg N a b (Finset.mem_range.mp ha) (Finset.mem_range.mp hb) h)
    (le_refl _) y (Finset.mem_range.mpr hy)
  obtain ⟨x, hx, hxy⟩ := h
  exact ⟨x, Finset.mem_range.mp hx, hxy.symm⟩

/-- Moving every key to its destination permutes the buffer. -/
theorem perm_of_dest (dg f g : Nat → Nat) (N : Nat)
    (h : ∀ j, j < N → g (dest dg N j) = f j) :
    ((List.range N).map g).Perm ((List.range N).map f) := by
  have hmap : (List.range N).map f = ((List.range N).map (dest dg N)).map g := by
    rw [List.map_map]
    apply List.map_congr_left
    intro j hj
    exact (h j (List.mem_range.mp hj)).symm
  rw [hmap]
  apply List.Perm.map
  apply List.Perm.symm
  apply (List.perm_ext_iff_of_nodup ?_ (List.nodup_range N)).mpr
  · intro y
    constructor
    · intro hy
      obtain ⟨x, hx, rfl⟩ := List.mem_map.mp hy
      exact List.mem_range.mpr (dest_lt dg N x (List.mem_range.mp hx))
    · intro hy
      obtain ⟨x, hx, hxy⟩ := dest_surj dg N y (List.mem_range.mp hy)
      exact List.mem_map.mpr ⟨x, List.mem_range.mpr hx, hxy⟩
  · apply List.Nodup.map_on _ (List.nodup_range N)
    intro a ha b hb hab
    exact dest_inj dg N a b (List.mem_range.mp ha) (List.mem_range.mp hb) hab

/-- A stable partition by digit `p` of a buffer ordered by its low `p` digits is
ordered by its low `p + 1` digits. -/
theorem order_of_dest (R p N : Nat) (f g : Nat → Nat) (hR : 0 < R)
    (hord : ∀ i j, i < j → j < N → f i % R ^ p ≤ f j % R ^ p)
    (h : ∀ j, j < N → g (dest (fun i => f i / R ^ p % R) N j) = f j) :
    ∀ a b, a < b → b < N → g a % R ^ (p + 1) ≤ g b % R ^ (p + 1) := by
  intro a b hab hb
  obtain ⟨i, hi, hia⟩ := dest_surj (fun i => f i / R ^ p % R) N a (by omega)
  obtain ⟨j, hj, hjb⟩ := dest_surj (fun i => f i / R ^ p % R) N b hb
  rw [← hia, ← hjb, h i hi, h j hj, Nat.mod_pow_succ, Nat.mod_pow_succ]
  have hpos : 0 < R ^ p := by positivity
  have hlex : f i / R ^ p % R < f j / R ^ p % R ∨
      (f i / R ^ p % R = f j / R ^ p % R ∧ i < j) := by
    rcases Nat.lt_trichotomy (f i / R ^ p % R) (f j / R ^ p % R) with h1 | h1 | h1
    · exact Or.inl h1
    · rcases Nat.lt_trichotomy i j with h2 | h2 | h2
      · exact Or.inr ⟨h1, h2⟩
      · subst h2; omega
      · have := dest_strict (fun i => f i / R ^ p % R) N i j hi hj (Or.inr ⟨h1.symm, h2⟩)
        omega
    · have := dest_strict (fun i => f i / R ^ p % R) N i j hi hj (Or.inl h1)
      omega
  rcases hlex with h1 | ⟨h1, h2⟩
  · have hm : f i % R ^ p < R ^ p := Nat.mod_lt _ hpos
    have : R ^ p * (f i / R ^ p % R + 1) ≤ R ^ p * (f j / R ^ p % R) :=
      Nat.mul_le_mul_left _ h1
    rw [Nat.mul_add, Nat.mul_one] at this
    generalize f i % R ^ p = x at *
    generalize f j % R ^ p = y at *
    generalize R ^ p * (f i / R ^ p % R) = u at *
    generalize R ^ p * (f j / R ^ p % R) = v at *
    omega
  · rw [h1]
    have := hord i j h2 hj
    exact Nat.add_le_add_right this _

theorem dest_congr (dg dg' : Nat → Nat) (N j : Nat) (hj : j < N)
    (h : ∀ i, i < N → dg i = dg' i) : dest dg N j = dest dg' N j := by
  unfold dest
  rw [h j hj]
  congr 1
  · apply Finset.sum_congr rfl
    intro i hi
    rw [h i (Finset.mem_range.mp hi)]
  · apply Finset.sum_congr rfl
    intro i hi
    rw [h i (by have := Finset.mem_range.mp hi; omega)]

theorem buffer_mem (N : Nat) (f : Nat → Nat) (i : Nat) (hi : i < N) : f i ∈ buffer N f :=
  List.mem_map.mpr ⟨i, List.mem_range.mpr hi, rfl⟩

/-- One pass of the sort re-establishes the pass invariant for the next digit,
with the roles of the two buffers exchanged. -/
theorem pass_step (k l N : Nat) (keys : List Nat) (m : Memory) (p from_ to_ : Nat)
    (hkeys : ∀ x, x ∈ keys → x < 2 ^ 32)
    (inv : PassInv k (2 ^ l) N keys m p from_ to_) :
    ∃ m', sort_pass (2 ^ k) (2 ^ l) N (p * l) from_ to_ m = Except.ok m' ∧
      PassInv k (2 ^ l) N keys m' (p + 1) to_ from_ := by
  have hft : from_ ≠ to_ := by rcases inv.bufs with ⟨a, b⟩ | ⟨a, b⟩ <;> omega
  have hlt : ∀ i, i < N → m.key from_ i < 2 ^ 32 := fun i hi =>
    hkeys _ (inv.perm.subset (buffer_mem N _ i hi))
  obtain ⟨m', hrun, h1, h2, h3, h4⟩ := sort_pass_spec k (2 ^ l) (p * l) N from_ to_ m hft
    inv.flags inv.kp (fun i hi => digit_lt l (p * l) _ (hlt i hi))
  have hpow : 2 ^ (p * l) = (2 ^ l) ^ p := by rw [Nat.mul_comm, pow_mul]
  have hdest : ∀ j, j < N →
      m'.key to_ (dest (fun i => m.key from_ i / (2 ^ l) ^ p % 2 ^ l) N j) = m.key from_ j := by
    intro j hj
    rw [← h4 j hj]
    congr 1
    apply dest_congr _ _ N j hj
    intro i hi
    rw [digit_eq_div_mod l (p * l) _ (hlt i hi), hpow]
  refine ⟨m', hrun, ⟨inv.bufs.symm.imp (fun h => ⟨h.2, h.1⟩) (fun h => ⟨h.2, h.1⟩), h3,
    by rw [h2]; exact inv.kp, ?_, ?_⟩⟩
  · exact (perm_of_dest _ _ _ N hdest).trans inv.perm
  · exact order_of_dest (2 ^ l) p N _ _ (by positivity) inv.ord hdest

/-- The pass loop of `slave_sort` with `2 ^ k` threads completes; the buffer it
reports holds a permutation of the input ordered by the low `D` digits. -/
theorem slave_sort_loop_spec (k l N D : Nat) (keys : List Nat)
    (hkeys : ∀ x, x ∈ keys → x < 2 ^ 32) :
    ∀ todo loopnum from_ to_ (m : Memory), todo + 1 + loopnum = D →
      PassInv k (2 ^ l) N keys m loopnum from_ to_ →
      ∃ m' final, slave_sort_loop (2 ^ k) (2 ^ l) l N D (todo + 1) loopnum from_ to_ m
          = Except.ok (m', final) ∧
        final = (if todo % 2 = 0 then to_ else from_) ∧
        (buffer N (m'.key final)).Perm keys ∧
        ∀ i j, i < j → j < N → m'.key final i % (2 ^ l) ^ D ≤ m'.key final j % (2 ^ l) ^ D := by
  intro todo
  induction todo with
  | zero =>
    intro loopnum from_ to_ m hD inv
    obtain ⟨m', hrun, inv'⟩ := pass_step k l N keys m loopnum from_ to_ hkeys inv
    have hlast : loopnum + 1 = D := by omega
    refine ⟨m', to_, ?_, rfl, inv'.perm, ?_⟩
    · simp only [slave_sort_loop, hrun, bind, Except.bind, hlast, ne_eq, not_true_eq_false,
        if_false]
    · rw [← hlast]; exact inv'.ord
  | succ n ih =>
    intro loopnum from_ to_ m hD inv
    obtain ⟨m', hrun, inv'⟩ := pass_step k l N keys m loopnum from_ to_ hkeys inv
    have hne : loopnum + 1 ≠ D := by omega
    have hswap : from_ ^^^ 1 = to_ ∧ to_ ^^^ 1 = from_ := by
      rcases inv.bufs with ⟨a, b⟩ | ⟨a, b⟩ <;> subst a <;> subst b <;> exact ⟨rfl, rfl⟩
    obtain ⟨m'', fin, hrun', hfin, hperm, hord⟩ := ih (loopnum + 1) to_ from_ m' (by omega) inv'
    refine ⟨m'', fin, ?_, ?_, hperm, hord⟩
    · rw [slave_sort_loop]
      simp only [hrun, bind, Except.bind, hne, ne_eq, not_false_eq_true, if_true, hswap.1,
        hswap.2]
      exact hrun'
    · rw [hfin]
      by_cases h : n % 2 = 0
      · have : (n + 1) % 2 ≠ 0 := by omega
        simp [h, this]
      · have : (n + 1) % 2 = 0 := by omega
        simp [h, this]

/-! ## The whole sort with a power-of-two number of threads -/

theorem init_flags_clear (k : Nat) (keys boundaries : List Nat) (heap : Memory) :
    flags_clear k (init_memory (2 ^ k) keys boundaries heap) := by
  intro j o hj ho
  have h1 := idx_lt_next (2 ^ k) j o ho
  have h2 := node_base_mono (2 ^ k) (j + 1) (k + 1) (by omega)
  have h3 := node_base_pow k (k + 1) (by omega)
  have e : k + 1 - (k + 1) = 0 := by omega
  rw [e, pow_zero, pow_succ] at h3
  have hlt : idx (2 ^ k) j o < 2 * 2 ^ k := by omega
  simp [init_memory, hlt]

theorem init_partition_ok (P N : Nat) (keys : List Nat) (heap : Memory) (hP : 0 < P) :
    partition_ok
      (init_memory P keys ((List.range (P + 1)).map (fun k => k * N / P)) heap).key_partition
      P N := by
  have hget : ∀ u, u ≤ P →
      (init_memory P keys ((List.range (P + 1)).map (fun k => k * N / P)) heap).key_partition u
        = u * N / P := by
    intro u hu
    simp only [init_memory]
    rw [List.getD_eq_getElem _ _ (by simp; omega)]
    simp
  refine ⟨?_, ?_, ?_⟩
  · rw [hget 0 (Nat.zero_le _)]; simp
  · rw [hget P (le_refl _), Nat.mul_div_cancel_left _ hP]
  · intro u hu
    rw [hget u (by omega), hget (u + 1) (by omega)]
    exact boundary_mono N P u

theorem init_buffer (P : Nat) (keys boundaries : List Nat) (heap : Memory) :
    buffer keys.length ((init_memory P keys boundaries heap).key 0) = keys := by
  unfold buffer
  apply List.ext_getElem
  · simp
  · intro i h1 h2
    simp only [List.getElem_map, List.getElem_range, init_memory, setAt, if_true]
    rw [List.getD_eq_getElem _ _ h2]

theorem buffer_sorted (N : Nat) (f : Nat → Nat)
    (h : ∀ i j, i < j → j < N → f i ≤ f j) : (buffer N f).Sorted (· ≤ ·) := by
  unfold buffer List.Sorted
  rw [List.pairwise_map]
  apply List.Pairwise.imp_of_mem _ (List.pairwise_lt_range N)
  intro a b _ hb hab
  exact h a b hab (List.mem_range.mp hb)

theorem pow_le_max_radix (l : Nat) (h : 2 ^ l ≤ MAX_RADIX) : l ≤ 12 := by
  by_contra hc
  have : 2 ^ 13 ≤ 2 ^ l := Nat.pow_le_pow_right (by norm_num) (by omega)
  unfold MAX_RADIX at h
  omega

theorem thread_table_ok_iff (P : Nat) : thread_table_ok P = true ↔ P ≤ MAX_THREADS + 1 := by
  unfold thread_table_ok thread_table_indices MAX_THREADS
  rw [List.all_eq_true]
  constructor
  · intro h
    by_contra hc
    have := h 32 (List.mem_range.mpr (by omega))
    simp at this
  · intro h x hx
    have := List.mem_range.mp hx
    simp only [decide_eq_true_eq]
    omega

theorem node_arrays_ok_iff (R : Nat) : node_arrays_ok R = true ↔ R ≤ MAX_RADIX := by
  simp [node_arrays_ok]

/-- With a power-of-two number of threads that fits the thread table and a
radix `2 ^ l ≥ 2` that fits the node arrays, `radix_sort` completes, whatever
the initial contents of the heap, and its output is the sorted permutation of
the input. -/
theorem radix_sort_pow2 (k l max_key : Nat) (keys : List Nat) (heap : Memory)
    (hk : 2 ^ k ≤ MAX_THREADS) (hl1 : 1 ≤ l) (hl12 : 2 ^ l ≤ MAX_RADIX) (hN : 1 ≤ keys.length)
    (hm : 1 ≤ max_key) (hm32 : max_key < 2 ^ 31) (hkeys : ∀ x, x ∈ keys → x ≤ max_key) :
    ∃ out, radix_sort (2 ^ k) (2 ^ l) max_key keys heap = Except.ok out ∧
      out.Perm keys ∧ out.Sorted (· ≤ ·) := by
  have hl : l ≤ 30 := by have := pow_le_max_radix l hl12; omega
  have htt : thread_table_ok (2 ^ k) = true :=
    (thread_table_ok_iff _).mpr (by omega)
  have hna : node_arrays_ok (2 ^ l) = true := (node_arrays_ok_iff _).mpr hl12
  have hk64 : 2 ^ k ≤ MAX_PROCESSORS := by unfold MAX_THREADS at hk; unfold MAX_PROCESSORS; omega
  have hP : 0 < 2 ^ k := by positivity
  have hR : 2 ≤ 2 ^ l := by
    calc 2 = 2 ^ 1 := by norm_num
      _ ≤ 2 ^ l := Nat.pow_le_pow_right (by norm_num) hl1
  have hlog := log_2_pow l hl
  have hkeys32 : ∀ x, x ∈ keys → x < 2 ^ 32 := by
    intro x hx
    have := hkeys x hx
    have : (2 : Nat) ^ 31 < 2 ^ 32 := by norm_num
    omega
  set D := Nat.log (2 ^ l) max_key + 1 with hD
  set m0 := init_memory (2 ^ k) keys
    ((List.range (2 ^ k + 1)).map (fun i => i * keys.length / 2 ^ k)) heap with hm0
  have inv0 : PassInv k (2 ^ l) keys.length keys m0 0 0 1 :=
    ⟨Or.inl ⟨rfl, rfl⟩, init_flags_clear k _ _ _, init_partition_ok _ _ _ _ hP,
      by rw [init_buffer], fun i j _ _ => by simp [Nat.mod_one]⟩
  obtain ⟨m', fin, hrun, _, hperm, hord⟩ := slave_sort_loop_spec k l keys.length D keys hkeys32
    (Nat.log (2 ^ l) max_key) 0 0 1 m0 (by omega) inv0
  refine ⟨buffer keys.length (m'.key fin), ?_, hperm, ?_⟩
  · unfold radix_sort
    have c1 : ¬ (2 ^ k < 1 ∨ MAX_PROCESSORS < 2 ^ k) := by omega
    have c2 : ¬ (2 ^ l < 1 ∨ (l : Int) = -1) := by omega
    have c3 : ¬ keys.length < 1 := by omega
    have c4 : ¬ max_key < 1 := by omega
    simp only [c1, c2, c3, c4, if_false, get_max_digits_eq _ _ hR, htt, hna, Bool.not_true,
      Bool.false_eq_true,
      partition_closed _ _ hP (by omega : 0 < keys.length), hlog, Int.toNat_ofNat, slave_sort]
    rw [← hD, ← hm0, hrun]
    rfl
  · apply buffer_sorted
    intro i j hij hj
    have hlt : ∀ x, x ∈ keys → x % (2 ^ l) ^ D = x := by
      intro x hx
      apply Nat.mod_eq_of_lt
      exact lt_of_le_of_lt (hkeys x hx) (Nat.lt_pow_succ_log_self (by omega) max_key)
    have h1 := hlt _ (hperm.subset (buffer_mem keys.length _ i (by omega)))
    have h2 := hlt _ (hperm.subset (buffer_mem keys.length _ j hj))
    have := hord i j hij hj
    rw [h1, h2] at this
    exact this

/-! ## The scheduling of a phase does not depend on the data

Whether a thread blocks only depends on the flags, and the flags only change
through `SETPAUSE` and `WAITPAUSE`; so two runs of a phase that start with the
same flags block in the same way. -/

theorem exec_flag (R : Nat) (m : Memory) (a : Action) (i : Nat) :
    ((exec R m a).prefix_tree i).Flag =
      match a with
      | Action.SETPAUSE x => if i = x then 1 else (m.prefix_tree i).Flag
      | Action.WAITPAUSE x => if i = x then 0 else (m.prefix_tree i).Flag
      | _ => (m.prefix_tree i).Flag := by
  cases a <;> simp only [exec, setAt] <;> split <;> simp_all

theorem exec_same_flags (R n : Nat) (m m' : Memory) (a : Action) (h : same_flags n m m') :
    same_flags n (exec R m a) (exec R m' a) := by
  intro i hi
  rw [exec_flag, exec_flag]
  cases a <;> simp only [h i hi]

theorem blocked_same_flags (n : Nat) (m m' : Memory) (a : Action) (h : same_flags n m m')
    (ha : waits_below n a = true) : blocked m a = blocked m' a := by
  cases a <;> try rfl
  case WAITPAUSE x =>
    simp only [waits_below, decide_eq_true_eq] at ha
    simp only [blocked, h x ha]

theorem run_thread_same_flags (R n : Nat) :
    ∀ (prog : List Action) (m m' : Memory), same_flags n m m' →
      (∀ a, a ∈ prog → waits_below n a = true) →
      (run_thread R m prog).2 = (run_thread R m' prog).2 ∧
        same_flags n (run_thread R m prog).1 (run_thread R m' prog).1 ∧
        ∀ a, a ∈ (run_thread R m prog).2 → waits_below n a = true := by
  intro prog
  induction prog with
  | nil => intro m m' h _; exact ⟨rfl, h, fun a ha => by simp [run_thread] at ha⟩
  | cons a rest ih =>
    intro m m' h hw
    have hb := blocked_same_flags n m m' a h (hw a (List.mem_cons_self _ _))
    simp only [run_thread, ← hb]
    by_cases hbl : blocked m a = true
    · simp only [hbl, if_true]
      exact ⟨trivial, h, hw⟩
    · simp only [hbl, Bool.false_eq_true, if_false]
      exact ih _ _ (exec_same_flags R n m m' a h)
        (fun x hx => hw x (List.mem_cons_of_mem _ hx))

theorem round_same_flags (R n : Nat) :
    ∀ (order : List Nat) (c c' : Config), c.threads = c'.threads → same_flags n c.mem c'.mem →
      (∀ prog, prog ∈ c.threads → ∀ a, a ∈ prog → waits_below n a = true) →
      (round R order c).threads = (round R order c').threads ∧
        same_flags n (round R order c).mem (round R order c').mem ∧
        ∀ prog, prog ∈ (round R order c).threads → ∀ a, a ∈ prog → waits_below n a = true := by
  intro order
  induction order with
  | nil => intro c c' ht hf hw; exact ⟨ht, hf, hw⟩
  | cons t rest ih =>
    intro c c' ht hf hw
    simp only [round, List.foldl_cons]
    have hprog : ∀ a, a ∈ c.threads.getD t [] → waits_below n a = true := by
      intro a ha
      by_cases hlt : t < c.threads.length
      · rw [List.getD_eq_getElem _ _ hlt] at ha
        exact hw _ (List.getElem_mem _) a ha
      · rw [List.getD_eq_default _ _ (by omega)] at ha
        simp at ha
    obtain ⟨h1, h2, h3⟩ := run_thread_same_flags R n (c.threads.getD t []) c.mem c'.mem hf hprog
    apply ih
    · simp only [← ht, h1]
    · rw [← ht]; exact h2
    · intro prog hp a ha
      rcases List.mem_or_eq_of_mem_set hp with h | h
      · exact hw prog h a ha
      · rw [h] at ha
        exact h3 a ha

theorem run_rounds_same_flags (R n : Nat) (order : List Nat) :
    ∀ (fuel : Nat) (c c' : Config), c.threads = c'.threads → same_flags n c.mem c'.mem →
      (∀ prog, prog ∈ c.threads → ∀ a, a ∈ prog → waits_below n a = true) →
      same_outcome n (run_rounds R order fuel c) (run_rounds R order fuel c') := by
  intro fuel
  induction fuel with
  | zero =>
    intro c c' ht hf _
    simp only [run_rounds, ← ht]
    split
    · exact hf
    · rfl
  | succ f ih =>
    intro c c' ht hf hw
    simp only [run_rounds, ← ht]
    split
    · exact hf
    · obtain ⟨h1, h2, h3⟩ := round_same_flags R n order c c' ht hf hw
      exact ih _ _ h1 h2 h3

/-- A phase started from two memories with the same flags has the same outcome. -/
theorem run_phase_same_flags (R n : Nat) (order : List Nat) (threads : List (List Action))
    (m m' : Memory) (hf : same_flags n m m')
    (hw : ∀ prog, prog ∈ threads → ∀ a, a ∈ prog → waits_below n a = true) :
    same_outcome n (run_phase R order threads m) (run_phase R order threads m') :=
  run_rounds_same_flags R n order _ _ _ rfl hf hw

theorem histogram_fold_tree (R s from_ : Nat) (m : Memory) (ids : List Nat) :
    (ids.foldl (fun m t => histogram R s from_ t m) m).prefix_tree = m.prefix_tree := by
  induction ids generalizing m with
  | nil => rfl
  | cons t rest ih => simp only [List.foldl_cons]; rw [ih]; rfl

theorem foldlM_ne_error {α β : Type} (f : β → α → Except Fault β) (e : Fault)
    (hf : ∀ b a, f b a ≠ Except.error e) :
    ∀ (l : List α) (b : β), l.foldlM f b ≠ Except.error e := by
  intro l
  induction l with
  | nil => intro b hc; cases hc
  | cons a rest ih =>
    intro b hc
    rw [List.foldlM_cons] at hc
    cases hfa : f b a with
    | error e1 =>
      rw [hfa] at hc
      simp only [bind, Except.bind] at hc
      exact hf b a (hfa.trans hc)
    | ok b1 =>
      rw [hfa] at hc
      exact ih b1 hc

/-- The scatter phase never reports a deadlock. -/
theorem scatter_all_not_deadlock (R s N from_ to_ : Nat) (ids : List Nat) (m : Memory) :
    ids.foldlM (fun m MyNum => scatter R s N from_ to_ MyNum m) m
      ≠ Except.error Fault.deadlock := by
  apply foldlM_ne_error
  intro b t
  unfold scatter
  apply foldlM_ne_error
  intro b1 i
  simp only
  split
  · intro hc; cases hc
  · intro hc; cases hc

/-- If a pass deadlocks when started from one memory, it deadlocks when started
from any memory with the same flags. -/
theorem sort_pass_deadlock (P R N s from_ to_ n : Nat) (m m' : Memory)
    (hf : same_flags n m m')
    (hup : ∀ prog, prog ∈ (List.range P).map (upsweep P) → ∀ a, a ∈ prog →
      waits_below n a = true)
    (hdown : ∀ prog, prog ∈ (List.range P).map (downsweep P) → ∀ a, a ∈ prog →
      waits_below n a = true)
    (h : sort_pass P R N s from_ to_ m = Except.error Fault.deadlock) :
    sort_pass P R N s from_ to_ m' = Except.error Fault.deadlock := by
  have hf1 : same_flags n
      ((List.range P).foldl (fun m t => histogram R s from_ t m) m)
      ((List.range P).foldl (fun m t => histogram R s from_ t m) m') := by
    intro i hi
    rw [histogram_fold_tree, histogram_fold_tree]
    exact hf i hi
  have h1 := run_phase_same_flags R n (List.range P) _ _ _ hf1 hup
  simp only [sort_pass, bind, Except.bind] at h ⊢
  revert h h1
  cases run_phase R (List.range P) ((List.range P).map (upsweep P))
      ((List.range P).foldl (fun m t => histogram R s from_ t m) m) with
  | error e =>
    cases run_phase R (List.range P) ((List.range P).map (upsweep P))
        ((List.range P).foldl (fun m t => histogram R s from_ t m) m') with
    | error e' =>
      intro h h1
      simp only [same_outcome] at h1
      simp only at h ⊢
      rw [← h1]; exact h
    | ok _ => intro _ h1; exact h1.elim
  | ok m2 =>
    cases run_phase R (List.range P) ((List.range P).map (upsweep P))
        ((List.range P).foldl (fun m t => histogram R s from_ t m) m') with
    | error _ => intro _ h1; exact h1.elim
    | ok m2' =>
      intro h h1
      simp only [same_outcome] at h1
      simp only at h ⊢
      have h2 := run_phase_same_flags R n (List.range P).reverse _ m2 m2' h1 hdown
      revert h h2
      cases run_phase R (List.range P).reverse ((List.range P).map (downsweep P)) m2 with
      | error e =>
        cases run_phase R (List.range P).reverse ((List.range P).map (downsweep P)) m2' with
        | error e' =>
          intro h h2
          simp only [same_outcome] at h2
          simp only at h ⊢
          rw [← h2]; exact h
        | ok _ => intro _ h2; exact h2.elim
      | ok m3 =>
        intro h _
        exfalso
        simp only at h
        exact scatter_all_not_deadlock R s N from_ to_ _ m3 h

theorem init_same_flags (P : Nat) (keys b : List Nat) (heap heap0 : Memory) :
    same_flags (2 * P) (init_memory P keys b heap) (init_memory P keys b heap0) := by
  intro i hi
  simp only [init_memory, hi, if_true]

/-- If the first pass deadlocks for one initial heap, the program deadlocks for
every initial heap. -/
theorem radix_sort_first_pass_deadlock (P R max_key d : Nat) (keys b : List Nat)
    (heap heap0 : Memory)
    (hP : ¬ (P < 1 ∨ MAX_PROCESSORS < P)) (hR : ¬ (R < 1 ∨ log_2 R = -1))
    (hN : ¬ keys.length < 1) (hm : ¬ max_key < 1)
    (hd : get_max_digits R max_key = some (d + 1)) (hb : partition keys.length P = some b)
    (htt : thread_table_ok P = true) (hna : node_arrays_ok R = true)
    (hup : ∀ prog, prog ∈ (List.range P).map (upsweep P) → ∀ a, a ∈ prog →
      waits_below (2 * P) a = true)
    (hdown : ∀ prog, prog ∈ (List.range P).map (downsweep P) → ∀ a, a ∈ prog →
      waits_below (2 * P) a = true)
    (h0 : sort_pass P R keys.length 0 0 1 (init_memory P keys b heap0)
      = Except.error Fault.deadlock) :
    radix_sort P R max_key keys heap = Except.error Fault.deadlock := by
  have h1 := sort_pass_deadlock P R keys.length 0 0 1 (2 * P) _ _
    (init_same_flags P keys b heap0 heap) hup hdown h0
  simp only [radix_sort, hP, hR, hN, hm, if_false, hd, hb, htt, hna, Bool.not_true,
    Bool.false_eq_true, slave_sort, slave_sort_loop, Nat.zero_mul, h1, bind, Except.bind]

/-- With three threads, radix 2 and the keys `[5, 1, 4, 1, 3]` the first pass
deadlocks in the down-sweep, whatever the initial heap contents. -/
theorem three_threads_deadlock (heap : Memory) :
    radix_sort 3 2 7 [5, 1, 4, 1, 3] heap = Except.error Fault.deadlock :=
  radix_sort_first_pass_deadlock 3 2 7 2 [5, 1, 4, 1, 3] [0, 1, 3, 5] heap blank_heap
    (by decide) (by decide) (by decide) (by decide) (by decide) (by decide) (by decide)
    (by decide) (by decide) (by decide) (by rfl)

/-- With one thread the sort returns the sorted list of the keys. -/
theorem one_thread_sorts (heap : Memory) (keys sorted : List Nat) (hN : 1 ≤ keys.length)
    (hkeys : ∀ x, x ∈ keys → x ≤ 7) (hperm : keys.Perm sorted)
    (hsorted : sorted.Sorted (· ≤ ·)) :
    radix_sort 1 2 7 keys heap = Except.ok sorted := by
  have h : ∃ out, radix_sort 1 2 7 keys heap = Except.ok out ∧ out.Perm keys ∧
      out.Sorted (· ≤ ·) :=
    radix_sort_pow2 0 1 7 keys heap (by decide) (by decide) (by decide) hN (by decide)
      (by decide) hkeys
  obtain ⟨out, hrun, hp, hs⟩ := h
  rw [hrun, List.eq_of_perm_of_sorted (hp.trans hperm) hs hsorted]

/-! ## The barrier as a state machine -/

theorem barrier_arrive_wait (P j c : Nat) (hP : P ≤ MAX_PROCESSORS) (hj : j + 1 < P) :
    barrier_arrive P 0 ⟨j, c⟩ = (⟨j + 1, c⟩, sync_step.waits) := by
  have hP' : P ≤ 64 := hP
  have h1 : (j + 1) % 4294967296 = j + 1 := Nat.mod_eq_of_lt (by omega)
  have h2 : j + 1 ≠ P := by omega
  simp only [barrier_arrive, ne_eq, not_true_eq_false, if_false, h1, h2, not_false_eq_true,
    if_true]

theorem barrier_arrive_last (P j c : Nat) (hP : P ≤ MAX_PROCESSORS) (hj : j + 1 = P) :
    barrier_arrive P 0 ⟨j, c⟩ = (⟨0, if c = 0 then 1 else 0⟩, sync_step.passes) := by
  have hP' : P ≤ 64 := hP
  have h1 : (j + 1) % 4294967296 = j + 1 := Nat.mod_eq_of_lt (by omega)
  subst hj
  simp only [barrier_arrive, ne_eq, not_true_eq_false, if_false, h1]

theorem arrivals_succ (P n : Nat) (b : barrier) :
    arrivals P (n + 1) b = (barrier_arrive P 0 (arrivals P n b)).1 := by
  unfold arrivals
  rw [Function.iterate_succ_apply']

theorem arrivals_count (P c : Nat) (hP : P ≤ MAX_PROCESSORS) :
    ∀ j, j < P → arrivals P j ⟨0, c⟩ = ⟨j, c⟩ := by
  intro j
  induction j with
  | zero => intro _; rfl
  | succ j ih =>
    intro hj
    rw [arrivals_succ, ih (by omega), barrier_arrive_wait P j c hP hj]

theorem arrivals_closed (P : Nat) (hP1 : 1 ≤ P) (hP : P ≤ MAX_PROCESSORS) :
    ∀ n, arrivals P n ⟨0, 0⟩ = ⟨n % P, n / P % 2⟩ := by
  intro n
  induction n with
  | zero => simp [arrivals]
  | succ n ih =>
    rw [arrivals_succ, ih]
    have hlt : n % P < P := Nat.mod_lt _ (by omega)
    have hdm := Nat.div_add_mod n P
    by_cases hc : n % P + 1 < P
    · rw [barrier_arrive_wait P _ _ hP hc]
      have he : n % P + 1 + P * (n / P) = n + 1 := by omega
      have h := (Nat.div_mod_unique (by omega : 0 < P)).mpr ⟨he, hc⟩
      rw [h.1, h.2]
    · rw [barrier_arrive_last P _ _ hP (by omega)]
      have he : 0 + P * (n / P + 1) = n + 1 := by
        rw [Nat.mul_add, Nat.mul_one]
        omega
      have h := (Nat.div_mod_unique (by omega : 0 < P)).mpr ⟨he, (by omega : 0 < P)⟩
      rw [h.1, h.2]
      have := Nat.mod_two_eq_zero_or_one (n / P)
      rcases this with h0 | h1
      · simp [h0]; omega
      · simp [h1]; omega

/-! ## The two key buffers across the passes -/

/-- The pass loop runs `sort_pass` on the buffers listed by `pass_buffers`, one
pass after the other, and reports `final_buffer`. -/
theorem slave_sort_loop_passes (P R l N D : Nat) :
    ∀ (todo loopnum from_ to_ : Nat) (m : Memory),
      slave_sort_loop P R l N D todo loopnum from_ to_ m
        = ((pass_buffers D todo loopnum from_ to_).foldlM
            (fun m (p : Nat × Nat × Nat) => sort_pass P R N (p.1 * l) p.2.1 p.2.2 m) m).map
          (fun m' => (m', final_buffer D todo loopnum from_ to_)) := by
  intro todo
  induction todo with
  | zero => intro loopnum from_ to_ m; rfl
  | succ n ih =>
    intro loopnum from_ to_ m
    simp only [slave_sort_loop, pass_buffers, final_buffer, List.foldlM_cons]
    cases sort_pass P R N (loopnum * l) from_ to_ m with
    | error e => rfl
    | ok m1 =>
      simp only [bind, Except.bind]
      by_cases hc : loopnum + 1 ≠ D
      · simp only [hc, if_true, ne_eq, not_false_eq_true]
        exact ih _ _ _ m1
      · simp only [hc, if_false, ne_eq, not_false_eq_true]
        exact ih _ _ _ m1

theorem pass_buffers_closed (D : Nat) :
    ∀ todo loopnum, todo + loopnum = D →
      pass_buffers D todo loopnum (loopnum % 2) ((loopnum + 1) % 2)
        = (List.range' loopnum todo).map (fun p => (p, p % 2, (p + 1) % 2)) := by
  intro todo
  induction todo with
  | zero => intro loopnum _; rfl
  | succ n ih =>
    intro loopnum h
    have hx : loopnum % 2 ^^^ 1 = (loopnum + 1) % 2 := by
      rcases Nat.mod_two_eq_zero_or_one loopnum with h0 | h1
      · rw [h0]; have : (loopnum + 1) % 2 = 1 := by omega
        rw [this]; rfl
      · rw [h1]; have : (loopnum + 1) % 2 = 0 := by omega
        rw [this]; rfl
    have hy : (loopnum + 1) % 2 ^^^ 1 = (loopnum + 1 + 1) % 2 := by
      rcases Nat.mod_two_eq_zero_or_one (loopnum + 1) with h0 | h1
      · rw [h0]; have : (loopnum + 1 + 1) % 2 = 1 := by omega
        rw [this]; rfl
      · rw [h1]; have : (loopnum + 1 + 1) % 2 = 0 := by omega
        rw [this]; rfl
    simp only [pass_buffers, List.range'_succ, List.map_cons]
    by_cases hc : loopnum + 1 ≠ D
    · simp only [hc, if_true, ne_eq, not_false_eq_true, hx, hy]
      rw [ih (loopnum + 1) (by omega)]
    · have hn : n = 0 := by omega
      subst hn
      simp only [hc, if_false, ne_eq, not_false_eq_true]
      rfl

theorem final_buffer_closed (D : Nat) :
    ∀ todo loopnum, todo + 1 + loopnum = D →
      final_buffer D (todo + 1) loopnum (loopnum % 2) ((loopnum + 1) % 2) = D % 2 := by
  intro todo
  induction todo with
  | zero =>
    intro loopnum h
    have hc : ¬ loopnum + 1 ≠ D := by omega
    simp only [final_buffer, hc, if_false]
    rw [← h]
    congr 1
    omega
  | succ n ih =>
    intro loopnum h
    have hx : loopnum % 2 ^^^ 1 = (loopnum + 1) % 2 := by
      rcases Nat.mod_two_eq_zero_or_one loopnum with h0 | h1
      · rw [h0]; have : (loopnum + 1) % 2 = 1 := by omega
        rw [this]; rfl
      · rw [h1]; have : (loopnum + 1) % 2 = 0 := by omega
        rw [this]; rfl
    have hy : (loopnum + 1) % 2 ^^^ 1 = (loopnum + 1 + 1) % 2 := by
      rcases Nat.mod_two_eq_zero_or_one (loopnum + 1) with h0 | h1
      · rw [h0]; have : (loopnum + 1 + 1) % 2 = 1 := by omega
        rw [this]; rfl
      · rw [h1]; have : (loopnum + 1 + 1) % 2 = 0 := by omega
        rw [this]; rfl
    have hc : loopnum + 1 ≠ D := by omega
    rw [final_buffer]
    simp only [hc, if_true, ne_eq, not_false_eq_true, hx, hy]
    exact ih (loopnum + 1) (by omega)

/-! ## What the scatter of one thread changes -/

/-- The scatter loop of thread `t` over `n` keys from position `ks`, when it
completes: the source buffer, the partition, the tree, the histograms and the
offset tables of the other threads are unchanged, and entry `b` of the thread's
own offset table has advanced by the number of scattered keys with digit `b`. -/
theorem scatter_loop_frame (R s N from_ to_ t : Nat) (hft : from_ ≠ to_) :
    ∀ n ks (m m' : Memory),
      (List.range' ks n).foldlM
          (fun (m : Memory) i =>
            let this_key := digit R s (m.key from_ i)
            let tmp := m.rank_ff t this_key
            if tmp < N then
              Except.ok
                { m with
                  key := setAt m.key to_ (setAt (m.key to_) tmp (m.key from_ i))
                  rank_ff := setAt m.rank_ff t (setAt (m.rank_ff t) this_key (tmp + 1)) }
            else (Except.error Fault.out_of_bounds : Except Fault Memory)) m = Except.ok m' →
      m'.key from_ = m.key from_ ∧ m'.key_partition = m.key_partition ∧
        m'.prefix_tree = m.prefix_tree ∧ m'.rank_me = m.rank_me ∧
        m'.key_density = m.key_density ∧
        (∀ u, u ≠ t → m'.rank_ff u = m.rank_ff u) ∧
        ∀ b, m'.rank_ff t b = m.rank_ff t b
          + ∑ i in Finset.Ico ks (ks + n), if digit R s (m.key from_ i) = b then 1 else 0 := by
  intro n
  induction n with
  | zero =>
    intro ks m m' h
    simp only [List.range'_zero, List.foldlM_nil, pure, Except.pure, Except.ok.injEq] at h
    subst h
    simp
  | succ n ih =>
    intro ks m m' h
    rw [List.range'_succ, List.foldlM_cons] at h
    by_cases hlt : m.rank_ff t (digit R s (m.key from_ ks)) < N
    · simp only [hlt, if_true, bind, Except.bind] at h
      obtain ⟨h1, h2, h3, h4, h5, h6, h7⟩ := ih (ks + 1) _ m' h
      have hk : setAt m.key to_ (setAt (m.key to_) (m.rank_ff t (digit R s (m.key from_ ks)))
          (m.key from_ ks)) from_ = m.key from_ := setAt_other _ _ _ _ hft
      simp only [hk] at h1 h7
      refine ⟨h1, h2, h3, h4, h5, ?_, ?_⟩
      · intro u hu
        rw [h6 u hu]
        exact setAt_other _ _ _ _ hu
      · intro b
        rw [h7 b, setAt_same]
        have hsum : ∑ i in Finset.Ico ks (ks + (n + 1)),
              (if digit R s (m.key from_ i) = b then 1 else 0)
            = (if digit R s (m.key from_ ks) = b then 1 else 0)
              + ∑ i in Finset.Ico (ks + 1) (ks + 1 + n),
                  if digit R s (m.key from_ i) = b then 1 else 0 := by
          have e : ks + (n + 1) = ks + 1 + n := by omega
          rw [e, Finset.sum_eq_sum_Ico_succ_bot (by omega : ks < ks + 1 + n)]
        rw [hsum]
        by_cases hb : b = digit R s (m.key from_ ks)
        · subst hb
          rw [setAt_same]
          simp only [if_true]
          omega
        · have hb' : ¬ digit R s (m.key from_ ks) = b := fun h => hb h.symm
          rw [setAt_other _ _ _ _ hb]
          simp only [hb', if_false]
          omega
    · simp only [hlt, if_false, bind, Except.bind] at h
      cases h

/-- The scatter of thread `t`, when it completes, advances `rank_ff[t][b]` by
the thread's histogram entry and leaves the rest of the memory, the destination
buffer apart, unchanged. -/
theorem scatter_frame (R s N from_ to_ t : Nat) (m m' : Memory) (hft : from_ ≠ to_)
    (h : scatter R s N from_ to_ t m = Except.ok m') :
    m'.key from_ = m.key from_ ∧ m'.key_partition = m.key_partition ∧
      m'.prefix_tree = m.prefix_tree ∧ m'.rank_me = m.rank_me ∧
      m'.key_density = m.key_density ∧
      (∀ u, u ≠ t → m'.rank_ff u = m.rank_ff u) ∧
      ∀ b, b < R → m'.rank_ff t b = m.rank_ff t b + (histogram R s from_ t m).rank_me t b := by
  unfold scatter at h
  obtain ⟨h1, h2, h3, h4, h5, h6, h7⟩ :=
    scatter_loop_frame R s N from_ to_ t hft _ _ m m' h
  refine ⟨h1, h2, h3, h4, h5, h6, ?_⟩
  intro b hb
  rw [h7 b, (histogram_spec R s from_ t m).2.2.2.2.2.1 b hb]

/-! ## `log_2` on every 32-bit integer -/

theorem wrap32_small (x : Int) (h0 : 0 ≤ x) (h1 : x < 2147483648) : wrap32 x = x := by
  unfold wrap32
  omega

theorem log_2_loop_zero (n : Int) (hn : 0 < n) :
    ∀ fuel out, (log_2_loop n fuel 0 out).1 = 0 := by
  intro fuel
  induction fuel with
  | zero => intro out; rfl
  | succ f ih =>
    intro out
    have hg : (0 : Int) < n ∧ (0 : Int) ≠ n := ⟨hn, by omega⟩
    have hw : wrap32 (0 * 2) = 0 := by decide
    rw [log_2_loop, if_pos hg, hw]
    exact ih _

theorem two_pow_bound (j : Nat) (hj : j ≤ 30) : (2 : Int) ^ j ≤ 1073741824 := by
  have h : (2 : Int) ^ j ≤ 2 ^ 30 := pow_le_pow_right₀ (by norm_num) hj
  norm_num at h
  exact h

/-- The loop of `log_2` started with `cumulative = 2 ^ j`, `out = j`: it ends
with `cumulative = number` exactly when `number` is one of `2 ^ j, ..., 2 ^ 30`,
and `out` is then the exponent. -/
theorem log_2_loop_spec (n : Int) (hhi : n < 2147483648) :
    ∀ d j : Nat, j + d = 30 →
      ((log_2_loop n (d + 20) (2 ^ j) j).1 = n →
        ∃ i : Nat, j ≤ i ∧ i ≤ 30 ∧ n = 2 ^ i ∧ (log_2_loop n (d + 20) (2 ^ j) j).2 = i) ∧
      (∀ i : Nat, j ≤ i → i ≤ 30 → n = 2 ^ i → (log_2_loop n (d + 20) (2 ^ j) j).1 = n) := by
  intro d
  induction d with
  | zero =>
    intro j hj
    have hj30 : j = 30 := by omega
    subst hj30
    by_cases hg : (2 : Int) ^ 30 < n
    · have hg' : (2 : Int) ^ 30 < n ∧ (2 : Int) ^ 30 ≠ n := ⟨hg, by omega⟩
      have hn : (0 : Int) < n := by
        have : (0 : Int) < 2 ^ 30 := by norm_num
        omega
      have e1 : wrap32 (2 ^ 30 * 2) = -2147483648 := by decide
      have hg2 : (-2147483648 : Int) < n ∧ (-2147483648 : Int) ≠ n := ⟨by omega, by omega⟩
      have e2 : wrap32 (-2147483648 * 2) = 0 := by decide
      have hres : (log_2_loop n (0 + 20) (2 ^ 30) ((30 : Nat) : Int)).1 = 0 := by
        show (log_2_loop n 20 (2 ^ 30) ((30 : Nat) : Int)).1 = 0
        rw [log_2_loop, if_pos hg', e1, log_2_loop, if_pos hg2, e2]
        exact log_2_loop_zero n hn _ _
      refine ⟨fun h => ?_, fun i hi1 hi2 hi => ?_⟩
      · rw [hres] at h; omega
      · have : i = 30 := by omega
        subst this
        omega
    · have hg' : ¬ ((2 : Int) ^ 30 < n ∧ (2 : Int) ^ 30 ≠ n) := fun h => hg h.1
      have hres : log_2_loop n (0 + 20) (2 ^ 30) ((30 : Nat) : Int)
          = (2 ^ 30, ((30 : Nat) : Int)) := by
        show log_2_loop n 20 (2 ^ 30) ((30 : Nat) : Int) = _
        rw [log_2_loop, if_neg hg']
      rw [hres]
      refine ⟨fun h => ⟨30, le_refl _, le_refl _, h.symm, rfl⟩, fun i hi1 hi2 hi => ?_⟩
      have : i = 30 := by omega
      subst this
      exact hi.symm
  | succ d ih =>
    intro j hj
    have hpos : (0 : Int) < 2 ^ j := by positivity
    have hb := two_pow_bound j (by omega)
    have hb1 := two_pow_bound (j + 1) (by omega)
    have hsucc : (2 : Int) ^ (j + 1) = 2 ^ j * 2 := pow_succ 2 j
    by_cases hg : (2 : Int) ^ j < n
    · have hg' : (2 : Int) ^ j < n ∧ (2 : Int) ^ j ≠ n := ⟨hg, by omega⟩
      have hstep : log_2_loop n (d + 1 + 20) (2 ^ j) (j : Int)
          = log_2_loop n (d + 20) (2 ^ (j + 1)) ((j + 1 : Nat) : Int) := by
        have e : d + 1 + 20 = (d + 20) + 1 := by omega
        rw [e, log_2_loop, if_pos hg', wrap32_small _ (by omega) (by omega), ← hsucc]
        push_cast
        rfl
      rw [hstep]
      obtain ⟨ih1, ih2⟩ := ih (j + 1) (by omega)
      refine ⟨fun h => ?_, fun i hi1 hi2 hi => ?_⟩
      · obtain ⟨i, h1, h2, h3, h4⟩ := ih1 h
        exact ⟨i, by omega, h2, h3, h4⟩
      · have hne : i ≠ j := by
          intro hij
          rw [hij] at hi
          omega
        exact ih2 i (by omega) hi2 hi
    · have hg' : ¬ ((2 : Int) ^ j < n ∧ (2 : Int) ^ j ≠ n) := fun h => hg h.1
      have hres : log_2_loop n (d + 1 + 20) (2 ^ j) (j : Int) = (2 ^ j, (j : Int)) := by
        have e : d + 1 + 20 = (d + 20) + 1 := by omega
        rw [e, log_2_loop, if_neg hg']
      rw [hres]
      refine ⟨fun h => ⟨j, le_refl _, by omega, h.symm, rfl⟩, fun i hi1 _ hi => ?_⟩
      have hle : (2 : Int) ^ j ≤ 2 ^ i := pow_le_pow_right₀ (by norm_num) hi1
      show (2 : Int) ^ j = n
      omega

/-- The value of `log_2` on a 32-bit integer: the exponent for a power of two,
`-1` otherwise. -/
theorem log_2_cases (n : Int) (hhi : n < 2147483648) :
    (∃ i : Nat, i ≤ 30 ∧ n = 2 ^ i ∧ log_2 n = i) ∨ ((∀ i : Nat, n ≠ 2 ^ i) ∧ log_2 n = -1) := by
  obtain ⟨h1, h2⟩ := log_2_loop_spec n hhi 30 0 (by omega)
  have hstart : log_2_loop n 50 1 0 = log_2_loop n (30 + 20) (2 ^ 0) ((0 : Nat) : Int) := rfl
  by_cases hr : (log_2_loop n 50 1 0).1 = n
  · left
    rw [hstart] at hr
    obtain ⟨i, _, hi2, hi3, hi4⟩ := h1 hr
    refine ⟨i, hi2, hi3, ?_⟩
    unfold log_2
    simp only [hstart, hr, if_true, hi4]
  · right
    refine ⟨fun i hi => ?_, ?_⟩
    · have hi30 : i ≤ 30 := by
        by_contra hc
        have hle : (2 : Int) ^ 31 ≤ 2 ^ i := pow_le_pow_right₀ (by norm_num) (by omega)
        norm_num at hle
        omega
      exact hr (by rw [hstart]; exact h2 i (Nat.zero_le _) hi30 hi)
    · unfold log_2
      simp only [hr, if_false]

/-! ## The thread that writes a node -/

/-- A node `(j, o)` below which the last leaf is thread `t < P` lies inside its
level. -/
theorem proper_of_owner (P t j o : Nat) (ht : t < P) (ho : (o + 1) * 2 ^ j = t + 1) :
    o < lvl P j := by
  unfold lvl
  have hpos : 0 < 2 ^ j := by positivity
  have : o + 1 ≤ P / 2 ^ j := by
    rw [Nat.le_div_iff_mul_le hpos]
    omega
  omega

theorem upsweep_loop_writes (P t : Nat) (ht : t < P) :
    ∀ fuel j o n, (o + 1) * 2 ^ j = t + 1 →
      ∀ i, i ∈ (upsweep_loop fuel o (lvl P (j + 1)) (node_base P (j + 1)) n).flatMap
          content_writes →
        ∃ j1 o1, i = idx P j1 o1 ∧ o1 < lvl P j1 ∧ (o1 + 1) * 2 ^ j1 = t + 1 := by
  intro fuel
  induction fuel with
  | zero => intro j o n _ i hi; simp [upsweep_loop] at hi
  | succ f ih =>
    intro j o n ho i hi
    unfold upsweep_loop at hi
    by_cases hodd : o % 2 ≠ 0
    · have hh : (o / 2 + 1) * 2 ^ (j + 1) = t + 1 := by
        rw [pow_succ, ← ho]
        have : o = 2 * (o / 2) + 1 := by omega
        nth_rewrite 2 [this]
        ring
      have e1 : node_base P (j + 1) + lvl P (j + 1) = node_base P (j + 1 + 1) := rfl
      have e2 : lvl P (j + 1) / 2 = lvl P (j + 1 + 1) := (lvl_succ P (j + 1)).symm
      simp only [hodd, if_true, ne_eq, not_false_eq_true, e1, e2, List.flatMap_append,
        List.mem_append] at hi
      rcases hi with (hi | hi) | hi
      · have hmem : i = node_base P (j + 1) + o / 2 := by
          by_cases hm : o / 2 + 1 = lvl P (j + 1)
          · simpa [hm, content_writes, List.flatMap_cons] using hi
          · simpa [hm, content_writes, List.flatMap_cons] using hi
        exact ⟨j + 1, o / 2, hmem, proper_of_owner P t (j + 1) (o / 2) ht hh, hh⟩
      · exfalso
        by_cases he : o / 2 % 2 = 0
        · simp [he, content_writes, List.flatMap_cons] at hi
        · simp [he] at hi
      · exact ih (j + 1) (o / 2) _ hh i hi
    · simp [hodd] at hi

theorem signal_loop_writes :
    ∀ fuel o l b, (signal_loop fuel o l b).flatMap content_writes = [] := by
  intro fuel
  induction fuel with
  | zero => intro o l b; rfl
  | succ f ih =>
    intro o l b
    unfold signal_loop
    split
    · simp [List.flatMap_cons, content_writes, ih]
    · rfl

theorem rank_loop_writes (t : Nat) :
    ∀ fuel o l b, (rank_loop t fuel o l b).flatMap content_writes = [] := by
  intro fuel
  induction fuel with
  | zero => intro o l b; rfl
  | succ f ih =>
    intro o l b
    unfold rank_loop
    split
    · split <;> simp [List.flatMap_append, List.flatMap_cons, content_writes, ih]
    · rfl

/-- Every node whose contents thread `t` writes in a pass, in the up-sweep or in
the down-sweep, is a node `(j, o)` inside its level with `(o + 1) * 2 ^ j = t + 1`:
the leaf of the thread, or an inner node whose last leaf is the thread. -/
theorem writes_form (P t : Nat) (ht : t < P) :
    ∀ i, i ∈ (upsweep P t ++ downsweep P t).flatMap content_writes →
      ∃ j o, i = idx P j o ∧ o < lvl P j ∧ (o + 1) * 2 ^ j = t + 1 := by
  intro i hi
  rw [List.flatMap_append, List.mem_append] at hi
  rcases hi with hi | hi
  · unfold upsweep at hi
    simp only [List.flatMap_append, List.mem_append] at hi
    rcases hi with (hi | hi) | hi
    · have : i = t := by simpa [content_writes, List.flatMap_cons] using hi
      exact ⟨0, t, by simp [idx, node_base, this], by simp [lvl]; omega, by simp⟩
    · exfalso
      by_cases he : t % 2 = 0
      · simp [he, content_writes, List.flatMap_cons] at hi
      · simp [he] at hi
    · have e0 : P / 2 = lvl P (0 + 1) := by simp [lvl]
      have e1 : P = node_base P (0 + 1) := by simp [node_base, lvl]
      rw [e0] at hi
      nth_rewrite 2 [e1] at hi
      exact upsweep_loop_writes P t ht t 0 t t (by simp) i hi
  · unfold downsweep at hi
    simp only [List.flatMap_append, List.mem_append, signal_loop_writes, rank_loop_writes,
      List.not_mem_nil, or_false] at hi
    rcases hi with (hi | hi) | hi
    · by_cases hl : t + 1 ≠ P
      · have hmy : i = my_node_index P t := by
          simpa [hl, content_writes, List.flatMap_cons] using hi
        obtain ⟨z, o, h1, h2, _, _⟩ := climb_spec P t t 0 t (by simp) (le_refl _)
        have e0 : lvl P 0 = P := lvl_zero P
        have e1 : node_base P 0 = 0 := rfl
        rw [e0, e1] at h1
        refine ⟨z, o, ?_, proper_of_owner P t z o ht h2, h2⟩
        rw [hmy]
        unfold my_node_index idx
        simp only [h1]
      · simp [hl] at hi
    · simp [content_writes, List.flatMap_cons] at hi
    · simp [content_writes, List.flatMap_cons] at hi

theorem upsweep_loop_reaches (P t : Nat) :
    ∀ fuel j0 o0 n j o, (o0 + 1) * 2 ^ j0 = t + 1 → (o + 1) * 2 ^ j = t + 1 → j0 < j →
      j ≤ fuel + j0 →
      idx P j o ∈ (upsweep_loop fuel o0 (lvl P (j0 + 1)) (node_base P (j0 + 1)) n).flatMap
        content_writes := by
  intro fuel
  induction fuel with
  | zero => intro j0 o0 n j o _ _ h1 h2; omega
  | succ f ih =>
    intro j0 o0 n j o h0 h hlt hfuel
    have hodd : o0 % 2 ≠ 0 := by
      obtain ⟨d, hd⟩ : ∃ d, j = j0 + d + 1 := ⟨j - j0 - 1, by omega⟩
      have hpos : 0 < 2 ^ j0 := by positivity
      have e : (o0 + 1) * 2 ^ j0 = ((o + 1) * 2 ^ d * 2) * 2 ^ j0 := by
        rw [h0, ← h, hd, pow_succ, pow_add]
        ring
      have := Nat.eq_of_mul_eq_mul_right hpos e
      omega
    have hh := (half_node o0 j0 t (by omega) h0).1
    unfold upsweep_loop
    have e1 : node_base P (j0 + 1) + lvl P (j0 + 1) = node_base P (j0 + 1 + 1) := rfl
    have e2 : lvl P (j0 + 1) / 2 = lvl P (j0 + 1 + 1) := (lvl_succ P (j0 + 1)).symm
    simp only [hodd, if_true, ne_eq, not_false_eq_true, e1, e2, List.flatMap_append,
      List.mem_append]
    by_cases hj : j0 + 1 = j
    · left; left
      have ho : o0 / 2 = o := by
        have hpos : 0 < 2 ^ j := by positivity
        rw [hj, ← h] at hh
        have := Nat.eq_of_mul_eq_mul_right hpos hh
        omega
      subst hj
      rw [← ho]
      by_cases hm : o0 / 2 + 1 = lvl P (j0 + 1)
      · simp [hm, content_writes, List.flatMap_cons, idx]
      · simp [hm, content_writes, List.flatMap_cons, idx]
    · right
      exact ih (j0 + 1) (o0 / 2) _ j o hh h (by omega) (by omega)

/-- Every node inside its level is written by the thread below its last leaf. -/
theorem node_has_writer (P j o : Nat) (ho : o < lvl P j) :
    (o + 1) * 2 ^ j - 1 < P ∧
      idx P j o ∈ (upsweep P ((o + 1) * 2 ^ j - 1)
        ++ downsweep P ((o + 1) * 2 ^ j - 1)).flatMap content_writes := by
  have hpos : 0 < 2 ^ j := by positivity
  have hle : (o + 1) * 2 ^ j ≤ P := by
    have : o + 1 ≤ P / 2 ^ j := ho
    exact (Nat.le_div_iff_mul_le hpos).mp this
  have hge : 1 ≤ (o + 1) * 2 ^ j := Nat.mul_pos (by omega) hpos
  refine ⟨by omega, ?_⟩
  set t := (o + 1) * 2 ^ j - 1 with ht
  have hto : (o + 1) * 2 ^ j = t + 1 := by omega
  rw [List.flatMap_append, List.mem_append]
  left
  unfold upsweep
  simp only [List.flatMap_append, List.mem_append]
  by_cases hj : j = 0
  · left; left
    subst hj
    have : t = o := by simp at hto; omega
    simp [content_writes, List.flatMap_cons, idx, node_base, this]
  · right
    have e0 : P / 2 = lvl P (0 + 1) := by simp [lvl]
    have e1 : P = node_base P (0 + 1) := by simp [node_base, lvl]
    rw [e0]
    nth_rewrite 2 [e1]
    have hjt : j ≤ t := by
      have h2 : j < 2 ^ j := Nat.lt_two_pow j
      have h3 : 2 ^ j ≤ (o + 1) * 2 ^ j := Nat.le_mul_of_pos_left _ (by omega)
      omega
    exact upsweep_loop_reaches P t t 0 t t j o (by simp) hto (by omega) (by omega)

/-! ## One thread -/

/-- A pass is its ranking part followed by the scatter of all threads. -/
theorem sort_pass_eq (P R N s from_ to_ : Nat) (m : Memory) :
    sort_pass P R N s from_ to_ m
      = rank_phase P R s from_ m >>= fun m3 =>
          (List.range P).foldlM (fun m MyNum => scatter R s N from_ to_ MyNum m) m3 := by
  unfold sort_pass rank_phase
  simp only [bind_assoc]

/-! ## Sorted inputs and single keys with a power-of-two thread count -/

/-- With `2 ^ k` threads a sorted input is returned unchanged. -/
theorem resort_pow2 (k l max_key : Nat) (keys : List Nat) (heap : Memory)
    (hk : 2 ^ k ≤ MAX_THREADS) (hl1 : 1 ≤ l) (hl : 2 ^ l ≤ MAX_RADIX) (hN : 1 ≤ keys.length)
    (hm : 1 ≤ max_key) (hm32 : max_key < 2 ^ 31) (hkeys : ∀ x, x ∈ keys → x ≤ max_key)
    (hs : keys.Sorted (· ≤ ·)) :
    radix_sort (2 ^ k) (2 ^ l) max_key keys heap = Except.ok keys := by
  obtain ⟨out, hrun, hp, hso⟩ := radix_sort_pow2 k l max_key keys heap hk hl1 hl hN hm hm32 hkeys
  rw [hrun, List.eq_of_perm_of_sorted hp hso hs]

/-- With `2 ^ k` threads a single key is returned unchanged, also when there
are more threads than keys. -/
theorem single_key_pow2 (k l max_key x : Nat) (heap : Memory)
    (hk : 2 ^ k ≤ MAX_THREADS) (hl1 : 1 ≤ l) (hl : 2 ^ l ≤ MAX_RADIX)
    (hm : 1 ≤ max_key) (hm32 : max_key < 2 ^ 31) (hx : x ≤ max_key) :
    radix_sort (2 ^ k) (2 ^ l) max_key [x] heap = Except.ok [x] :=
  resort_pow2 k l max_key [x] heap hk hl1 hl (by simp) hm hm32
    (by intro y hy; rw [List.mem_singleton.mp hy]; exact hx) (List.sorted_singleton x)

/-! ## Stability of the passes -/

/-- A stable partition by digit `p` of a buffer ordered by its low `p` digits
and then by origin is ordered by its low `p + 1` digits and then by origin;
`π` and `π'` give the origin of the positions before and after. -/
theorem stable_of_dest (R p N : Nat) (f g π π' : Nat → Nat) (hR : 0 < R)
    (hord : ∀ i j, i < j → j < N →
      f i % R ^ p < f j % R ^ p ∨ (f i % R ^ p = f j % R ^ p ∧ π i < π j))
    (h : ∀ j, j < N → g (dest (fun i => f i / R ^ p % R) N j) = f j)
    (hπ : ∀ j, j < N → π' (dest (fun i => f i / R ^ p % R) N j) = π j) :
    ∀ a b, a < b → b < N →
      g a % R ^ (p + 1) < g b % R ^ (p + 1) ∨
        (g a % R ^ (p + 1) = g b % R ^ (p + 1) ∧ π' a < π' b) := by
  intro a b hab hb
  obtain ⟨i, hi, hia⟩ := dest_surj (fun i => f i / R ^ p % R) N a (by omega)
  obtain ⟨j, hj, hjb⟩ := dest_surj (fun i => f i / R ^ p % R) N b hb
  rw [← hia, ← hjb, h i hi, h j hj, hπ i hi, hπ j hj, Nat.mod_pow_succ, Nat.mod_pow_succ]
  have hpos : 0 < R ^ p := by positivity
  have hlex : f i / R ^ p % R < f j / R ^ p % R ∨
      (f i / R ^ p % R = f j / R ^ p % R ∧ i < j) := by
    rcases Nat.lt_trichotomy (f i / R ^ p % R) (f j / R ^ p % R) with h1 | h1 | h1
    · exact Or.inl h1
    · rcases Nat.lt_trichotomy i j with h2 | h2 | h2
      · exact Or.inr ⟨h1, h2⟩
      · subst h2; omega
      · have := dest_strict (fun i => f i / R ^ p % R) N i j hi hj (Or.inr ⟨h1.symm, h2⟩)
        omega
    · have := dest_strict (fun i => f i / R ^ p % R) N i j hi hj (Or.inl h1)
      omega
  have hmi : f i % R ^ p < R ^ p := Nat.mod_lt _ hpos
  have hmj : f j % R ^ p < R ^ p := Nat.mod_lt _ hpos
  rcases hlex with h1 | ⟨h1, h2⟩
  · left
    have : R ^ p * (f i / R ^ p % R + 1) ≤ R ^ p * (f j / R ^ p % R) :=
      Nat.mul_le_mul_left _ h1
    rw [Nat.mul_add, Nat.mul_one] at this
    generalize f i % R ^ p = x at *
    generalize f j % R ^ p = y at *
    generalize R ^ p * (f i / R ^ p % R) = u at *
    generalize R ^ p * (f j / R ^ p % R) = v at *
    omega
  · rw [h1]
    rcases hord i j h2 hj with h3 | ⟨h3, h4⟩
    · left; omega
    · right; exact ⟨by rw [h3], h4⟩

/-- The destinations of a stable partition have an inverse on `[0, N)`. -/
theorem dest_inverse (dg : Nat → Nat) (N : Nat) :
    ∃ inv : Nat → Nat, (∀ y, y < N → inv y < N ∧ dest dg N (inv y) = y) ∧
      ∀ j, j < N → inv (dest dg N j) = j := by
  classical
  refine ⟨fun y => if h : ∃ x, x < N ∧ dest dg N x = y then Classical.choose h else 0, ?_, ?_⟩
  · intro y hy
    have h := dest_surj dg N y hy
    simp only [h, dif_pos]
    exact Classical.choose_spec h
  · intro j hj
    have h : ∃ x, x < N ∧ dest dg N x = dest dg N j := ⟨j, hj, rfl⟩
    simp only [h, dif_pos]
    have hs := Classical.choose_spec h
    exact dest_inj dg N _ j hs.1 hj hs.2

/-- One pass re-establishes the invariant with origins for the next digit. -/
theorem stable_pass_step (k l N : Nat) (keys : List Nat) (m : Memory) (p from_ to_ : Nat)
    (π : Nat → Nat) (hkeys : ∀ i, keys.getD i 0 < 2 ^ 32)
    (inv : StableInv k (2 ^ l) N keys m p from_ to_ π) :
    ∃ (m' : Memory) (π' : Nat → Nat),
      sort_pass (2 ^ k) (2 ^ l) N (p * l) from_ to_ m = Except.ok m' ∧
      StableInv k (2 ^ l) N keys m' (p + 1) to_ from_ π' := by
  have hft : from_ ≠ to_ := by rcases inv.bufs with ⟨a, b⟩ | ⟨a, b⟩ <;> omega
  have hlt : ∀ i, i < N → m.key from_ i < 2 ^ 32 := fun i hi => by
    rw [inv.val i hi]; exact hkeys _
  obtain ⟨m', hrun, _, h2, h3, h4⟩ := sort_pass_spec k (2 ^ l) (p * l) N from_ to_ m hft
    inv.flags inv.kp (fun i hi => digit_lt l (p * l) _ (hlt i hi))
  have hpow : 2 ^ (p * l) = (2 ^ l) ^ p := by rw [Nat.mul_comm, pow_mul]
  have hdest : ∀ j, j < N →
      m'.key to_ (dest (fun i => m.key from_ i / (2 ^ l) ^ p % 2 ^ l) N j) = m.key from_ j := by
    intro j hj
    rw [← h4 j hj]
    congr 1
    apply dest_congr _ _ N j hj
    intro i hi
    rw [digit_eq_div_mod l (p * l) _ (hlt i hi), hpow]
  obtain ⟨dinv, hd1, hd2⟩ := dest_inverse (fun i => m.key from_ i / (2 ^ l) ^ p % 2 ^ l) N
  refine ⟨m', fun y => π (dinv y), hrun,
    ⟨inv.bufs.symm.imp (fun h => ⟨h.2, h.1⟩) (fun h => ⟨h.2, h.1⟩), h3,
      by rw [h2]; exact inv.kp, ?_, ?_, ?_, ?_⟩⟩
  · intro y hy
    exact inv.src _ (hd1 y hy).1
  · intro y y' hy hy' he
    have := inv.inj _ _ (hd1 y hy).1 (hd1 y' hy').1 he
    rw [← (hd1 y hy).2, ← (hd1 y' hy').2, this]
  · intro y hy
    have := hdest (dinv y) (hd1 y hy).1
    rw [(hd1 y hy).2] at this
    rw [this, inv.val _ (hd1 y hy).1]
  · exact stable_of_dest (2 ^ l) p N _ _ π _ (by positivity) inv.ord hdest
      (fun j hj => by simp only [hd2 j hj])

/-- The pass loop with `2 ^ k` threads completes, and the buffer it reports is
ordered by the low `D` digits and then by origin. -/
theorem stable_loop_spec (k l N D : Nat) (keys : List Nat)
    (hkeys : ∀ i, keys.getD i 0 < 2 ^ 32) :
    ∀ todo loopnum from_ to_ (m : Memory) (π : Nat → Nat), todo + 1 + loopnum = D →
      StableInv k (2 ^ l) N keys m loopnum from_ to_ π →
      ∃ (m' : Memory) (final : Nat) (π' : Nat → Nat),
        slave_sort_loop (2 ^ k) (2 ^ l) l N D (todo + 1) loopnum from_ to_ m
          = Except.ok (m', final) ∧
        (∀ i, i < N → π' i < N) ∧
        (∀ i j, i < N → j < N → π' i = π' j → i = j) ∧
        (∀ i, i < N → m'.key final i = keys.getD (π' i) 0) ∧
        ∀ i j, i < j → j < N →
          m'.key final i % (2 ^ l) ^ D < m'.key final j % (2 ^ l) ^ D ∨
            (m'.key final i % (2 ^ l) ^ D = m'.key final j % (2 ^ l) ^ D ∧ π' i < π' j) := by
  intro todo
  induction todo with
  | zero =>
    intro loopnum from_ to_ m π hD inv
    obtain ⟨m', π', hrun, inv'⟩ := stable_pass_step k l N keys m loopnum from_ to_ π hkeys inv
    have hlast : loopnum + 1 = D := by omega
    refine ⟨m', to_, π', ?_, inv'.src, inv'.inj, inv'.val, ?_⟩
    · simp only [slave_sort_loop, hrun, bind, Except.bind, hlast, ne_eq, not_true_eq_false,
        if_false]
    · rw [← hlast]; exact inv'.ord
  | succ n ih =>
    intro loopnum from_ to_ m π hD inv
    obtain ⟨m', π', hrun, inv'⟩ := stable_pass_step k l N keys m loopnum from_ to_ π hkeys inv
    have hne : loopnum + 1 ≠ D := by omega
    have hswap : from_ ^^^ 1 = to_ ∧ to_ ^^^ 1 = from_ := by
      rcases inv.bufs with ⟨a, b⟩ | ⟨a, b⟩ <;> subst a <;> subst b <;> exact ⟨rfl, rfl⟩
    obtain ⟨m'', fin, π'', hrun', r1, r2, r3, r4⟩ :=
      ih (loopnum + 1) to_ from_ m' π' (by omega) inv'
    refine ⟨m'', fin, π'', ?_, r1, r2, r3, r4⟩
    rw [slave_sort_loop]
    simp only [hrun, bind, Except.bind, hne, ne_eq, not_false_eq_true, if_true, hswap.1,
      hswap.2]
    exact hrun'

theorem slave_sort_final (P R l N D : Nat) (m m' : Memory) (final : Nat) (hD : 1 ≤ D)
    (h : slave_sort P R l N D m = Except.ok (m', final)) : final = D % 2 := by
  unfold slave_sort at h
  rw [slave_sort_loop_passes] at h
  obtain ⟨d, rfl⟩ : ∃ d, D = d + 1 := ⟨D - 1, by omega⟩
  have hf := final_buffer_closed (d + 1) d 0 (by omega)
  simp only [Nat.zero_mod, Nat.zero_add, Nat.one_mod] at hf
  rw [hf] at h
  cases hx : (pass_buffers (d + 1) (d + 1) 0 0 1).foldlM
      (fun m (p : Nat × Nat × Nat) => sort_pass P R N (p.1 * l) p.2.1 p.2.2 m) m with
  | error e =>
    rw [hx] at h
    cases h
  | ok m1 =>
    rw [hx] at h
    simp only [Except.map, Except.ok.injEq, Prod.mk.injEq] at h
    exact h.2.symm

/-- With `2 ^ k` threads, radix `2 ^ l` and `D ≥ 1` passes, `slave_sort` run on
the memory set up by `main` completes and reports a buffer that holds the input
stably sorted by `key mod (2 ^ l) ^ D`. -/
theorem slave_sort_stable (k l D : Nat) (keys : List Nat) (heap : Memory)
    (hD : 1 ≤ D) (hkeys : ∀ x, x ∈ keys → x < 2 ^ 31) :
    ∃ (m' : Memory) (final : Nat),
      slave_sort (2 ^ k) (2 ^ l) l keys.length D
          (init_memory (2 ^ k) keys
            ((List.range (2 ^ k + 1)).map (fun i => i * keys.length / 2 ^ k)) heap)
        = Except.ok (m', final) ∧
      final = D % 2 ∧
      stably_sorted_by (fun x => x % (2 ^ l) ^ D) keys (buffer keys.length (m'.key final)) := by
  have hP : 0 < 2 ^ k := by positivity
  have hget : ∀ i, keys.getD i 0 < 2 ^ 32 := by
    intro i
    by_cases hi : i < keys.length
    · rw [List.getD_eq_getElem _ _ hi]
      have := hkeys _ (List.getElem_mem hi)
      have : (2 : Nat) ^ 31 < 2 ^ 32 := by norm_num
      omega
    · rw [List.getD_eq_default _ _ (by omega)]
      positivity
  set m0 := init_memory (2 ^ k) keys
    ((List.range (2 ^ k + 1)).map (fun i => i * keys.length / 2 ^ k)) heap with hm0
  have inv0 : StableInv k (2 ^ l) keys.length keys m0 0 0 1 (fun i => i) := by
    refine ⟨Or.inl ⟨rfl, rfl⟩, init_flags_clear k _ _ _, init_partition_ok _ _ _ _ hP,
      fun i hi => hi, fun i j _ _ h => h, ?_, ?_⟩
    · intro i hi
      show setAt heap.key 0 (fun i => keys.getD i (heap.key 0 i)) 0 i = keys.getD i 0
      rw [setAt_same, List.getD_eq_getElem _ _ hi, List.getD_eq_getElem _ _ hi]
    · intro i j hij _
      right
      simp [Nat.mod_one, hij]
  obtain ⟨d, rfl⟩ : ∃ d, D = d + 1 := ⟨D - 1, by omega⟩
  obtain ⟨m', fin, π, hrun, r1, r2, r3, r4⟩ :=
    stable_loop_spec k l keys.length (d + 1) keys hget d 0 0 1 m0 (fun i => i) (by omega) inv0
  have hrun' : slave_sort (2 ^ k) (2 ^ l) l keys.length (d + 1) m0 = Except.ok (m', fin) := hrun
  refine ⟨m', fin, hrun', slave_sort_final _ _ _ _ _ _ _ _ hD hrun', ?_⟩
  have hbuf : ∀ i, i < keys.length → (buffer keys.length (m'.key fin)).getD i 0
      = m'.key fin i := by
    intro i hi
    unfold buffer
    rw [List.getD_eq_getElem _ _ (by simpa using hi)]
    simp
  refine ⟨by simp [buffer], π, r1, r2, ?_, ?_⟩
  · intro i hi
    rw [hbuf i hi, r3 i hi]
  · intro i j hij hj
    have := r4 i j hij hj
    rw [r3 i (by omega), r3 j hj] at this
    exact this

/-- A stably sorted list is a permutation of the input. -/
theorem stably_sorted_perm (f : Nat → Nat) (keys out : List Nat)
    (h : stably_sorted_by f keys out) : out.Perm keys := by
  obtain ⟨hlen, π, h1, h2, h3, _⟩ := h
  have hsurj : ∀ y, y < keys.length → ∃ x, x < keys.length ∧ π x = y := by
    intro y hy
    have hs := Finset.surj_on_of_inj_on_of_card_le (s := Finset.range keys.length)
      (t := Finset.range keys.length) (fun a _ => π a)
      (fun a ha => Finset.mem_range.mpr (h1 a (Finset.mem_range.mp ha)))
      (fun a b ha hb hab => h2 a b (Finset.mem_range.mp ha) (Finset.mem_range.mp hb) hab)
      (le_refl _) y (Finset.mem_range.mpr hy)
    obtain ⟨x, hx, hxy⟩ := hs
    exact ⟨x, Finset.mem_range.mp hx, hxy.symm⟩
  have e1 : out = ((List.range keys.length).map π).map (fun i => keys.getD i 0) := by
    apply List.ext_getElem
    · simp [hlen]
    · intro i hi1 hi2
      have hi : i < keys.length := by rw [← hlen]; exact hi1
      have := h3 i hi
      rw [List.getD_eq_getElem _ _ hi1] at this
      simp [this]
  have e2 : keys = (List.range keys.length).map (fun i => keys.getD i 0) := by
    apply List.ext_getElem
    · simp
    · intro i hi1 _
      simp [List.getElem?_eq_getElem hi1]
  rw [e1]
  nth_rewrite 3 [e2]
  apply List.Perm.map
  apply (List.perm_ext_iff_of_nodup ?_ (List.nodup_range _)).mpr
  · intro y
    constructor
    · intro hy
      obtain ⟨x, hx, rfl⟩ := List.mem_map.mp hy
      exact List.mem_range.mpr (h1 x (List.mem_range.mp hx))
    · intro hy
      obtain ⟨x, hx, hxy⟩ := hsurj y (List.mem_range.mp hy)
      exact List.mem_map.mpr ⟨x, List.mem_range.mpr hx, hxy⟩
  · apply List.Nodup.map_on _ (List.nodup_range _)
    intro a ha b hb hab
    exact h2 a b (List.mem_range.mp ha) (List.mem_range.mp hb) hab

/-- A list stably sorted by a function that is the identity on the keys is
sorted. -/
theorem stably_sorted_sorted (f : Nat → Nat) (keys out : List Nat)
    (h : stably_sorted_by f keys out) (hf : ∀ x, x ∈ keys → f x = x) :
    out.Sorted (· ≤ ·) := by
  obtain ⟨hlen, π, h1, _, h3, h4⟩ := h
  have hmem : ∀ i, i < keys.length → keys.getD (π i) 0 ∈ keys := by
    intro i hi
    rw [List.getD_eq_getElem _ _ (h1 i hi)]
    exact List.getElem_mem _
  apply List.pairwise_iff_getElem.mpr
  intro i j hi hj hij
  have hi' : i < keys.length := by rw [← hlen]; exact hi
  have hj' : j < keys.length := by rw [← hlen]; exact hj
  have a := h3 i hi'
  have b := h3 j hj'
  rw [List.getD_eq_getElem _ _ hi] at a
  rw [List.getD_eq_getElem _ _ hj] at b
  rw [a, b]
  have := h4 i j hij hj'
  rw [hf _ (hmem i hi'), hf _ (hmem j hj')] at this
  omega

/-- The loop of `get_max_digits` never returns less than its counter. -/
theorem get_max_digits_loop_ge (radix : Nat) :
    ∀ fuel key_val temp d, get_max_digits_loop radix fuel key_val temp = some d → temp ≤ d := by
  intro fuel
  induction fuel with
  | zero => intro key_val temp d h; simp [get_max_digits_loop] at h
  | succ f ih =>
    intro key_val temp d h
    unfold get_max_digits_loop at h
    by_cases h0 : key_val / radix = 0
    · simp only [h0, if_true, Option.some.injEq] at h
      omega
    · simp only [h0, if_false] at h
      have := ih _ _ _ h
      omega

/-- The number of passes computed by `get_max_digits` is at least one. -/
theorem get_max_digits_ge (radix max_key d : Nat) (h : get_max_digits radix max_key = some d) :
    1 ≤ d :=
  get_max_digits_loop_ge radix _ _ _ _ h

/-! ## Contents of the tree after the up-sweep and after the down-sweep -/

/-- The sum of the key densities of all threads for bucket `b` is the number of
keys of the whole array with a digit `≤ b`. -/
theorem densities_total (R s N from_ P : Nat) (m : Memory)
    (hkp : partition_ok m.key_partition P N) (b : Nat) (hb : b < R) :
    ∑ v in Finset.range P,
        ((List.range P).foldl (fun m t => histogram R s from_ t m) m).key_density v b
      = ∑ i in Finset.range N, if digit R s (m.key from_ i) ≤ b then 1 else 0 := by
  obtain ⟨h0, hN, hmono⟩ := hkp
  obtain ⟨_, _, _, _, _, a6, a7⟩ := histogram_all_spec R s from_ m P
  have hkd : ∀ v ∈ Finset.range P,
      ((List.range P).foldl (fun m t => histogram R s from_ t m) m).key_density v b
        = ∑ i in Finset.Ico (m.key_partition v)
            (m.key_partition v + (m.key_partition (v + 1) - m.key_partition v)),
            if digit R s (m.key from_ i) ≤ b then 1 else 0 := by
    intro v hv
    have hv' := Finset.mem_range.mp hv
    rw [a7 v hv' b hb, ← sum_indicator_le]
    apply Finset.sum_congr rfl
    intro c hc
    have := Finset.mem_range.mp hc
    exact a6 v hv' c (by omega)
  rw [Finset.sum_congr rfl hkd, sum_partition m.key_partition _ h0 P hmono, hN]

/-- The sum of the histograms of the threads below `t` for bucket `b` is the
number of keys with digit `b` below the boundary of thread `t`. -/
theorem ranks_below (R s N from_ P : Nat) (m : Memory)
    (hkp : partition_ok m.key_partition P N) (t : Nat) (ht : t ≤ P) (b : Nat) (hb : b < R) :
    ∑ v in Finset.range t,
        ((List.range P).foldl (fun m t => histogram R s from_ t m) m).rank_me v b
      = ∑ i in Finset.range (m.key_partition t),
          if digit R s (m.key from_ i) = b then 1 else 0 := by
  obtain ⟨h0, _, hmono⟩ := hkp
  obtain ⟨_, _, _, _, _, a6, _⟩ := histogram_all_spec R s from_ m P
  have hrk : ∀ v ∈ Finset.range t,
      ((List.range P).foldl (fun m t => histogram R s from_ t m) m).rank_me v b
        = ∑ i in Finset.Ico (m.key_partition v)
            (m.key_partition v + (m.key_partition (v + 1) - m.key_partition v)),
            if digit R s (m.key from_ i) = b then 1 else 0 := by
    intro v hv
    have hv' := Finset.mem_range.mp hv
    exact a6 v (by omega) b hb
  rw [Finset.sum_congr rfl hrk,
    sum_partition m.key_partition _ h0 t (fun u hu => hmono u (by omega))]

/-- With `2 ^ k` threads the up-sweep and the down-sweep of a pass complete.
After the up-sweep the densities of the top node count, for every bucket `b`,
the keys of the whole array with a digit `≤ b`, and the left-sibling walk of
thread `t` adds to `rank_ff[t][b]` the number of keys with digit `b` held by
the threads below `t`.  After the down-sweep the node `my_node` of every thread
holds the densities of the top node. -/
theorem tree_contents (k R s N from_ : Nat) (m : Memory) (hfl : flags_clear k m)
    (hkp : partition_ok m.key_partition (2 ^ k) N) :
    ∃ m2 m3,
      upsweep_phase (2 ^ k) R s from_ m = Except.ok m2 ∧
      rank_phase (2 ^ k) R s from_ m = Except.ok m3 ∧
      (∀ b, b < R → (m2.prefix_tree (2 * 2 ^ k - 2)).densities b
        = ∑ i in Finset.range N, if digit R s (m.key from_ i) ≤ b then 1 else 0) ∧
      (∀ t, t < 2 ^ k → ∃ m', run_thread R m2 (rank_loop t t t (2 ^ k) 0) = (m', []) ∧
        ∀ b, b < R → m'.rank_ff t b = m2.rank_ff t b
          + ∑ i in Finset.range (m.key_partition t),
              if digit R s (m.key from_ i) = b then 1 else 0) ∧
      (∀ t, t < 2 ^ k → ∀ b, b < R →
        (m3.prefix_tree (if t + 1 ≠ 2 ^ k then my_node_index (2 ^ k) t
            else 2 * 2 ^ k - 2)).densities b
          = ∑ i in Finset.range N, if digit R s (m.key from_ i) ≤ b then 1 else 0) ∧
      flags_clear k m2 ∧ flags_clear k m3 := by
  obtain ⟨_, _, a3, _, _, _, _⟩ := histogram_all_spec R s from_ m (2 ^ k)
  set m1 := (List.range (2 ^ k)).foldl (fun m t => histogram R s from_ t m) m with hm1
  have hfl1 : flags_clear k m1 := by
    intro j o hj ho; rw [a3]; exact hfl j o hj ho
  obtain ⟨m2, hup, uinv⟩ := up_phase k R m1 hfl1
  have hfl2 : flags_clear k m2 := by
    intro j o hj ho
    apply uinv.flag_clear j o hj ho
    intro ⟨_, _, h⟩
    exact h (node_le_of_tracked k j o hj ho)
  have hrm2 : m2.rank_me = m1.rank_me := uinv.data.2.1
  have hranks : ∀ j o', j ≤ k → o' < lvl (2 ^ k) j → o' + 1 ≠ lvl (2 ^ k) j → ∀ b, b < R →
      (m2.prefix_tree (idx (2 ^ k) j o')).ranks b = seg_sum m2.rank_me j o' b := by
    intro j o' hj ho' hne b hb
    rw [hrm2]
    exact (uinv.contents j o' hj ho' (node_le_of_tracked k j o' hj ho')).2 (Or.inr hne) b hb
  obtain ⟨m3, hdown, dinv⟩ := down_phase k R m2 hfl2 hranks
  have htopidx : idx (2 ^ k) k 0 = 2 * 2 ^ k - 2 := by
    unfold idx; rw [node_base_top]; rfl
  have htop : ∀ b, b < R → (m2.prefix_tree (idx (2 ^ k) k 0)).densities b
      = ∑ i in Finset.range N, if digit R s (m.key from_ i) ≤ b then 1 else 0 := by
    intro b hb
    have h := (uinv.contents k 0 (le_refl _) (by rw [lvl_top]; omega)
      (node_le_of_tracked k k 0 (le_refl _) (by rw [lvl_top]; omega))).1 b hb
    rw [h]
    unfold seg_sum
    simp only [Nat.zero_mul, Nat.zero_add, Nat.one_mul]
    rw [← Finset.range_eq_Ico]
    exact densities_total R s N from_ (2 ^ k) m hkp b hb
  refine ⟨m2, m3, hup, ?_, ?_, ?_, ?_, hfl2, ?_⟩
  · simp only [rank_phase, bind, Except.bind]
    rw [← hm1, hup]
    exact hdown
  · intro b hb
    rw [← htopidx]
    exact htop b hb
  · intro t ht
    obtain ⟨m', hrun, _, _, _, r4⟩ := rank_loop_spec k R m2.rank_me t ht t 0 t m2
      (by simp) (by simp) (le_refl _) hranks
    simp only [lvl_zero, node_base] at hrun
    refine ⟨m', hrun, ?_⟩
    intro b hb
    rw [r4 b hb, hrm2]
    simp only [pow_zero, Nat.mul_one]
    rw [← Finset.range_eq_Ico]
    rw [ranks_below R s N from_ (2 ^ k) m hkp t (by omega) b hb]
  · intro t ht b hb
    by_cases hlast : t + 1 = 2 ^ k
    · simp only [hlast, ne_eq, not_true_eq_false, if_false]
      rw [← htopidx, dinv.top_dens]
      exact htop b hb
    · simp only [hlast, ne_eq, not_false_eq_true, if_true]
      obtain ⟨z, o, _, _, h1, _, h3, h4, _, _⟩ := my_their_spec (2 ^ k) t
      rw [h1]
      obtain ⟨hz, ho⟩ := valid_of_le k z o (by omega)
      have hpos : 0 < (o + 1) * 2 ^ z := by positivity
      rw [dinv.dens z o hz ho ⟨h4, hpos⟩ b hb]
      exact htop b hb
  · intro j o hj ho
    apply dinv.flag_clear j o hj ho
    intro ⟨_, h, _⟩
    have : 0 < (o + 1) * 2 ^ j := by positivity
    omega

/-! ## The `ranks` of the top node -/

theorem node_base_step_le (P : Nat) : ∀ j, node_base P (j + 1) + lvl P j ≤ 2 * P := by
  intro j
  induction j with
  | zero => simp [node_base, lvl]; omega
  | succ j ih =>
    have h1 : node_base P (j + 1 + 1) = node_base P (j + 1) + lvl P (j + 1) := rfl
    have h2 := lvl_succ P j
    omega

theorem node_base_lt (P : Nat) (hP : 1 ≤ P) : ∀ j, node_base P j < 2 * P := by
  intro j
  induction j with
  | zero => simp [node_base]; omega
  | succ j ih =>
    have h1 : node_base P (j + 1) = node_base P j + lvl P j := rfl
    have h2 := node_base_step_le P j
    omega

/-- A node index `base + offset` with `offset` at most the size of the level is
below `2 * P`. -/
theorem idx_bound (P j o : Nat) (hP : 1 ≤ P) (ho : o ≤ lvl P j) : node_base P j + o < 2 * P := by
  have h1 : node_base P (j + 1) = node_base P j + lvl P j := rfl
  have h2 := node_base_step_le P j
  have h3 := node_base_lt P hP j
  omega

theorem half_le_lvl (P j o : Nat) (ho : o ≤ lvl P j) : o / 2 ≤ lvl P (j + 1) := by
  rw [lvl_succ]
  omega

theorem indices_below_nil (n : Nat) : indices_below n [] := by
  intro a ha
  cases ha

theorem indices_below_cons (n : Nat) (a : Action) (prog : List Action)
    (ha : ∀ i, i ∈ tree_indices a → i < n) (hp : indices_below n prog) :
    indices_below n (a :: prog) := by
  intro x hx
  rcases List.mem_cons.mp hx with h | h
  · rw [h]; exact ha
  · exact hp x h

theorem indices_below_append (n : Nat) (p q : List Action)
    (hp : indices_below n p) (hq : indices_below n q) : indices_below n (p ++ q) := by
  intro x hx
  rcases List.mem_append.mp hx with h | h
  · exact hp x h
  · exact hq x h

theorem upsweep_loop_below (P : Nat) (hP : 1 ≤ P) :
    ∀ fuel j o n, o ≤ lvl P j → n < 2 * P →
      indices_below (2 * P) (upsweep_loop fuel o (lvl P (j + 1)) (node_base P (j + 1)) n) := by
  intro fuel
  induction fuel with
  | zero => intro j o n _ _; exact indices_below_nil _
  | succ f ih =>
    intro j o n ho hn
    unfold upsweep_loop
    by_cases hodd : o % 2 ≠ 0
    · simp only [hodd, if_true, ne_eq, not_false_eq_true]
      have h1 := half_le_lvl P j o ho
      have h2 := half_le_lvl P (j + 1) (o / 2) h1
      have b1 := idx_bound P (j + 1) (o / 2) hP h1
      have b2 := idx_bound P (j + 1 + 1) (o / 2 / 2) hP h2
      have e1 : node_base P (j + 1) + lvl P (j + 1) = node_base P (j + 1 + 1) := rfl
      have e2 : lvl P (j + 1) / 2 = lvl P (j + 1 + 1) := (lvl_succ P (j + 1)).symm
      rw [e1, e2]
      apply indices_below_append
      · apply indices_below_append
        · apply indices_below_cons
          · intro i hi
            simp only [tree_indices, List.mem_singleton] at hi
            omega
          · apply indices_below_cons
            · intro i hi
              split at hi <;>
                (simp only [tree_indices, List.mem_cons, List.mem_singleton, List.not_mem_nil,
                  or_false] at hi; omega)
            · exact indices_below_nil _
        · split
          · apply indices_below_cons
            · intro i hi
              simp only [tree_indices, List.mem_singleton] at hi
              omega
            · exact indices_below_nil _
          · exact indices_below_nil _
      · exact ih (j + 1) (o / 2) _ h1 b1
    · simp only [hodd, if_false]
      exact indices_below_nil _

/-- The climbing loop keeps `(offset, level, base)` of the form
`(o, lvl P j, node_base P j)` with `o ≤ lvl P j`. -/
theorem climb_form (P : Nat) :
    ∀ fuel j o, o ≤ lvl P j →
      ∃ j1 o1, climb fuel o (lvl P j) (node_base P j) = (o1, lvl P j1, node_base P j1) ∧
        o1 ≤ lvl P j1 := by
  intro fuel
  induction fuel with
  | zero => intro j o ho; exact ⟨j, o, rfl, ho⟩
  | succ f ih =>
    intro j o ho
    unfold climb
    by_cases hodd : o % 2 ≠ 0
    · simp only [hodd, if_true, ne_eq, not_false_eq_true]
      have e1 : node_base P j + lvl P j = node_base P (j + 1) := rfl
      have e2 : lvl P j / 2 = lvl P (j + 1) := (lvl_succ P j).symm
      rw [e1, e2]
      exact ih (j + 1) (o / 2) (half_le_lvl P j o ho)
    · simp only [hodd, if_false]
      exact ⟨j, o, rfl, ho⟩

theorem signal_loop_below (P : Nat) (hP : 1 ≤ P) :
    ∀ fuel j o, o ≤ lvl P j →
      indices_below (2 * P) (signal_loop fuel o (lvl P j) (node_base P j)) := by
  intro fuel
  induction fuel with
  | zero => intro j o _; exact indices_below_nil _
  | succ f ih =>
    intro j o ho
    unfold signal_loop
    by_cases hodd : o % 2 ≠ 0
    · simp only [hodd, if_true, ne_eq, not_false_eq_true]
      have b1 := idx_bound P j o hP ho
      have e1 : node_base P j + lvl P j = node_base P (j + 1) := rfl
      have e2 : lvl P j / 2 = lvl P (j + 1) := (lvl_succ P j).symm
      rw [e1, e2]
      apply indices_below_cons
      · intro i hi
        simp only [tree_indices, List.mem_singleton] at hi
        omega
      · exact ih (j + 1) (o / 2) (half_le_lvl P j o ho)
    · simp only [hodd, if_false]
      exact indices_below_nil _

theorem rank_loop_below (P t : Nat) (hP : 1 ≤ P) :
    ∀ fuel j o, o ≤ lvl P j →
      indices_below (2 * P) (rank_loop t fuel o (lvl P j) (node_base P j)) := by
  intro fuel
  induction fuel with
  | zero => intro j o _; exact indices_below_nil _
  | succ f ih =>
    intro j o ho
    unfold rank_loop
    by_cases hz : o ≠ 0
    · simp only [hz, if_true, ne_eq, not_false_eq_true]
      have b1 := idx_bound P j o hP ho
      have e1 : node_base P j + lvl P j = node_base P (j + 1) := rfl
      have e2 : lvl P j / 2 = lvl P (j + 1) := (lvl_succ P j).symm
      rw [e1, e2]
      apply indices_below_append
      · split
        · apply indices_below_cons
          · intro i hi
            simp only [tree_indices, List.mem_singleton] at hi
            omega
          · exact indices_below_nil _
        · exact indices_below_nil _
      · exact ih (j + 1) (o / 2) (half_le_lvl P j o ho)
    · simp only [hz, if_false]
      exact indices_below_nil _

theorem upsweep_below (P t : Nat) (hP : 1 ≤ P) (ht : t < P) :
    indices_below (2 * P) (upsweep P t) := by
  unfold upsweep
  have e0 : P / 2 = lvl P (0 + 1) := by simp [lvl]
  have e1 : P = node_base P (0 + 1) := by simp [node_base, lvl]
  apply indices_below_append
  · apply indices_below_append
    · apply indices_below_cons
      · intro i hi
        simp only [tree_indices, List.mem_singleton] at hi
        omega
      · exact indices_below_nil _
    · split
      · apply indices_below_cons
        · intro i hi
          simp only [tree_indices, List.mem_singleton] at hi
          omega
        · exact indices_below_nil _
      · exact indices_below_nil _
  · have h := upsweep_loop_below P hP t 0 t t (by simp [lvl]; omega) (by omega)
    rw [← e0, ← e1] at h
    exact h

theorem my_node_below (P t : Nat) (hP : 1 ≤ P) (ht : t < P) :
    my_node_index P t < 2 * P ∧ their_node_index P t < 2 * P := by
  have e0 : lvl P 0 = P := lvl_zero P
  have e1 : node_base P 0 = 0 := rfl
  obtain ⟨j1, o1, hc, ho1⟩ := climb_form P t 0 t (by rw [e0]; omega)
  rw [e0, e1] at hc
  obtain ⟨j2, o2, hd, ho2⟩ := climb_form P t (j1 + 1) (o1 / 2) (half_le_lvl P j1 o1 ho1)
  have e2 : node_base P (j1 + 1) = node_base P j1 + lvl P j1 := rfl
  rw [lvl_succ, e2] at hd
  constructor
  · unfold my_node_index
    simp only [hc]
    exact idx_bound P j1 o1 hP ho1
  · unfold their_node_index
    simp only [hc, hd]
    exact idx_bound P j2 o2 hP ho2

theorem downsweep_below (P t : Nat) (hP : 1 ≤ P) (ht : t < P) :
    indices_below (2 * P) (downsweep P t) := by
  obtain ⟨hmy, htheir⟩ := my_node_below P t hP ht
  have hnode : (if t + 1 ≠ P then my_node_index P t else 2 * P - 2) < 2 * P := by
    split
    · exact hmy
    · omega
  have hsig := signal_loop_below P hP t 0 t (by rw [lvl_zero]; omega)
  have hrank := rank_loop_below P t hP t 0 t (by rw [lvl_zero]; omega)
  rw [lvl_zero] at hsig hrank
  have e1 : node_base P 0 = 0 := rfl
  rw [e1] at hsig hrank
  unfold downsweep
  simp only
  apply indices_below_append
  · apply indices_below_append
    · apply indices_below_append
      · apply indices_below_append
        · split
          · apply indices_below_cons
            · intro i hi
              simp only [tree_indices, List.mem_singleton] at hi
              omega
            · apply indices_below_cons
              · intro i hi
                simp only [tree_indices, List.mem_cons, List.mem_singleton, List.not_mem_nil,
                  or_false] at hi
                omega
              · exact indices_below_nil _
          · exact indices_below_nil _
        · exact hsig
      · apply indices_below_cons
        · intro i hi
          simp only [tree_indices, List.not_mem_nil] at hi
        · exact indices_below_nil _
    · exact hrank
  · apply indices_below_cons
    · intro i hi
      simp only [tree_indices, List.mem_singleton] at hi
      omega
    · exact indices_below_nil _

/-! ### The index arithmetic in `Int` -/

theorem upsweep_int_loop_eq :
    ∀ (fuel o l b n : Nat), 1 ≤ b → (o % 2 ≠ 0 → 1 ≤ n) →
      upsweep_int_loop fuel o l b n
        = ((upsweep_loop fuel o l b n).flatMap tree_indices).map (fun i : Nat => (i : Int)) := by
  intro fuel
  induction fuel with
  | zero => intro o l b n _ _; rfl
  | succ f ih =>
    intro o l b n hb hn
    unfold upsweep_int_loop upsweep_loop
    by_cases hodd : o % 2 ≠ 0
    · have hi : ((o : Int) % 2 ≠ 0) := by omega
      have hn1 := hn hodd
      have c1 : (o : Int) / 2 = ((o / 2 : Nat) : Int) := by omega
      have c2 : (l : Int) / 2 = ((l / 2 : Nat) : Int) := by omega
      have c3 : (b : Int) + l = ((b + l : Nat) : Int) := by omega
      have c4 : (b : Int) + ((o / 2 : Nat) : Int) = ((b + o / 2 : Nat) : Int) := by omega
      have c5 : (n : Int) - 1 = ((n - 1 : Nat) : Int) := by omega
      have c6 : ((o / 2 : Nat) : Int) / 2 = ((o / 2 / 2 : Nat) : Int) := by omega
      have c7 : ((b + l : Nat) : Int) + ((o / 2 / 2 : Nat) : Int)
          = ((b + l + o / 2 / 2 : Nat) : Int) := by omega
      have c8 : (((o / 2 : Nat) : Int) % 2 = 0) ↔ (o / 2 % 2 = 0) := by omega
      simp only [hodd, hi, if_true, ne_eq, not_false_eq_true, c1, c2, c3, c4, c5, c6, c7, c8]
      rw [ih (o / 2) (l / 2) (b + l) (b + o / 2) (by omega) (fun _ => by omega)]
      by_cases hm : o / 2 + 1 = l <;> by_cases he : o / 2 % 2 = 0 <;>
        simp [hm, he, tree_indices, List.flatMap_append, List.flatMap_cons]
    · have hi : ¬ ((o : Int) % 2 ≠ 0) := by omega
      simp only [hodd, hi, if_false]
      rfl

theorem climb_int_eq :
    ∀ (fuel o l b : Nat),
      climb_int fuel o l b
        = (((climb fuel o l b).1 : Int), ((climb fuel o l b).2.1 : Int),
            ((climb fuel o l b).2.2 : Int)) := by
  intro fuel
  induction fuel with
  | zero => intro o l b; rfl
  | succ f ih =>
    intro o l b
    unfold climb_int climb
    by_cases hodd : o % 2 ≠ 0
    · have hi : ((o : Int) % 2 ≠ 0) := by omega
      have c1 : (o : Int) / 2 = ((o / 2 : Nat) : Int) := by omega
      have c2 : (l : Int) / 2 = ((l / 2 : Nat) : Int) := by omega
      have c3 : (b : Int) + l = ((b + l : Nat) : Int) := by omega
      simp only [hodd, hi, if_true, ne_eq, not_false_eq_true, c1, c2, c3]
      exact ih _ _ _
    · have hi : ¬ ((o : Int) % 2 ≠ 0) := by omega
      simp only [hodd, hi, if_false]

theorem signal_int_loop_eq :
    ∀ (fuel o l b : Nat),
      signal_int_loop fuel o l b
        = ((signal_loop fuel o l b).flatMap tree_indices).map (fun i : Nat => (i : Int)) := by
  intro fuel
  induction fuel with
  | zero => intro o l b; rfl
  | succ f ih =>
    intro o l b
    unfold signal_int_loop signal_loop
    by_cases hodd : o % 2 ≠ 0
    · have hi : ((o : Int) % 2 ≠ 0) := by omega
      have c1 : (o : Int) / 2 = ((o / 2 : Nat) : Int) := by omega
      have c2 : (l : Int) / 2 = ((l / 2 : Nat) : Int) := by omega
      have c3 : (b : Int) + l = ((b + l : Nat) : Int) := by omega
      have c4 : (b : Int) + o - 1 = ((b + o - 1 : Nat) : Int) := by omega
      simp only [hodd, hi, if_true, ne_eq, not_false_eq_true, c1, c2, c3, c4]
      rw [ih]
      simp [tree_indices, List.flatMap_cons]
    · have hi : ¬ ((o : Int) % 2 ≠ 0) := by omega
      simp only [hodd, hi, if_false]
      rfl

theorem rank_int_loop_eq (t : Nat) :
    ∀ (fuel o l b : Nat),
      rank_int_loop fuel o l b
        = ((rank_loop t fuel o l b).flatMap tree_indices).map (fun i : Nat => (i : Int)) := by
  intro fuel
  induction fuel with
  | zero => intro o l b; rfl
  | succ f ih =>
    intro o l b
    unfold rank_int_loop rank_loop
    by_cases hz : o ≠ 0
    · have hi : ((o : Int) ≠ 0) := by omega
      have c1 : (o : Int) / 2 = ((o / 2 : Nat) : Int) := by omega
      have c2 : (l : Int) / 2 = ((l / 2 : Nat) : Int) := by omega
      have c3 : (b : Int) + l = ((b + l : Nat) : Int) := by omega
      simp only [hz, hi, if_true, ne_eq, not_false_eq_true, c1, c2, c3]
      rw [ih]
      by_cases hodd : o % 2 ≠ 0
      · have hi2 : ((o : Int) % 2 ≠ 0) := by omega
        have c4 : (b : Int) + o - 1 = ((b + o - 1 : Nat) : Int) := by omega
        simp [hodd, hi2, c4, tree_indices, List.flatMap_append, List.flatMap_cons]
      · have hi2 : ¬ ((o : Int) % 2 ≠ 0) := by omega
        simp only [if_neg hodd, if_neg hi2, List.nil_append]
    · have hi : ¬ ((o : Int) ≠ 0) := by omega
      simp only [hz, hi, if_false]
      rfl

/-- The indices computed with the integer arithmetic of the source are those of
the thread programs: no subtraction in the index arithmetic goes below zero. -/
theorem tree_trace_eq (P t : Nat) (hP : 1 ≤ P) :
    tree_trace P t
      = ((upsweep P t ++ downsweep P t).flatMap tree_indices).map (fun i : Nat => (i : Int)) := by
  unfold tree_trace upsweep downsweep my_node_index their_node_index
  have c1 : (P : Int) / 2 = ((P / 2 : Nat) : Int) := by omega
  have s1 := signal_int_loop_eq t t P 0
  have s2 := rank_int_loop_eq t t t P 0
  have s3 := climb_int_eq t t P 0
  simp only [Nat.cast_zero] at s1 s2 s3
  simp only [c1]
  rw [upsweep_int_loop_eq t t (P / 2) P t hP (fun h => by omega), s1, s2, s3]
  simp only
  have d1 : ((climb t t P 0).1 : Int) / 2 = (((climb t t P 0).1 / 2 : Nat) : Int) := by omega
  have d2 : ((climb t t P 0).2.1 : Int) / 2 = (((climb t t P 0).2.1 / 2 : Nat) : Int) := by
    omega
  have d3 : ((climb t t P 0).2.2 : Int) + ((climb t t P 0).2.1 : Int)
      = (((climb t t P 0).2.2 + (climb t t P 0).2.1 : Nat) : Int) := by omega
  rw [d1, d2, d3, climb_int_eq]
  simp only
  have hlast : ((t : Int) ≠ (P : Int) - 1) ↔ (t + 1 ≠ P) := by omega
  have heven : ((t : Int) % 2 = 0) ↔ (t % 2 = 0) := by omega
  have e1 : (P : Int) + (t : Int) / 2 = ((P + t / 2 : Nat) : Int) := by omega
  have e2 : 2 * (P : Int) - 2 = ((2 * P - 2 : Nat) : Int) := by omega
  simp only [hlast, heven, e1, e2]
  by_cases hl : t + 1 ≠ P <;> by_cases he : t % 2 = 0 <;>
    simp [hl, he, tree_indices, List.flatMap_append, List.flatMap_cons]

/-! ## The flags of all `2P - 1` nodes -/

/-- Every index below the base of level `j` is a node of a lower level. -/
theorem node_cover (P : Nat) :
    ∀ j i, i < node_base P j → ∃ j' o, j' < j ∧ o < lvl P j' ∧ i = idx P j' o := by
  intro j
  induction j with
  | zero => intro i hi; simp [node_base] at hi
  | succ n ih =>
    intro i hi
    rw [node_base_succ] at hi
    by_cases h : i < node_base P n
    · obtain ⟨j', o, h1, h2, h3⟩ := ih i h
      exact ⟨j', o, by omega, h2, h3⟩
    · exact ⟨n, i - node_base P n, by omega, by omega, by unfold idx; omega⟩

/-- With `2 ^ k` threads the nodes of the tree are the indices below `2P - 1`. -/
theorem flags_clear_iff (k : Nat) (m : Memory) :
    flags_clear k m ↔ ∀ i, i < 2 * 2 ^ k - 1 → (m.prefix_tree i).Flag = 0 := by
  have h3 := node_base_pow k (k + 1) (by omega)
  have e : k + 1 - (k + 1) = 0 := by omega
  rw [e, pow_zero, pow_succ] at h3
  constructor
  · intro h i hi
    obtain ⟨j, o, h1, h2, h3⟩ := node_cover (2 ^ k) (k + 1) i (by omega)
    rw [h3]
    exact h j o (by omega) h2
  · intro h j o hj ho
    apply h
    have h1 := idx_lt_next (2 ^ k) j o ho
    have h2 := node_base_mono (2 ^ k) (j + 1) (k + 1) (by omega)
    omega

/-- With `2 ^ k` threads a pass that starts with the flags of all `2P - 1`
nodes clear completes and ends with all of them clear. -/
theorem pass_resets_flags (k R s N from_ to_ : Nat) (m : Memory) (hft : from_ ≠ to_)
    (hfl : ∀ i, i < 2 * 2 ^ k - 1 → (m.prefix_tree i).Flag = 0)
    (hkp : partition_ok m.key_partition (2 ^ k) N)
    (hdg : ∀ i, i < N → digit R s (m.key from_ i) < R) :
    ∃ m', sort_pass (2 ^ k) R N s from_ to_ m = Except.ok m' ∧
      ∀ i, i < 2 * 2 ^ k - 1 → (m'.prefix_tree i).Flag = 0 := by
  obtain ⟨m', h1, _, _, h4, _⟩ :=
    sort_pass_spec k R s N from_ to_ m hft ((flags_clear_iff k m).mpr hfl) hkp hdg
  exact ⟨m', h1, (flags_clear_iff k m').mp h4⟩

/-! ## `ISort` -/

/-- The inner loop of `ISort`, started at `j ≥ lo` with enough iterations
allowed, stops at some `j'` with `lo ≤ j' ≤ j`: the entries at `j' + 1, ..., j`
are the old entries at `j', ..., j - 1`, all greater than `tmp`, the other
entries are unchanged, and the loop has read `row[j' - 1]`. -/
theorem ISort_while_spec (lo tmp : Int) :
    ∀ (fuel : Nat) (j : Int) (row : Int → Int) (reads : List Int),
      lo ≤ j → (j - lo).toNat + 1 ≤ fuel →
      ∃ (row' : Int → Int) (j' : Int) (extra : List Int),
        ISort_while lo tmp fuel j row reads = some (row', j', reads ++ extra) ∧
        lo ≤ j' ∧ j' ≤ j ∧
        (∀ x, x ≤ j' ∨ j < x → row' x = row x) ∧
        (∀ x, j' < x → x ≤ j → row' x = row (x - 1)) ∧
        (∀ x, j' < x → x ≤ j → tmp < row (x - 1)) ∧
        (j' = lo ∨ row (j' - 1) ≤ tmp) ∧
        (∀ r, r ∈ extra → j' - 1 ≤ r ∧ r ≤ j - 1) ∧ j' - 1 ∈ extra := by
  intro fuel
  induction fuel with
  | zero => intro j row reads _ h; omega
  | succ f ih =>
    intro j row reads hlo hf
    by_cases hc : row (j - 1) > tmp ∧ j > lo
    · obtain ⟨row', j', extra, h1, h2, h3, h4, h5, h6, h7, h8, h9⟩ :=
        ih (j - 1) (setI row j (row (j - 1))) (reads ++ [j - 1, j - 1]) (by omega) (by omega)
      refine ⟨row', j', [j - 1, j - 1] ++ extra, ?_, h2, by omega, ?_, ?_, ?_, ?_, ?_, ?_⟩
      · simp only [ISort_while, hc, and_self, if_true]
        rw [h1, List.append_assoc]
      · intro x hx
        rw [h4 x (by omega)]
        simp only [setI]
        rw [if_neg (by omega)]
      · intro x hx1 hx2
        by_cases hxj : x = j
        · rw [h4 x (by omega), hxj]
          simp [setI]
        · rw [h5 x hx1 (by omega)]
          simp only [setI]
          rw [if_neg (by omega)]
      · intro x hx1 hx2
        by_cases hxj : x = j
        · rw [hxj]; exact hc.1
        · have := h6 x hx1 (by omega)
          simp only [setI] at this
          rw [if_neg (by omega)] at this
          exact this
      · rcases h7 with h7 | h7
        · exact Or.inl h7
        · right
          simp only [setI] at h7
          rw [if_neg (by omega)] at h7
          exact h7
      · intro r hr
        rcases List.mem_append.mp hr with hr | hr
        · have : r = j - 1 := by simpa using hr
          omega
        · have := h8 r hr
          omega
      · exact List.mem_append_right _ h9
    · refine ⟨row, j, [j - 1], ?_, hlo, le_refl _, fun _ _ => rfl, ?_, ?_, ?_, ?_, by simp⟩
      · simp only [ISort_while, hc, if_false]
      · intro x h1 h2; omega
      · intro x h1 h2; omega
      · by_cases hj : j > lo
        · right
          have : ¬ row (j - 1) > tmp := fun h => hc ⟨h, hj⟩
          omega
        · left; omega
      · intro r hr
        have : r = j - 1 := by simpa using hr
        omega

/-- Moving the entry at `di` down to `dj`, the entries in between moving up by
one, does not change a sum over the array. -/
theorem rotate_sum (F : Int → Nat) (g g' : Nat → Int) (n dj di : Nat) (hji : dj ≤ di)
    (hi : di < n) (h1 : ∀ d, d < dj ∨ di < d → g' d = g d) (h2 : g' dj = g di)
    (h3 : ∀ d, dj < d → d ≤ di → g' d = g (d - 1)) :
    ∑ d in Finset.range n, F (g' d) = ∑ d in Finset.range n, F (g d) := by
  have hsplit : ∀ f : Nat → Nat, ∑ d in Finset.range n, f d
      = (∑ d in Finset.Ico 0 dj, f d) + (∑ d in Finset.Ico dj (di + 1), f d)
        + ∑ d in Finset.Ico (di + 1) n, f d := by
    intro f
    rw [Finset.sum_Ico_consecutive f (Nat.zero_le _) (by omega : dj ≤ di + 1),
      Finset.sum_Ico_consecutive f (Nat.zero_le _) (by omega : di + 1 ≤ n),
      Finset.range_eq_Ico]
  rw [hsplit (fun d => F (g' d)), hsplit (fun d => F (g d))]
  have e1 : ∑ d in Finset.Ico 0 dj, F (g' d) = ∑ d in Finset.Ico 0 dj, F (g d) := by
    apply Finset.sum_congr rfl
    intro d hd
    rw [h1 d (Or.inl (Finset.mem_Ico.mp hd).2)]
  have e3 : ∑ d in Finset.Ico (di + 1) n, F (g' d) = ∑ d in Finset.Ico (di + 1) n, F (g d) := by
    apply Finset.sum_congr rfl
    intro d hd
    rw [h1 d (Or.inr (by have := (Finset.mem_Ico.mp hd).1; omega))]
  have e2 : ∑ d in Finset.Ico dj (di + 1), F (g' d)
      = ∑ d in Finset.Ico dj (di + 1), F (g d) := by
    rw [Finset.sum_eq_sum_Ico_succ_bot (by omega : dj < di + 1), h2,
      Finset.sum_Ico_succ_top hji]
    have e : ∑ d in Finset.Ico (dj + 1) (di + 1), F (g' d)
        = ∑ d in Finset.Ico dj di, F (g d) := by
      rw [← Finset.sum_Ico_add' (fun d => F (g' d)) dj di 1]
      apply Finset.sum_congr rfl
      intro d hd
      have := Finset.mem_Ico.mp hd
      rw [h3 (d + 1) (by omega) (by omega)]
      simp
    rw [e, Nat.add_comm]
  rw [e1, e2, e3]

/-- The number of entries equal to `v` in a slice, as a sum. -/
theorem count_slice (row : Int → Int) (lo v : Int) :
    ∀ n, (slice row lo n).count v
      = ∑ d in Finset.range n, if row (lo + (d : Int)) = v then 1 else 0 := by
  intro n
  induction n with
  | zero => simp [slice]
  | succ n ih =>
    unfold slice at ih ⊢
    rw [List.range_succ, List.map_append, List.count_append, ih, Finset.sum_range_succ]
    simp only [List.map_cons, List.map_nil, List.count_cons, List.count_nil, Nat.zero_add,
      beq_iff_eq]


/-- One iteration of the outer loop of `ISort` keeps the invariant. -/
theorem ISort_step (r0 : Int → Int) (lo hi i : Int) (row row1 : Int → Int) (j : Int)
    (hlo : lo ≤ i) (hhi : i < hi) (inv : ISortInv r0 lo hi row i)
    (h2 : lo ≤ j) (h3 : j ≤ i)
    (h4 : ∀ x, x ≤ j ∨ i < x → row1 x = row x)
    (h5 : ∀ x, j < x → x ≤ i → row1 x = row (x - 1))
    (h6 : ∀ x, j < x → x ≤ i → row i < row (x - 1))
    (h7 : j = lo ∨ row (j - 1) ≤ row i) :
    ISortInv r0 lo hi (setI row1 j (row i)) (i + 1) := by
  have v1 : ∀ x, x < j ∨ i < x → setI row1 j (row i) x = row x := by
    intro x hx
    simp only [setI]
    rw [if_neg (by omega), h4 x (by omega)]
  have v2 : setI row1 j (row i) j = row i := by simp [setI]
  have v3 : ∀ x, j < x → x ≤ i → setI row1 j (row i) x = row (x - 1) := by
    intro x hx1 hx2
    simp only [setI]
    rw [if_neg (by omega), h5 x hx1 hx2]
  refine ⟨?_, ?_, ?_⟩
  · intro a b ha hab hb
    rcases lt_trichotomy a j with haj | haj | haj
    · rw [v1 a (Or.inl haj)]
      rcases lt_trichotomy b j with hbj | hbj | hbj
      · rw [v1 b (Or.inl hbj)]
        exact inv.sorted a b ha hab (by omega)
      · rw [hbj, v2]
        have hj : row (j - 1) ≤ row i := by
          rcases h7 with h7 | h7
          · omega
          · exact h7
        exact le_trans (inv.sorted a (j - 1) ha (by omega) (by omega)) hj
      · rw [v3 b hbj (by omega)]
        exact inv.sorted a (b - 1) ha (by omega) (by omega)
    · rw [haj, v2]
      rcases lt_or_eq_of_le (by omega : j ≤ b) with hbj | hbj
      · rw [v3 b hbj (by omega)]
        exact le_of_lt (h6 b hbj (by omega))
      · rw [← hbj, v2]
    · rw [v3 a haj (by omega), v3 b (by omega) (by omega)]
      exact inv.sorted (a - 1) (b - 1) (by omega) (by omega) (by omega)
  · intro v
    rw [← inv.count v]
    apply rotate_sum (fun x => if x = v then 1 else 0)
      (fun d => row (lo + (d : Int))) (fun d => setI row1 j (row i) (lo + (d : Int)))
      (hi - lo).toNat (j - lo).toNat (i - lo).toNat (by omega) (by omega)
    · intro d hd
      exact v1 _ (by omega)
    · have e1 : lo + ((j - lo).toNat : Int) = j := by omega
      have e2 : lo + ((i - lo).toNat : Int) = i := by omega
      simp only [e1, e2, v2]
    · intro d hd1 hd2
      have e : lo + ((d - 1 : Nat) : Int) = lo + (d : Int) - 1 := by omega
      simp only [e]
      exact v3 _ (by omega) (by omega)
  · intro x hx
    rw [v1 x (by omega)]
    exact inv.frame x hx

/-- The outer loop of `ISort` runs to its end and keeps the invariant; it reads
only subscripts from `lo - 1` to `hi - 1`, and its first iteration reads
`row[lo - 1]`. -/
theorem ISort_for_spec (r0 : Int → Int) (lo hi : Int) :
    ∀ (todo : Nat) (i : Int) (row : Int → Int) (reads : List Int),
      lo ≤ i → i + todo = hi → ISortInv r0 lo hi row i →
      ∃ (row' : Int → Int) (extra : List Int),
        ISort_for lo todo i row reads = some (row', reads ++ extra) ∧
        ISortInv r0 lo hi row' hi ∧
        (∀ r, r ∈ extra → lo - 1 ≤ r ∧ r < hi) ∧
        (i = lo → 0 < todo → lo - 1 ∈ extra) := by
  intro todo
  induction todo with
  | zero =>
    intro i row reads _ hih inv
    have e : i = hi := by omega
    subst e
    exact ⟨row, [], by simp [ISort_for], inv, by simp, fun _ h => by omega⟩
  | succ n ih =>
    intro i row reads hlo hih inv
    obtain ⟨row1, j, extra1, h1, h2, h3, h4, h5, h6, h7, h8, h9⟩ :=
      ISort_while_spec lo (row i) ((i - lo).toNat + 1) i row (reads ++ [i]) hlo (le_refl _)
    have inv1 := ISort_step r0 lo hi i row row1 j hlo (by omega) inv h2 h3 h4 h5 h6 h7
    obtain ⟨row', extra2, g1, g2, g3, _⟩ :=
      ih (i + 1) (setI row1 j (row i)) (reads ++ [i] ++ extra1) (by omega) (by omega) inv1
    refine ⟨row', [i] ++ extra1 ++ extra2, ?_, g2, ?_, ?_⟩
    · simp only [ISort_for, h1]
      rw [g1]
      simp [List.append_assoc]
    · intro r hr
      rcases List.mem_append.mp hr with hr | hr
      · rcases List.mem_append.mp hr with hr | hr
        · have : r = i := by simpa using hr
          omega
        · have := h8 r hr
          omega
      · exact g3 r hr
    · intro hil _
      apply List.mem_append_left
      apply List.mem_append_right
      have : j = lo := by omega
      rw [← this]
      exact h9

/-- For column bounds `col[k] ≤ col[k+1]`, `ISort(M, k)` returns; afterwards the
slice `row[col[k] .. col[k+1])` is in non-decreasing order and a permutation of
its previous contents, and the entries outside the slice are unchanged.  The
call reads only subscripts from `col[k] - 1` to `col[k+1] - 1`, and it reads
`row[col[k] - 1]` whenever the slice is not empty. -/
theorem ISort_spec (M : SMatrix) (k : Int) (h : M.col k ≤ M.col (k + 1)) :
    ∃ (row' : Int → Int) (reads : List Int), ISort M k = some (row', reads) ∧
      (slice row' (M.col k) (M.col (k + 1) - M.col k).toNat).Sorted (· ≤ ·) ∧
      (slice row' (M.col k) (M.col (k + 1) - M.col k).toNat).Perm
        (slice M.row (M.col k) (M.col (k + 1) - M.col k).toNat) ∧
      (∀ x, x < M.col k ∨ M.col (k + 1) ≤ x → row' x = M.row x) ∧
      (∀ r, r ∈ reads → M.col k - 1 ≤ r ∧ r < M.col (k + 1)) ∧
      (M.col k < M.col (k + 1) → M.col k - 1 ∈ reads) := by
  have inv0 : ISortInv M.row (M.col k) (M.col (k + 1)) M.row (M.col k) :=
    ⟨fun a b _ _ _ => by omega, fun _ => rfl, fun _ _ => rfl⟩
  obtain ⟨row', extra, h1, inv, h3, h4⟩ :=
    ISort_for_spec M.row (M.col k) (M.col (k + 1)) (M.col (k + 1) - M.col k).toNat (M.col k)
      M.row [] (le_refl _) (by omega) inv0
  refine ⟨row', extra, by simpa [ISort] using h1, ?_, ?_, inv.frame, h3, ?_⟩
  · unfold slice List.Sorted
    rw [List.pairwise_map]
    apply List.Pairwise.imp_of_mem _ (List.pairwise_lt_range _)
    intro a b _ hb hab
    have := List.mem_range.mp hb
    exact inv.sorted _ _ (by omega) (by omega) (by omega)
  · rw [List.perm_iff_count]
    intro v
    rw [count_slice, count_slice]
    exact inv.count v
  · intro hlt
    exact h4 rfl (by omega)

/-! ## `matchname` -/

theorem load_char_cons_succ (c : Char) (s : List Char) (i : Nat) :
    load_char (c :: s) (i + 1) = load_char s i := by
  simp [load_char, List.getD_cons_succ]

theorem load_char_cons_zero (c : Char) (s : List Char) :
    load_char (c :: s) 0 = Except.ok c := by
  simp [load_char]

theorem load_char_nil_zero : load_char [] 0 = Except.ok (Char.ofNat 0) := by
  simp [load_char]

/-- Dropping the first character of both strings moves the two offsets back by
one. -/
theorem matchname_loop_shift (c d : Char) (bs ns : List Char) :
    ∀ fuel bp np, matchname_loop (c :: bs) (d :: ns) fuel (bp + 1) (np + 1)
      = matchname_loop bs ns fuel bp np := by
  intro fuel
  induction fuel with
  | zero => intro bp np; rfl
  | succ f ih =>
    intro bp np
    simp only [matchname_loop, load_char_cons_succ, ih]

/-- On two equal strings the loop of `matchname` runs over the terminator and
reads the character after it. -/
theorem matchname_loop_same :
    ∀ (s : List Char) fuel, s.length + 2 ≤ fuel →
      matchname_loop s s fuel 0 0 = Except.error Fault.out_of_bounds := by
  intro s
  induction s with
  | nil =>
    intro fuel h
    obtain ⟨f, rfl⟩ : ∃ f, fuel = f + 2 := ⟨fuel - 2, by simp at h; omega⟩
    simp [matchname_loop, load_char]
  | cons c t ih =>
    intro fuel h
    obtain ⟨f, rfl⟩ : ∃ f, fuel = f + 1 := ⟨fuel - 1, by omega⟩
    simp only [matchname_loop, load_char_cons_zero, if_true]
    rw [matchname_loop_shift]
    exact ih f (by simp at h; omega)

/-- On two different strings without a NUL inside, the loop of `matchname`
stops at the first difference, inside both strings, and returns whether `bind`
is `name` followed by `=` and a value. -/
theorem matchname_loop_differ :
    ∀ (bind name : List Char) fuel, Char.ofNat 0 ∉ bind → Char.ofNat 0 ∉ name → bind ≠ name →
      bind.length + 2 ≤ fuel →
      ∃ b, matchname_loop bind name fuel 0 0 = Except.ok b ∧
        (b = true ↔ ∃ value, bind = name ++ '=' :: value) := by
  intro bind
  induction bind with
  | nil =>
    intro name fuel _ hn hne hf
    obtain ⟨f, rfl⟩ : ∃ f, fuel = f + 1 := ⟨fuel - 1, by omega⟩
    cases name with
    | nil => exact (hne rfl).elim
    | cons d ns =>
      have hd : Char.ofNat 0 ≠ d := fun h => hn (by rw [h]; exact List.mem_cons_self _ _)
      refine ⟨false, ?_, by simp⟩
      simp only [matchname_loop, load_char_nil_zero, load_char_cons_zero, hd, if_false]
      simp [hd.symm]
  | cons c bs ih =>
    intro name fuel hb hn hne hf
    obtain ⟨f, rfl⟩ : ∃ f, fuel = f + 1 := ⟨fuel - 1, by omega⟩
    have hc : c ≠ Char.ofNat 0 := fun h => hb (by rw [← h]; exact List.mem_cons_self _ _)
    cases name with
    | nil =>
      refine ⟨decide (c = '='), ?_, ?_⟩
      · simp only [matchname_loop, load_char_nil_zero, load_char_cons_zero, hc, if_false]
        simp
      · simp only [decide_eq_true_eq, List.nil_append, List.cons.injEq]
        exact ⟨fun h => ⟨bs, h, rfl⟩, fun ⟨_, h, _⟩ => h⟩
    | cons d ns =>
      have hd : d ≠ Char.ofNat 0 := fun h => hn (by rw [← h]; exact List.mem_cons_self _ _)
      by_cases hcd : c = d
      · subst hcd
        have hne' : bs ≠ ns := fun h => hne (by rw [h])
        obtain ⟨b, h1, h2⟩ := ih ns f (fun h => hb (List.mem_cons_of_mem _ h))
          (fun h => hn (List.mem_cons_of_mem _ h)) hne' (by simp at hf; omega)
        refine ⟨b, ?_, ?_⟩
        · simp only [matchname_loop, load_char_cons_zero, if_true]
          rw [matchname_loop_shift]
          exact h1
        · rw [h2]
          simp only [List.cons_append, List.cons.injEq, true_and]
      · refine ⟨false, ?_, ?_⟩
        · simp only [matchname_loop, load_char_cons_zero, hcd, if_false]
          simp [hd]
        · simp only [Bool.false_eq_true, List.cons_append, List.cons.injEq, false_iff,
            not_exists, not_and]
          intro _ h
          exact (hcd h).elim

/-! ## Actions that commute -/

theorem Memory_ext (m m' : Memory) (h1 : m.key = m'.key) (h2 : m.rank_me = m'.rank_me)
    (h3 : m.key_density = m'.key_density) (h4 : m.rank_ff = m'.rank_ff)
    (h5 : m.prefix_tree = m'.prefix_tree) (h6 : m.key_partition = m'.key_partition) : m = m' := by
  cases m; cases m'; simp_all

theorem node_ext (a b : prefix_node) (h1 : a.densities = b.densities) (h2 : a.ranks = b.ranks)
    (h3 : a.Flag = b.Flag) : a = b := by
  cases a; cases b; simp_all

/-- An action leaves the locations it does not write unchanged. -/
theorem exec_loc_frame (R : Nat) (m : Memory) (a : Action) (l : Loc) (h : l ∉ loc_writes a) :
    loc_val (exec R m a) l = loc_val m l := by
  cases a <;> cases l <;> simp only [loc_writes, List.mem_cons, List.mem_singleton,
    List.not_mem_nil, or_false, not_or, Loc.dens.injEq, Loc.ranks.injEq, Loc.rff.injEq,
    reduceCtorEq, not_false_eq_true, and_true, true_and, not_true_eq_false, and_false,
    false_and] at h <;>
    simp only [loc_val, exec, setAt] <;>
    (first
      | rfl
      | (split <;> first | rfl | (rename_i hx; first | exact absurd hx h | rw [hx])))

/-- What an action writes depends only on the locations it reads and writes. -/
theorem exec_loc_det (R : Nat) (m m' : Memory) (a : Action) (l : Loc)
    (hd : m'.rank_me = m.rank_me ∧ m'.key_density = m.key_density)
    (h : ∀ l', l' ∈ loc_reads a ++ loc_writes a → loc_val m' l' = loc_val m l')
    (hl : l ∈ loc_writes a) : loc_val (exec R m' a) l = loc_val (exec R m a) l := by
  cases a <;> simp only [loc_writes, loc_reads, List.mem_cons, List.mem_singleton,
    List.not_mem_nil, or_false, List.mem_append, List.nil_append, List.cons_append,
    forall_eq_or_imp, forall_eq, loc_val, false_or, IsEmpty.forall_iff, implies_true] at h hl
  case publish t =>
    rcases hl with rfl | rfl <;> simp [loc_val, exec, setAt, hd.1, hd.2] <;> funext i <;>
      split <;> simp_all
  case merge n r l' =>
    rcases hl with rfl | rfl <;> simp [loc_val, exec, setAt] <;> funext i <;> split <;> simp_all
  case merge_densities n r l' =>
    subst hl; simp [loc_val, exec, setAt]; funext i; split <;> simp_all
  case copy_densities my their =>
    subst hl; simp [loc_val, exec, setAt]; funext i; split <;> simp_all
  case clear_rank_ff t =>
    subst hl; simp [loc_val, exec, setAt]; funext i; split <;> simp_all
  case add_ranks t l' =>
    subst hl; simp [loc_val, exec, setAt]; funext i; split <;> simp_all
  case add_densities t my =>
    subst hl; simp [loc_val, exec, setAt]; funext i; split <;> simp_all

/-- Two actions on the flags commute unless one sets the flag the other waits
for. -/
theorem exec_flag_comm (R : Nat) (m : Memory) (a b : Action) (i : Nat)
    (h : ∀ x, ¬ (a = Action.SETPAUSE x ∧ b = Action.WAITPAUSE x) ∧
      ¬ (a = Action.WAITPAUSE x ∧ b = Action.SETPAUSE x)) :
    ((exec R (exec R m a) b).prefix_tree i).Flag
      = ((exec R (exec R m b) a).prefix_tree i).Flag := by
  rw [exec_flag, exec_flag R (exec R m b) a]
  cases a <;> cases b <;> simp only [exec_flag] <;> try rfl
  case SETPAUSE.SETPAUSE x y => split_ifs <;> rfl
  case WAITPAUSE.WAITPAUSE x y => split_ifs <;> rfl
  case SETPAUSE.WAITPAUSE x y =>
    have := (h x).1
    simp only [Action.WAITPAUSE.injEq, true_and] at this
    split_ifs <;> first | rfl | (exfalso; apply this; omega)
  case WAITPAUSE.SETPAUSE x y =>
    have := (h x).2
    simp only [Action.SETPAUSE.injEq, true_and] at this
    split_ifs <;> first | rfl | (exfalso; apply this; omega)

/-- Two actions commute when neither writes a location the other reads or
writes and neither sets the flag the other waits for. -/
theorem exec_comm (R : Nat) (m : Memory) (a b : Action)
    (h1 : ∀ l, l ∈ loc_writes a → l ∉ loc_reads b ++ loc_writes b)
    (h2 : ∀ l, l ∈ loc_writes b → l ∉ loc_reads a ++ loc_writes a)
    (h3 : ∀ x, ¬ (a = Action.SETPAUSE x ∧ b = Action.WAITPAUSE x) ∧
      ¬ (a = Action.WAITPAUSE x ∧ b = Action.SETPAUSE x)) :
    exec R (exec R m a) b = exec R (exec R m b) a := by
  have da := exec_same_data R m a
  have db := exec_same_data R m b
  have dab := exec_same_data R (exec R m a) b
  have dba := exec_same_data R (exec R m b) a
  have loc : ∀ l, loc_val (exec R (exec R m a) b) l = loc_val (exec R (exec R m b) a) l := by
    intro l
    by_cases ha : l ∈ loc_writes a
    · have hb : l ∉ loc_writes b := fun hb => h1 l ha (List.mem_append_right _ hb)
      rw [exec_loc_frame R _ b l hb]
      symm
      apply exec_loc_det R m (exec R m b) a l ⟨db.2.1, db.2.2.1⟩ _ ha
      intro l' hl'
      apply exec_loc_frame
      intro hb'
      exact h2 l' hb' hl'
    · rw [exec_loc_frame R (exec R m b) a l ha]
      by_cases hb : l ∈ loc_writes b
      · apply exec_loc_det R m (exec R m a) b l ⟨da.2.1, da.2.2.1⟩ _ hb
        intro l' hl'
        apply exec_loc_frame
        intro ha'
        exact h1 l' ha' hl'
      · rw [exec_loc_frame R _ b l hb, exec_loc_frame R _ a l ha, exec_loc_frame R _ b l hb]
  apply Memory_ext
  · rw [dab.1, da.1, dba.1, db.1]
  · rw [dab.2.1, da.2.1, dba.2.1, db.2.1]
  · rw [dab.2.2.1, da.2.2.1, dba.2.2.1, db.2.2.1]
  · funext t
    exact loc (Loc.rff t)
  · funext n
    apply node_ext
    · exact loc (Loc.dens n)
    · exact loc (Loc.ranks n)
    · exact exec_flag_comm R m a b n h3
  · rw [dab.2.2.2, da.2.2.2, dba.2.2.2, db.2.2.2]

/-! ## Confluence of a synchronised phase

Under the discipline `SyncProg` two threads that can move at the same time
take steps that commute, so every interleaving of the phase ends in the same
memory. -/

theorem getD_set_self (ths : List (List Action)) (t : Nat) (x : List Action)
    (h : t < ths.length) : (ths.set t x).getD t [] = x := by
  simp [List.getD_eq_getElem?_getD, List.getElem?_set, h]

theorem getD_set_ne (ths : List (List Action)) (t u : Nat) (x : List Action) (h : t ≠ u) :
    (ths.set t x).getD u [] = ths.getD u [] := by
  simp [List.getD_eq_getElem?_getD, List.getElem?_set, h]

theorem lt_of_getD_cons (ths : List (List Action)) (t : Nat) (a : Action) (rest : List Action)
    (h : ths.getD t [] = a :: rest) : t < ths.length := by
  by_contra hc
  rw [List.getD_eq_default _ _ (by omega)] at h
  exact List.noConfusion h

theorem set_getD_self (ths : List (List Action)) (t : Nat) : ths.set t (ths.getD t []) = ths := by
  induction ths generalizing t with
  | nil => rfl
  | cons x xs ih =>
    cases t with
    | zero => rfl
    | succ t => simp only [List.getD_cons_succ, List.set_cons_succ, ih]

theorem can_move_iff (c : Config) (t : Nat) :
    can_move c t = true ↔
      ∃ a rest, c.threads.getD t [] = a :: rest ∧ blocked c.mem a = false := by
  unfold can_move
  cases h : c.threads.getD t [] with
  | nil => simp
  | cons a rest => simp

theorem step_thread_cons (R : Nat) (c : Config) (t : Nat) (a : Action) (rest : List Action)
    (h : c.threads.getD t [] = a :: rest) :
    step_thread R c t = { mem := exec R c.mem a, threads := c.threads.set t rest } := by
  unfold step_thread
  rw [h]

theorem step_threads_sub (R : Nat) (c : Config) (t : Nat) (a : Action) (rest : List Action)
    (h : c.threads.getD t [] = a :: rest) (u : Nat) (y : Action)
    (hy : y ∈ (step_thread R c t).threads.getD u []) : y ∈ c.threads.getD u [] := by
  rw [step_thread_cons R c t a rest h] at hy
  have hlt := lt_of_getD_cons _ _ _ _ h
  by_cases htu : t = u
  · subst htu
    simp only [getD_set_self _ _ _ hlt] at hy
    rw [h]
    exact List.mem_cons_of_mem _ hy
  · simp only [getD_set_ne _ _ _ _ htu] at hy
    exact hy

/-- A step of a thread that can move keeps the state of the phase. -/
theorem sync_inv_step (full : List (List Action)) (R : Nat) (c : Config)
    (done : Nat → List Action) (t : Nat) (a : Action) (rest : List Action)
    (hp : SyncProg full) (inv : SyncInv full c done)
    (hget : c.threads.getD t [] = a :: rest) (hmove : blocked c.mem a = false) :
    SyncInv full (step_thread R c t) (Function.update done t (done t ++ [a])) := by
  have hlt := lt_of_getD_cons _ _ _ _ hget
  have hsub := step_threads_sub R c t a rest hget
  have hfull : full.getD t [] = done t ++ a :: rest := by rw [inv.split t, hget]
  refine ⟨?_, ?_, ?_, ?_⟩
  · rw [step_thread_cons R c t a rest hget]
    simp only [List.length_set]
    exact inv.len
  · intro u
    rw [step_thread_cons R c t a rest hget]
    by_cases htu : t = u
    · subst htu
      simp only [getD_set_self _ _ _ hlt, Function.update_same, List.append_assoc,
        List.singleton_append]
      exact hfull
    · simp only [getD_set_ne _ _ _ _ htu, Function.update_noteq (Ne.symm htu)]
      exact inv.split u
  · intro x w hw hflag u hmem
    by_cases hold : (c.mem.prefix_tree x).Flag = 0
    · have ha : a = Action.SETPAUSE x := by
        rw [step_thread_cons R c t a rest hget] at hflag
        simp only [exec_flag] at hflag
        cases a <;> simp only [hold, ne_eq, not_true_eq_false] at hflag
        case SETPAUSE y =>
          by_cases hxy : x = y
          · rw [hxy]
          · simp [hxy, hold] at hflag
        case WAITPAUSE y =>
          by_cases hxy : x = y
          · simp [hxy] at hflag
          · simp [hxy, hold] at hflag
      subst ha
      by_cases htu : t = u
      · subst htu
        rw [step_thread_cons R c t _ rest hget] at hmem
        simp only [getD_set_self _ _ _ hlt] at hmem
        exact hp.set_once w t x (done t) rest hw hfull hmem
      · have h1 : Action.SETPAUSE x ∈ full.getD u [] := by
          rw [inv.split u]
          exact List.mem_append_right _ (hsub u _ hmem)
        have h2 : Action.SETPAUSE x ∈ full.getD t [] := by
          rw [hfull]
          simp
        exact htu (hp.one_setter w t u x hw h2 h1)
    · exact inv.set_gone x w hw hold u (hsub u _ hmem)
  · intro u x hx v hmem
    by_cases htu : u = t
    · subst htu
      simp only [Function.update_same, List.mem_append, List.mem_singleton] at hx
      rcases hx with hx | hx
      · exact inv.waited u x hx v (hsub v _ hmem)
      · subst hx
        have hfl : (c.mem.prefix_tree x).Flag ≠ 0 := by
          simpa [blocked] using hmove
        have hw : Action.WAITPAUSE x ∈ full.getD u [] := by
          rw [hfull]
          simp
        exact inv.set_gone x u hw hfl v (hsub v _ hmem)
    · simp only [Function.update_noteq htu] at hx
      exact inv.waited u x hx v (hsub v _ hmem)

/-- Two different threads that can move stay able to move after a step of the
other, and their steps commute. -/
theorem sync_diamond (full : List (List Action)) (R : Nat) (c : Config)
    (done : Nat → List Action) (t u : Nat) (hp : SyncProg full) (inv : SyncInv full c done)
    (htu : t ≠ u) (ht : can_move c t = true) (hu : can_move c u = true) :
    can_move (step_thread R c t) u = true ∧
      step_thread R (step_thread R c t) u = step_thread R (step_thread R c u) t := by
  obtain ⟨a, rest_t, hget_t, hmove_t⟩ := (can_move_iff c t).mp ht
  obtain ⟨b, rest_u, hget_u, hmove_u⟩ := (can_move_iff c u).mp hu
  have hfull_t : full.getD t [] = done t ++ a :: rest_t := by rw [inv.split t, hget_t]
  have hfull_u : full.getD u [] = done u ++ b :: rest_u := by rw [inv.split u, hget_u]
  have hget_u' : (step_thread R c t).threads.getD u [] = b :: rest_u := by
    rw [step_thread_cons R c t a rest_t hget_t]
    simp only [getD_set_ne _ _ _ _ htu]
    exact hget_u
  have hget_t' : (step_thread R c u).threads.getD t [] = a :: rest_t := by
    rw [step_thread_cons R c u b rest_u hget_u]
    simp only [getD_set_ne _ _ _ _ (Ne.symm htu)]
    exact hget_t
  refine ⟨?_, ?_⟩
  · rw [can_move_iff]
    refine ⟨b, rest_u, hget_u', ?_⟩
    rw [step_thread_cons R c t a rest_t hget_t]
    cases b <;> try rfl
    case WAITPAUSE x =>
      have hfl : (c.mem.prefix_tree x).Flag ≠ 0 := by
        simpa [blocked] using hmove_u
      have hne : a ≠ Action.WAITPAUSE x := by
        intro ha
        subst ha
        apply htu
        apply hp.one_waiter t u x
        · rw [hfull_t]; simp
        · rw [hfull_u]; simp
      simp only [blocked, exec_flag, decide_eq_false_iff_not]
      cases a <;> try exact hfl
      case SETPAUSE y =>
        dsimp only
        split_ifs <;> first | exact hfl | exact not_false
      case WAITPAUSE y =>
        have hxy : x ≠ y := by
          intro h
          apply hne
          rw [h]
        dsimp only
        simp only [hxy, if_false]
        exact hfl
  · rw [step_thread_cons R _ u b rest_u hget_u', step_thread_cons R _ t a rest_t hget_t',
      step_thread_cons R c t a rest_t hget_t, step_thread_cons R c u b rest_u hget_u]
    have hmem : exec R (exec R c.mem a) b = exec R (exec R c.mem b) a := by
      apply exec_comm
      · intro l hl hl'
        obtain ⟨x, hx1, hx2⟩ := hp.guarded t u (done t) a rest_t (done u) b rest_u l htu hfull_t
          hfull_u hl hl'
        apply inv.waited u x hx1 t
        rw [hget_t]
        exact List.mem_cons_of_mem _ hx2
      · intro l hl hl'
        obtain ⟨x, hx1, hx2⟩ := hp.guarded u t (done u) b rest_u (done t) a rest_t l
          (Ne.symm htu) hfull_u hfull_t hl hl'
        apply inv.waited t x hx1 u
        rw [hget_u]
        exact List.mem_cons_of_mem _ hx2
      · intro x
        constructor
        · rintro ⟨rfl, rfl⟩
          have hfl : (c.mem.prefix_tree x).Flag ≠ 0 := by
            simpa [blocked] using hmove_u
          have hw : Action.WAITPAUSE x ∈ full.getD u [] := by rw [hfull_u]; simp
          apply inv.set_gone x u hw hfl t
          rw [hget_t]
          simp
        · rintro ⟨rfl, rfl⟩
          have hfl : (c.mem.prefix_tree x).Flag ≠ 0 := by
            simpa [blocked] using hmove_t
          have hw : Action.WAITPAUSE x ∈ full.getD t [] := by rw [hfull_t]; simp
          apply inv.set_gone x t hw hfl u
          rw [hget_u]
          simp
    simp only [hmem, List.set_comm _ _ _ htu]

theorem all_empty_getD (ths : List (List Action)) (h : ths.all List.isEmpty = true) (t : Nat) :
    ths.getD t [] = [] := by
  by_cases ht : t < ths.length
  · rw [List.getD_eq_getElem _ _ ht]
    have := List.all_eq_true.mp h _ (List.getElem_mem ht)
    simpa using this
  · exact List.getD_eq_default _ _ (by omega)

theorem not_can_move_of_done (c : Config) (h : c.threads.all List.isEmpty = true) (t : Nat) :
    can_move c t = false := by
  unfold can_move
  rw [all_empty_getD _ h]

/-- A run that completes the phase can start with any thread that can move. -/
theorem sync_complete (full : List (List Action)) (R : Nat) (hp : SyncProg full) :
    ∀ (ts : List Nat) (c : Config) (done : Nat → List Action) (u : Nat),
      SyncInv full c done → steps_ok R c ts →
      (run_steps R c ts).threads.all List.isEmpty = true → can_move c u = true →
      ∃ ts', ts'.length + 1 = ts.length ∧ steps_ok R (step_thread R c u) ts' ∧
        run_steps R (step_thread R c u) ts' = run_steps R c ts := by
  intro ts
  induction ts with
  | nil =>
    intro c done u _ _ hall hu
    simp only [run_steps] at hall
    rw [not_can_move_of_done c hall u] at hu
    exact absurd hu (by simp)
  | cons t rest ih =>
    intro c done u inv hok hall hu
    obtain ⟨ht, hok'⟩ := hok
    by_cases htu : t = u
    · subst htu
      exact ⟨rest, rfl, hok', rfl⟩
    · obtain ⟨a, rest_t, hget_t, hmove_t⟩ := (can_move_iff c t).mp ht
      have inv' := sync_inv_step full R c done t a rest_t hp inv hget_t hmove_t
      obtain ⟨hu', heq⟩ := sync_diamond full R c done t u hp inv htu ht hu
      obtain ⟨ht', _⟩ := sync_diamond full R c done u t hp inv (Ne.symm htu) hu ht
      obtain ⟨ts', hlen, hok'', hrun⟩ := ih (step_thread R c t) _ u inv' hok' hall hu'
      refine ⟨t :: ts', by simp [hlen], ⟨ht', ?_⟩, ?_⟩
      · rw [← heq]
        exact hok''
      · simp only [run_steps]
        rw [← heq]
        exact hrun

/-- Under the discipline `SyncProg`, if one interleaving completes the phase
then every interleaving completes it, with the same memory. -/
theorem run_any_confluent (full : List (List Action)) (R : Nat) (schedule : Nat → Nat)
    (hp : SyncProg full) (hR : node_arrays_ok R = true) :
    ∀ (fuel : Nat) (ts : List Nat) (c : Config) (done : Nat → List Action),
      SyncInv full c done → steps_ok R c ts →
      (run_steps R c ts).threads.all List.isEmpty = true → ts.length ≤ fuel →
      run_any R schedule fuel c = Except.ok (run_steps R c ts).mem := by
  intro fuel
  induction fuel with
  | zero =>
    intro ts c done _ _ hall hlen
    have : ts = [] := List.length_eq_zero.mp (by omega)
    subst this
    simp only [run_steps] at hall ⊢
    simp only [run_any, hall, if_true]
  | succ fuel ih =>
    intro ts c done inv hok hall hlen
    by_cases hdone : c.threads.all List.isEmpty = true
    · cases ts with
      | nil => simp only [run_any, hdone, if_true, run_steps]
      | cons t rest =>
        have h1 := hok.1
        rw [not_can_move_of_done c hdone t] at h1
        exact absurd h1 (by simp)
    · cases ts with
      | nil => exact absurd hall hdone
      | cons t rest =>
        have ht := hok.1
        obtain ⟨a, rest_t, hget_t, _⟩ := (can_move_iff c t).mp ht
        have hlt := lt_of_getD_cons _ _ _ _ hget_t
        cases hfind : (List.range c.threads.length).find? (can_move c) with
        | none =>
          have := List.find?_eq_none.mp hfind t (List.mem_range.mpr hlt)
          exact absurd ht this
        | some first =>
          have hfirst : can_move c first = true := List.find?_some hfind
          simp only [run_any, hdone, hfind]
          have key : ∀ u, can_move c u = true →
              (if next_overruns R c u = true then Except.error Fault.out_of_bounds
                else run_any R schedule fuel (step_thread R c u))
              = Except.ok (run_steps R c (t :: rest)).mem := by
            intro u hu
            have hno : next_overruns R c u = false := by
              unfold next_overruns
              cases c.threads.getD u [] with
              | nil => rfl
              | cons b _ => simp [hR]
            rw [hno]
            obtain ⟨b, rest_u, hget_u, hmove_u⟩ := (can_move_iff c u).mp hu
            have inv' := sync_inv_step full R c done u b rest_u hp inv hget_u hmove_u
            obtain ⟨ts', hlen', hok', hrun'⟩ :=
              sync_complete full R hp (t :: rest) c done u inv hok hall hu
            have := ih ts' (step_thread R c u) _ inv' hok' (by rw [hrun']; exact hall)
              (by simp only [List.length_cons] at hlen' hlen; omega)
            rw [hrun'] at this
            simpa using this
          by_cases hs : can_move c (schedule fuel) = true
          · simp only [hs, if_true]
            exact key _ hs
          · simp only [hs]
            exact key _ hfirst

theorem run_steps_append (R : Nat) :
    ∀ (ts1 ts2 : List Nat) (c : Config),
      run_steps R c (ts1 ++ ts2) = run_steps R (run_steps R c ts1) ts2 := by
  intro ts1
  induction ts1 with
  | nil => intro ts2 c; rfl
  | cons t rest ih => intro ts2 c; exact ih ts2 _

theorem steps_ok_append (R : Nat) :
    ∀ (ts1 ts2 : List Nat) (c : Config), steps_ok R c ts1 →
      steps_ok R (run_steps R c ts1) ts2 → steps_ok R c (ts1 ++ ts2) := by
  intro ts1
  induction ts1 with
  | nil => intro ts2 c _ h; exact h
  | cons t rest ih => intro ts2 c h1 h2; exact ⟨h1.1, ih ts2 _ h1.2 h2⟩

/-- A thread running until it blocks takes a sequence of steps. -/
theorem run_thread_steps (R t : Nat) :
    ∀ (prog : List Action) (c : Config), c.threads.getD t [] = prog →
      ∃ ts, steps_ok R c ts ∧
        run_steps R c ts
          = { mem := (run_thread R c.mem prog).1,
              threads := c.threads.set t (run_thread R c.mem prog).2 } := by
  intro prog
  induction prog with
  | nil =>
    intro c hget
    refine ⟨[], trivial, ?_⟩
    simp only [run_steps, run_thread]
    rw [← hget, set_getD_self]
  | cons a rest ih =>
    intro c hget
    by_cases hb : blocked c.mem a = true
    · refine ⟨[], trivial, ?_⟩
      simp only [run_steps, run_thread, hb, if_true]
      rw [← hget, set_getD_self]
    · have hb' : blocked c.mem a = false := by simpa using hb
      have hlt := lt_of_getD_cons _ _ _ _ hget
      have hstep := step_thread_cons R c t a rest hget
      obtain ⟨ts, hok, hrun⟩ := ih (step_thread R c t)
        (by rw [hstep]; exact getD_set_self _ _ _ hlt)
      refine ⟨t :: ts, ⟨(can_move_iff c t).mpr ⟨a, rest, hget, hb'⟩, hok⟩, ?_⟩
      simp only [run_steps, hrun, run_thread, hb', Bool.false_eq_true, if_false]
      rw [hstep]
      simp only [List.set_set]

/-- A scheduling round takes a sequence of steps. -/
theorem round_steps (R : Nat) :
    ∀ (order : List Nat) (c : Config),
      ∃ ts, steps_ok R c ts ∧ run_steps R c ts = round R order c := by
  intro order
  induction order with
  | nil => intro c; exact ⟨[], trivial, rfl⟩
  | cons t rest ih =>
    intro c
    obtain ⟨ts1, hok1, hrun1⟩ := run_thread_steps R t _ c rfl
    obtain ⟨ts2, hok2, hrun2⟩ := ih (run_steps R c ts1)
    refine ⟨ts1 ++ ts2, steps_ok_append R _ _ _ hok1 hok2, ?_⟩
    rw [run_steps_append, hrun2, hrun1]
    rfl

/-- A phase that completes under the round scheduler takes a sequence of steps
that ends with every thread at the barrier. -/
theorem run_rounds_steps (R : Nat) (order : List Nat) :
    ∀ (fuel : Nat) (c : Config) (m' : Memory), run_rounds R order fuel c = Except.ok m' →
      ∃ ts, steps_ok R c ts ∧ (run_steps R c ts).threads.all List.isEmpty = true ∧
        (run_steps R c ts).mem = m' := by
  intro fuel
  induction fuel with
  | zero =>
    intro c m' h
    unfold run_rounds at h
    split at h
    · rename_i hall
      exact ⟨[], trivial, hall, by injection h⟩
    · exact absurd h (by simp)
  | succ fuel ih =>
    intro c m' h
    unfold run_rounds at h
    split at h
    · rename_i hall
      exact ⟨[], trivial, hall, by injection h⟩
    · obtain ⟨ts1, hok1, hrun1⟩ := round_steps R order c
      obtain ⟨ts2, hok2, hall2, hmem2⟩ := ih _ m' h
      rw [← hrun1] at hok2 hall2 hmem2
      refine ⟨ts1 ++ ts2, steps_ok_append R _ _ _ hok1 hok2, ?_, ?_⟩
      · rw [run_steps_append]; exact hall2
      · rw [run_steps_append]; exact hmem2

theorem sum_length_set :
    ∀ (ths : List (List Action)) (t : Nat) (a : Action) (rest : List Action),
      ths.getD t [] = a :: rest →
      ((ths.set t rest).map List.length).sum + 1 = (ths.map List.length).sum := by
  intro ths
  induction ths with
  | nil => intro t a rest h; exact List.noConfusion h
  | cons x xs ih =>
    intro t a rest h
    cases t with
    | zero =>
      simp only [List.getD_cons_zero] at h
      subst h
      simp only [List.set_cons_zero, List.map_cons, List.sum_cons, List.length_cons]
      omega
    | succ t =>
      simp only [List.getD_cons_succ] at h
      have := ih t a rest h
      simp only [List.set_cons_succ, List.map_cons, List.sum_cons]
      omega

/-- A sequence of steps is as long as the number of actions it completes. -/
theorem steps_length (R : Nat) :
    ∀ (ts : List Nat) (c : Config), steps_ok R c ts →
      ts.length + ((run_steps R c ts).threads.map List.length).sum
        = (c.threads.map List.length).sum := by
  intro ts
  induction ts with
  | nil => intro c _; simp [run_steps]
  | cons t rest ih =>
    intro c h
    obtain ⟨a, rest_t, hget, _⟩ := (can_move_iff c t).mp h.1
    have h1 := ih _ h.2
    have h2 := sum_length_set c.threads t a rest_t hget
    rw [step_thread_cons R c t a rest_t hget] at h1
    simp only [run_steps, List.length_cons]
    rw [step_thread_cons R c t a rest_t hget]
    simp only at h1
    omega

/-- A phase whose programs follow the discipline `SyncProg`, started with the
flags that are waited for clear, has the same outcome under every
interleaving: if it completes under the round scheduler, it completes under
every schedule, with the same memory. -/
theorem phase_any_eq (R : Nat) (schedule : Nat → Nat) (order : List Nat)
    (threads : List (List Action)) (m m' : Memory) (hp : SyncProg threads)
    (hR : node_arrays_ok R = true)
    (hflags : ∀ x w, Action.WAITPAUSE x ∈ threads.getD w [] → (m.prefix_tree x).Flag = 0)
    (hrun : run_phase R order threads m = Except.ok m') :
    phase_any R schedule threads m = Except.ok m' := by
  obtain ⟨ts, hok, hall, hmem⟩ := run_rounds_steps R order _ _ m' hrun
  have inv : SyncInv threads { mem := m, threads := threads } (fun _ => []) :=
    ⟨rfl, fun t => by simp, fun x w hw hfl => absurd (hflags x w hw) hfl,
      fun u x hx => absurd hx (by simp)⟩
  have hlen := steps_length R ts _ hok
  have := run_any_confluent threads R schedule hp hR (threads.map List.length).sum ts _ _ inv
    hok hall (by simp only at hlen; omega)
  unfold phase_any
  rw [this, hmem]

/-- At every configuration of a phase that follows the discipline `SyncProg`,
the next actions of two different threads have no location in common that one
of them writes. -/
theorem sync_race_free (full : List (List Action)) (c : Config) (done : Nat → List Action)
    (t u : Nat) (hp : SyncProg full) (inv : SyncInv full c done) (htu : t ≠ u)
    (a b : Action) (rest_t rest_u : List Action)
    (ht : c.threads.getD t [] = a :: rest_t) (hu : c.threads.getD u [] = b :: rest_u) :
    ∀ l, l ∈ loc_writes a → l ∉ loc_reads b ++ loc_writes b := by
  intro l hl hl'
  have hfull_t : full.getD t [] = done t ++ a :: rest_t := by rw [inv.split t, ht]
  have hfull_u : full.getD u [] = done u ++ b :: rest_u := by rw [inv.split u, hu]
  obtain ⟨x, hx1, hx2⟩ := hp.guarded t u (done t) a rest_t (done u) b rest_u l htu hfull_t
    hfull_u hl hl'
  apply inv.waited u x hx1 t
  rw [ht]
  exact List.mem_cons_of_mem _ hx2

/-- The state `SyncInv` holds at every configuration that a phase reaches. -/
theorem sync_reachable (full : List (List Action)) (R : Nat) (hp : SyncProg full) :
    ∀ (ts : List Nat) (c : Config) (done : Nat → List Action), SyncInv full c done →
      steps_ok R c ts → ∃ done', SyncInv full (run_steps R c ts) done' := by
  intro ts
  induction ts with
  | nil => intro c done inv _; exact ⟨done, inv⟩
  | cons t rest ih =>
    intro c done inv hok
    obtain ⟨a, rest_t, hget, hmove⟩ := (can_move_iff c t).mp hok.1
    exact ih _ _ (sync_inv_step full R c done t a rest_t hp inv hget hmove) hok.2

/-- A phase whose programs follow the discipline `SyncProg`, started with the
flags that are waited for clear, has no data race: after any sequence of steps,
the actions that two different threads have reached have no location in common
that one of them writes.  The bucket loops of different threads that can run
at the same time therefore work on different arrays, and it makes no difference
whether they are interleaved as a whole or element by element. -/
theorem phase_race_free (R : Nat) (threads : List (List Action)) (m : Memory)
    (hp : SyncProg threads)
    (hflags : ∀ x w, Action.WAITPAUSE x ∈ threads.getD w [] → (m.prefix_tree x).Flag = 0)
    (ts : List Nat) (hok : steps_ok R { mem := m, threads := threads } ts)
    (t u : Nat) (htu : t ≠ u) (a b : Action) (rest_t rest_u : List Action)
    (ht : (run_steps R { mem := m, threads := threads } ts).threads.getD t [] = a :: rest_t)
    (hu : (run_steps R { mem := m, threads := threads } ts).threads.getD u [] = b :: rest_u) :
    ∀ l, l ∈ loc_writes a → l ∉ loc_reads b ++ loc_writes b := by
  have inv : SyncInv threads { mem := m, threads := threads } (fun _ => []) :=
    ⟨rfl, fun t => by simp, fun x w hw hfl => absurd (hflags x w hw) hfl,
      fun u x hx => absurd hx (by simp)⟩
  obtain ⟨done', inv'⟩ := sync_reachable threads R hp ts _ _ inv hok
  exact sync_race_free threads _ done' t u hp inv' htu a b rest_t rest_u ht hu

/-! ## The discipline of the up-sweep -/

theorem prog_ok_split (ok : List Nat → Action → List Action → Prop) :
    ∀ (p1 : List Action) (w : List Nat) (L : List Action) (A : Action) (p2 : List Action),
      prog_ok ok w L → L = p1 ++ A :: p2 →
      ∃ w', ok w' A p2 ∧ ∀ x, x ∈ w' → x ∈ w ∨ Action.WAITPAUSE x ∈ p1 := by
  intro p1
  induction p1 with
  | nil =>
    intro w L A p2 h hL
    subst hL
    exact ⟨w, h.1, fun x hx => Or.inl hx⟩
  | cons b p1 ih =>
    intro w L A p2 h hL
    subst hL
    obtain ⟨w', h1, h2⟩ := ih _ _ A p2 h.2 rfl
    refine ⟨w', h1, fun x hx => ?_⟩
    rcases h2 x hx with h3 | h3
    · rcases List.mem_append.mp h3 with h4 | h4
      · right
        cases b <;> simp only [waits_of, List.mem_singleton, List.not_mem_nil] at h4
        subst h4
        exact List.mem_cons_self _ _
      · exact Or.inl h4
    · exact Or.inr (List.mem_cons_of_mem _ h3)

theorem prog_ok_mem (ok : List Nat → Action → List Action → Prop) (w : List Nat)
    (L : List Action) (a : Action) (h : prog_ok ok w L) (ha : a ∈ L) :
    ∃ w' L', ok w' a L' := by
  obtain ⟨s, t, hst⟩ := List.append_of_mem ha
  obtain ⟨w', h1, _⟩ := prog_ok_split ok s w L a t h hst
  exact ⟨w', t, h1⟩

theorem getD_map_range (P : Nat) (f : Nat → List Action) (t : Nat) :
    ((List.range P).map f).getD t [] = if t < P then f t else [] := by
  by_cases h : t < P
  · rw [List.getD_eq_getElem _ _ (by simpa using h)]
    simp [h]
  · rw [List.getD_eq_default _ _ (by simpa using h)]
    simp [h]

theorem upsweep_loop_even (fuel o l b n : Nat) (h : o % 2 = 0) :
    upsweep_loop fuel o l b n = [] := by
  cases fuel with
  | zero => rfl
  | succ f => simp [upsweep_loop, h]

theorem owned_dens (P t j o : Nat) (h : (o + 1) * 2 ^ j = t + 1) :
    owned P t (Loc.dens (idx P j o)) := ⟨j, o, rfl, h⟩

theorem owned_ranks (P t j o : Nat) (h : (o + 1) * 2 ^ j = t + 1) :
    owned P t (Loc.ranks (idx P j o)) := ⟨j, o, rfl, h⟩

theorem upsweep_loop_ok (P t : Nat) :
    ∀ fuel j o w, (o + 1) * 2 ^ j = t + 1 →
      prog_ok (up_ok P t) w
        (upsweep_loop fuel o (lvl P (j + 1)) (node_base P (j + 1)) (idx P j o)) := by
  intro fuel
  induction fuel with
  | zero => intro j o w _; trivial
  | succ f ih =>
    intro j o w ho
    unfold upsweep_loop
    by_cases hodd : o % 2 ≠ 0
    · have hh : (o / 2 + 1) * 2 ^ (j + 1) = t + 1 := by
        rw [pow_succ, ← ho]
        have : o = 2 * (o / 2) + 1 := by omega
        nth_rewrite 2 [this]
        ring
      have e1 : node_base P (j + 1) + lvl P (j + 1) = node_base P (j + 1 + 1) := rfl
      have e2 : lvl P (j + 1) / 2 = lvl P (j + 1 + 1) := (lvl_succ P (j + 1)).symm
      have e3 : node_base P (j + 1) + o / 2 = idx P (j + 1) (o / 2) := rfl
      have e4 : node_base P (j + 1 + 1) + o / 2 / 2 = idx P (j + 1 + 1) (o / 2 / 2) := rfl
      simp only [hodd, if_true, ne_eq, not_false_eq_true, e1, e2, e3, e4, List.cons_append,
        List.nil_append, prog_ok, waits_of]
      have hsets : ∀ w', prog_ok (up_ok P t) w'
          ((if o / 2 % 2 = 0 then [Action.SETPAUSE (idx P (j + 1 + 1) (o / 2 / 2))] else []) ++
            upsweep_loop f (o / 2) (lvl P (j + 1 + 1)) (node_base P (j + 1 + 1))
              (idx P (j + 1) (o / 2))) := by
        intro w'
        by_cases he : o / 2 % 2 = 0
        · simp only [he, if_true, upsweep_loop_even _ _ _ _ _ he, List.append_nil, prog_ok,
            and_true]
          refine ⟨fun x hx => by simp at hx, fun x hx => ?_, fun l hl => by simp [loc_reads, loc_writes] at hl,
            fun l hl => by simp [loc_writes] at hl⟩
          injection hx with hx
          exact ⟨rfl, j + 1, o / 2, hx.symm, hh, he⟩
        · simp only [he, if_false, List.nil_append]
          exact ih (j + 1) (o / 2) w' hh
      refine ⟨?_, ?_, hsets _⟩
      · refine ⟨fun x hx => ?_, fun x hx => by simp at hx,
          fun l hl => by simp [loc_reads, loc_writes] at hl, fun l hl => by simp [loc_writes] at hl⟩
        injection hx with hx
        exact ⟨j + 1, o / 2, hx.symm, hh⟩
      · have hset : o / 2 % 2 = 0 → Action.SETPAUSE (idx P (j + 1 + 1) (o / 2 / 2)) ∈
            (if o / 2 % 2 = 0 then [Action.SETPAUSE (idx P (j + 1 + 1) (o / 2 / 2))] else []) ++
              upsweep_loop f (o / 2) (lvl P (j + 1 + 1)) (node_base P (j + 1 + 1))
                (idx P (j + 1) (o / 2)) := by
          intro he
          simp [he]
        have hguard : ∀ l, loc_node l = some (idx P j o - 1) →
            owned P t l ∨
              ∃ j' o', loc_node l = some (idx P j' o' - 1) ∧ o' % 2 = 1 ∧
                (o' + 1) * 2 ^ j' = t + 1 ∧
                idx P (j' + 1) (o' / 2) ∈ [idx P (j + 1) (o / 2)] ++ w :=
          fun l hl => Or.inr ⟨j, o, hl, by omega, ho, by simp⟩
        by_cases hm : o / 2 + 1 = lvl P (j + 1)
        · simp only [hm, not_true_eq_false, if_false]
          refine ⟨fun x hx => by simp at hx, fun x hx => by simp at hx, fun l hl => ?_,
            fun l hl => ?_⟩
          · simp only [loc_reads, loc_writes, List.mem_append, List.mem_cons,
              List.mem_singleton, List.not_mem_nil, or_false] at hl
            rcases hl with (rfl | rfl) | rfl
            · exact Or.inl (owned_dens P t j o ho)
            · exact hguard _ rfl
            · exact Or.inl (owned_dens P t (j + 1) (o / 2) hh)
          · simp only [loc_writes, List.mem_singleton] at hl
            subst hl
            exact ⟨j + 1, o / 2, rfl, hh, hset⟩
        · simp only [hm, not_false_eq_true, if_true]
          refine ⟨fun x hx => by simp at hx, fun x hx => by simp at hx, fun l hl => ?_,
            fun l hl => ?_⟩
          · simp only [loc_reads, loc_writes, List.mem_append, List.mem_cons,
              List.mem_singleton, List.not_mem_nil, or_false] at hl
            rcases hl with (rfl | rfl | rfl | rfl) | rfl | rfl
            · exact Or.inl (owned_dens P t j o ho)
            · exact Or.inl (owned_ranks P t j o ho)
            · exact hguard _ rfl
            · exact hguard _ rfl
            · exact Or.inl (owned_dens P t (j + 1) (o / 2) hh)
            · exact Or.inl (owned_ranks P t (j + 1) (o / 2) hh)
          · simp only [loc_writes, List.mem_cons, List.mem_singleton, List.not_mem_nil,
              or_false] at hl
            rcases hl with rfl | rfl
            · exact ⟨j + 1, o / 2, rfl, hh, hset⟩
            · exact ⟨j + 1, o / 2, rfl, hh, hset⟩
    · simp only [hodd, if_false]
      trivial

/-- The up-sweep of every thread follows the discipline `up_ok`. -/
theorem upsweep_ok (P t : Nat) : prog_ok (up_ok P t) [] (upsweep P t) := by
  unfold upsweep
  have e0 : P / 2 = lvl P (0 + 1) := by simp [lvl]
  have e1 : P = node_base P (0 + 1) := by simp [node_base, lvl]
  have e2 : t = idx P 0 t := by simp [idx, node_base]
  have h0 : (t + 1) * 2 ^ 0 = t + 1 := by simp
  have hloop : ∀ w, prog_ok (up_ok P t) w (upsweep_loop t t (P / 2) P t) := by
    intro w
    have := upsweep_loop_ok P t t 0 t w h0
    rw [← e0, ← e1, ← e2] at this
    exact this
  simp only [List.cons_append, List.nil_append, prog_ok, waits_of]
  have e3 : P + t / 2 = idx P (0 + 1) (t / 2) := by simp [idx, node_base, lvl]
  refine ⟨⟨fun x hx => by simp at hx, fun x hx => by simp at hx, fun l hl => ?_, fun l hl => ?_⟩,
    ?_⟩
  · simp only [loc_reads, loc_writes, List.nil_append, List.mem_cons, List.mem_singleton,
      List.not_mem_nil, or_false] at hl
    rcases hl with rfl | rfl
    · exact Or.inl ⟨0, t, by rw [← e2]; rfl, h0⟩
    · exact Or.inl ⟨0, t, by rw [← e2]; rfl, h0⟩
  · have hset : t % 2 = 0 → Action.SETPAUSE (idx P (0 + 1) (t / 2)) ∈
        (if t % 2 = 0 then [Action.SETPAUSE (P + t / 2)] else []) ++
          upsweep_loop t t (P / 2) P t := by
      intro he
      simp [he, e3]
    simp only [loc_writes, List.mem_cons, List.mem_singleton, List.not_mem_nil, or_false] at hl
    rcases hl with rfl | rfl
    · exact ⟨0, t, by rw [← e2]; rfl, h0, hset⟩
    · exact ⟨0, t, by rw [← e2]; rfl, h0, hset⟩
  · by_cases he : t % 2 = 0
    · simp only [he, if_true, upsweep_loop_even _ _ _ _ _ he, List.append_nil, prog_ok,
        and_true]
      refine ⟨fun x hx => by simp at hx, fun x hx => ?_,
        fun l hl => by simp [loc_reads, loc_writes] at hl, fun l hl => by simp [loc_writes] at hl⟩
      injection hx with hx
      exact ⟨rfl, 0, t, by rw [← hx, e3], h0, he⟩
    · simp only [he, if_false, List.nil_append]
      exact hloop _

theorem mem_getD_map_range (P : Nat) (f : Nat → List Action) (t : Nat) (a : Action)
    (h : a ∈ ((List.range P).map f).getD t []) : t < P ∧ a ∈ f t := by
  rw [getD_map_range] at h
  by_cases ht : t < P
  · simp only [ht, if_true] at h
    exact ⟨ht, h⟩
  · simp [ht] at h

theorem split_getD_map_range (P : Nat) (f : Nat → List Action) (t : Nat) (p : List Action)
    (a : Action) (q : List Action) (h : ((List.range P).map f).getD t [] = p ++ a :: q) :
    t < P ∧ f t = p ++ a :: q := by
  rw [getD_map_range] at h
  by_cases ht : t < P
  · simp only [ht, if_true] at h
    exact ⟨ht, h⟩
  · simp only [ht, if_false] at h
    exact absurd h (by simp)

theorem idx_pred (P j o : Nat) (h : o % 2 = 1) : idx P j o - 1 = idx P j (o - 1) := by
  unfold idx
  omega

/-- The flag set after the write of a left child is the flag of a node inside
its level whenever some thread waits for it. -/
theorem set_target_proper (k t j o j' o' : Nat) (ht : t < 2 ^ k)
    (ho : (o + 1) * 2 ^ j = t + 1) (he : o % 2 = 0)
    (ho' : o' < lvl (2 ^ k) j') (hx : idx (2 ^ k) (j + 1) (o / 2) = idx (2 ^ k) j' o') :
    j + 1 = j' ∧ o / 2 = o' := by
  have hv := valid_of_le k j o (by omega)
  by_cases hj : j < k
  · have := lvl_double k j hj
    exact idx_inj _ _ _ _ _ (by omega) ho' hx
  · exfalso
    have hjk : j = k := by omega
    have hj' : j' ≤ k := by
      by_contra hc
      have : lvl (2 ^ k) j' = 0 := by
        unfold lvl
        apply Nat.div_eq_of_lt
        exact Nat.pow_lt_pow_right (by norm_num) (by omega)
      omega
    have h1 := idx_lt_next (2 ^ k) j' o' ho'
    have h2 := node_base_mono (2 ^ k) (j' + 1) (j + 1) (by omega)
    unfold idx at hx h1
    omega

/-- The up-sweep programs of `2 ^ k` threads follow the synchronisation
discipline. -/
theorem upsweep_sync (k : Nat) : SyncProg ((List.range (2 ^ k)).map (upsweep (2 ^ k))) := by
  refine ⟨?_, ?_, ?_, ?_⟩
  · intro t u x ht hu
    obtain ⟨ht, hmt⟩ := mem_getD_map_range _ _ _ _ ht
    obtain ⟨hu, hmu⟩ := mem_getD_map_range _ _ _ _ hu
    obtain ⟨_, _, h1, _⟩ := prog_ok_mem _ _ _ _ (upsweep_ok (2 ^ k) t) hmt
    obtain ⟨_, _, h2, _⟩ := prog_ok_mem _ _ _ _ (upsweep_ok (2 ^ k) u) hmu
    obtain ⟨j, o, hx, ho⟩ := h1 x rfl
    obtain ⟨j', o', hx', ho'⟩ := h2 x rfl
    obtain ⟨rfl, rfl⟩ := idx_inj _ _ _ _ _ (proper_of_owner _ t j o ht ho)
      (proper_of_owner _ u j' o' hu ho') (hx.symm.trans hx')
    omega
  · intro w t u x hw ht hu
    obtain ⟨hw, hmw⟩ := mem_getD_map_range _ _ _ _ hw
    obtain ⟨ht, hmt⟩ := mem_getD_map_range _ _ _ _ ht
    obtain ⟨hu, hmu⟩ := mem_getD_map_range _ _ _ _ hu
    obtain ⟨_, _, h0, _⟩ := prog_ok_mem _ _ _ _ (upsweep_ok (2 ^ k) w) hmw
    obtain ⟨_, _, _, h1, _⟩ := prog_ok_mem _ _ _ _ (upsweep_ok (2 ^ k) t) hmt
    obtain ⟨_, _, _, h2, _⟩ := prog_ok_mem _ _ _ _ (upsweep_ok (2 ^ k) u) hmu
    obtain ⟨j, o, hx, ho⟩ := h0 x rfl
    obtain ⟨_, j1, o1, hx1, ho1, he1⟩ := h1 x rfl
    obtain ⟨_, j2, o2, hx2, ho2, he2⟩ := h2 x rfl
    have hp := proper_of_owner _ w j o hw ho
    obtain ⟨e1, e2⟩ := set_target_proper k t j1 o1 j o ht ho1 he1 hp (hx1.symm.trans hx)
    obtain ⟨e3, e4⟩ := set_target_proper k u j2 o2 j o hu ho2 he2 hp (hx2.symm.trans hx)
    have hj : j1 = j2 := by omega
    have hoo : o1 = o2 := by omega
    subst hj hoo
    omega
  · intro w t x q1 q2 _ hsplit
    obtain ⟨_, hs⟩ := split_getD_map_range _ _ _ _ _ _ hsplit
    obtain ⟨_, ⟨_, h2, _⟩, _⟩ := prog_ok_split _ _ _ _ _ _ (upsweep_ok (2 ^ k) t) hs
    rw [(h2 x rfl).1]
    exact List.not_mem_nil _
  · intro t u q1 B q2 p1 A p2 l htu ht hu hB hA
    obtain ⟨ht, hst⟩ := split_getD_map_range _ _ _ _ _ _ ht
    obtain ⟨hu, hsu⟩ := split_getD_map_range _ _ _ _ _ _ hu
    obtain ⟨_, ⟨_, _, _, h4⟩, _⟩ := prog_ok_split _ _ _ _ _ _ (upsweep_ok (2 ^ k) t) hst
    obtain ⟨w', ⟨_, _, h3, _⟩, hw'⟩ := prog_ok_split _ _ _ _ _ _ (upsweep_ok (2 ^ k) u) hsu
    obtain ⟨j, o, hl, ho, hset⟩ := h4 l hB
    have hp := proper_of_owner _ t j o ht ho
    rcases h3 l hA with ⟨j', o', hl', ho'⟩ | ⟨j', o', hl', hodd, ho', hmem⟩
    · exfalso
      rw [hl] at hl'
      injection hl' with hl'
      obtain ⟨rfl, rfl⟩ := idx_inj _ _ _ _ _ hp (proper_of_owner _ u j' o' hu ho') hl'
      omega
    · rw [hl, idx_pred _ _ _ hodd] at hl'
      injection hl' with hl'
      have hp' := proper_of_owner _ u j' o' hu ho'
      obtain ⟨rfl, rfl⟩ := idx_inj _ _ _ _ _ hp (by omega) hl'
      have e : (o' - 1) / 2 = o' / 2 := by omega
      refine ⟨idx (2 ^ k) (j + 1) (o' / 2), ?_, ?_⟩
      · rcases hw' _ hmem with h | h
        · exact absurd h (List.not_mem_nil _)
        · exact h
      · rw [← e]
        exact hset (by omega)

/-! ## The discipline of the down-sweep -/

/-- The up-sweep of `2 ^ k` threads, started with clear flags, has the same
outcome under every interleaving. -/
theorem upsweep_any_eq (k R : Nat) (schedule : Nat → Nat) (m m' : Memory)
    (hR : node_arrays_ok R = true) (hfl : flags_clear k m)
    (hrun : run_phase R (List.range (2 ^ k)) ((List.range (2 ^ k)).map (upsweep (2 ^ k))) m
      = Except.ok m') :
    phase_any R schedule ((List.range (2 ^ k)).map (upsweep (2 ^ k))) m = Except.ok m' := by
  apply phase_any_eq R schedule _ _ m m' (upsweep_sync k) hR _ hrun
  intro x w hw
  obtain ⟨hw, hmw⟩ := mem_getD_map_range _ _ _ _ hw
  obtain ⟨_, _, h0, _⟩ := prog_ok_mem _ _ _ _ (upsweep_ok (2 ^ k) w) hmw
  obtain ⟨j, o, hx, ho⟩ := h0 x rfl
  obtain ⟨hj, hp⟩ := valid_of_le k j o (by omega)
  rw [hx]
  exact hfl j o hj hp

theorem signal_loop_sets (P t : Nat) :
    ∀ fuel i o, (o + 1) * 2 ^ i = t + 1 →
      ∀ y, Action.SETPAUSE y ∈ signal_loop fuel o (lvl P i) (node_base P i) →
        ∃ i' o', i ≤ i' ∧ y = idx P i' (o' - 1) ∧ o' % 2 = 1 ∧ (o' + 1) * 2 ^ i' = t + 1 := by
  intro fuel
  induction fuel with
  | zero => intro i o _ y hy; simp [signal_loop] at hy
  | succ f ih =>
    intro i o ho y hy
    unfold signal_loop at hy
    by_cases hodd : o % 2 ≠ 0
    · have hh := (half_node o i t (by omega) ho).1
      simp only [hodd, if_true, ne_eq, not_false_eq_true, List.mem_cons,
        Action.SETPAUSE.injEq] at hy
      rcases hy with hy | hy
      · exact ⟨i, o, le_refl _, by rw [hy]; unfold idx; omega, by omega, ho⟩
      · rw [← lvl_succ, ← node_base_succ] at hy
        obtain ⟨i', o', h1, h2⟩ := ih (i + 1) (o / 2) hh y hy
        exact ⟨i', o', by omega, h2⟩
    · simp [hodd] at hy

theorem signal_loop_reach (P t : Nat) :
    ∀ fuel i o z oz, (o + 1) * 2 ^ i = t + 1 → (oz + 1) * 2 ^ z = t + 1 → oz % 2 = 1 →
      i ≤ z → o ≤ fuel →
      Action.SETPAUSE (idx P z (oz - 1)) ∈ signal_loop fuel o (lvl P i) (node_base P i) := by
  intro fuel
  induction fuel with
  | zero =>
    intro i o z oz ho hz hodd hiz hf
    exfalso
    have ho0 : o = 0 := by omega
    subst ho0
    have := odd_mul_pow_le (oz + 1) 1 z i (by norm_num) (by rw [hz, ← ho])
    have hzi : z = i := by omega
    subst hzi
    have hpos : 0 < 2 ^ z := by positivity
    have : oz + 1 = 0 + 1 := Nat.eq_of_mul_eq_mul_right hpos (hz.trans ho.symm)
    omega
  | succ f ih =>
    intro i o z oz ho hz hodd hiz hf
    by_cases hzi : z = i
    · subst hzi
      have hpos : 0 < 2 ^ z := by positivity
      have : oz + 1 = o + 1 := Nat.eq_of_mul_eq_mul_right hpos (hz.trans ho.symm)
      have hoz : oz = o := by omega
      subst hoz
      unfold signal_loop
      have : oz % 2 ≠ 0 := by omega
      simp only [this, if_true, ne_eq, not_false_eq_true, List.mem_cons, Action.SETPAUSE.injEq]
      left
      unfold idx
      omega
    · have hoo : o % 2 = 1 := by
        by_contra hc
        have := odd_mul_pow_le (oz + 1) (o + 1) z i (by omega) (by rw [hz, ← ho])
        omega
      have hh := (half_node o i t hoo ho).1
      unfold signal_loop
      have : o % 2 ≠ 0 := by omega
      simp only [this, if_true, ne_eq, not_false_eq_true, List.mem_cons]
      right
      rw [← lvl_succ, ← node_base_succ]
      exact ih (i + 1) (o / 2) z oz hh hz hodd (by omega) (by omega)

theorem rank_loop_sets (t : Nat) :
    ∀ fuel o l b y, Action.SETPAUSE y ∉ rank_loop t fuel o l b := by
  intro fuel
  induction fuel with
  | zero => intro o l b y; simp [rank_loop]
  | succ f ih =>
    intro o l b y
    unfold rank_loop
    split
    · split <;> simp [ih]
    · simp

theorem rank_loop_ok (P t : Nat) (S : List Action)
    (hS : ∀ w, prog_ok (down_ok P t) w S) :
    ∀ fuel o l b w, prog_ok (down_ok P t) w (rank_loop t fuel o l b ++ S) := by
  intro fuel
  induction fuel with
  | zero => intro o l b w; exact hS w
  | succ f ih =>
    intro o l b w
    unfold rank_loop
    by_cases h0 : o ≠ 0
    · by_cases hodd : o % 2 ≠ 0
      · simp only [h0, hodd, if_true, ne_eq, not_false_eq_true, List.cons_append,
          List.nil_append, prog_ok, waits_of]
        refine ⟨⟨fun x hx => by simp at hx, fun x hx => by simp at hx, fun l' hl => ?_,
          fun l' hl => ?_⟩, ih _ _ _ _⟩
        · simp only [loc_reads, loc_writes, List.mem_append, List.mem_singleton] at hl
          rcases hl with rfl | rfl
          · exact Or.inr (Or.inl ⟨_, rfl⟩)
          · exact Or.inl rfl
        · simp only [loc_writes, List.mem_singleton] at hl
          exact Or.inl hl
      · simp only [h0, hodd, if_true, if_false, ne_eq, not_false_eq_true, List.nil_append]
        exact ih _ _ _ _
    · simp only [h0, if_false, List.nil_append]
      exact hS w

theorem signal_loop_ok (P t : Nat) (S : List Action)
    (hS : ∀ w, prog_ok (down_ok P t) w S) (hset : ∀ y, Action.SETPAUSE y ∉ S) :
    ∀ fuel i o w, (o + 1) * 2 ^ i = t + 1 →
      prog_ok (down_ok P t) w (signal_loop fuel o (lvl P i) (node_base P i) ++ S) := by
  intro fuel
  induction fuel with
  | zero => intro i o w _; exact hS w
  | succ f ih =>
    intro i o w ho
    unfold signal_loop
    by_cases hodd : o % 2 ≠ 0
    · have hh := (half_node o i t (by omega) ho).1
      simp only [hodd, if_true, ne_eq, not_false_eq_true, List.cons_append, prog_ok, waits_of,
        List.nil_append]
      rw [← lvl_succ, ← node_base_succ]
      refine ⟨⟨fun x hx => by simp at hx, fun x hx => ?_,
        fun l hl => by simp [loc_reads, loc_writes] at hl,
        fun l hl => by simp [loc_writes] at hl⟩, ih (i + 1) (o / 2) w hh⟩
      injection hx with hx
      refine ⟨i, o, by rw [← hx]; unfold idx; omega, by omega, ho, fun y hy => ?_⟩
      rcases List.mem_append.mp hy with hy | hy
      · obtain ⟨i', o', h1, h2⟩ := signal_loop_sets P t f (i + 1) (o / 2) hh y hy
        exact ⟨i', o', by omega, h2⟩
      · exact absurd hy (hset y)
    · simp only [hodd, if_false, List.nil_append]
      exact hS w

/-- The node `my_node` of the last thread, the top of the tree, is a node of
its own. -/
theorem top_owned (k : Nat) : owned (2 ^ k) (2 ^ k - 1) (Loc.dens (2 * 2 ^ k - 2)) := by
  refine ⟨k, 0, ?_, ?_⟩
  · simp only [loc_node, idx, node_base_top, Nat.add_zero]
  · have : 0 < 2 ^ k := by positivity
    omega

/-- A thread `u` other than the last one has its `their_node` inside the tree:
it is the `my_node` of thread `u + 2 ^ z`, where `z` is the level of the
`my_node` of `u`. -/
theorem their_proper (k u z o : Nat) (hu : u + 1 < 2 ^ k) (ho : (o + 1) * 2 ^ z = u + 1)
    (he : o % 2 = 0) : u + 1 + 2 ^ z ≤ 2 ^ k := by
  have hz : z < k := by
    by_contra hc
    have : 2 ^ k ≤ 2 ^ z := Nat.pow_le_pow_right (by norm_num) (by omega)
    have : 2 ^ z ≤ (o + 1) * 2 ^ z := Nat.le_mul_of_pos_left _ (by omega)
    omega
  have hk : 2 ^ k = 2 ^ (k - z - 1) * 2 * 2 ^ z := by
    rw [← pow_succ, ← pow_add]
    congr 1
    omega
  have hpos : 0 < 2 ^ z := by positivity
  have h1 : o + 1 < 2 ^ (k - z - 1) * 2 := by
    by_contra hc
    have : 2 ^ (k - z - 1) * 2 * 2 ^ z ≤ (o + 1) * 2 ^ z := Nat.mul_le_mul_right _ (by omega)
    omega
  have h2 : (o + 2) * 2 ^ z ≤ 2 ^ (k - z - 1) * 2 * 2 ^ z := Nat.mul_le_mul_right _ (by omega)
  have h3 : (o + 2) * 2 ^ z = (o + 1) * 2 ^ z + 2 ^ z := by ring
  omega

/-- The down-sweep of every thread follows the discipline `down_ok`. -/
theorem downsweep_ok (k t : Nat) (ht : t < 2 ^ k) :
    prog_ok (down_ok (2 ^ k) t) [] (downsweep (2 ^ k) t) := by
  obtain ⟨z, o, z', o', hmy, hth, ho, he, ho', he'⟩ := my_their_spec (2 ^ k) t
  have hmy_owned : t + 1 ≠ 2 ^ k → owned (2 ^ k) t (Loc.dens (my_node_index (2 ^ k) t)) :=
    fun _ => ⟨z, o, by rw [hmy]; rfl, ho⟩
  have hlast : ∀ w my, owned (2 ^ k) t (Loc.dens my) →
      prog_ok (down_ok (2 ^ k) t) w [Action.add_densities t my] := by
    intro w my hown
    simp only [prog_ok, and_true]
    refine ⟨fun x hx => by simp at hx, fun x hx => by simp at hx, fun l hl => ?_,
      fun l hl => ?_⟩
    · simp only [loc_reads, loc_writes, List.mem_append, List.mem_singleton] at hl
      rcases hl with rfl | rfl
      · exact Or.inr (Or.inr (Or.inl hown))
      · exact Or.inl rfl
    · simp only [loc_writes, List.mem_singleton] at hl
      exact Or.inl hl
  have htail : ∀ w my, owned (2 ^ k) t (Loc.dens my) →
      prog_ok (down_ok (2 ^ k) t) w
        (signal_loop t t (2 ^ k) 0 ++
          (Action.clear_rank_ff t :: (rank_loop t t t (2 ^ k) 0 ++ [Action.add_densities t my])))
      := by
    intro w my hown
    have h1 : ∀ w, prog_ok (down_ok (2 ^ k) t) w
        (Action.clear_rank_ff t :: (rank_loop t t t (2 ^ k) 0 ++ [Action.add_densities t my]))
        := by
      intro w
      refine ⟨⟨fun x hx => by simp at hx, fun x hx => by simp at hx, fun l hl => ?_,
        fun l hl => ?_⟩, rank_loop_ok _ t _ (fun w => hlast w my hown) _ _ _ _ _⟩
      · simp only [loc_reads, loc_writes, List.nil_append, List.mem_singleton] at hl
        exact Or.inl hl
      · simp only [loc_writes, List.mem_singleton] at hl
        exact Or.inl hl
    have h2 : ∀ y, Action.SETPAUSE y ∉
        (Action.clear_rank_ff t :: (rank_loop t t t (2 ^ k) 0 ++ [Action.add_densities t my]))
        := by
      intro y hy
      simp only [List.mem_cons, List.mem_append, List.mem_singleton, reduceCtorEq, false_or,
        or_false] at hy
      rcases hy with hy | hy
      · exact rank_loop_sets t _ _ _ _ y hy
      · exact absurd hy (List.not_mem_nil _)
    have := signal_loop_ok (2 ^ k) t _ h1 h2 t 0 t w (by simp)
    rw [lvl_zero] at this
    exact this
  unfold downsweep
  by_cases hl : t + 1 ≠ 2 ^ k
  · simp only [hl, if_true, ne_eq, not_false_eq_true, List.append_assoc, List.cons_append,
      List.nil_append, prog_ok, waits_of, List.append_nil]
    refine ⟨⟨fun x hx => ?_, fun x hx => by simp at hx,
      fun l hl => by simp [loc_reads, loc_writes] at hl,
      fun l hl => by simp [loc_writes] at hl⟩,
      ⟨fun x hx => by simp at hx, fun x hx => by simp at hx, fun l hl' => ?_, fun l hl' => ?_⟩,
      htail _ _ (hmy_owned hl)⟩
    · injection hx with hx
      exact ⟨hx.symm, hl⟩
    · simp only [loc_reads, loc_writes, List.mem_append, List.mem_singleton] at hl'
      rcases hl' with rfl | rfl
      · exact Or.inr (Or.inr (Or.inr ⟨rfl, by simp⟩))
      · exact Or.inr (Or.inr (Or.inl (hmy_owned hl)))
    · simp only [loc_writes, List.mem_singleton] at hl'
      subst hl'
      refine Or.inr ⟨rfl, hl, fun u hu hut => ?_⟩
      obtain ⟨zu, ou, zu', ou', humy, huth, huo, hue, huo', hue'⟩ := my_their_spec (2 ^ k) u
      have hpu := their_proper k u zu ou hu huo hue
      have hp1 : ou' < lvl (2 ^ k) zu' :=
        proper_of_owner (2 ^ k) (u + 2 ^ zu) zu' ou' (by omega) (by omega)
      have hp2 : o < lvl (2 ^ k) z := proper_of_owner (2 ^ k) t z o ht ho
      rw [huth, hmy] at hut
      obtain ⟨rfl, rfl⟩ := idx_inj _ _ _ _ _ hp1 hp2 hut
      have hreach := signal_loop_reach (2 ^ k) t t 0 t zu (ou + 1) (by simp)
        (by have : (ou + 1 + 1) * 2 ^ zu = (ou + 1) * 2 ^ zu + 2 ^ zu := by ring
            omega)
        (by omega) (Nat.zero_le _) (le_refl _)
      rw [lvl_zero] at hreach
      rw [humy]
      simp only [Nat.add_sub_cancel] at hreach
      exact List.mem_append_left _ hreach
  · have htop : 2 ^ k - 1 = t := by omega
    simp only [hl, if_false, List.append_assoc, List.cons_append, List.nil_append]
    apply htail
    rw [← htop]
    exact top_owned k

/-- The down-sweep programs of `2 ^ k` threads follow the synchronisation
discipline. -/
theorem downsweep_sync (k : Nat) :
    SyncProg ((List.range (2 ^ k)).map (downsweep (2 ^ k))) := by
  refine ⟨?_, ?_, ?_, ?_⟩
  · intro t u x ht hu
    obtain ⟨ht, hmt⟩ := mem_getD_map_range _ _ _ _ ht
    obtain ⟨hu, hmu⟩ := mem_getD_map_range _ _ _ _ hu
    obtain ⟨_, _, h1, _⟩ := prog_ok_mem _ _ _ _ (downsweep_ok k t ht) hmt
    obtain ⟨_, _, h2, _⟩ := prog_ok_mem _ _ _ _ (downsweep_ok k u hu) hmu
    obtain ⟨z, o, _, _, hmy, _, ho, _, _, _⟩ := my_their_spec (2 ^ k) t
    obtain ⟨z', o', _, _, hmy', _, ho', _, _, _⟩ := my_their_spec (2 ^ k) u
    have e : idx (2 ^ k) z o = idx (2 ^ k) z' o' := by
      rw [← hmy, ← hmy', ← (h1 x rfl).1, ← (h2 x rfl).1]
    obtain ⟨rfl, rfl⟩ := idx_inj _ _ _ _ _ (proper_of_owner _ t z o ht ho)
      (proper_of_owner _ u z' o' hu ho') e
    omega
  · intro w t u x hw ht hu
    obtain ⟨hw, hmw⟩ := mem_getD_map_range _ _ _ _ hw
    obtain ⟨ht, hmt⟩ := mem_getD_map_range _ _ _ _ ht
    obtain ⟨hu, hmu⟩ := mem_getD_map_range _ _ _ _ hu
    obtain ⟨_, _, h0, _⟩ := prog_ok_mem _ _ _ _ (downsweep_ok k w hw) hmw
    obtain ⟨_, _, _, h1, _⟩ := prog_ok_mem _ _ _ _ (downsweep_ok k t ht) hmt
    obtain ⟨_, _, _, h2, _⟩ := prog_ok_mem _ _ _ _ (downsweep_ok k u hu) hmu
    obtain ⟨z, o, _, _, hmy, _, ho, _, _, _⟩ := my_their_spec (2 ^ k) w
    obtain ⟨i1, o1, hx1, hodd1, ho1, _⟩ := h1 x rfl
    obtain ⟨i2, o2, hx2, hodd2, ho2, _⟩ := h2 x rfl
    have hx : x = idx (2 ^ k) z o := by rw [(h0 x rfl).1, hmy]
    have hp := proper_of_owner _ w z o hw ho
    have hp1 := proper_of_owner _ t i1 o1 ht ho1
    have hp2 := proper_of_owner _ u i2 o2 hu ho2
    obtain ⟨e1, e2⟩ := idx_inj _ _ _ _ _ (by omega) hp (hx1.symm.trans hx)
    obtain ⟨e3, e4⟩ := idx_inj _ _ _ _ _ (by omega) hp (hx2.symm.trans hx)
    have hi : i1 = i2 := by omega
    have hoo : o1 = o2 := by omega
    subst hi hoo
    omega
  · intro w t x q1 q2 _ hsplit hmem
    obtain ⟨ht, hs⟩ := split_getD_map_range _ _ _ _ _ _ hsplit
    obtain ⟨_, ⟨_, h2, _⟩, _⟩ := prog_ok_split _ _ _ _ _ _ (downsweep_ok k t ht) hs
    obtain ⟨i, o, hx, hodd, ho, hrest⟩ := h2 x rfl
    obtain ⟨i', o', hlt, hx', hodd', ho'⟩ := hrest x hmem
    have hp := proper_of_owner _ t i o ht ho
    have hp' := proper_of_owner _ t i' o' ht ho'
    obtain ⟨e1, _⟩ := idx_inj _ _ _ _ _ (by omega) (by omega) (hx.symm.trans hx')
    omega
  · intro t u q1 B q2 p1 A p2 l htu ht hu hB hA
    obtain ⟨ht, hst⟩ := split_getD_map_range _ _ _ _ _ _ ht
    obtain ⟨hu, hsu⟩ := split_getD_map_range _ _ _ _ _ _ hu
    obtain ⟨_, ⟨_, _, _, h4⟩, _⟩ := prog_ok_split _ _ _ _ _ _ (downsweep_ok k t ht) hst
    obtain ⟨w', ⟨_, _, h3, _⟩, hw'⟩ := prog_ok_split _ _ _ _ _ _ (downsweep_ok k u hu) hsu
    obtain ⟨z, o, _, _, hmy, _, ho, _, _, _⟩ := my_their_spec (2 ^ k) t
    rcases h4 l hB with rfl | ⟨rfl, hlast, hset⟩
    · exfalso
      rcases h3 _ hA with h | ⟨n, h⟩ | ⟨j, o, h, _⟩ | ⟨h, _⟩
      · injection h with h
        exact htu h
      · exact Loc.noConfusion h
      · simp [loc_node] at h
      · exact Loc.noConfusion h
    · rcases h3 _ hA with h | ⟨n, h⟩ | ⟨j', o', h, ho'⟩ | ⟨h, hmem⟩
      · exact Loc.noConfusion h
      · exact Loc.noConfusion h
      · exfalso
        simp only [loc_node, hmy, Option.some.injEq] at h
        obtain ⟨rfl, rfl⟩ := idx_inj _ _ _ _ _ (proper_of_owner _ t z o ht ho)
          (proper_of_owner _ u j' o' hu ho') h
        omega
      · injection h with h
        have hwait : Action.WAITPAUSE (my_node_index (2 ^ k) u) ∈ p1 := by
          rcases hw' _ hmem with h' | h'
          · exact absurd h' (List.not_mem_nil _)
          · exact h'
        have hmemu : Action.WAITPAUSE (my_node_index (2 ^ k) u) ∈ downsweep (2 ^ k) u := by
          rw [hsu]
          exact List.mem_append_left _ hwait
        obtain ⟨_, _, h1, _⟩ := prog_ok_mem _ _ _ _ (downsweep_ok k u hu) hmemu
        have hne := (h1 _ rfl).2
        exact ⟨my_node_index (2 ^ k) u, hwait, hset u (by omega) h.symm⟩

/-- The down-sweep of `2 ^ k` threads, started with clear flags, has the same
outcome under every interleaving. -/
theorem downsweep_any_eq (k R : Nat) (schedule : Nat → Nat) (order : List Nat) (m m' : Memory)
    (hR : node_arrays_ok R = true) (hfl : flags_clear k m)
    (hrun : run_phase R order ((List.range (2 ^ k)).map (downsweep (2 ^ k))) m
      = Except.ok m') :
    phase_any R schedule ((List.range (2 ^ k)).map (downsweep (2 ^ k))) m = Except.ok m' := by
  apply phase_any_eq R schedule _ _ m m' (downsweep_sync k) hR _ hrun
  intro x w hw
  obtain ⟨hw, hmw⟩ := mem_getD_map_range _ _ _ _ hw
  obtain ⟨_, _, h0, _⟩ := prog_ok_mem _ _ _ _ (downsweep_ok k w hw) hmw
  obtain ⟨z, o, _, _, hmy, _, ho, _, _, _⟩ := my_their_spec (2 ^ k) w
  obtain ⟨hj, hp⟩ := valid_of_le k z o (by omega)
  rw [(h0 x rfl).1, hmy]
  exact hfl z o hj hp

/-! ## The scatter under an arbitrary interleaving -/

theorem count_in_self (dg : Nat → Nat) (b i : Nat) : count_in dg b i i = 0 := by
  simp [count_in]

theorem count_in_succ (dg : Nat → Nat) (b i i' : Nat) (h : i ≤ i') :
    count_in dg b i (i' + 1) = count_in dg b i i' + (if dg i' = b then 1 else 0) := by
  unfold count_in
  exact Finset.sum_Ico_succ_top h _

theorem setAt_setAt {α : Type} (a : Nat → α) (i : Nat) (v v' : α) :
    setAt (setAt a i v) i v' = setAt a i v' := by
  funext j
  by_cases h : j = i <;> simp [setAt, h]

/-- One scattered key keeps the state of the scatter phase: the key goes to its
destination in the stable partition, which is inside the buffer. -/
theorem scat_full_step (R s N from_ to_ P : Nat) (src dg : Nat → Nat) (m0 m : Memory)
    (next : Nat → Nat) (t : Nat) (hft : from_ ≠ to_)
    (hdgs : ∀ i, dg i = digit R s (src i)) (hdg : ∀ i, i < N → dg i < R)
    (hkp : partition_ok m0.key_partition P N) (hsrc : m0.key from_ = src)
    (inv : ScatFull R N from_ to_ P src dg m0 m next)
    (ht : t < P) (hn : next t < m0.key_partition (t + 1)) :
    ∃ m', scatter_key R s N from_ to_ t m (next t) = Except.ok m' ∧
      ScatFull R N from_ to_ P src dg m0 m' (setAt next t (next t + 1)) := by
  have hle := partition_le _ P N hkp
  have hiN : next t < N := lt_of_lt_of_le hn (hle (t + 1) (by omega))
  have hkey : m.key from_ = src := by rw [inv.key_other from_ hft, hsrc]
  have hd := hdg (next t) hiN
  have htmp : m.rank_ff t (dg (next t)) = dest dg N (next t) := by
    rw [inv.offsets t ht _ hd]
    unfold offset_spec dest count_in
    rw [Nat.add_assoc, Finset.sum_range_add_sum_Ico _ (inv.lo t ht)]
  have hlt := dest_lt dg N (next t) hiN
  have hjN : ∀ u, u < P → ∀ j, j < setAt next t (next t + 1) u → j < N := by
    intro u hu j hj
    by_cases hut : u = t
    · subst hut
      rw [setAt_same] at hj
      omega
    · rw [setAt_other _ _ _ _ hut] at hj
      have := inv.hi u hu
      have := hle (u + 1) (by omega)
      omega
  refine ⟨{ m with
      key := setAt m.key to_ (setAt (m.key to_) (dest dg N (next t)) (src (next t)))
      rank_ff := setAt m.rank_ff t
        (setAt (m.rank_ff t) (dg (next t)) (dest dg N (next t) + 1)) }, ?_, ?_⟩
  · unfold scatter_key
    simp only [hkey, ← hdgs, htmp, hlt, if_true]
  · refine ⟨?_, ?_, ?_, ?_, ?_, inv.rank_me, inv.key_density, inv.tree, inv.kp, ?_, ?_⟩
    · intro b hb
      show setAt m.key to_ _ b = m0.key b
      rw [setAt_other _ _ _ _ hb]
      exact inv.key_other b hb
    · intro u hu j hj1 hj2
      show setAt m.key to_ _ to_ (dest dg N j) = src j
      rw [setAt_same]
      by_cases hD : dest dg N j = dest dg N (next t)
      · have := dest_inj dg N j (next t) (hjN u hu j hj2) hiN hD
        rw [hD, setAt_same, this]
      · rw [setAt_other _ _ _ _ hD]
        apply inv.placed u hu j hj1
        by_cases hut : u = t
        · subst hut
          rw [setAt_same] at hj2
          have : j ≠ next u := fun h => hD (by rw [h])
          omega
        · rw [setAt_other _ _ _ _ hut] at hj2
          exact hj2
    · intro i hi
      have hne : i ≠ dest dg N (next t) := by
        intro h
        exact hi t ht (next t) (inv.lo t ht) (by rw [setAt_same]; omega) h.symm
      show setAt m.key to_ _ to_ i = m0.key to_ i
      rw [setAt_same, setAt_other _ _ _ _ hne]
      apply inv.key_rest
      intro u hu j h1 h2
      apply hi u hu j h1
      by_cases hut : u = t
      · subst hut
        rw [setAt_same]
        omega
      · rw [setAt_other _ _ _ _ hut]
        exact h2
    · intro u hu b hb
      show setAt m.rank_ff t _ u b = _
      by_cases hut : u = t
      · subst hut
        rw [setAt_same, setAt_same, count_in_succ _ _ _ _ (inv.lo u hu)]
        by_cases hb' : b = dg (next u)
        · subst hb'
          rw [setAt_same, ← htmp, inv.offsets u hu _ hb]
          simp only [if_true]
          omega
        · rw [setAt_other _ _ _ _ hb', inv.offsets u hu _ hb]
          have : ¬ dg (next u) = b := fun h => hb' h.symm
          simp [this]
      · rw [setAt_other _ _ _ _ hut, setAt_other _ _ _ _ hut]
        exact inv.offsets u hu b hb
    · intro u b h
      show setAt m.rank_ff t _ u b = _
      by_cases hut : u = t
      · subst hut
        have hb' : b ≠ dg (next u) := by
          intro hb
          apply h
          exact ⟨ht, by rw [hb]; exact hd⟩
        rw [setAt_same, setAt_other _ _ _ _ hb']
        exact inv.offsets_rest u b h
      · rw [setAt_other _ _ _ _ hut]
        exact inv.offsets_rest u b h
    · intro u hu
      by_cases hut : u = t
      · subst hut
        rw [setAt_same]
        have := inv.lo u hu
        omega
      · rw [setAt_other _ _ _ _ hut]
        exact inv.lo u hu
    · intro u hu
      by_cases hut : u = t
      · subst hut
        rw [setAt_same]
        omega
      · rw [setAt_other _ _ _ _ hut]
        exact inv.hi u hu

/-- Two memories in the same state of the scatter phase are equal. -/
theorem scat_full_unique (R N from_ to_ P : Nat) (src dg : Nat → Nat) (m0 m m' : Memory)
    (next next' : Nat → Nat) (hnext : ∀ u, u < P → next u = next' u)
    (inv : ScatFull R N from_ to_ P src dg m0 m next)
    (inv' : ScatFull R N from_ to_ P src dg m0 m' next') : m = m' := by
  apply Memory_ext
  · funext b
    by_cases hb : b = to_
    · subst hb
      funext i
      by_cases h : ∃ u, u < P ∧ ∃ j, m0.key_partition u ≤ j ∧ j < next u ∧ dest dg N j = i
      · obtain ⟨u, hu, j, h1, h2, h3⟩ := h
        rw [← h3, inv.placed u hu j h1 h2, inv'.placed u hu j h1 (by rw [← hnext u hu]; exact h2)]
      · rw [inv.key_rest i (fun u hu j h1 h2 h3 => h ⟨u, hu, j, h1, h2, h3⟩),
          inv'.key_rest i (fun u hu j h1 h2 h3 =>
            h ⟨u, hu, j, h1, by rw [hnext u hu]; exact h2, h3⟩)]
    · rw [inv.key_other b hb, inv'.key_other b hb]
  · rw [inv.rank_me, inv'.rank_me]
  · rw [inv.key_density, inv'.key_density]
  · funext u b
    by_cases h : u < P ∧ b < R
    · rw [inv.offsets u h.1 b h.2, inv'.offsets u h.1 b h.2, hnext u h.1]
    · rw [inv.offsets_rest u b h, inv'.offsets_rest u b h]
  · rw [inv.tree, inv'.tree]
  · rw [inv.kp, inv'.kp]

theorem list_sum_range (f : Nat → Nat) :
    ∀ P, ((List.range P).map f).sum = ∑ u in Finset.range P, f u := by
  intro P
  induction P with
  | zero => rfl
  | succ P ih =>
    rw [List.range_succ, List.map_append, List.sum_append, ih, Finset.sum_range_succ]
    simp

theorem remaining_step (kp next : Nat → Nat) (P t : Nat) (ht : t < P) (hn : next t < kp (t + 1)) :
    (∑ u in Finset.range P, (kp (u + 1) - setAt next t (next t + 1) u)) + 1
      = ∑ u in Finset.range P, (kp (u + 1) - next u) := by
  have hmem : t ∈ Finset.range P := Finset.mem_range.mpr ht
  rw [← Finset.add_sum_erase _ _ hmem, ← Finset.add_sum_erase _ (fun u => kp (u + 1) - next u) hmem]
  have : ∑ u in (Finset.range P).erase t, (kp (u + 1) - setAt next t (next t + 1) u)
      = ∑ u in (Finset.range P).erase t, (kp (u + 1) - next u) := by
    apply Finset.sum_congr rfl
    intro u hu
    rw [setAt_other _ _ _ _ (Finset.ne_of_mem_erase hu)]
  rw [this, setAt_same]
  omega

/-- The scatter phase completes under every interleaving, with every thread at
the end of its range of keys. -/
theorem scatter_any_spec (R s N from_ to_ P : Nat) (schedule : Nat → Nat) (src dg : Nat → Nat)
    (m0 : Memory) (hft : from_ ≠ to_)
    (hdgs : ∀ i, dg i = digit R s (src i)) (hdg : ∀ i, i < N → dg i < R)
    (hkp : partition_ok m0.key_partition P N) (hsrc : m0.key from_ = src) :
    ∀ (fuel : Nat) (next : Nat → Nat) (m : Memory),
      ScatFull R N from_ to_ P src dg m0 m next →
      (∑ u in Finset.range P, (m0.key_partition (u + 1) - next u)) ≤ fuel →
      ∃ m' next', scatter_any R s N from_ to_ P schedule fuel next m = Except.ok m' ∧
        ScatFull R N from_ to_ P src dg m0 m' next' ∧
        ∀ u, u < P → next' u = m0.key_partition (u + 1) := by
  have hdone : ∀ (next : Nat → Nat) (m : Memory), ScatFull R N from_ to_ P src dg m0 m next →
      (∀ u, u < P → ¬ next u < m0.key_partition (u + 1)) →
      ∀ u, u < P → next u = m0.key_partition (u + 1) := by
    intro next m inv h u hu
    have := inv.hi u hu
    have := h u hu
    omega
  intro fuel
  induction fuel with
  | zero =>
    intro next m inv hsum
    have hz : ∀ u, u < P → ¬ next u < m0.key_partition (u + 1) := by
      intro u hu
      have := (Finset.sum_eq_zero_iff.mp (Nat.le_zero.mp hsum)) u (Finset.mem_range.mpr hu)
      omega
    refine ⟨m, next, ?_, inv, hdone next m inv hz⟩
    unfold scatter_any
    have : (List.range P).any (fun MyNum => decide (next MyNum < m.key_partition (MyNum + 1)))
        = false := by
      rw [List.any_eq_false]
      intro u hu
      rw [inv.kp]
      simpa using hz u (List.mem_range.mp hu)
    rw [this]
    rfl
  | succ fuel ih =>
    intro next m inv hsum
    unfold scatter_any
    cases hfind : (List.range P).find?
        (fun MyNum => decide (next MyNum < m.key_partition (MyNum + 1))) with
    | none =>
      have hz : ∀ u, u < P → ¬ next u < m0.key_partition (u + 1) := by
        intro u hu
        have := List.find?_eq_none.mp hfind u (List.mem_range.mpr hu)
        rw [inv.kp] at this
        simpa using this
      exact ⟨m, next, rfl, inv, hdone next m inv hz⟩
    | some first =>
      have hf1 : first < P := List.mem_range.mp (List.mem_of_find?_eq_some hfind)
      have hf2 : next first < m0.key_partition (first + 1) := by
        have := List.find?_some hfind
        rw [inv.kp] at this
        simpa using this
      have key : ∀ t, t < P → next t < m0.key_partition (t + 1) →
          ∃ m' next',
            (match scatter_key R s N from_ to_ t m (next t) with
              | Except.error e => Except.error e
              | Except.ok m' =>
                scatter_any R s N from_ to_ P schedule fuel (setAt next t (next t + 1)) m')
              = Except.ok m' ∧
            ScatFull R N from_ to_ P src dg m0 m' next' ∧
            ∀ u, u < P → next' u = m0.key_partition (u + 1) := by
        intro t ht hn
        obtain ⟨m1, hstep, inv1⟩ := scat_full_step R s N from_ to_ P src dg m0 m next t hft hdgs
          hdg hkp hsrc inv ht hn
        have hrem := remaining_step m0.key_partition next P t ht hn
        obtain ⟨m', next', hrun, inv', hfin⟩ := ih _ m1 inv1 (by omega)
        exact ⟨m', next', by rw [hstep]; exact hrun, inv', hfin⟩
      simp only []
      by_cases hs : schedule fuel < P ∧ next (schedule fuel) < m.key_partition (schedule fuel + 1)
      · simp only [hs, and_self, if_true]
        exact key _ hs.1 (by rw [← inv.kp]; exact hs.2)
      · simp only [hs, if_false]
        exact key _ hf1 hf2

theorem setAt_self {α : Type} (a : Nat → α) (i : Nat) : setAt a i (a i) = a := by
  funext j
  by_cases h : j = i <;> simp [setAt, h]

theorem scatter_loop_full (R s N from_ to_ P : Nat) (src dg : Nat → Nat) (m0 : Memory)
    (t : Nat) (hft : from_ ≠ to_)
    (hdgs : ∀ i, dg i = digit R s (src i)) (hdg : ∀ i, i < N → dg i < R)
    (hkp : partition_ok m0.key_partition P N) (hsrc : m0.key from_ = src) (ht : t < P) :
    ∀ n i (m : Memory) (next : Nat → Nat), next t = i → i + n ≤ m0.key_partition (t + 1) →
      ScatFull R N from_ to_ P src dg m0 m next →
      ∃ m', (List.range' i n).foldlM
          (fun (m : Memory) i => scatter_key R s N from_ to_ t m i) m = Except.ok m' ∧
        ScatFull R N from_ to_ P src dg m0 m' (setAt next t (i + n)) := by
  intro n
  induction n with
  | zero =>
    intro i m next hi _ inv
    refine ⟨m, rfl, ?_⟩
    rw [Nat.add_zero, ← hi, setAt_self]
    exact inv
  | succ n ih =>
    intro i m next hi hle inv
    obtain ⟨m1, hstep, inv1⟩ := scat_full_step R s N from_ to_ P src dg m0 m next t hft hdgs
      hdg hkp hsrc inv ht (by omega)
    rw [hi] at hstep inv1
    obtain ⟨m', hrun, inv'⟩ := ih (i + 1) m1 _ (setAt_same _ _ _) (by omega) inv1
    refine ⟨m', ?_, ?_⟩
    · rw [List.range'_succ, List.foldlM_cons]
      simp only [hstep, bind, Except.bind]
      exact hrun
    · rw [setAt_setAt] at inv'
      have : i + 1 + n = i + (n + 1) := by omega
      rw [this] at inv'
      exact inv'

theorem scatter_all_full (R s N from_ to_ P : Nat) (src dg : Nat → Nat) (m0 : Memory)
    (hft : from_ ≠ to_)
    (hdgs : ∀ i, dg i = digit R s (src i)) (hdg : ∀ i, i < N → dg i < R)
    (hkp : partition_ok m0.key_partition P N) (hsrc : m0.key from_ = src) :
    ∀ n t (m : Memory) (next : Nat → Nat), t + n = P →
      (∀ u, u < P → next u = if u < t then m0.key_partition (u + 1) else m0.key_partition u) →
      ScatFull R N from_ to_ P src dg m0 m next →
      ∃ m' next', (List.range' t n).foldlM
          (fun m MyNum => scatter R s N from_ to_ MyNum m) m = Except.ok m' ∧
        ScatFull R N from_ to_ P src dg m0 m' next' ∧
        ∀ u, u < P → next' u = m0.key_partition (u + 1) := by
  intro n
  induction n with
  | zero =>
    intro t m next htn hnext inv
    refine ⟨m, next, rfl, inv, fun u hu => ?_⟩
    rw [hnext u hu]
    simp only [show u < t by omega, if_true]
  | succ n ih =>
    intro t m next htn hnext inv
    have ht : t < P := by omega
    have hmono := hkp.2.2 t ht
    have hnt : next t = m0.key_partition t := by
      rw [hnext t ht]
      simp
    obtain ⟨m1, hrun1, inv1⟩ := scatter_loop_full R s N from_ to_ P src dg m0 t hft hdgs hdg hkp
      hsrc ht (m0.key_partition (t + 1) - m0.key_partition t) (m0.key_partition t) m next hnt
      (by omega) inv
    have hnext1 : ∀ u, u < P →
        setAt next t (m0.key_partition t + (m0.key_partition (t + 1) - m0.key_partition t)) u
          = if u < t + 1 then m0.key_partition (u + 1) else m0.key_partition u := by
      intro u hu
      by_cases hut : u = t
      · subst hut
        rw [setAt_same]
        simp only [Nat.lt_succ_self, if_true]
        omega
      · rw [setAt_other _ _ _ _ hut, hnext u hu]
        by_cases h : u < t
        · simp only [h, show u < t + 1 by omega, if_true]
        · simp only [h, show ¬ u < t + 1 by omega, if_false]
    obtain ⟨m', next', hrun, inv', hfin⟩ := ih (t + 1) m1 _ (by omega) hnext1 inv1
    refine ⟨m', next', ?_, inv', hfin⟩
    rw [List.range'_succ, List.foldlM_cons]
    have hsc : scatter R s N from_ to_ t m = Except.ok m1 := by
      unfold scatter
      rw [inv.kp]
      exact hrun1
    simp only [hsc, bind, Except.bind]
    exact hrun

/-- The scatter phase has the same outcome under every interleaving as with
the threads taken one after the other. -/
theorem scatter_any_eq (R s N from_ to_ P : Nat) (schedule : Nat → Nat) (m3 m' : Memory)
    (hft : from_ ≠ to_) (hdg : ∀ i, i < N → digit R s (m3.key from_ i) < R)
    (hkp : partition_ok m3.key_partition P N)
    (hoff : ∀ t, t < P → ∀ b, b < R → m3.rank_ff t b
      = offset_spec (fun i => digit R s (m3.key from_ i)) N m3.key_partition t b)
    (hrun : (List.range P).foldlM (fun m MyNum => scatter R s N from_ to_ MyNum m) m3
      = Except.ok m') :
    scatter_any R s N from_ to_ P schedule
      ((List.range P).map
        (fun MyNum => m3.key_partition (MyNum + 1) - m3.key_partition MyNum)).sum
      m3.key_partition m3 = Except.ok m' := by
  have inv0 : ScatFull R N from_ to_ P (m3.key from_) (fun i => digit R s (m3.key from_ i))
      m3 m3 m3.key_partition :=
    ⟨fun _ _ => rfl, fun u _ j h1 h2 => by omega, fun _ _ => rfl,
      fun u hu b hb => by rw [hoff u hu b hb, count_in_self]; rfl,
      fun _ _ _ => rfl, rfl, rfl, rfl, rfl, fun _ _ => le_refl _, fun u hu => hkp.2.2 u hu⟩
  obtain ⟨m1, next1, hrun1, inv1, hfin1⟩ := scatter_all_full R s N from_ to_ P (m3.key from_)
    (fun i => digit R s (m3.key from_ i)) m3 hft (fun _ => rfl) hdg hkp rfl P 0 m3
    m3.key_partition (by simp) (fun u _ => by simp) inv0
  rw [← List.range_eq_range', hrun] at hrun1
  injection hrun1 with hrun1
  obtain ⟨m2, next2, hrun2, inv2, hfin2⟩ := scatter_any_spec R s N from_ to_ P schedule
    (m3.key from_) (fun i => digit R s (m3.key from_ i)) m3 hft (fun _ => rfl) hdg hkp rfl
    ((List.range P).map
      (fun MyNum => m3.key_partition (MyNum + 1) - m3.key_partition MyNum)).sum
    m3.key_partition m3 inv0 (by rw [list_sum_range])
  rw [hrun2, hrun1]
  congr 1
  exact scat_full_unique R N from_ to_ P _ _ m3 m2 m1 next2 next1
    (fun u hu => by rw [hfin1 u hu, hfin2 u hu]) inv2 inv1

/-! ## A pass and the sort under arbitrary interleavings -/

/-- A pass with `2 ^ k` threads has the same outcome under every interleaving
of its up-sweep, of its down-sweep and of its scatter. -/
theorem sort_pass_any_eq (k R s N from_ to_ : Nat) (up down scat : Nat → Nat) (m : Memory)
    (hR : node_arrays_ok R = true) (hft : from_ ≠ to_) (hfl : flags_clear k m)
    (hkp : partition_ok m.key_partition (2 ^ k) N)
    (hdg : ∀ i, i < N → digit R s (m.key from_ i) < R) :
    sort_pass_any (2 ^ k) R N s from_ to_ up down scat m
      = sort_pass (2 ^ k) R N s from_ to_ m := by
  obtain ⟨m2, m3, hup, hdown, hkey, hkp3, _, hoff⟩ := scan_offsets k R s N from_ m hfl hkp
  obtain ⟨m2', _, hup', _, _, _, _, hfl2, _⟩ := tree_contents k R s N from_ m hfl hkp
  have hm2 : m2' = m2 := by
    unfold upsweep_phase at hup'
    rw [hup] at hup'
    injection hup' with h
    exact h.symm
  rw [hm2] at hfl2
  have hfl1 : flags_clear k
      ((List.range (2 ^ k)).foldl (fun m t => histogram R s from_ t m) m) := by
    intro j o hj ho
    rw [histogram_fold_tree]
    exact hfl j o hj ho
  have hup_any := upsweep_any_eq k R up _ m2 hR hfl1 hup
  have hdown_any := downsweep_any_eq k R down _ m2 m3 hR hfl2 hdown
  obtain ⟨m', hrun, _⟩ := sort_pass_spec k R s N from_ to_ m hft hfl hkp hdg
  rw [hrun]
  simp only [sort_pass, hup, hdown, bind, Except.bind] at hrun
  simp only [sort_pass_any, hup_any, hdown_any, bind, Except.bind]
  apply scatter_any_eq R s N from_ to_ (2 ^ k) scat m3 m' hft
  · intro i hi
    rw [hkey]
    exact hdg i hi
  · rw [hkp3]
    exact hkp
  · intro t ht b hb
    rw [hoff t ht b hb, hkey, hkp3]
  · exact hrun

/-- The pass loop with `2 ^ k` threads has the same outcome under every
interleaving. -/
theorem slave_sort_any_loop_eq (sched : Schedule) (k l N D : Nat) (keys : List Nat)
    (hkeys : ∀ x, x ∈ keys → x < 2 ^ 32) (hR : node_arrays_ok (2 ^ l) = true) :
    ∀ todo loopnum from_ to_ (m : Memory), todo + loopnum = D →
      PassInv k (2 ^ l) N keys m loopnum from_ to_ →
      slave_sort_any_loop sched (2 ^ k) (2 ^ l) l N D todo loopnum from_ to_ m
        = slave_sort_loop (2 ^ k) (2 ^ l) l N D todo loopnum from_ to_ m := by
  intro todo
  induction todo with
  | zero => intro loopnum from_ to_ m _ _; rfl
  | succ n ih =>
    intro loopnum from_ to_ m hD inv
    have hft : from_ ≠ to_ := by rcases inv.bufs with ⟨a, b⟩ | ⟨a, b⟩ <;> omega
    have hlt : ∀ i, i < N → m.key from_ i < 2 ^ 32 := fun i hi =>
      hkeys _ (inv.perm.subset (buffer_mem N _ i hi))
    have hpass := sort_pass_any_eq k (2 ^ l) (loopnum * l) N from_ to_ (sched.up loopnum)
      (sched.down loopnum) (sched.scat loopnum) m hR hft inv.flags inv.kp
      (fun i hi => digit_lt l (loopnum * l) _ (hlt i hi))
    obtain ⟨m', hrun, inv'⟩ := pass_step k l N keys m loopnum from_ to_ hkeys inv
    rw [slave_sort_any_loop, slave_sort_loop, hpass, hrun]
    simp only [bind, Except.bind]
    by_cases hne : loopnum + 1 ≠ D
    · have hswap : from_ ^^^ 1 = to_ ∧ to_ ^^^ 1 = from_ := by
        rcases inv.bufs with ⟨a, b⟩ | ⟨a, b⟩ <;> subst a <;> subst b <;> exact ⟨rfl, rfl⟩
      simp only [hne, ne_eq, not_false_eq_true, if_true, hswap.1, hswap.2]
      exact ih (loopnum + 1) to_ from_ m' (by omega) inv'
    · have hn : n = 0 := by omega
      subst hn
      simp only [hne, if_false]
      rfl

/-- The pass loop of `slave_sort` on the memory set up by `main`, with `2 ^ k`
threads and a radix `2 ^ l` that fits the node arrays, has the same outcome
under every interleaving. -/
theorem slave_sort_any_eq (sched : Schedule) (k l D : Nat) (keys : List Nat) (heap : Memory)
    (hl12 : 2 ^ l ≤ MAX_RADIX) (hkeys : ∀ x, x ∈ keys → x < 2 ^ 32) :
    slave_sort_any sched (2 ^ k) (2 ^ l) l keys.length D
        (init_memory (2 ^ k) keys
          ((List.range (2 ^ k + 1)).map (fun i => i * keys.length / 2 ^ k)) heap)
      = slave_sort (2 ^ k) (2 ^ l) l keys.length D
        (init_memory (2 ^ k) keys
          ((List.range (2 ^ k + 1)).map (fun i => i * keys.length / 2 ^ k)) heap) := by
  have hP : 0 < 2 ^ k := by positivity
  have hna : node_arrays_ok (2 ^ l) = true := (node_arrays_ok_iff _).mpr hl12
  have inv0 : PassInv k (2 ^ l) keys.length keys
      (init_memory (2 ^ k) keys
        ((List.range (2 ^ k + 1)).map (fun i => i * keys.length / 2 ^ k)) heap) 0 0 1 :=
    ⟨Or.inl ⟨rfl, rfl⟩, init_flags_clear k _ _ _, init_partition_ok _ _ _ _ hP,
      by rw [init_buffer], fun i j _ _ => by simp [Nat.mod_one]⟩
  exact slave_sort_any_loop_eq sched k l keys.length D keys hkeys hna D 0 0 1 _ (by omega) inv0

/-- With a power-of-two number of threads that fits the thread table, a radix
`2 ^ l ≥ 2` that fits the node arrays and `D` the number of passes computed for
`max_key`, the program returns under every interleaving the input stably sorted
by `key mod (2 ^ l) ^ D`, whether or not the keys are below `max_key`. -/
theorem radix_sort_any_stable (sched : Schedule) (k l max_key : Nat) (keys : List Nat)
    (heap : Memory) (hk : 2 ^ k ≤ MAX_THREADS) (hl1 : 1 ≤ l) (hl12 : 2 ^ l ≤ MAX_RADIX)
    (hN : 1 ≤ keys.length) (hm : 1 ≤ max_key) (hkeys : ∀ x, x ∈ keys → x < 2 ^ 31) :
    ∃ D out, get_max_digits (2 ^ l) max_key = some D ∧
      radix_sort_any sched (2 ^ k) (2 ^ l) max_key keys heap = Except.ok out ∧
      stably_sorted_by (fun x => x % (2 ^ l) ^ D) keys out := by
  have hl : l ≤ 30 := by have := pow_le_max_radix l hl12; omega
  have htt : thread_table_ok (2 ^ k) = true := (thread_table_ok_iff _).mpr (by omega)
  have hna : node_arrays_ok (2 ^ l) = true := (node_arrays_ok_iff _).mpr hl12
  have hk64 : 2 ^ k ≤ MAX_PROCESSORS := by
    unfold MAX_THREADS at hk
    unfold MAX_PROCESSORS
    omega
  have hP : 0 < 2 ^ k := by positivity
  have hR : 2 ≤ 2 ^ l := by
    calc 2 = 2 ^ 1 := by norm_num
      _ ≤ 2 ^ l := Nat.pow_le_pow_right (by norm_num) hl1
  have hlog := log_2_pow l hl
  have hkeys32 : ∀ x, x ∈ keys → x < 2 ^ 32 := by
    intro x hx
    have := hkeys x hx
    have : (2 : Nat) ^ 31 < 2 ^ 32 := by norm_num
    omega
  obtain ⟨m', final, hrun, _, hst⟩ :=
    slave_sort_stable k l (Nat.log (2 ^ l) max_key + 1) keys heap (by omega) hkeys
  have hloop := slave_sort_any_eq sched k l (Nat.log (2 ^ l) max_key + 1) keys heap hl12 hkeys32
  refine ⟨Nat.log (2 ^ l) max_key + 1, buffer keys.length (m'.key final),
    get_max_digits_eq _ _ hR, ?_, hst⟩
  unfold radix_sort_any
  have c1 : ¬ (2 ^ k < 1 ∨ MAX_PROCESSORS < 2 ^ k) := by omega
  have c2 : ¬ (2 ^ l < 1 ∨ (l : Int) = -1) := by omega
  have c3 : ¬ keys.length < 1 := by omega
  have c4 : ¬ max_key < 1 := by omega
  simp only [c1, c2, c3, c4, if_false, get_max_digits_eq _ _ hR, htt, hna, Bool.not_true,
    Bool.false_eq_true,
    partition_closed _ _ hP (by omega : 0 < keys.length), hlog, Int.toNat_ofNat, hloop, hrun]
  rfl

/-- A thread count that does not fit the thread table, or a radix that does not
fit the node arrays, passes the option checks of `main` and makes the program
fault, under every interleaving. -/
theorem radix_sort_any_fault (sched : Schedule) (P R max_key : Nat) (keys : List Nat)
    (heap : Memory) (hP : ¬ (P < 1 ∨ MAX_PROCESSORS < P)) (hR : ¬ (R < 1 ∨ log_2 R = -1))
    (hR2 : 2 ≤ R) (hN : 1 ≤ keys.length) (hm : 1 ≤ max_key)
    (hbad : thread_table_ok P = false ∨ node_arrays_ok R = false) :
    radix_sort_any sched P R max_key keys heap = Except.error Fault.out_of_bounds := by
  unfold radix_sort_any
  have c3 : ¬ keys.length < 1 := by omega
  have c4 : ¬ max_key < 1 := by omega
  have hP0 : 0 < P := by omega
  simp only [hP, hR, c3, c4, if_false, get_max_digits_eq _ _ hR2,
    partition_closed _ _ hP0 (by omega : 0 < keys.length)]
  rcases hbad with h | h
  · simp [h]
  · simp [h]

/-- The histograms of two different threads commute: a thread writes only its
own rows of `rank_me` and `key_density`. -/
theorem histogram_comm (R s from_ t u : Nat) (m : Memory) (h : t ≠ u) :
    histogram R s from_ t (histogram R s from_ u m)
      = histogram R s from_ u (histogram R s from_ t m) := by
  apply Memory_ext
  · rfl
  · funext v
    simp only [histogram, setAt]
    by_cases h1 : v = t
    · subst h1
      simp [h]
    · by_cases h2 : v = u
      · subst h2
        simp [h1, Ne.symm h]
      · simp [h1, h2]
  · funext v
    simp only [histogram, setAt]
    by_cases h1 : v = t
    · subst h1
      simp [h]
    · by_cases h2 : v = u
      · subst h2
        simp [h1, Ne.symm h]
      · simp [h1, h2]
  · rfl
  · rfl
  · rfl

/-- With a radix above `MAX_RADIX` the up-sweep faults at its first action,
the publish loop of the thread that moves first, under every interleaving. -/
theorem upsweep_any_overrun (P R : Nat) (up : Nat → Nat) (m : Memory) (hP : 1 ≤ P)
    (hR : node_arrays_ok R = false) :
    phase_any R up ((List.range P).map (upsweep P)) m = Except.error Fault.out_of_bounds := by
  obtain ⟨P', rfl⟩ : ∃ P', P = P' + 1 := ⟨P - 1, by omega⟩
  have hhead : ∀ t, t < P' + 1 → ∃ rest,
      ((List.range (P' + 1)).map (upsweep (P' + 1))).getD t [] = Action.publish t :: rest := by
    intro t ht
    rw [getD_map_range]
    simp only [ht, if_true, upsweep, List.singleton_append, List.cons_append]
    exact ⟨_, rfl⟩
  have hmove : ∀ t, can_move { mem := m, threads := (List.range (P' + 1)).map (upsweep (P' + 1)) } t
      = true → t < P' + 1 := by
    intro t ht
    obtain ⟨a, rest, hget, _⟩ := (can_move_iff _ t).mp ht
    have := lt_of_getD_cons _ _ _ _ hget
    simpa using this
  have hover : ∀ t, t < P' + 1 →
      next_overruns R { mem := m, threads := (List.range (P' + 1)).map (upsweep (P' + 1)) } t
        = true := by
    intro t ht
    obtain ⟨rest, hget⟩ := hhead t ht
    unfold next_overruns
    simp only [hget, indexes_node_arrays, hR, Bool.not_false, Bool.and_self]
  have h0 : can_move { mem := m, threads := (List.range (P' + 1)).map (upsweep (P' + 1)) } 0
      = true := by
    obtain ⟨rest, hget⟩ := hhead 0 (by omega)
    exact (can_move_iff _ 0).mpr ⟨_, rest, hget, rfl⟩
  have hfuel : ∃ f, (((List.range (P' + 1)).map (upsweep (P' + 1))).map List.length).sum
      = f + 1 := by
    have h1 : 1 ≤ (((List.range (P' + 1)).map (upsweep (P' + 1))).map List.length).sum := by
      rw [List.range_succ_eq_map]
      simp only [List.map_cons, List.sum_cons, upsweep, List.singleton_append,
        List.cons_append, List.length_cons]
      omega
    exact ⟨_, (Nat.sub_add_cancel h1).symm⟩
  obtain ⟨f, hf⟩ := hfuel
  unfold phase_any
  rw [hf]
  unfold run_any
  have hne : ((List.range (P' + 1)).map (upsweep (P' + 1))).all List.isEmpty = false := by
    rw [List.all_eq_false]
    obtain ⟨rest, hget⟩ := hhead 0 (by omega)
    refine ⟨Action.publish 0 :: rest, ?_, by simp⟩
    rw [← hget, List.getD_eq_getElem _ _ (by simp)]
    exact List.getElem_mem _
  simp only [hne, Bool.false_eq_true, if_false]
  cases hfind : (List.range ((List.range (P' + 1)).map (upsweep (P' + 1))).length).find?
      (can_move { mem := m, threads := (List.range (P' + 1)).map (upsweep (P' + 1)) }) with
  | none =>
    have := List.find?_eq_none.mp hfind 0 (by simp)
    exact absurd h0 this
  | some first =>
    have hfirst := hmove first (List.find?_some hfind)
    simp only []
    by_cases hs : can_move { mem := m, threads := (List.range (P' + 1)).map (upsweep (P' + 1)) }
        (up f) = true
    · simp only [hs, if_true, hover _ (hmove _ hs)]
    · simp only [hs, Bool.false_eq_true, if_false, hover _ hfirst, if_true]

/-- With a radix above `MAX_RADIX` a pass faults in its up-sweep, before any
thread scatters a key, under every interleaving. -/
theorem sort_pass_any_overrun (P R N s from_ to_ : Nat) (up down scat : Nat → Nat)
    (m : Memory) (hP : 1 ≤ P) (hR : node_arrays_ok R = false) :
    sort_pass_any P R N s from_ to_ up down scat m = Except.error Fault.out_of_bounds := by
  simp only [sort_pass_any, upsweep_any_overrun P R up _ hP hR, bind, Except.bind]

/-! ## The partition planner and the pass count -/

/-- C8, partition planner: for `N ≥ 1` items (keys, or buckets when `N` is the
radix) and `P ≥ 1` threads the planner writes exactly `P + 1` boundaries, the
first `0`, the last `N`, in non-decreasing order, and every range between two
consecutive boundaries has `⌊N / P⌋` or `⌈N / P⌉` elements. -/
theorem planner_boundaries (N P : Nat) (hN : 1 ≤ N) (hP : 1 ≤ P) :
    ∃ b, partition N P = some b ∧ b.length = P + 1 ∧ b.getD 0 0 = 0 ∧ b.getD P 0 = N ∧
      (∀ k, k < P → b.getD k 0 ≤ b.getD (k + 1) 0) ∧
      (∀ k, k < P → b.getD (k + 1) 0 - b.getD k 0 = N / P ∨
        b.getD (k + 1) 0 - b.getD k 0 = (N + P - 1) / P) := by
  refine ⟨_, partition_closed N P hP hN, by simp, ?_, ?_, ?_, ?_⟩
  · rw [boundary_getD N P 0 (Nat.zero_le _)]; simp
  · rw [boundary_getD N P P (le_refl _), Nat.mul_div_cancel_left _ hP]
  · intro k hk
    rw [boundary_getD N P k (by omega), boundary_getD N P (k + 1) (by omega)]
    exact boundary_mono N P k
  · intro k hk
    rw [boundary_getD N P k (by omega), boundary_getD N P (k + 1) (by omega),
      boundary_step N P k hP, ceil_div_eq N P hP]
    have hf : k * N % P < P := Nat.mod_lt _ hP
    generalize k * N / P = a
    generalize N / P = q
    generalize hr : N % P = r at *
    generalize k * N % P = f at *
    by_cases hc : P ≤ f + r
    · right
      have : r ≠ 0 := by omega
      simp only [hc, this, if_true, if_false]
      omega
    · left
      simp only [hc, if_false]
      omega

theorem planner_boundaries_witness :
    ∃ b, partition 5 3 = some b ∧ b.length = 3 + 1 ∧ b.getD 0 0 = 0 ∧ b.getD 3 0 = 5 ∧
      (∀ k, k < 3 → b.getD k 0 ≤ b.getD (k + 1) 0) ∧
      (∀ k, k < 3 → b.getD (k + 1) 0 - b.getD k 0 = 5 / 3 ∨
        b.getD (k + 1) 0 - b.getD k 0 = (5 + 3 - 1) / 3) :=
  planner_boundaries 5 3 (by decide) (by decide)

/-- C9, as stated, fails for `N = 5`, `P = 3`: the claim gives the first
`N mod P = 2` threads `⌈5 / 3⌉ = 2` keys each, but thread 0 gets one key (the
boundaries are `0, 1, 3, 5`). -/
theorem tie_break_counterexample :
    ¬ (∀ b, partition 5 3 = some b →
        (∀ k, k < 5 % 3 → b.getD (k + 1) 0 - b.getD k 0 = (5 + 3 - 1) / 3) ∧
        (∀ k, 5 % 3 ≤ k → k < 3 → b.getD (k + 1) 0 - b.getD k 0 = 5 / 3)) := by
  intro h
  have h0 := (h [0, 1, 3, 5] (by decide)).1 0 (by decide)
  revert h0
  decide

theorem extra_count (N P : Nat) (hP : 1 ≤ P) :
    ∀ t, ∑ k in Finset.range t, (if P ≤ k * N % P + N % P then 1 else 0) + t * (N / P)
      = t * N / P := by
  intro t
  induction t with
  | zero => simp
  | succ n ih =>
    rw [Finset.sum_range_succ, boundary_step N P n hP, ← ih, Nat.succ_mul]
    omega

/-- C9 amended, partition tie-break: thread `k` owns `⌊N / P⌋` keys plus one
extra key exactly when the accumulated remainder `(k * N mod P) + (N mod P)`
reaches `P`; exactly `N mod P` threads own an extra key. -/
theorem tie_break (N P : Nat) (hN : 1 ≤ N) (hP : 1 ≤ P) :
    ∃ b, partition N P = some b ∧
      (∀ k, k < P → b.getD (k + 1) 0 - b.getD k 0
        = N / P + (if P ≤ k * N % P + N % P then 1 else 0)) ∧
      ((Finset.range P).filter (fun k => P ≤ k * N % P + N % P)).card = N % P := by
  refine ⟨_, partition_closed N P hP hN, ?_, ?_⟩
  · intro k hk
    rw [boundary_getD N P k (by omega), boundary_getD N P (k + 1) (by omega),
      boundary_step N P k hP]
    generalize k * N / P = a
    generalize N / P = q
    generalize (if P ≤ k * N % P + N % P then 1 else 0) = e
    omega
  · rw [Finset.card_filter]
    have h := extra_count N P hP P
    rw [Nat.mul_div_cancel_left _ hP] at h
    have hd := Nat.div_add_mod N P
    omega

theorem tie_break_witness :
    ∃ b, partition 5 3 = some b ∧
      (∀ k, k < 3 → b.getD (k + 1) 0 - b.getD k 0
        = 5 / 3 + (if 3 ≤ k * 5 % 3 + 5 % 3 then 1 else 0)) ∧
      ((Finset.range 3).filter (fun k => 3 ≤ k * 5 % 3 + 5 % 3)).card = 5 % 3 :=
  tie_break 5 3 (by decide) (by decide)

/-- C10, pass count: for a radix `R ≥ 2` and `max_key ≥ 1`, `get_max_digits`
returns (with any bound of more than `max_key` iterations) the number
`⌈log_R (max_key + 1)⌉`, which is the least `d` with `R ^ d > max_key`. -/
theorem pass_count (R max_key : Nat) (hR : 2 ≤ R) (hm : 1 ≤ max_key) :
    ∃ d, get_max_digits R max_key = some d ∧
      (∀ fuel, max_key < fuel → get_max_digits_loop R fuel max_key 1 = some d) ∧
      d = Nat.clog R (max_key + 1) ∧ max_key < R ^ d ∧ ∀ d', d' < d → R ^ d' ≤ max_key := by
  refine ⟨Nat.log R max_key + 1, get_max_digits_eq R max_key hR, ?_,
    (clog_succ_eq R max_key hR hm).symm, Nat.lt_pow_succ_log_self (by omega) max_key, ?_⟩
  · intro fuel hf
    rw [get_max_digits_loop_eq R hR fuel max_key 1 hf, Nat.add_comm]
  · intro d' hd'
    exact Nat.pow_le_of_le_log (by omega) (by omega)

theorem pass_count_witness :
    ∃ d, get_max_digits 4 15 = some d ∧
      (∀ fuel, 15 < fuel → get_max_digits_loop 4 fuel 15 1 = some d) ∧
      d = Nat.clog 4 (15 + 1) ∧ 15 < 4 ^ d ∧ ∀ d', d' < d → 4 ^ d' ≤ 15 :=
  pass_count 4 15 (by decide) (by decide)

/-! ## Concrete scenarios -/

/-- C4, as stated, fails: for five keys and three threads the planner does not
produce ranges of sizes `2, 2, 1`, and the sort does not return
`[1, 1, 3, 4, 5]`, whatever the initial heap contents: it ends in a deadlock. -/
theorem scenario_three_threads_counterexample :
    (partition [5, 1, 4, 1, 3].length 3).map range_sizes ≠ some [2, 2, 1] ∧
      ∀ heap : Memory, radix_sort 3 2 7 [5, 1, 4, 1, 3] heap ≠ Except.ok [1, 1, 3, 4, 5] := by
  refine ⟨by decide, fun heap hc => ?_⟩
  rw [three_threads_deadlock heap] at hc
  cases hc

/-- C4 amended, concrete scenario with three threads: for the five keys
`[5, 1, 4, 1, 3]` the planner writes the boundaries `0, 1, 3, 5`, so the three
threads get 1, 2 and 2 keys. -/
theorem scenario_three_threads_partition :
    partition [5, 1, 4, 1, 3].length 3 = some [0, 1, 3, 5] ∧
      (partition [5, 1, 4, 1, 3].length 3).map range_sizes = some [1, 2, 2] := by
  decide

/-! ## Thread counts that are not a power of two

`main` accepts every thread count from 1 to `MAX_PROCESSORS`, but the node
addresses of the prefix tree (`level = number_of_processors >> 1`, halved at
every level) only describe a tree when the thread count is a power of two.  The
theorems below evaluate the program at three and at five threads. -/

/-- C1 fails in the code: with three threads, radix 2, `max_key = 7` and the
keys `[5, 1, 4, 1, 3]` the sort never reports a final buffer, whatever the
initial heap contents: the first down-sweep deadlocks.  With five threads, radix
2, `max_key = 1`, the keys `[1, 0, 1, 0, 1]` and a zeroed heap the sort reports
`[1, 0, 0, 0, 0]`, which is not in non-decreasing order. -/
theorem order_property_fails :
    (∀ heap : Memory, radix_sort 3 2 7 [5, 1, 4, 1, 3] heap = Except.error Fault.deadlock) ∧
      radix_sort 5 2 1 [1, 0, 1, 0, 1] blank_heap = Except.ok [1, 0, 0, 0, 0] ∧
      ¬ [1, 0, 0, 0, 0].Sorted (· ≤ ·) :=
  ⟨fun heap => three_threads_deadlock heap, by decide!, by decide⟩

/-- C2 fails in the code: with three threads, radix 4, `max_key = 15` and the
keys `[9, 3, 15, 0, 7, 12, 3]` the sort produces no final buffer, whatever the
initial heap contents: the first down-sweep deadlocks.  With five threads and a
zeroed heap it reports `[0, 0, 0, 0, 7, 12, 3]`, which is not a permutation of
the input. -/
theorem permutation_property_fails :
    (∀ heap : Memory,
        radix_sort 3 4 15 [9, 3, 15, 0, 7, 12, 3] heap = Except.error Fault.deadlock) ∧
      radix_sort 5 4 15 [9, 3, 15, 0, 7, 12, 3] blank_heap = Except.ok [0, 0, 0, 0, 7, 12, 3] ∧
      ¬ [0, 0, 0, 0, 7, 12, 3].Perm [9, 3, 15, 0, 7, 12, 3] := by
  refine ⟨fun heap => ?_, by decide!, by decide⟩
  exact radix_sort_first_pass_deadlock 3 4 15 1 [9, 3, 15, 0, 7, 12, 3] [0, 2, 4, 7] heap
    blank_heap (by decide) (by decide) (by decide) (by decide) (by decide) (by decide)
    (by decide) (by decide) (by decide) (by decide) (by rfl)

/-- C5 fails in the code: with three threads, radix 2, the keys
`[5, 1, 4, 1, 3]` and a zeroed heap, after the first round of the first
down-sweep threads 0 and 1 wait for flags 0 and 3, and thread 2 has finished its
offset table with `rank_ff[2] = [0, 0]`, where the formula gives `[1, 3]`.  With
five threads every thread finishes the down-sweep, with the offset table
`[[0, 0], [0, 1], [0, 2], [1, 2], [0, 0]]`, where the formula gives
`[[0, 1], [0, 2], [0, 3], [1, 3], [1, 4]]`. -/
theorem offset_formula_fails :
    (down_sweep_state 3 2 [5, 1, 4, 1, 3] blank_heap 1).map
        (fun c => (c.threads.map List.head?, (rank_ff_table 3 2 c.mem).getD 2 []))
      = some ([some (Action.WAITPAUSE 0), some (Action.WAITPAUSE 3), none], [0, 0]) ∧
    (offset_spec_table (fun i => digit 2 0 ([5, 1, 4, 1, 3].getD i 0)) 5
        (fun p => [0, 1, 3, 5].getD p 0) 3 2).getD 2 [] = [1, 3] ∧
    (down_sweep_state 5 2 [5, 1, 4, 1, 3] blank_heap 1).map
        (fun c => (c.threads, rank_ff_table 5 2 c.mem))
      = some ([[], [], [], [], []], [[0, 0], [0, 1], [0, 2], [1, 2], [0, 0]]) ∧
    offset_spec_table (fun i => digit 2 0 ([5, 1, 4, 1, 3].getD i 0)) 5
        (fun p => [0, 1, 2, 3, 4, 5].getD p 0) 5 2
      = [[0, 1], [0, 2], [0, 3], [1, 3], [1, 4]] :=
  ⟨by decide!, by decide!, by decide!, by decide!⟩

/-- C6 fails in the code: with three threads, radix 2, the keys
`[5, 1, 4, 2, 3]` and a zeroed heap, thread 2 finishes the first down-sweep
with offsets `rank_ff[2] = [0, 0]` and histogram `rank_me[2] = [1, 1]`, so its
write ranges for buckets 0 and 1 are both `[0, 1)`.  With five threads and the
keys `[5, 1, 4, 1, 3]` every thread finishes the down-sweep; the five non-empty
write ranges are `[0, 1)`, `[1, 2)`, `[0, 1)`, `[2, 3)` and `[0, 1)`, which
overlap and do not cover `[0, 5)`. -/
theorem offset_ranges_overlap :
    (down_sweep_state 3 2 [5, 1, 4, 2, 3] blank_heap 1).map
        (fun c => (c.threads.map List.head?, (rank_ff_table 3 2 c.mem).getD 2 [],
          (rank_me_table 3 2 c.mem).getD 2 []))
      = some ([some (Action.WAITPAUSE 0), some (Action.WAITPAUSE 3), none], [0, 0], [1, 1]) ∧
    (down_sweep_state 5 2 [5, 1, 4, 1, 3] blank_heap 1).map
        (fun c => (c.threads, rank_ff_table 5 2 c.mem, rank_me_table 5 2 c.mem))
      = some ([[], [], [], [], []], [[0, 0], [0, 1], [0, 2], [1, 2], [0, 0]],
          [[0, 1], [0, 1], [1, 0], [0, 1], [0, 1]]) :=
  ⟨by decide!, by decide!⟩

/-- C7 fails in the code: whatever the initial heap contents, with one thread
the sort returns the sorted keys, and with three threads it deadlocks, both for
six keys (three divides six) and for five keys (three does not divide five). -/
theorem thread_count_invariance_fails (heap : Memory) :
    radix_sort 1 2 7 [5, 1, 4, 1, 3, 0] heap = Except.ok [0, 1, 1, 3, 4, 5] ∧
      radix_sort 3 2 7 [5, 1, 4, 1, 3, 0] heap = Except.error Fault.deadlock ∧
      radix_sort 1 2 7 [5, 1, 4, 1, 3] heap = Except.ok [1, 1, 3, 4, 5] ∧
      radix_sort 3 2 7 [5, 1, 4, 1, 3] heap = Except.error Fault.deadlock := by
  refine ⟨one_thread_sorts heap _ _ (by decide) (by decide) (by decide) (by decide), ?_,
    one_thread_sorts heap _ _ (by decide) (by decide) (by decide) (by decide),
    three_threads_deadlock heap⟩
  exact radix_sort_first_pass_deadlock 3 2 7 2 [5, 1, 4, 1, 3, 0] [0, 2, 4, 6] heap
    blank_heap (by decide) (by decide) (by decide) (by decide) (by decide) (by decide)
    (by decide) (by decide) (by decide) (by decide) (by rfl)

/-! ## Boundary cases of the number of keys -/

/-- C13, as stated, fails: with zero keys and otherwise valid options the
program does not return the empty sequence but stops with the usage error of
the `-n` check, and the planner run on zero keys writes the single boundary
`0`, not the four boundaries that three threads read. -/
theorem zero_keys_counterexample :
    radix_sort 3 2 7 [] blank_heap ≠ Except.ok [] ∧
      (partition 0 3).map List.length ≠ some (3 + 1) := by
  decide

/-- C13 amended, boundary `N = 0`: whatever the other options and the heap, the
program rejects zero keys with a usage error before any sorting; the planner
loop on zero keys does not run and only the final boundary `0` is written. -/
theorem zero_keys_rejected (P R max_key : Nat) (heap : Memory) :
    radix_sort P R max_key [] heap = Except.error Fault.usage ∧
      partition 0 P = some [0] := by
  refine ⟨?_, rfl⟩
  unfold radix_sort
  simp only [List.length_nil]
  split
  · rfl
  · split
    · rfl
    · rfl

/-! ## Radix validation -/

/-- C17, radix validation: for every integer `n` below `2 ^ 31` (so for every
32-bit integer), with the accumulator doubled modulo `2 ^ 32`, `log_2 n`
returns `k` exactly when `n = 2 ^ k` and returns `-1` exactly when `n` is not a
power of two; so the `-r` check `radix < 1 || log_2(radix) == -1` rejects a
radix exactly when it is not a power of two, and the program then stops with a
usage error. -/
theorem radix_validation (n : Int) (hhi : n < 2147483648) :
    (∀ k : Nat, log_2 n = k ↔ n = 2 ^ k) ∧
      (log_2 n = -1 ↔ ¬ ∃ k : Nat, n = 2 ^ k) ∧
      ((n < 1 ∨ log_2 n = -1) ↔ ¬ ∃ k : Nat, n = 2 ^ k) ∧
      ((¬ ∃ k : Nat, n = 2 ^ k) → ∀ (P R max_key : Nat) (keys : List Nat) (heap : Memory),
        (R : Int) = n → radix_sort P R max_key keys heap = Except.error Fault.usage) := by
  have hinj : ∀ i k : Nat, (2 : Int) ^ i = 2 ^ k → i = k := by
    intro i k h
    have h' : (2 : Nat) ^ i = 2 ^ k := by exact_mod_cast h
    exact Nat.pow_right_injective (le_refl 2) h'
  have hlog : log_2 n = -1 ↔ ¬ ∃ k : Nat, n = 2 ^ k := by
    rcases log_2_cases n hhi with ⟨i, _, hi2, hi3⟩ | ⟨hno, hm⟩
    · constructor
      · intro h
        rw [hi3] at h
        omega
      · intro h
        exact (h ⟨i, hi2⟩).elim
    · exact ⟨fun _ ⟨k, hk⟩ => hno k hk, fun _ => hm⟩
  refine ⟨fun k => ?_, hlog, ?_, ?_⟩
  · rcases log_2_cases n hhi with ⟨i, _, hi2, hi3⟩ | ⟨hno, hm⟩
    · constructor
      · intro h
        rw [hi3] at h
        have : i = k := by exact_mod_cast h
        rw [← this]; exact hi2
      · intro h
        rw [hi2] at h
        rw [hi3, hinj i k h]
    · constructor
      · intro h
        rw [hm] at h
        omega
      · intro h
        exact (hno k h).elim
  · constructor
    · rintro (h | h)
      · rintro ⟨k, hk⟩
        have : (0 : Int) < 2 ^ k := by positivity
        omega
      · exact hlog.mp h
    · intro h
      exact Or.inr (hlog.mpr h)
  · intro h P R max_key keys heap hR
    have hc2 : (R < 1 ∨ log_2 (R : Int) = -1) := Or.inr (by rw [hR]; exact hlog.mpr h)
    unfold radix_sort
    simp only [hc2, if_true]
    split <;> rfl

theorem radix_validation_witness :
    (∀ k : Nat, log_2 1024 = k ↔ (1024 : Int) = 2 ^ k) ∧
      (log_2 1024 = -1 ↔ ¬ ∃ k : Nat, (1024 : Int) = 2 ^ k) ∧
      (((1024 : Int) < 1 ∨ log_2 1024 = -1) ↔ ¬ ∃ k : Nat, (1024 : Int) = 2 ^ k) ∧
      ((¬ ∃ k : Nat, (1024 : Int) = 2 ^ k) →
        ∀ (P R max_key : Nat) (keys : List Nat) (heap : Memory),
        (R : Int) = 1024 → radix_sort P R max_key keys heap = Except.error Fault.usage) :=
  radix_validation 1024 (by decide)

/-! ## Synchronisation -/

/-- C18, barrier state machine: for `P` threads (`1 ≤ P ≤ MAX_PROCESSORS`) and a
barrier with `counter = 0` and `cycle = c`, after `j < P` arrivals the barrier
is `(j, c)`; each of the first `P - 1` arrivals increments `counter`, leaves
`cycle` unchanged and makes the thread wait, and a waiter that looks at the
barrier before the last arrival keeps waiting; the `P`-th arrival flips `cycle`,
resets `counter` to `0` and passes, and every waiter then passes; started from
the initial barrier `(0, 0)`, after `n` arrivals `counter = n mod P < P` and
`cycle` is the parity of `n / P`, so every cycle behaves the same way. -/
theorem barrier_state_machine (P c : Nat) (hP1 : 1 ≤ P) (hP : P ≤ MAX_PROCESSORS) :
    (∀ j, j < P → arrivals P j ⟨0, c⟩ = ⟨j, c⟩) ∧
      (∀ j, j + 1 < P → barrier_arrive P 0 ⟨j, c⟩ = (⟨j + 1, c⟩, sync_step.waits)) ∧
      (∀ j, j < P → barrier_wait c ⟨j, c⟩ 0 = sync_step.waits) ∧
      barrier_arrive P 0 ⟨P - 1, c⟩ = (⟨0, if c = 0 then 1 else 0⟩, sync_step.passes) ∧
      (∀ Error, barrier_wait c ⟨0, if c = 0 then 1 else 0⟩ Error = sync_step.passes) ∧
      arrivals P P ⟨0, c⟩ = ⟨0, if c = 0 then 1 else 0⟩ ∧
      (∀ n, arrivals P n ⟨0, 0⟩ = ⟨n % P, n / P % 2⟩ ∧ n % P < P) := by
  refine ⟨arrivals_count P c hP, fun j hj => barrier_arrive_wait P j c hP hj, ?_,
    barrier_arrive_last P (P - 1) c hP (by omega), ?_, ?_, ?_⟩
  · intro j _
    simp [barrier_wait]
  · intro Error
    have hne : c ≠ (if c = 0 then 1 else 0) := by split <;> omega
    simp [barrier_wait, hne]
  · obtain ⟨p, rfl⟩ : ∃ p, P = p + 1 := ⟨P - 1, by omega⟩
    rw [arrivals_succ, arrivals_count (p + 1) c hP p (by omega),
      barrier_arrive_last (p + 1) p c hP rfl]
  · intro n
    exact ⟨arrivals_closed P hP1 hP n, Nat.mod_lt _ (by omega)⟩

theorem barrier_state_machine_witness :
    (∀ j, j < 3 → arrivals 3 j ⟨0, 0⟩ = ⟨j, 0⟩) ∧
      (∀ j, j + 1 < 3 → barrier_arrive 3 0 ⟨j, 0⟩ = (⟨j + 1, 0⟩, sync_step.waits)) ∧
      (∀ j, j < 3 → barrier_wait 0 ⟨j, 0⟩ 0 = sync_step.waits) ∧
      barrier_arrive 3 0 ⟨3 - 1, 0⟩
        = (⟨0, if (0 : Nat) = 0 then 1 else 0⟩, sync_step.passes) ∧
      (∀ Error, barrier_wait 0 ⟨0, if (0 : Nat) = 0 then 1 else 0⟩ Error = sync_step.passes) ∧
      arrivals 3 3 ⟨0, 0⟩ = ⟨0, if (0 : Nat) = 0 then 1 else 0⟩ ∧
      (∀ n, arrivals 3 n ⟨0, 0⟩ = ⟨n % 3, n / 3 % 2⟩ ∧ n % 3 < 3) :=
  barrier_state_machine 3 0 (by decide) (by decide)

/-- C19, as stated, fails: with `counter = 1`, `cycle = 0` (one of two threads
has arrived) a waiting thread whose `pthread_cond_wait` returns the error `1`
does not exit but leaves the loop and goes on past the barrier, and a thread
whose flag wait returns the error `1` while the flag is clear goes on as well. -/
theorem sync_failure_counterexample :
    barrier_wait 0 ⟨1, 0⟩ 1 ≠ sync_step.exits ∧ barrier_wait 0 ⟨1, 0⟩ 1 = sync_step.passes ∧
      pause_wait 0 (some 1) ≠ sync_step.exits ∧ pause_wait 0 (some 1) = sync_step.passes := by
  decide

/-- C19 amended, synchronisation failures: a failed `pthread_mutex_lock` at a
barrier is fatal (`exit(-1)`, the barrier is left unchanged); an error returned
by the `pthread_cond_wait` of a barrier makes the thread leave the wait loop
and go on past the barrier, whatever the barrier state; an error returned by
the `pthread_cond_wait` of a tree-node flag is not looked at and the thread
goes on. -/
theorem sync_failure_handling (P Cycle Flag Error : Nat) (b : barrier) (hE : Error ≠ 0) :
    barrier_arrive P Error b = (b, sync_step.exits) ∧
      barrier_wait Cycle b Error = sync_step.passes ∧
      pause_wait Flag (some Error) = sync_step.passes := by
  refine ⟨by simp [barrier_arrive, hE], ?_, ?_⟩
  · unfold barrier_wait
    split
    · simp [hE]
    · rfl
  · unfold pause_wait
    split <;> rfl

theorem sync_failure_handling_witness :
    barrier_arrive 2 1 ⟨1, 0⟩ = (⟨1, 0⟩, sync_step.exits) ∧
      barrier_wait 0 ⟨1, 0⟩ 1 = sync_step.passes ∧
      pause_wait 0 (some 1) = sync_step.passes :=
  sync_failure_handling 2 0 0 1 ⟨1, 0⟩ (by decide)

/-! ## One thread -/

/-- C16, tree addressing for arbitrary `P`: for every thread count
`1 ≤ P ≤ MAX_PROCESSORS` (a power of two or not) and every thread `t < P`, every
`prefix_tree` index the thread computes in a pass (up-sweep, `my_node`,
`their_node`, signalled siblings, left-sibling walk), computed with the integer
arithmetic of the source, is non-negative and below `2 * P`, the number of
initialised nodes, which is at most `2 * MAX_PROCESSORS`, the size of the
array; these are the indices used by the thread programs. -/
theorem tree_addressing_in_bounds (P t : Nat) (hP1 : 1 ≤ P) (hP : P ≤ MAX_PROCESSORS)
    (ht : t < P) :
    (∀ i, i ∈ tree_trace P t → 0 ≤ i ∧ i < 2 * (P : Int)) ∧
      tree_trace P t
        = ((upsweep P t ++ downsweep P t).flatMap tree_indices).map (fun i : Nat => (i : Int)) ∧
      indices_below (2 * P) (upsweep P t ++ downsweep P t) ∧
      2 * P ≤ 2 * MAX_PROCESSORS := by
  have hb : indices_below (2 * P) (upsweep P t ++ downsweep P t) :=
    indices_below_append _ _ _ (upsweep_below P t hP1 ht) (downsweep_below P t hP1 ht)
  refine ⟨?_, tree_trace_eq P t hP1, hb, by omega⟩
  intro i hi
  rw [tree_trace_eq P t hP1] at hi
  obtain ⟨n, hn, rfl⟩ := List.mem_map.mp hi
  obtain ⟨a, ha, hna⟩ := List.mem_flatMap.mp hn
  have := hb a ha n hna
  omega

theorem tree_addressing_in_bounds_witness :
    (∀ i, i ∈ tree_trace 3 1 → 0 ≤ i ∧ i < 2 * ((3 : Nat) : Int)) ∧
      tree_trace 3 1
        = ((upsweep 3 1 ++ downsweep 3 1).flatMap tree_indices).map (fun i : Nat => (i : Int)) ∧
      indices_below (2 * 3) (upsweep 3 1 ++ downsweep 3 1) ∧
      2 * 3 ≤ 2 * MAX_PROCESSORS :=
  tree_addressing_in_bounds 3 1 (by decide) (by decide) (by decide)

/-! ## Result buffer, re-sorting, single keys and digit passes at three and five threads -/

/-- C11 fails in the code: for every number of passes `D ≥ 1` the passes use
`from = p mod 2` and `to = (p + 1) mod 2` (buffers 0 and 1 at the start, roles
exchanged after every pass but the last, never the same buffer), `slave_sort`
runs `sort_pass` on exactly these buffers and reports `final = D mod 2`, the
destination of the last pass; but with five threads, radix 2, two passes, the
keys `[1, 0, 3, 2, 1]` and a zeroed heap the reported buffer `final = 0` holds
`[0, 0, 0, 2, 1]`, which is not sorted. -/
theorem result_buffer_fails :
    (∀ D, 1 ≤ D →
      pass_buffers D D 0 0 1 = (List.range D).map (fun p => (p, p % 2, (p + 1) % 2)) ∧
        final_buffer D D 0 0 1 = D % 2) ∧
    (∀ (P R l N D : Nat) (m : Memory),
      slave_sort P R l N D m
        = ((pass_buffers D D 0 0 1).foldlM
            (fun m (p : Nat × Nat × Nat) => sort_pass P R N (p.1 * l) p.2.1 p.2.2 m) m).map
          (fun m' => (m', final_buffer D D 0 0 1))) ∧
    (slave_sort 5 2 1 5 2 (init_memory 5 [1, 0, 3, 2, 1] [0, 1, 2, 3, 4, 5] blank_heap)).map
        (fun r => (r.2, buffer 5 (r.1.key r.2))) = Except.ok (0, [0, 0, 0, 2, 1]) ∧
    ¬ [0, 0, 0, 2, 1].Sorted (· ≤ ·) := by
  refine ⟨fun D hD => ⟨?_, ?_⟩, fun P R l N D m => slave_sort_loop_passes P R l N D D 0 0 1 m,
    by decide!, by decide⟩
  · rw [List.range_eq_range']
    exact pass_buffers_closed D D 0 (by omega)
  · obtain ⟨d, rfl⟩ : ∃ d, D = d + 1 := ⟨D - 1, by omega⟩
    exact final_buffer_closed (d + 1) d 0 (by omega)

/-- C12 fails in the code: with three threads, radix 2, `max_key = 7` and the
sorted keys `[1, 1, 3, 4, 5]` the sort returns nothing, whatever the initial
heap contents: the first down-sweep deadlocks.  With five threads and a zeroed
heap it returns `[5, 1, 0, 0, 0]`, not the input. -/
theorem resort_fails :
    (∀ heap : Memory, radix_sort 3 2 7 [1, 1, 3, 4, 5] heap = Except.error Fault.deadlock) ∧
      radix_sort 5 2 7 [1, 1, 3, 4, 5] blank_heap = Except.ok [5, 1, 0, 0, 0] := by
  refine ⟨fun heap => ?_, by decide!⟩
  exact radix_sort_first_pass_deadlock 3 2 7 2 [1, 1, 3, 4, 5] [0, 1, 3, 5] heap blank_heap
    (by decide) (by decide) (by decide) (by decide) (by decide) (by decide) (by decide)
    (by decide) (by decide) (by decide) (by rfl)

/-- C14 fails in the code: for the single key `5`, radix 2 and `max_key = 7`,
whatever the initial heap contents, the sort returns `[5]` with one thread and
with two threads (where thread 0 owns no key), but with three threads it
returns nothing: the first down-sweep deadlocks. -/
theorem single_key_fails (heap : Memory) :
    radix_sort 1 2 7 [5] heap = Except.ok [5] ∧
      radix_sort 2 2 7 [5] heap = Except.ok [5] ∧
      (partition 1 2, partition 1 3) = (some [0, 0, 1], some [0, 0, 0, 1]) ∧
      radix_sort 3 2 7 [5] heap = Except.error Fault.deadlock := by
  have two : radix_sort 2 2 7 [5] heap = Except.ok [5] := by
    have h : ∃ out, radix_sort 2 2 7 [5] heap = Except.ok out ∧ out.Perm [5] ∧
        out.Sorted (· ≤ ·) :=
      radix_sort_pow2 1 1 7 [5] heap (by decide) (by decide) (by decide) (by decide)
        (by decide) (by decide) (by decide)
    obtain ⟨out, hrun, hp, _⟩ := h
    rw [hrun, List.perm_singleton.mp hp]
  refine ⟨one_thread_sorts heap _ _ (by decide) (by decide) (by decide) (by decide), two,
    by decide, ?_⟩
  exact radix_sort_first_pass_deadlock 3 2 7 2 [5] [0, 0, 0, 1] heap blank_heap
    (by decide) (by decide) (by decide) (by decide) (by decide) (by decide) (by decide)
    (by decide) (by decide) (by decide) (by rfl)

/-- C20 fails in the code: with five threads, radix 2, the keys
`[5, 1, 4, 1, 3]` and a zeroed heap the first pass leaves `[3, 1, 1, 0, 0]` in
the destination buffer, which is not a permutation of the source buffer (so the
destination indices are not a bijection), where the stable partition by the
digit is `[4, 5, 1, 1, 3]`.  With three threads the pass does not complete,
whatever the initial heap contents. -/
theorem digit_pass_fails :
    (sort_pass 5 2 5 0 0 1 (init_memory 5 [5, 1, 4, 1, 3] [0, 1, 2, 3, 4, 5] blank_heap)).map
        (fun m => (buffer 5 (m.key 0), buffer 5 (m.key 1)))
      = Except.ok ([5, 1, 4, 1, 3], [3, 1, 1, 0, 0]) ∧
    stable_partition 2 (digit 2 0) [5, 1, 4, 1, 3] = [4, 5, 1, 1, 3] ∧
    ¬ [3, 1, 1, 0, 0].Perm [5, 1, 4, 1, 3] ∧
    (∀ heap : Memory, sort_pass 3 2 5 0 0 1 (init_memory 3 [5, 1, 4, 1, 3] [0, 1, 3, 5] heap)
      = Except.error Fault.deadlock) := by
  refine ⟨by decide!, by decide, by decide, fun heap => ?_⟩
  exact sort_pass_deadlock 3 2 5 0 0 1 (2 * 3) _ _
    (init_same_flags 3 [5, 1, 4, 1, 3] [0, 1, 3, 5] blank_heap heap) (by decide) (by decide)
    (by rfl)

/-! ## The planner in closed form -/

/-- C29, closed form of the partition boundaries: for `N ≥ 1` items and `P ≥ 1`
threads the planner succeeds, its loop writes the `P` boundaries
`⌊k * N / P⌋`, `k < P` (each of them below `N`, so the loop goes on; it stops at
`k = P`, where `⌊P * N / P⌋ = N`), the statement after the loop writes the
boundary `N`, and so entry `k` is `⌊k * N / P⌋` for every `k ≤ P`; the same
holds for `rank_partition` with the radix in place of `N`. -/
theorem partition_closed_form (N P : Nat) (hN : 1 ≤ N) (hP : 1 ≤ P) :
    ∃ b, partition N P = some b ∧
      b = (List.range P).map (fun k => k * N / P) ++ [N] ∧
      b.length = P + 1 ∧
      (∀ k, k ≤ P → b.getD k 0 = k * N / P) ∧
      (∀ k, k < P → k * N / P < N) ∧ P * N / P = N := by
  have hlast : P * N / P = N := Nat.mul_div_cancel_left _ hP
  refine ⟨_, partition_closed N P hP hN, ?_, by simp, ?_, ?_, hlast⟩
  · rw [List.range_succ, List.map_append, List.map_singleton, hlast]
  · intro k hk
    exact boundary_getD N P k hk
  · intro k hk
    exact planner_lt N P k hP hk hN

theorem partition_closed_form_witness :
    ∃ b, partition 5 3 = some b ∧
      b = (List.range 3).map (fun k => k * 5 / 3) ++ [5] ∧
      b.length = 3 + 1 ∧
      (∀ k, k ≤ 3 → b.getD k 0 = k * 5 / 3) ∧
      (∀ k, k < 3 → k * 5 / 3 < 5) ∧ 3 * 5 / 3 = 5 :=
  partition_closed_form 5 3 (by decide) (by decide)

/-! ## Histogram and digit extraction -/

/-- C21, histogram invariant: in a pass with any number `P` of threads whose
key ranges partition `[0, N)`, after the histogram phase `rank_me[t][b]` is the
number of keys in the range of thread `t` whose digit is `b`, the sum of
`rank_me[t][b]` over the threads is the number of keys of the whole source
buffer whose digit is `b`, and, the digits being below the radix, the sum over
all threads and buckets is `N`. -/
theorem histogram_invariant (P R s N from_ : Nat) (m : Memory)
    (hkp : partition_ok m.key_partition P N) :
    (∀ t, t < P → ∀ b, b < R →
      ((List.range P).foldl (fun m t => histogram R s from_ t m) m).rank_me t b
        = ∑ i in Finset.Ico (m.key_partition t) (m.key_partition (t + 1)),
            if digit R s (m.key from_ i) = b then 1 else 0) ∧
    (∀ b, b < R →
      ∑ t in Finset.range P,
          ((List.range P).foldl (fun m t => histogram R s from_ t m) m).rank_me t b
        = ∑ i in Finset.range N, if digit R s (m.key from_ i) = b then 1 else 0) ∧
    ((∀ i, i < N → digit R s (m.key from_ i) < R) →
      ∑ t in Finset.range P, ∑ b in Finset.range R,
          ((List.range P).foldl (fun m t => histogram R s from_ t m) m).rank_me t b = N) := by
  obtain ⟨h0, hN, hmono⟩ := hkp
  obtain ⟨_, _, _, _, _, a6, _⟩ := histogram_all_spec R s from_ m P
  have hrange : ∀ t, t < P →
      m.key_partition t + (m.key_partition (t + 1) - m.key_partition t)
        = m.key_partition (t + 1) := by
    intro t ht
    have := hmono t ht
    omega
  have hsum : ∀ b, b < R →
      ∑ t in Finset.range P,
          ((List.range P).foldl (fun m t => histogram R s from_ t m) m).rank_me t b
        = ∑ i in Finset.range N, if digit R s (m.key from_ i) = b then 1 else 0 := by
    intro b hb
    have hp := sum_partition m.key_partition
      (fun i => if digit R s (m.key from_ i) = b then 1 else 0) h0 P hmono
    rw [hN] at hp
    rw [← hp]
    apply Finset.sum_congr rfl
    intro t ht
    exact a6 t (Finset.mem_range.mp ht) b hb
  refine ⟨?_, hsum, ?_⟩
  · intro t ht b hb
    rw [a6 t ht b hb, hrange t ht]
  · intro hdg
    rw [Finset.sum_comm]
    have h1 : ∑ b in Finset.range R, ∑ t in Finset.range P,
          ((List.range P).foldl (fun m t => histogram R s from_ t m) m).rank_me t b
        = ∑ b in Finset.range R, ∑ i in Finset.range N,
            if digit R s (m.key from_ i) = b then 1 else 0 :=
      Finset.sum_congr rfl (fun b hb => hsum b (Finset.mem_range.mp hb))
    rw [h1, Finset.sum_comm]
    have h2 : ∀ i, i ∈ Finset.range N →
        ∑ b in Finset.range R, (if digit R s (m.key from_ i) = b then 1 else 0) = 1 := by
      intro i hi
      rw [Finset.sum_ite_eq]
      simp [hdg i (Finset.mem_range.mp hi)]
    rw [Finset.sum_congr rfl h2]
    simp

theorem histogram_invariant_witness :
    (∀ t, t < 3 → ∀ b, b < 2 →
      ((List.range 3).foldl (fun m t => histogram 2 0 0 t m)
          (init_memory 3 [5, 1, 4, 1, 3] ((List.range (3 + 1)).map (fun k => k * 5 / 3))
            blank_heap)).rank_me t b
        = ∑ i in Finset.Ico
            ((init_memory 3 [5, 1, 4, 1, 3] ((List.range (3 + 1)).map (fun k => k * 5 / 3))
              blank_heap).key_partition t)
            ((init_memory 3 [5, 1, 4, 1, 3] ((List.range (3 + 1)).map (fun k => k * 5 / 3))
              blank_heap).key_partition (t + 1)),
            if digit 2 0 ((init_memory 3 [5, 1, 4, 1, 3]
              ((List.range (3 + 1)).map (fun k => k * 5 / 3)) blank_heap).key 0 i) = b
            then 1 else 0) ∧
    (∀ b, b < 2 →
      ∑ t in Finset.range 3,
          ((List.range 3).foldl (fun m t => histogram 2 0 0 t m)
            (init_memory 3 [5, 1, 4, 1, 3] ((List.range (3 + 1)).map (fun k => k * 5 / 3))
              blank_heap)).rank_me t b
        = ∑ i in Finset.range 5,
            if digit 2 0 ((init_memory 3 [5, 1, 4, 1, 3]
              ((List.range (3 + 1)).map (fun k => k * 5 / 3)) blank_heap).key 0 i) = b
            then 1 else 0) ∧
    ((∀ i, i < 5 → digit 2 0 ((init_memory 3 [5, 1, 4, 1, 3]
        ((List.range (3 + 1)).map (fun k => k * 5 / 3)) blank_heap).key 0 i) < 2) →
      ∑ t in Finset.range 3, ∑ b in Finset.range 2,
          ((List.range 3).foldl (fun m t => histogram 2 0 0 t m)
            (init_memory 3 [5, 1, 4, 1, 3] ((List.range (3 + 1)).map (fun k => k * 5 / 3))
              blank_heap)).rank_me t b = 5) :=
  histogram_invariant 3 2 0 5 0
    (init_memory 3 [5, 1, 4, 1, 3] ((List.range (3 + 1)).map (fun k => k * 5 / 3)) blank_heap)
    (init_partition_ok 3 5 [5, 1, 4, 1, 3] blank_heap (by decide))

/-- C28, digit extraction: for a radix `R = 2 ^ l`, a pass `p` and a
non-negative 32-bit key, the digit `(key & bb) >> shiftnum` with
`shiftnum = p * l` and `bb = (R - 1) << shiftnum` kept in 32 bits equals
`⌊key / R ^ p⌋ mod R` and is below `R`; for every pass `p` below the number of
passes computed by `get_max_digits` (with `max_key < 2 ^ 31`) the shift is at
most 30; and the scatter loop uses the digit the histogram loop has counted: it
advances `rank_ff[t][b]` by exactly `rank_me[t][b]`. -/
theorem digit_extraction (l p key : Nat) (hkey : key < 2 ^ 31) :
    digit (2 ^ l) (p * l) key = key / (2 ^ l) ^ p % 2 ^ l ∧
      digit (2 ^ l) (p * l) key < 2 ^ l ∧
      (∀ max_key D, 1 ≤ l → max_key < 2 ^ 31 → get_max_digits (2 ^ l) max_key = some D →
        p < D → p * l ≤ 30) ∧
      (∀ (N from_ to_ t : Nat) (m m' : Memory), from_ ≠ to_ →
        scatter (2 ^ l) (p * l) N from_ to_ t m = Except.ok m' →
        ∀ b, b < 2 ^ l →
          m'.rank_ff t b = m.rank_ff t b + (histogram (2 ^ l) (p * l) from_ t m).rank_me t b) := by
  have hk32 : key < 2 ^ 32 := lt_of_lt_of_le hkey (by norm_num)
  have hpow : 2 ^ (p * l) = (2 ^ l) ^ p := by rw [Nat.mul_comm, pow_mul]
  refine ⟨?_, digit_lt l (p * l) key hk32, ?_, ?_⟩
  · rw [digit_eq_div_mod l (p * l) key hk32, hpow]
  · intro max_key D hl hm hD hp
    have hR : 2 ≤ 2 ^ l := by
      calc 2 = 2 ^ 1 := by norm_num
        _ ≤ 2 ^ l := Nat.pow_le_pow_right (by norm_num) hl
    rw [get_max_digits_eq (2 ^ l) max_key hR] at hD
    have hD' : Nat.log (2 ^ l) max_key + 1 = D := Option.some.inj hD
    by_cases hp0 : p = 0
    · subst hp0; simp
    · have hlog : p ≤ Nat.log (2 ^ l) max_key := by omega
      have hm0 : max_key ≠ 0 := by
        intro h0
        rw [h0, Nat.log_zero_right] at hlog
        omega
      have hle : (2 ^ l) ^ p ≤ max_key := Nat.pow_le_of_le_log hm0 hlog
      rw [← hpow] at hle
      have hlt : 2 ^ (p * l) < 2 ^ 31 := lt_of_le_of_lt hle hm
      have := (Nat.pow_lt_pow_iff_right (by norm_num : 1 < 2)).mp hlt
      omega
  · intro N from_ to_ t m m' hft hrun b hb
    exact (scatter_frame (2 ^ l) (p * l) N from_ to_ t m m' hft hrun).2.2.2.2.2.2 b hb

theorem digit_extraction_witness :
    digit (2 ^ 2) (1 * 2) 13 = 13 / (2 ^ 2) ^ 1 % 2 ^ 2 ∧
      digit (2 ^ 2) (1 * 2) 13 < 2 ^ 2 ∧
      (∀ max_key D, 1 ≤ 2 → max_key < 2 ^ 31 → get_max_digits (2 ^ 2) max_key = some D →
        1 < D → 1 * 2 ≤ 30) ∧
      (∀ (N from_ to_ t : Nat) (m m' : Memory), from_ ≠ to_ →
        scatter (2 ^ 2) (1 * 2) N from_ to_ t m = Except.ok m' →
        ∀ b, b < 2 ^ 2 →
          m'.rank_ff t b = m.rank_ff t b + (histogram (2 ^ 2) (1 * 2) from_ t m).rank_me t b) :=
  digit_extraction 2 1 13 (by decide)

/-! ## The sort as a stable sort by the low digits -/

/-- C30 fails in the code: the option checks of `main` accept the radix
`8192 = 2 ^ 13`, which is a power of two above `MAX_RADIX = 4096`, and the
thread count `64`, which is above `MAX_THREADS = 32`.  With two threads, radix
8192, `max_key = 8191` and the keys `[8000, 8000]` the threads index the arrays
`densities` and `ranks` of the tree nodes beyond their `MAX_RADIX` entries (with
this radix every pass faults in its up-sweep, whatever the number of threads
and the memory), and with 64 threads `main` writes `PThreadTable` beyond its `MAX_THREADS` entries:
the program faults instead of reporting a sorted buffer, whatever the initial
heap and the interleaving.  For a thread count `2 ^ k ≤ MAX_THREADS`, a radix
`2 ^ l` with `2 ≤ 2 ^ l ≤ MAX_RADIX`, `1 ≤ max_key < 2 ^ 31`, the number `D` of
passes that `get_max_digits` computes, and a non-empty array of fewer than
`2 ^ 31` non-negative 32-bit keys, not necessarily below `max_key`, the program
returns under every interleaving of the threads the input stably sorted by
`key mod R ^ D`, which is the sorted permutation of the input when every key is
below `R ^ D`. -/
theorem sort_characterisation_fails :
    (∀ (sched : Schedule) (heap : Memory),
      radix_sort_any sched 2 8192 8191 [8000, 8000] heap
        = Except.error Fault.out_of_bounds) ∧
    ¬ ((8192 : Nat) < 1 ∨ log_2 (8192 : Nat) = -1) ∧ MAX_RADIX < 8192 ∧
    (∀ (P N s from_ to_ : Nat) (up down scat : Nat → Nat) (m : Memory), 1 ≤ P →
      sort_pass_any P 8192 N s from_ to_ up down scat m
        = Except.error Fault.out_of_bounds) ∧
    (∀ (sched : Schedule) (heap : Memory),
      radix_sort_any sched 64 2 1 [1, 0] heap = Except.error Fault.out_of_bounds) ∧
    ¬ ((64 : Nat) < 1 ∨ MAX_PROCESSORS < 64) ∧ thread_table_ok 64 = false ∧
    (∀ (sched : Schedule) (k l max_key : Nat) (keys : List Nat) (heap : Memory),
      2 ^ k ≤ MAX_THREADS → 1 ≤ l → 2 ^ l ≤ MAX_RADIX → 1 ≤ keys.length →
      keys.length < 2 ^ 31 → 1 ≤ max_key → max_key < 2 ^ 31 →
      (∀ x, x ∈ keys → x < 2 ^ 31) →
      ∃ D out, get_max_digits (2 ^ l) max_key = some D ∧
        radix_sort_any sched (2 ^ k) (2 ^ l) max_key keys heap = Except.ok out ∧
        stably_sorted_by (fun x => x % (2 ^ l) ^ D) keys out ∧
        ((∀ x, x ∈ keys → x < (2 ^ l) ^ D) → out.Sorted (· ≤ ·) ∧ out.Perm keys)) := by
  refine ⟨fun sched heap => ?_, by decide, by decide,
    fun P N s from_ to_ up down scat m hP => ?_, fun sched heap => ?_, by decide,
    by decide, ?_⟩
  · exact radix_sort_any_fault sched 2 8192 8191 [8000, 8000] heap (by decide) (by decide)
      (by decide) (by decide) (by decide) (Or.inr (by decide))
  · exact sort_pass_any_overrun P 8192 N s from_ to_ up down scat m hP (by decide)
  · exact radix_sort_any_fault sched 64 2 1 [1, 0] heap (by decide) (by decide)
      (by decide) (by decide) (by decide) (Or.inl (by decide))
  · intro sched k l max_key keys heap hk hl1 hl12 hN _ hm _ hkeys
    obtain ⟨D, out, hD, hrun, hst⟩ :=
      radix_sort_any_stable sched k l max_key keys heap hk hl1 hl12 hN hm hkeys
    exact ⟨D, out, hD, hrun, hst, fun hlt =>
      ⟨stably_sorted_sorted _ _ _ hst (fun x hx => Nat.mod_eq_of_lt (hlt x hx)),
        stably_sorted_perm _ _ _ hst⟩⟩

/-! ## Producers of the tree nodes -/

/-- C25 fails in the code: `main` accepts the thread count 3, and with three
threads the node `2P - 2 = 4` of the `2P - 1 = 5` nodes of the tree has no
thread that writes its contents, in the up-sweep or in the down-sweep, while
thread 2 reads its `densities` in the down-sweep.  For any number `P` of
threads every node `(j, o)` inside its level has exactly one thread that writes
its contents in a pass (up-sweep publish or merge, down-sweep copy), the thread
`(o + 1) * 2 ^ j - 1` below its last leaf; leaf `t` is written by thread `t`;
every node a thread `t` writes is such a node `(j, o)` with
`(o + 1) * 2 ^ j = t + 1`; and with `2 ^ k` threads each of the `2P - 1` nodes
has exactly one thread that writes its contents. -/
theorem single_producer_fails :
    (∀ t, t < 3 → 2 * 3 - 2 ∉ (upsweep 3 t ++ downsweep 3 t).flatMap content_writes) ∧
    Action.add_densities 2 (2 * 3 - 2) ∈ downsweep 3 2 ∧
    ¬ ((3 : Nat) < 1 ∨ MAX_PROCESSORS < 3) ∧
    (∀ P j o, o < lvl P j →
      ∃ t, t < P ∧ t + 1 = (o + 1) * 2 ^ j ∧
        idx P j o ∈ (upsweep P t ++ downsweep P t).flatMap content_writes ∧
        ∀ t', t' < P →
          idx P j o ∈ (upsweep P t' ++ downsweep P t').flatMap content_writes → t' = t) ∧
    (∀ P t, t < P → t ∈ (upsweep P t ++ downsweep P t).flatMap content_writes) ∧
    (∀ P t, t < P → ∀ i, i ∈ (upsweep P t ++ downsweep P t).flatMap content_writes →
      ∃ j o, i = idx P j o ∧ o < lvl P j ∧ (o + 1) * 2 ^ j = t + 1) ∧
    (∀ k i, i < 2 * 2 ^ k - 1 →
      ∃ t, t < 2 ^ k ∧
        i ∈ (upsweep (2 ^ k) t ++ downsweep (2 ^ k) t).flatMap content_writes ∧
        ∀ t', t' < 2 ^ k →
          i ∈ (upsweep (2 ^ k) t' ++ downsweep (2 ^ k) t').flatMap content_writes →
          t' = t) := by
  have hproper : ∀ P j o, o < lvl P j →
      ∃ t, t < P ∧ t + 1 = (o + 1) * 2 ^ j ∧
        idx P j o ∈ (upsweep P t ++ downsweep P t).flatMap content_writes ∧
        ∀ t', t' < P →
          idx P j o ∈ (upsweep P t' ++ downsweep P t').flatMap content_writes → t' = t := by
    intro P j o ho
    obtain ⟨hlt, hmem⟩ := node_has_writer P j o ho
    have hge : 1 ≤ (o + 1) * 2 ^ j := Nat.mul_pos (by omega) (by positivity)
    refine ⟨(o + 1) * 2 ^ j - 1, hlt, by omega, hmem, ?_⟩
    intro t' ht' hi
    obtain ⟨j1, o1, h1, h2, h3⟩ := writes_form P t' ht' _ hi
    obtain ⟨e1, e2⟩ := idx_inj P j o j1 o1 ho h2 h1
    rw [← e1, ← e2] at h3
    omega
  refine ⟨by decide, by decide, by decide, hproper, fun P t ht => ?_,
    fun P t ht i hi => writes_form P t ht i hi, fun k i hi => ?_⟩
  · have h := (node_has_writer P 0 t (by simp [lvl]; omega)).2
    simp only [pow_zero, Nat.mul_one, Nat.add_sub_cancel] at h
    have e : idx P 0 t = t := by simp [idx, node_base]
    rw [e] at h
    exact h
  · have h3 := node_base_pow k (k + 1) (by omega)
    have e : k + 1 - (k + 1) = 0 := by omega
    rw [e, pow_zero, pow_succ] at h3
    obtain ⟨j, o, _, ho, hidx⟩ := node_cover (2 ^ k) (k + 1) i (by omega)
    obtain ⟨t, ht, _, hmem, huniq⟩ := hproper (2 ^ k) j o ho
    rw [hidx]
    exact ⟨t, ht, hmem, huniq⟩

/-! ## Contents of the top node after the up-sweep -/

/-- C23 fails in the code: with `P = 2 ^ k` threads the left-sibling walk of
every thread `t`, run after the up-sweep, adds to `rank_ff[t][b]` the number of
keys with digit `b` held by the threads below `t`; but with three threads,
radix 2, the keys `[5, 1, 4, 1, 3]` and a zeroed heap the walk of thread 2 adds
the ranks of `prefix_tree[3]` only, which are `[0, 0]` after the up-sweep, while
threads 0 and 1 hold the keys `[5, 1, 4]` with the digit counts `[1, 2]`. -/
theorem left_sibling_walk_fails :
    (∀ (k R s N from_ : Nat) (m : Memory), flags_clear k m →
      partition_ok m.key_partition (2 ^ k) N →
      ∃ m2, upsweep_phase (2 ^ k) R s from_ m = Except.ok m2 ∧
        ∀ t, t < 2 ^ k → ∃ m', run_thread R m2 (rank_loop t t t (2 ^ k) 0) = (m', []) ∧
          ∀ b, b < R → m'.rank_ff t b = m2.rank_ff t b
            + ∑ i in Finset.range (m.key_partition t),
                if digit R s (m.key from_ i) = b then 1 else 0) ∧
    rank_loop 2 2 2 3 0 = [Action.add_ranks 2 3] ∧
    (upsweep_phase 3 2 0 0 (init_memory 3 [5, 1, 4, 1, 3] [0, 1, 3, 5] blank_heap)).map
        (fun m => ((List.range 2).map (m.prefix_tree 3).ranks, (List.range 2).map (m.rank_ff 2),
          (List.range 2).map ((run_thread 2 m (rank_loop 2 2 2 3 0)).1.rank_ff 2)))
      = Except.ok ([0, 0], [0, 0], [0, 0]) ∧
    (List.range 2).map (fun b => (([5, 1, 4, 1, 3].take 3).map (digit 2 0)).count b)
      = [1, 2] := by
  refine ⟨fun k R s N from_ m hfl hkp => ?_, by decide, by decide!, by decide⟩
  obtain ⟨m2, _, hup, _, _, hwalk, _, _, _⟩ := tree_contents k R s N from_ m hfl hkp
  exact ⟨m2, hup, hwalk⟩

/-- C24 fails in the code: with `P = 2 ^ k` threads, after the down-sweep the
node `my_node` of every thread holds in `densities[b]` the number of keys of the
whole array with a digit `≤ b`; but with five threads, radix 2, the keys
`[5, 1, 4, 1, 3]` and a zeroed heap the down-sweep completes and the nodes
`my_node` of the five threads (`prefix_tree[0]`, `[5]`, `[2]`, `[7]`, `[8]`) all
hold the densities `[0, 0]`, while the counts of keys with digit `≤ b` are
`[1, 5]`. -/
theorem global_prefix_fails :
    (∀ (k R s N from_ : Nat) (m : Memory), flags_clear k m →
      partition_ok m.key_partition (2 ^ k) N →
      ∃ m3, rank_phase (2 ^ k) R s from_ m = Except.ok m3 ∧
        ∀ t, t < 2 ^ k → ∀ b, b < R →
          (m3.prefix_tree (if t + 1 ≠ 2 ^ k then my_node_index (2 ^ k) t
              else 2 * 2 ^ k - 2)).densities b
            = ∑ i in Finset.range N, if digit R s (m.key from_ i) ≤ b then 1 else 0) ∧
    (List.range 5).map (fun t => if t + 1 ≠ 5 then my_node_index 5 t else 2 * 5 - 2)
      = [0, 5, 2, 7, 8] ∧
    (rank_phase 5 2 0 0 (init_memory 5 [5, 1, 4, 1, 3] [0, 1, 2, 3, 4, 5] blank_heap)).map
        (fun m => (List.range 5).map (fun t => (List.range 2).map
          (m.prefix_tree (if t + 1 ≠ 5 then my_node_index 5 t else 2 * 5 - 2)).densities))
      = Except.ok [[0, 0], [0, 0], [0, 0], [0, 0], [0, 0]] ∧
    (List.range 2).map (fun b => ([5, 1, 4, 1, 3].map (digit 2 0)).countP (fun d => d ≤ b))
      = [1, 5] := by
  refine ⟨fun k R s N from_ m hfl hkp => ?_, by decide, by decide!, by decide⟩
  obtain ⟨_, m3, _, hrank, _, _, hmy, _, _⟩ := tree_contents k R s N from_ m hfl hkp
  exact ⟨m3, hrank, hmy⟩

/-- C26 fails in the code: with `P = 2 ^ k` threads a pass that starts with the
flags of all `2P - 1` nodes clear completes and ends with all of them clear;
but with five threads, radix 2, the keys `[5, 1, 4, 1, 3]` and a zeroed heap the
nine flags are clear at the start of the pass, the pass completes, and at its
end the flag of `prefix_tree[8]` is set. -/
theorem flag_reset_fails :
    (∀ (k R s N from_ to_ : Nat) (m : Memory), from_ ≠ to_ →
      (∀ i, i < 2 * 2 ^ k - 1 → (m.prefix_tree i).Flag = 0) →
      partition_ok m.key_partition (2 ^ k) N →
      (∀ i, i < N → digit R s (m.key from_ i) < R) →
      ∃ m', sort_pass (2 ^ k) R N s from_ to_ m = Except.ok m' ∧
        ∀ i, i < 2 * 2 ^ k - 1 → (m'.prefix_tree i).Flag = 0) ∧
    (List.range (2 * 5 - 1)).map
        (fun i => ((init_memory 5 [5, 1, 4, 1, 3] [0, 1, 2, 3, 4, 5]
          blank_heap).prefix_tree i).Flag)
      = [0, 0, 0, 0, 0, 0, 0, 0, 0] ∧
    (sort_pass 5 2 5 0 0 1 (init_memory 5 [5, 1, 4, 1, 3] [0, 1, 2, 3, 4, 5] blank_heap)).map
        (fun m => (List.range (2 * 5 - 1)).map (fun i => (m.prefix_tree i).Flag))
      = Except.ok [0, 0, 0, 0, 0, 0, 0, 0, 1] := by
  refine ⟨fun k R s N from_ to_ m hft hfl hkp hdg => ?_, by decide, by decide!⟩
  exact pass_resets_flags k R s N from_ to_ m hft hfl hkp hdg

/-- C27 fails in the code: for any number of threads the scatter of thread `t`
leaves the source buffer, the boundaries, the tree, the histograms and the
offset tables of the other threads unchanged and advances `rank_ff[t][b]` by the
histogram entry of the thread, and with `P = 2 ^ k` threads the pass writes the
key at source position `j` to the slot `dest j`, different keys to different
slots; but with five threads, radix 2, the keys `[5, 1, 4, 1, 3]` and a zeroed
heap the offsets of the threads before the scatter are
`[[0, 0], [0, 1], [0, 2], [1, 2], [0, 0]]`, the scatter of thread 0 alone writes
its key 5 to slot 0, the scatter of thread 2 alone writes its key 4 to slot 0 and
the scatter of thread 4 alone writes its key 3 to slot 0. -/
theorem scatter_effects_fail :
    (∀ (R s N from_ to_ t : Nat) (m m' : Memory), from_ ≠ to_ →
      scatter R s N from_ to_ t m = Except.ok m' →
      m'.key from_ = m.key from_ ∧ m'.key_partition = m.key_partition ∧
        m'.prefix_tree = m.prefix_tree ∧ m'.rank_me = m.rank_me ∧
        m'.key_density = m.key_density ∧
        (∀ u, u ≠ t → m'.rank_ff u = m.rank_ff u) ∧
        ∀ b, b < R →
          m'.rank_ff t b = m.rank_ff t b + (histogram R s from_ t m).rank_me t b) ∧
    (∀ (k R s N from_ to_ : Nat) (m : Memory), from_ ≠ to_ → flags_clear k m →
      partition_ok m.key_partition (2 ^ k) N →
      (∀ i, i < N → digit R s (m.key from_ i) < R) →
      ∃ m', sort_pass (2 ^ k) R N s from_ to_ m = Except.ok m' ∧
        (∀ j, j < N →
          m'.key to_ (dest (fun i => digit R s (m.key from_ i)) N j) = m.key from_ j) ∧
        ∀ i j, i < N → j < N →
          dest (fun i => digit R s (m.key from_ i)) N i
            = dest (fun i => digit R s (m.key from_ i)) N j → i = j) ∧
    (rank_phase 5 2 0 0 (init_memory 5 [5, 1, 4, 1, 3] [0, 1, 2, 3, 4, 5] blank_heap)).map
        (fun m => (rank_ff_table 5 2 m, buffer 5 (m.key 1)))
      = Except.ok ([[0, 0], [0, 1], [0, 2], [1, 2], [0, 0]], [0, 0, 0, 0, 0]) ∧
    (List.range 5).map (fun t =>
        (rank_phase 5 2 0 0 (init_memory 5 [5, 1, 4, 1, 3] [0, 1, 2, 3, 4, 5] blank_heap)
          >>= scatter 2 0 5 0 1 t).map (fun m => buffer 5 (m.key 1)))
      = [Except.ok [5, 0, 0, 0, 0], Except.ok [0, 1, 0, 0, 0], Except.ok [4, 0, 0, 0, 0],
          Except.ok [0, 0, 1, 0, 0], Except.ok [3, 0, 0, 0, 0]] := by
  refine ⟨fun R s N from_ to_ t m m' hft h => scatter_frame R s N from_ to_ t m m' hft h,
    fun k R s N from_ to_ m hft hfl hkp hdg => ?_, by decide!, by decide!⟩
  obtain ⟨m', h1, _, _, _, h5⟩ := sort_pass_spec k R s N from_ to_ m hft hfl hkp hdg
  exact ⟨m', h1, h5, fun i j hi hj h => dest_inj _ N i j hi hj h⟩

/-! ## The destination indices of the scatter -/

/-- C31 fails in the code: the option checks of `main` accept the radix
`8192 = 2 ^ 13`, a power of two above `MAX_RADIX = 4096`, and the thread count
`64`, above `MAX_THREADS = 32`.  With two threads, radix 8192, `max_key = 8191`
and the keys `[3, 5]` the threads index the arrays `densities` and `ranks` of
the tree nodes beyond their `MAX_RADIX` entries before the scatter reads its
offsets (the first pass faults in its up-sweep, from any memory), and with 64
threads `main` writes `PThreadTable` beyond its
`MAX_THREADS` entries: the program faults, whatever the initial heap and the
interleaving, and nothing bounds the destination indices.  The scatter of a key
completes exactly when its destination index `tmp = rank_ff[t][digit]` is below
`N`.  For a thread count `2 ^ k ≤ MAX_THREADS` and a radix `R ≤ MAX_RADIX`, a
pass that starts with the flags of the tree clear, key ranges that partition
`[0, N)` and digits below `R` completes under every interleaving of the
threads, so every destination index read in it is below `N`; and so does the
program for a radix `2 ^ l` with `2 ≤ 2 ^ l ≤ MAX_RADIX`, `1 ≤ max_key < 2 ^ 31`
and a non-empty array of fewer than `2 ^ 31` non-negative 32-bit keys. -/
theorem scatter_in_bounds_fails :
    (∀ (sched : Schedule) (heap : Memory),
      radix_sort_any sched 2 8192 8191 [3, 5] heap = Except.error Fault.out_of_bounds) ∧
    ¬ ((8192 : Nat) < 1 ∨ log_2 (8192 : Nat) = -1) ∧ MAX_RADIX < 8192 ∧
    (∀ (up down scat : Nat → Nat) (m : Memory),
      sort_pass_any 2 8192 2 0 0 1 up down scat m = Except.error Fault.out_of_bounds) ∧
    (∀ (sched : Schedule) (heap : Memory),
      radix_sort_any sched 64 2 7 [3, 5] heap = Except.error Fault.out_of_bounds) ∧
    ¬ ((64 : Nat) < 1 ∨ MAX_PROCESSORS < 64) ∧ thread_table_ok 64 = false ∧
    (∀ (R s N from_ to_ t i : Nat) (m : Memory),
      (∃ m', scatter_key R s N from_ to_ t m i = Except.ok m') ↔
        m.rank_ff t (digit R s (m.key from_ i)) < N) ∧
    (∀ (k R s N from_ to_ : Nat) (up down scat : Nat → Nat) (m : Memory),
      2 ^ k ≤ MAX_THREADS → R ≤ MAX_RADIX → from_ ≠ to_ → flags_clear k m →
      partition_ok m.key_partition (2 ^ k) N →
      (∀ i, i < N → digit R s (m.key from_ i) < R) →
      ∃ m', sort_pass_any (2 ^ k) R N s from_ to_ up down scat m = Except.ok m') ∧
    (∀ (sched : Schedule) (k l max_key : Nat) (keys : List Nat) (heap : Memory),
      2 ^ k ≤ MAX_THREADS → 1 ≤ l → 2 ^ l ≤ MAX_RADIX → 1 ≤ keys.length →
      keys.length < 2 ^ 31 → 1 ≤ max_key → max_key < 2 ^ 31 →
      (∀ x, x ∈ keys → x < 2 ^ 31) →
      ∃ out, radix_sort_any sched (2 ^ k) (2 ^ l) max_key keys heap = Except.ok out) := by
  refine ⟨fun sched heap => ?_, by decide, by decide, fun up down scat m => ?_,
    fun sched heap => ?_, by decide, by decide, fun R s N from_ to_ t i m => ?_, ?_, ?_⟩
  · exact radix_sort_any_fault sched 2 8192 8191 [3, 5] heap (by decide) (by decide)
      (by decide) (by decide) (by decide) (Or.inr (by decide))
  · exact sort_pass_any_overrun 2 8192 2 0 0 1 up down scat m (by decide) (by decide)
  · exact radix_sort_any_fault sched 64 2 7 [3, 5] heap (by decide) (by decide)
      (by decide) (by decide) (by decide) (Or.inl (by decide))
  · unfold scatter_key
    by_cases h : m.rank_ff t (digit R s (m.key from_ i)) < N
    · simp only [h, if_true, iff_true]
      exact ⟨_, rfl⟩
    · simp only [h, if_false, iff_false]
      rintro ⟨m', hm'⟩
      exact Except.noConfusion hm'
  · intro k R s N from_ to_ up down scat m _ hR hft hfl hkp hdg
    obtain ⟨m', hrun, _⟩ := sort_pass_spec k R s N from_ to_ m hft hfl hkp hdg
    refine ⟨m', ?_⟩
    rw [sort_pass_any_eq k R s N from_ to_ up down scat m ((node_arrays_ok_iff R).mpr hR) hft
      hfl hkp hdg, hrun]
  · intro sched k l max_key keys heap hk hl1 hl12 hN _ hm _ hkeys
    obtain ⟨_, out, _, hrun, _⟩ :=
      radix_sort_any_stable sched k l max_key keys heap hk hl1 hl12 hN hm hkeys
    exact ⟨out, hrun⟩

/-! ## `get_max_digits` with radix 1 -/

/-- C32 fails in the code: the `-r` check `radix < 1 || log_2(radix) == -1`
accepts the radix `1 = 2 ^ 0`, and with radix 1 the loop of `get_max_digits`
never sets `done` for a `max_key ≥ 1`: whatever the number of iterations
allowed, it has not returned (`key_val / 1` is never `0`), so the program with
an accepted thread count, at least one key and `max_key ≥ 1` does not terminate.
For every radix `R ≥ 2` the loop returns `⌊log_R max_key⌋ + 1` within
`max_key + 1` iterations. -/
theorem max_digits_radix_one :
    ¬ ((1 : Nat) < 1 ∨ log_2 ((1 : Nat) : Int) = -1) ∧
    (∀ fuel max_key temp, 1 ≤ max_key → get_max_digits_loop 1 fuel max_key temp = none) ∧
    (∀ (P max_key : Nat) (keys : List Nat) (heap : Memory), 1 ≤ P → P ≤ MAX_PROCESSORS →
      1 ≤ keys.length → 1 ≤ max_key →
      radix_sort P 1 max_key keys heap = Except.error Fault.nontermination) ∧
    (∀ R max_key, 2 ≤ R →
      get_max_digits R max_key = some (Nat.log R max_key + 1) ∧
        ∀ fuel, max_key < fuel →
          get_max_digits_loop R fuel max_key 1 = some (Nat.log R max_key + 1)) ∧
    get_max_digits 1 1 = none := by
  have hloop : ∀ fuel max_key temp, 1 ≤ max_key →
      get_max_digits_loop 1 fuel max_key temp = none := by
    intro fuel
    induction fuel with
    | zero => intro max_key temp _; rfl
    | succ f ih =>
      intro max_key temp h
      have h0 : ¬ max_key = 0 := by omega
      simp only [get_max_digits_loop, Nat.div_one, h0, if_false]
      exact ih max_key (temp + 1) h
  refine ⟨by decide, hloop, ?_, ?_, by decide⟩
  · intro P max_key keys heap hP1 hP hN hm
    have c1 : ¬ (P < 1 ∨ MAX_PROCESSORS < P) := by omega
    have c2 : ¬ ((1 : Nat) < 1 ∨ log_2 ((1 : Nat) : Int) = -1) := by decide
    have c3 : ¬ keys.length < 1 := by omega
    have c4 : ¬ max_key < 1 := by omega
    unfold radix_sort
    simp only [c1, c2, c3, c4, if_false, get_max_digits, hloop _ max_key 1 hm]
  · intro R max_key hR
    refine ⟨get_max_digits_eq R max_key hR, fun fuel hf => ?_⟩
    rw [get_max_digits_loop_eq R hR fuel max_key 1 hf, Nat.add_comm]

/-! ## The table of worker threads -/

/-- C33 fails in the code: `PThreadTable` has `MAX_THREADS = 32` entries, the
loops that create and join the workers use the indices `0, ..., P - 2`, and the
`-p` check accepts every `P` up to `MAX_PROCESSORS = 64`.  The indices are
inside the table exactly when `P ≤ MAX_THREADS + 1`; for every accepted
`P ≥ MAX_THREADS + 2` the index `MAX_THREADS` is used, and with `P = 64` the
indices `32, ..., 62` are outside the table. -/
theorem thread_table_overflow :
    (∀ P, P ≤ MAX_THREADS + 1 → ∀ i, i ∈ thread_table_indices P → i < MAX_THREADS) ∧
    (∀ P, MAX_THREADS + 2 ≤ P → P ≤ MAX_PROCESSORS →
      ¬ (P < 1 ∨ MAX_PROCESSORS < P) ∧ MAX_THREADS ∈ thread_table_indices P ∧
        P - 2 ∈ thread_table_indices P ∧ ¬ P - 2 < MAX_THREADS) ∧
    MAX_THREADS + 2 ≤ MAX_PROCESSORS ∧
    (thread_table_indices 64).filter (fun i => decide (¬ i < MAX_THREADS))
      = List.range' 32 31 := by
  refine ⟨?_, ?_, by decide, by decide⟩
  · intro P hP i hi
    simp only [thread_table_indices, List.mem_range] at hi
    omega
  · intro P h1 h2
    simp only [thread_table_indices, List.mem_range, MAX_THREADS, MAX_PROCESSORS] at *
    omega

/-! ## `matchname` on equal strings -/

/-- C34 fails in the code: for two different strings without a NUL inside,
`matchname(bind, name)` stops inside both strings and returns true exactly when
`bind` is `name` followed by `=` and a value; but when `bind` and `name` have the
same contents (the same string or two equal strings) the loop
`while (*bp == *np)` finds the two terminators equal, goes on and reads the
character after the terminator of both strings, as for `bind = name = "in"`. -/
theorem matchname_overrun :
    (∀ bind name : List Char, Char.ofNat 0 ∉ bind → Char.ofNat 0 ∉ name → bind ≠ name →
      ∃ b, matchname bind name = Except.ok b ∧
        (b = true ↔ ∃ value, bind = name ++ '=' :: value)) ∧
    (∀ s : List Char, matchname s s = Except.error Fault.out_of_bounds) ∧
    matchname ['i', 'n'] ['i', 'n'] = Except.error Fault.out_of_bounds ∧
    matchname [] [] = Except.error Fault.out_of_bounds ∧
    matchname ['i', 'n', '=', 'x'] ['i', 'n'] = Except.ok true ∧
    matchname ['i', 'n', 'x', '=', 'y'] ['i', 'n'] = Except.ok false := by
  refine ⟨fun bind name hb hn hne => ?_, fun s => ?_, by decide, by decide, by decide,
    by decide⟩
  · exact matchname_loop_differ bind name _ hb hn hne (le_refl _)
  · exact matchname_loop_same s _ (le_refl _)

/-! ## `ISort` reads the entry before the slice -/

/-- C35 fails in the code: for column bounds `col[k] ≤ col[k+1]`, `ISort(M, k)`
returns, the slice `row[col[k] .. col[k+1])` is afterwards in non-decreasing
order and a permutation of its previous contents, and the entries outside the
slice are unchanged; but the guard `M.row[j-1] > tmp && j > lo` reads
`M.row[j-1]` before it tests `j > lo`, so every call on a non-empty slice reads
`row[col[k] - 1]`, which for `col[k] = 0` is `row[-1]`, outside the array: for
the row array `[3, 1, 2]` with `col[0] = 0` and `col[1] = 3` the subscripts read
are `0, -1, 1, 0, 0, -1, 2, 1, 1, 0`. -/
theorem ISort_reads_below :
    (∀ (M : SMatrix) (k : Int), M.col k ≤ M.col (k + 1) →
      ∃ (row' : Int → Int) (reads : List Int), ISort M k = some (row', reads) ∧
        (slice row' (M.col k) (M.col (k + 1) - M.col k).toNat).Sorted (· ≤ ·) ∧
        (slice row' (M.col k) (M.col (k + 1) - M.col k).toNat).Perm
          (slice M.row (M.col k) (M.col (k + 1) - M.col k).toNat) ∧
        (∀ x, x < M.col k ∨ M.col (k + 1) ≤ x → row' x = M.row x) ∧
        (∀ r, r ∈ reads → M.col k - 1 ≤ r ∧ r < M.col (k + 1)) ∧
        (M.col k < M.col (k + 1) → M.col k - 1 ∈ reads)) ∧
    (∀ (M : SMatrix) (k : Int), M.col k = 0 → 0 < M.col (k + 1) →
      ∃ (row' : Int → Int) (reads : List Int), ISort M k = some (row', reads) ∧
        (-1 : Int) ∈ reads) ∧
    (ISort (SMatrix.mk 1 3 (array_of [0, 3]) (array_of []) (array_of [3, 1, 2])) 0).map
        (fun r => (slice r.1 0 3, r.2))
      = some ([1, 2, 3], [0, -1, 1, 0, 0, -1, 2, 1, 1, 0]) := by
  refine ⟨fun M k h => ISort_spec M k h, fun M k h0 h1 => ?_, by decide⟩
  obtain ⟨row', reads, g1, _, _, _, _, g6⟩ := ISort_spec M k (by omega)
  refine ⟨row', reads, g1, ?_⟩
  have := g6 (by omega)
  rw [h0] at this
  exact this

end Radix
